import Mathlib

/-!
# zlog entry encoder: a shallow embedding

The definitions below follow `src/zlog/entry.go`.  A Go `string` and a Go `[]byte` are both
sequences of bytes and are modelled by `List UInt8`.  A `*Entry` that may be `nil` is an
`Option Entry`; a method with a pointer receiver takes the receiver and returns its new state.
A run-time panic of the Go program is an `Except.error`.
-/

namespace Zlog

/-- Byte sequences: the contents of a Go string or byte slice. -/
abbrev ByteSeq := List UInt8

/-- The Go type `bool`.  (Inside the namespace of `Entry` the names `Bool` and `Int` denote the
methods of that name, so the types are given names of their own.) -/
abbrev GoBool := Bool

/-- Go's signed integers as mathematical integers; ranges are stated where they matter. -/
abbrev GoInt := Int

/-- The bytes of an ASCII literal, one byte per character. -/
def ascii (s : String) : ByteSeq := s.toList.map (fun c => UInt8.ofNat c.toNat)

/-- Modelled from the spec: the type `Level` and its constants are declared outside `src/`;
the spec lists the discrete level values trace/debug/info/warn/error/fatal/panic. -/
inductive Level where
  | TraceLevel
  | DebugLevel
  | InfoLevel
  | WarnLevel
  | ErrorLevel
  | FatalLevel
  | PanicLevel
  deriving DecidableEq, Repr

/-- The struct `Entry` of entry.go: the buffer, the level tag and the writer.  The writer is an
interface value; only its identity matters here, so it is the number of the sink. -/
structure Entry where
  buf : ByteSeq
  Level : Level
  w : Nat
  deriving DecidableEq, Repr

/-- Run-time panics of the embedded code. -/
inductive Fault where
  | indexOutOfRange
  | sliceBoundsOutOfRange
  deriving DecidableEq, Repr

/-! ## Escape engine -/

/-- The table `var escapes = [256]bool` of entry.go: the nine entries set to `true`. -/
def escapes (c : UInt8) : Bool :=
  c == 34      -- the quote
  || c == 60   -- <
  || c == 39   -- the apostrophe
  || c == 92   -- the backslash
  || c == 8    -- \b
  || c == 12   -- \f
  || c == 10   -- \n
  || c == 13   -- \r
  || c == 9    -- \t

/-- The `switch` inside the loops of `escapeb` and `escapes`: the bytes appended in place of
`c` by the matching `case`, or `none` when no case matches. -/
def escapeCase (c : UInt8) : Option ByteSeq :=
  if c = 34 then some [92, 34]
  else if c = 92 then some [92, 92]
  else if c = 10 then some [92, 110]
  else if c = 13 then some [92, 114]
  else if c = 9 then some [92, 116]
  else if c = 12 then some [92, 117, 48, 48, 48, 99]
  else if c = 8 then some [92, 117, 48, 48, 48, 56]
  else if c = 60 then some [92, 117, 48, 48, 51, 99]
  else if c = 39 then some [92, 117, 48, 48, 50, 55]
  else if c = 0 then some [92, 117, 48, 48, 48, 48]
  else none

/-- The Go slice expression `b[j:i]`. -/
def slice (b : ByteSeq) (j i : Nat) : ByteSeq := (b.take i).drop j

/-- The loop `for i := 0; i < n; i++` of `escapeb`/`escapes`, with `k` iterations left at index
`i`: the state is the entry buffer and the start `j` of the pending verbatim segment. -/
def escapeLoop (b : ByteSeq) : Nat → Nat → Nat → ByteSeq → ByteSeq × Nat
  | 0, _, j, buf => (buf, j)
  | k + 1, i, j, buf =>
    match escapeCase (b.getD i 0) with
    | some r => escapeLoop b k (i + 1) (i + 1) (buf ++ slice b j i ++ r)
    | none => escapeLoop b k (i + 1) j buf

/-- The method `escapeb` of entry.go (byte slice argument). -/
def Entry.escapeb (e : Entry) (b : ByteSeq) : Entry :=
  let r := escapeLoop b b.length 0 0 e.buf
  { e with buf := r.1 ++ b.drop r.2 }

/-- The method `escapes` of entry.go (string argument); the same loop as `escapeb`. -/
def Entry.escapes (e : Entry) (s : ByteSeq) : Entry :=
  let r := escapeLoop s s.length 0 0 e.buf
  { e with buf := r.1 ++ s.drop r.2 }

/-- The method `string` of entry.go: look for a byte flagged in the table, escape if there
is one, copy verbatim otherwise. -/
def Entry.string (e : Entry) (s : ByteSeq) : Entry :=
  if s.any Zlog.escapes then e.escapes s else { e with buf := e.buf ++ s }

/-- The method `bytes` of entry.go. -/
def Entry.bytes (e : Entry) (b : ByteSeq) : Entry :=
  if b.any Zlog.escapes then e.escapeb b else { e with buf := e.buf ++ b }

/-- What the escape engine appends for `v`: the buffer `string` leaves when it starts empty. -/
def escOutput (v : ByteSeq) : ByteSeq :=
  (Entry.string { buf := [], Level := Level.InfoLevel, w := 0 } v).buf

/-- The byte-by-byte substitution the specification describes: escapes for the ten reserved
bytes (NUL among them), every other byte itself. -/
def escByte (c : UInt8) : ByteSeq := (escapeCase c).getD [c]

/-- The specification of the escape engine: the concatenation of the per-byte substitutions. -/
def escapeSpec (v : ByteSeq) : ByteSeq := v.flatMap escByte

/-- The ten reserved bytes of the specification. -/
def reserved (c : UInt8) : Bool := escapes c || c == 0

/-! ## String-valued fields -/

/-- The method `Str` of entry.go. -/
def Entry.Str (e : Option Entry) (key val : ByteSeq) : Option Entry :=
  match e with
  | none => none
  | some e =>
    let e := { e with buf := e.buf ++ [44, 34] }
    let e := { e with buf := e.buf ++ key }
    let e := { e with buf := e.buf ++ [34, 58, 34] }
    let e := e.string val
    some { e with buf := e.buf ++ [34] }

/-- The method `Bytes` of entry.go. -/
def Entry.Bytes (e : Option Entry) (key val : ByteSeq) : Option Entry :=
  match e with
  | none => none
  | some e =>
    let e := { e with buf := e.buf ++ [44, 34] }
    let e := { e with buf := e.buf ++ key }
    let e := { e with buf := e.buf ++ [34, 58, 34] }
    let e := e.bytes val
    some { e with buf := e.buf ++ [34] }

/-! ## Numbers -/

/-- The decimal digits of a natural number, most significant first. -/
def natDigits (n : Nat) : ByteSeq := (Nat.toDigits 10 n).map (fun c => UInt8.ofNat c.toNat)

/-- The standard library call `strconv.AppendUint(dst, u, 10)`. -/
def appendUint (dst : ByteSeq) (u : Nat) : ByteSeq := dst ++ natDigits u

/-- The standard library call `strconv.AppendInt(dst, i, 10)`. -/
def appendInt (dst : ByteSeq) (i : Int) : ByteSeq :=
  if i < 0 then dst ++ 45 :: natDigits i.natAbs else dst ++ natDigits i.toNat

/-- The standard library call `strconv.AppendBool(dst, b)`. -/
def appendBool (dst : ByteSeq) (b : Bool) : ByteSeq :=
  if b then dst ++ ascii "true" else dst ++ ascii "false"

/-- Two's-complement wrap-around of a 64-bit signed result. -/
def wrapInt64 (x : Int) : Int := (x + 2 ^ 63) % 2 ^ 64 - 2 ^ 63

/-- Modelled from the spec: the constant `smallsString` is declared outside `src/`; it is the
two-digit lookup table, the 200 bytes `00` `01` ... `99`. -/
def smallsString : ByteSeq := ascii
  ("00010203040506070809" ++ "10111213141516171819" ++ "20212223242526272829" ++
   "30313233343536373839" ++ "40414243444546474849" ++ "50515253545556575859" ++
   "60616263646566676869" ++ "70717273747576777879" ++ "80818283848586878889" ++
   "90919293949596979899")

/-- The Go index expression `s[i]` with its bounds check. -/
def index (s : ByteSeq) (i : Int) : Except Fault UInt8 :=
  if i < 0 then Except.error Fault.indexOutOfRange
  else match s[i.toNat]? with
    | some c => Except.ok c
    | none => Except.error Fault.indexOutOfRange

/-- The constant `hex` of entry.go. -/
def hex : ByteSeq := ascii "0123456789abcdef"

/-- The hexadecimal digit `hex[i]` for a nibble `i`. -/
def hexDigit (i : UInt8) : UInt8 := hex.getD i.toNat 0

/-! ## Scalar fields -/

/-- The method `Bool` of entry.go. -/
def Entry.Bool (e : Option Entry) (key : ByteSeq) (b : Bool) : Option Entry :=
  match e with
  | none => none
  | some e =>
    let e := { e with buf := e.buf ++ [44, 34] }
    let e := { e with buf := e.buf ++ key }
    let e := { e with buf := e.buf ++ [34, 58] }
    some { e with buf := appendBool e.buf b }

/-- The method `Int64` of entry.go. -/
def Entry.Int64 (e : Option Entry) (key : ByteSeq) (i : Int) : Option Entry :=
  match e with
  | none => none
  | some e =>
    let e := { e with buf := e.buf ++ [44, 34] }
    let e := { e with buf := e.buf ++ key }
    let e := { e with buf := e.buf ++ [34, 58] }
    some { e with buf := appendInt e.buf i }

/-- The method `Uint64` of entry.go. -/
def Entry.Uint64 (e : Option Entry) (key : ByteSeq) (i : Nat) : Option Entry :=
  match e with
  | none => none
  | some e =>
    let e := { e with buf := e.buf ++ [44, 34] }
    let e := { e with buf := e.buf ++ key }
    let e := { e with buf := e.buf ++ [34, 58] }
    some { e with buf := appendUint e.buf i }

/-- The method `StrInt` of entry.go. -/
def Entry.StrInt (e : Option Entry) (key : ByteSeq) (val : Int) : Option Entry :=
  match e with
  | none => none
  | some e =>
    let e := { e with buf := e.buf ++ [44, 34] }
    let e := { e with buf := e.buf ++ key }
    let e := { e with buf := e.buf ++ [34, 58, 34] }
    let e := { e with buf := appendInt e.buf val }
    some { e with buf := e.buf ++ [34] }

/-- The method `RawJSON` of entry.go. -/
def Entry.RawJSON (e : Option Entry) (key b : ByteSeq) : Option Entry :=
  match e with
  | none => none
  | some e =>
    let e := { e with buf := e.buf ++ [44, 34] }
    let e := { e with buf := e.buf ++ key }
    let e := { e with buf := e.buf ++ [34, 58] }
    some { e with buf := e.buf ++ b }

/-- The method `Byte` of entry.go. -/
def Entry.Byte (e : Option Entry) (key : ByteSeq) (val : UInt8) : Option Entry :=
  match e with
  | none => none
  | some e =>
    let e := { e with buf := e.buf ++ [44, 34] }
    let e := { e with buf := e.buf ++ key }
    let e := { e with buf := e.buf ++ [34, 58] }
    if val = 34 then some { e with buf := e.buf ++ [34, 92, 34, 34] }
    else if val = 92 then some { e with buf := e.buf ++ [34, 92, 92, 34] }
    else if val = 10 then some { e with buf := e.buf ++ [34, 92, 110, 34] }
    else if val = 13 then some { e with buf := e.buf ++ [34, 92, 114, 34] }
    else if val = 9 then some { e with buf := e.buf ++ [34, 92, 116, 34] }
    else if val = 12 then some { e with buf := e.buf ++ [34, 92, 117, 48, 48, 48, 99, 34] }
    else if val = 8 then some { e with buf := e.buf ++ [34, 92, 117, 48, 48, 48, 56, 34] }
    else if val = 60 then some { e with buf := e.buf ++ [34, 92, 117, 48, 48, 51, 99, 34] }
    else if val = 39 then some { e with buf := e.buf ++ [34, 92, 117, 48, 48, 50, 55, 34] }
    else if val = 0 then some { e with buf := e.buf ++ [34, 92, 117, 48, 48, 48, 48, 34] }
    else some { e with buf := e.buf ++ [34, val, 34] }

/-- The method `BytesOrNil` of entry.go; a nil slice is `none`. -/
def Entry.BytesOrNil (e : Option Entry) (key : ByteSeq) (val : Option ByteSeq) : Option Entry :=
  match e with
  | none => none
  | some e =>
    let e := { e with buf := e.buf ++ [44, 34] }
    let e := { e with buf := e.buf ++ key }
    let e := { e with buf := e.buf ++ [34, 58] }
    match val with
    | none => some { e with buf := e.buf ++ ascii "null" }
    | some v =>
      let e := { e with buf := e.buf ++ [34] }
      let e := e.bytes v
      some { e with buf := e.buf ++ [34] }

/-- The method `Hex` of entry.go. -/
def Entry.Hex (e : Option Entry) (key val : ByteSeq) : Option Entry :=
  match e with
  | none => none
  | some e =>
    let e := { e with buf := e.buf ++ [44, 34] }
    let e := { e with buf := e.buf ++ key }
    let e := { e with buf := e.buf ++ [34, 58, 34] }
    let e := val.foldl (fun e v => { e with buf := e.buf ++ [hexDigit (v >>> 4), hexDigit (v &&& 15)] }) e
    some { e with buf := e.buf ++ [34] }

/-- The block shared by `Dur`, `TimeDiff` and `Durs` that fills `var tmp [7]byte` from the
remainder `n` of the duration modulo one millisecond: the contents of `tmp`. -/
def durFraction (n : Int) : Except Fault ByteSeq := do
  let b := n.tmod 100 * 2
  let n := n.tdiv 100
  let t6 ← index smallsString (b + 1)
  let t5 ← index smallsString b
  let b := n.tmod 100 * 2
  let n := n.tdiv 100
  let t4 ← index smallsString (b + 1)
  let t3 ← index smallsString b
  let b := n.tmod 100 * 2
  let t2 ← index smallsString (b + 1)
  let t1 ← index smallsString b
  pure [46, t1, t2, t3, t4, t5, t6]

/-- The method `Dur` of entry.go; `d` is the duration in nanoseconds, a 64-bit signed value. -/
def Entry.Dur (e : Option Entry) (key : ByteSeq) (d : Int) : Except Fault (Option Entry) :=
  match e with
  | none => Except.ok none
  | some e => do
    let e := { e with buf := e.buf ++ [44, 34] }
    let e := { e with buf := e.buf ++ key }
    let e := { e with buf := e.buf ++ [34, 58] }
    let neg := decide (d < 0)
    let d := if neg then wrapInt64 (-d) else d
    let e := if neg then { e with buf := e.buf ++ [45] } else e
    let e := { e with buf := appendInt e.buf (d.tdiv 1000000) }
    let n := d.tmod 1000000
    if n ≠ 0 then do
      let tmp ← durFraction n
      pure (some { e with buf := e.buf ++ tmp })
    else
      pure (some e)

/-- The method `Int` of entry.go. -/
def Entry.Int (e : Option Entry) (key : ByteSeq) (i : Int) : Option Entry :=
  match e with
  | none => none
  | some e =>
    let e := { e with buf := e.buf ++ [44, 34] }
    let e := { e with buf := e.buf ++ key }
    let e := { e with buf := e.buf ++ [34, 58] }
    some { e with buf := appendInt e.buf i }

/-- The method `Uint` of entry.go. -/
def Entry.Uint (e : Option Entry) (key : ByteSeq) (i : Nat) : Option Entry :=
  match e with
  | none => none
  | some e =>
    let e := { e with buf := e.buf ++ [44, 34] }
    let e := { e with buf := e.buf ++ key }
    let e := { e with buf := e.buf ++ [34, 58] }
    some { e with buf := appendUint e.buf i }

/-- The method `RawJSONStr` of entry.go. -/
def Entry.RawJSONStr (e : Option Entry) (key s : ByteSeq) : Option Entry :=
  match e with
  | none => none
  | some e =>
    let e := { e with buf := e.buf ++ [44, 34] }
    let e := { e with buf := e.buf ++ key }
    let e := { e with buf := e.buf ++ [34, 58] }
    some { e with buf := e.buf ++ s }

/-- The loop `for i, a := range b` of `Bools`, with the comma before every item but the
first. -/
def boolsLoop : List Bool → Nat → ByteSeq → ByteSeq
  | [], _, buf => buf
  | a :: rest, i, buf =>
    let buf := if i ≠ 0 then buf ++ [44] else buf
    boolsLoop rest (i + 1) (appendBool buf a)

/-- The method `Bools` of entry.go. -/
def Entry.Bools (e : Option Entry) (key : ByteSeq) (b : List GoBool) : Option Entry :=
  match e with
  | none => none
  | some e =>
    let e := { e with buf := e.buf ++ [44, 34] }
    let e := { e with buf := e.buf ++ key }
    let e := { e with buf := e.buf ++ [34, 58, 91] }
    let e := { e with buf := boolsLoop b 0 e.buf }
    some { e with buf := e.buf ++ [93] }

/-- The loop `for i, val := range vals` of `Strs`. -/
def strsLoop : List ByteSeq → Nat → Entry → Entry
  | [], _, e => e
  | val :: rest, i, e =>
    let e := if i ≠ 0 then { e with buf := e.buf ++ [44] } else e
    let e := { e with buf := e.buf ++ [34] }
    let e := e.string val
    strsLoop rest (i + 1) { e with buf := e.buf ++ [34] }

/-- The method `Strs` of entry.go. -/
def Entry.Strs (e : Option Entry) (key : ByteSeq) (vals : List ByteSeq) : Option Entry :=
  match e with
  | none => none
  | some e =>
    let e := { e with buf := e.buf ++ [44, 34] }
    let e := { e with buf := e.buf ++ key }
    let e := { e with buf := e.buf ++ [34, 58, 91] }
    let e := strsLoop vals 0 e
    some { e with buf := e.buf ++ [93] }

/-- The method `Stringer` of entry.go; `val` is `none` for a nil interface value and otherwise
the text its `String` method returns. -/
def Entry.Stringer (e : Option Entry) (key : ByteSeq) (val : Option ByteSeq) : Option Entry :=
  match e with
  | none => none
  | some e =>
    let e := { e with buf := e.buf ++ [44, 34] }
    let e := { e with buf := e.buf ++ key }
    let e := { e with buf := e.buf ++ [34, 58] }
    match val with
    | some v =>
      let e := { e with buf := e.buf ++ [34] }
      let e := e.string v
      some { e with buf := e.buf ++ [34] }
    | none => some { e with buf := e.buf ++ ascii "null" }

/-! ## Contexts -/

/-- The method `Value` of entry.go; the nil context is the empty byte sequence. -/
def Entry.Value (e : Option Entry) : ByteSeq :=
  match e with
  | none => []
  | some e => e.buf

/-- The method `Context` of entry.go. -/
def Entry.Context (e : Option Entry) (ctx : ByteSeq) : Option Entry :=
  match e with
  | none => none
  | some e =>
    if ctx.length ≠ 0 then some { e with buf := e.buf ++ ctx } else some e

/-- The method `Dict` of entry.go. -/
def Entry.Dict (e : Option Entry) (key ctx : ByteSeq) : Option Entry :=
  match e with
  | none => none
  | some e =>
    let e := { e with buf := e.buf ++ [44, 34] }
    let e := { e with buf := e.buf ++ key }
    let e := { e with buf := e.buf ++ [34, 58, 123] }
    let e := if ctx.length > 0 then { e with buf := e.buf ++ ctx.drop 1 } else e
    some { e with buf := e.buf ++ [125] }

/-! ## Finalization -/

/-- The part of the process state the finalizers touch: the calls of `WriteEntry` made so far,
each with the receiving sink and the buffer handed over, and the package variable `notTest`. -/
structure World where
  writes : List (Nat × ByteSeq)
  notTest : Bool
  deriving DecidableEq, Repr

/-- How a finalizer ends: it returns, the process exits, or a panic is raised. -/
inductive Outcome where
  | returned
  | exited (status : Nat)
  | panicked (value : ByteSeq)
  deriving DecidableEq, Repr

/-- The call `e.w.WriteEntry(e)`: the sink `e.w` receives the entry with its current buffer.
The results of the call are discarded by every caller in entry.go. -/
def WriteEntry (w : World) (e : Entry) : World :=
  { w with writes := w.writes ++ [(e.w, e.buf)] }

/-- The method `Msg` of entry.go.  Returning the entry to the pool (the last statement) does
not change the buffer already handed to the sink and is left out. -/
def Entry.Msg (e : Option Entry) (msg : ByteSeq) (w : World) : World × Outcome :=
  match e with
  | none => (w, Outcome.returned)
  | some e =>
    let e :=
      if msg ≠ [] then
        let e := { e with buf := e.buf ++ ascii ",\"message\":\"" }
        let e := e.string msg
        { e with buf := e.buf ++ ascii "\"\x7d\n" }
      else
        { e with buf := e.buf ++ [125, 10] }
    let w := WriteEntry w e
    if e.Level = Level.FatalLevel ∧ w.notTest = true then (w, Outcome.exited 255)
    else if e.Level = Level.PanicLevel ∧ w.notTest = true then (w, Outcome.panicked msg)
    else (w, Outcome.returned)

/-- The method `Msgf` of entry.go; `text` is what `fmt.Fprintf(b, format, v...)` writes. -/
def Entry.Msgf (e : Option Entry) (text : ByteSeq) (w : World) : World × Outcome :=
  match e with
  | none => (w, Outcome.returned)
  | some e =>
    let e := { e with buf := e.buf ++ ascii ",\"message\":\"" }
    let e := e.bytes text
    let e := { e with buf := e.buf ++ [34] }
    Entry.Msg (some e) [] w

/-- The method `Msgs` of entry.go; `text` is what `fmt.Fprint(b, args...)` writes. -/
def Entry.Msgs (e : Option Entry) (text : ByteSeq) (w : World) : World × Outcome :=
  match e with
  | none => (w, Outcome.returned)
  | some e =>
    let e := { e with buf := e.buf ++ ascii ",\"message\":\"" }
    let e := e.bytes text
    let e := { e with buf := e.buf ++ [34] }
    Entry.Msg (some e) [] w

/-- The method `Func` of entry.go.  The callback may change the entry it is given and the
world; a nil callback is `none`. -/
def Entry.Func (e : Option Entry) (f : Option (Entry → World → Entry × World)) (w : World) :
    Option Entry × World :=
  match e, f with
  | some e, some f => let r := f e w; (some r.1, r.2)
  | e, _ => (e, w)

/-! ## Sequences of field-append calls -/

/-- One call of a scalar field-append method, with its arguments. -/
inductive Field where
  | bool (key : ByteSeq) (b : Bool)
  | int64 (key : ByteSeq) (i : Int)
  | int (key : ByteSeq) (i : Int)
  | uint64 (key : ByteSeq) (i : Nat)
  | uint (key : ByteSeq) (i : Nat)
  | str (key val : ByteSeq)
  | strInt (key : ByteSeq) (val : Int)
  | byte (key : ByteSeq) (val : UInt8)
  | bytes (key val : ByteSeq)
  | bytesOrNil (key : ByteSeq) (val : Option ByteSeq)
  | hex (key val : ByteSeq)
  | rawJSON (key b : ByteSeq)
  | rawJSONStr (key s : ByteSeq)
  | dur (key : ByteSeq) (d : Int)

/-- Run one call on an entry. -/
def Field.apply (f : Field) (e : Option Entry) : Except Fault (Option Entry) :=
  match f with
  | Field.bool k b => pure (Entry.Bool e k b)
  | Field.int64 k i => pure (Entry.Int64 e k i)
  | Field.int k i => pure (Entry.Int e k i)
  | Field.uint64 k i => pure (Entry.Uint64 e k i)
  | Field.uint k i => pure (Entry.Uint e k i)
  | Field.str k v => pure (Entry.Str e k v)
  | Field.strInt k v => pure (Entry.StrInt e k v)
  | Field.byte k v => pure (Entry.Byte e k v)
  | Field.bytes k v => pure (Entry.Bytes e k v)
  | Field.bytesOrNil k v => pure (Entry.BytesOrNil e k v)
  | Field.hex k v => pure (Entry.Hex e k v)
  | Field.rawJSON k b => pure (Entry.RawJSON e k b)
  | Field.rawJSONStr k s => pure (Entry.RawJSONStr e k s)
  | Field.dur k d => Entry.Dur e k d

/-- Run a chain of calls, each on the entry the previous one returned. -/
def applyAll : List Field → Option Entry → Except Fault (Option Entry)
  | [], e => pure e
  | f :: fs, e => do
    let e ← f.apply e
    applyAll fs e

/-- The bytes a call appends to an empty buffer. -/
def Field.contribution (f : Field) : Except Fault ByteSeq := do
  let r ← f.apply (some { buf := [], Level := Level.InfoLevel, w := 0 })
  pure (Entry.Value r)

/-- The contributions of a chain of calls, concatenated in call order. -/
def contributions : List Field → Except Fault ByteSeq
  | [] => pure []
  | f :: fs => do
    let c ← f.contribution
    let cs ← contributions fs
    pure (c ++ cs)

/-- A call whose duration argument, if it has one, is a 64-bit value other than the minimum. -/
def Field.durInRange : Field → Prop
  | Field.dur _ d => -(2 ^ 63) < d ∧ d < 2 ^ 63
  | _ => True

/-- A chain of field-append calls on an entry followed by `Msg`. -/
def logChain (fs : List Field) (e : Option Entry) (msg : ByteSeq) (w : World) :
    Except Fault (World × Outcome) := do
  let e ← applyAll fs e
  pure (Entry.Msg e msg w)

/-! ## Reading JSON strings back

Nothing in `src/` decodes the wire format; the two readers below are the reference against
which the encoder is checked. -/

/-- The value of a hexadecimal digit. -/
def hexVal (c : UInt8) : Option Nat :=
  if 48 ≤ c ∧ c ≤ 57 then some (c.toNat - 48)
  else if 97 ≤ c ∧ c ≤ 102 then some (c.toNat - 87)
  else if 65 ≤ c ∧ c ≤ 70 then some (c.toNat - 55)
  else none

/-- The byte denoted by the character after a backslash in a two-character JSON escape. -/
def simpleEscape (x : UInt8) : Option UInt8 :=
  if x = 34 then some 34
  else if x = 92 then some 92
  else if x = 47 then some 47
  else if x = 98 then some 8
  else if x = 102 then some 12
  else if x = 110 then some 10
  else if x = 114 then some 13
  else if x = 116 then some 9
  else none

/-- JSON string unescape: a two-character escape and a `\u00XX` escape are replaced by the byte
they denote, every other byte is copied; `none` for a raw quote, a dangling backslash or any
other escape. -/
def unescape : ByteSeq → Option ByteSeq
  | [] => some []
  | c :: rest =>
    if c = 92 then
      match rest with
      | [] => none
      | x :: rest1 =>
        if x = 117 then
          match rest1 with
          | a :: b :: h :: l :: rest2 =>
            if a = 48 ∧ b = 48 then
              match hexVal h, hexVal l with
              | some hv, some lv => (unescape rest2).map (fun t => UInt8.ofNat (16 * hv + lv) :: t)
              | _, _ => none
            else none
          | _ => none
        else
          match simpleEscape x with
          | some y => (unescape rest1).map (fun t => y :: t)
          | none => none
    else if c = 34 then none
    else (unescape rest).map (fun t => c :: t)

/-- UTF-8 encoding of a code point below 0x10000; a surrogate is replaced by U+FFFD. -/
def utf8 (n : Nat) : ByteSeq :=
  if n < 128 then [UInt8.ofNat n]
  else if n < 2048 then [UInt8.ofNat (192 + n / 64), UInt8.ofNat (128 + n % 64)]
  else if 55296 ≤ n ∧ n < 57344 then [239, 191, 189]
  else [UInt8.ofNat (224 + n / 4096), UInt8.ofNat (128 + n / 64 % 64), UInt8.ofNat (128 + n % 64)]

/-- The JSON string grammar of RFC 8259, read at byte level from just after the opening quote:
the decoded content and the input left after the closing quote.  A raw byte below 0x20 is not
allowed; bytes from 0x80 up are taken as they are. -/
def parseString : ByteSeq → Option (ByteSeq × ByteSeq)
  | [] => none
  | c :: rest =>
    if c = 34 then some ([], rest)
    else if c = 92 then
      match rest with
      | [] => none
      | x :: rest1 =>
        if x = 117 then
          match rest1 with
          | a :: b :: h :: l :: rest2 =>
            match hexVal a, hexVal b, hexVal h, hexVal l with
            | some av, some bv, some hv, some lv =>
              (parseString rest2).map
                (fun p => (utf8 (4096 * av + 256 * bv + 16 * hv + lv) ++ p.1, p.2))
            | _, _, _, _ => none
          | _ => none
        else
          match simpleEscape x with
          | some y => (parseString rest1).map (fun p => (y :: p.1, p.2))
          | none => none
    else if c < 32 then none
    else (parseString rest).map (fun p => (c :: p.1, p.2))

/-- JSON insignificant whitespace. -/
def isWs (c : UInt8) : Bool := c == 32 || c == 9 || c == 10 || c == 13

/-- Skip leading whitespace. -/
def skipWs : ByteSeq → ByteSeq
  | [] => []
  | c :: rest => if isWs c then skipWs rest else c :: rest

/-- Expect the byte `c` after optional whitespace; the input after it. -/
def expect (c : UInt8) (s : ByteSeq) : Option ByteSeq :=
  match skipWs s with
  | [] => none
  | x :: rest => if x = c then some rest else none

/-- Read a whole JSON text that is an object with exactly one member whose value is a string:
the member's name and value, decoded. -/
def parseStringMember (s : ByteSeq) : Option (ByteSeq × ByteSeq) := do
  let r ← expect 123 s
  let r ← expect 34 r
  let (name, r) ← parseString r
  let r ← expect 58 r
  let r ← expect 34 r
  let (val, r) ← parseString r
  let r ← expect 125 r
  if skipWs r = [] then some (name, val) else none

/-- The bytes a call appended: what the new buffer holds beyond the old length. -/
def appended (old new : Entry) : ByteSeq := new.buf.drop old.buf.length

/-- The object obtained from the bytes a call appended by dropping their first byte (the
comma) and wrapping the rest in braces. -/
def wrapMember (old : Entry) (new : Option Entry) : ByteSeq :=
  match new with
  | some n => 123 :: (appended old n).drop 1 ++ [125]
  | none => []

/-- A key that can stand between quotes as it is: no quote, no backslash, no control byte. -/
def plainKey (k : ByteSeq) : Prop := ∀ c ∈ k, ¬ c < 32 ∧ c ≠ 34 ∧ c ≠ 92

/-- A value whose control bytes are all among the five the table flags
(backspace, tab, newline, form-feed, carriage-return). -/
def escapableValue (v : ByteSeq) : Prop :=
  ∀ c ∈ v, ¬ c < 32 ∨ c = 8 ∨ c = 9 ∨ c = 10 ∨ c = 12 ∨ c = 13

/-- The six decimal digits of `n`, zero-padded (for `n` below one million). -/
def sixDigits (n : Nat) : ByteSeq :=
  [UInt8.ofNat (48 + n / 100000 % 10), UInt8.ofNat (48 + n / 10000 % 10),
   UInt8.ofNat (48 + n / 1000 % 10), UInt8.ofNat (48 + n / 100 % 10),
   UInt8.ofNat (48 + n / 10 % 10), UInt8.ofNat (48 + n % 10)]

/-- The value text of a duration of `d` nanoseconds: the sign, the whole milliseconds of the
magnitude and, when the magnitude is not a whole number of milliseconds, a point and the six
digits of the remainder. -/
def durText (d : Int) : ByteSeq :=
  (if d < 0 then [45] else []) ++ natDigits (d.natAbs / 1000000)
    ++ (if d.natAbs % 1000000 ≠ 0 then 46 :: sixDigits (d.natAbs % 1000000) else [])

/-- An entry used in examples: the buffer holds the opening brace. -/
def sampleEntry : Entry := { buf := [123], Level := Level.InfoLevel, w := 1 }

/-- A world with no write yet, test mode off. -/
def emptyWorld : World := { writes := [], notTest := true }

/-! ## Reading decimal numerals back -/

/-- The number a run of decimal digits denotes. -/
def digitsValue (s : ByteSeq) : Nat := s.foldl (fun a c => 10 * a + (c.toNat - 48)) 0

/-- A non-empty run of decimal digits. -/
def isDigits (s : ByteSeq) : Bool := !s.isEmpty && s.all (fun c => decide (48 ≤ c) && decide (c ≤ 57))

/-- An unsigned decimal numeral, digits optionally followed by a point and more digits, read
as an exact rational number; `none` for any other text. -/
def decimalValue (s : ByteSeq) : Option ℚ :=
  let ip := s.takeWhile (fun c => c != 46)
  match s.dropWhile (fun c => c != 46) with
  | [] => if isDigits ip then some (digitsValue ip : ℚ) else none
  | _ :: fp =>
    if isDigits ip && isDigits fp then
      some ((digitsValue ip : ℚ) + (digitsValue fp : ℚ) / (10 : ℚ) ^ fp.length)
    else none

/-- The magnitude text of a duration: whole milliseconds and, if any, the fraction. -/
def durMagnitude (a : Nat) : ByteSeq :=
  natDigits (a / 1000000) ++ (if a % 1000000 ≠ 0 then 46 :: sixDigits (a % 1000000) else [])

/-! ## Objects and marshalers -/

/-- A Go interface value: the nil interface, a non-nil interface whose data word is zero (it
wraps a nil reference), or an interface holding a value. -/
inductive Iface (α : Type) where
  | nil
  | nilRef
  | val (a : α)

/-- Modelled from the spec: the interface `ObjectMarshaler` is declared outside `src/`; its one
method is called as `obj.MarshalObject(e)` on a non-nil entry.  A marshaler is what that call
does to the entry, or the panic it raises. -/
abbrev Marshaler := Entry → Except Fault Entry

/-- The assignment `s[i] = c` with its bounds check. -/
def setIndex (s : ByteSeq) (i : Nat) (c : UInt8) : Except Fault ByteSeq :=
  if i < s.length then Except.ok (s.set i c) else Except.error Fault.indexOutOfRange

/-- The method `Object` of entry.go. -/
def Entry.Object (e : Option Entry) (key : ByteSeq) (obj : Iface Marshaler) :
    Except Fault (Option Entry) :=
  match e with
  | none => pure none
  | some e =>
    let e := { e with buf := e.buf ++ [44, 34] }
    let e := { e with buf := e.buf ++ key }
    let e := { e with buf := e.buf ++ [34, 58] }
    match obj with
    | Iface.nil => pure (some { e with buf := e.buf ++ ascii "null" })
    | Iface.nilRef => pure (some { e with buf := e.buf ++ ascii "null" })
    | Iface.val m => do
      let n := e.buf.length
      let e ← m e
      if n < e.buf.length then do
        let b ← setIndex e.buf n 123
        let e := { e with buf := b }
        pure (some { e with buf := e.buf ++ [125] })
      else
        pure (some { e with buf := e.buf ++ ascii "null" })

/-- A marshaler that appends the given bytes. -/
def appendMarshaler (a : ByteSeq) : Marshaler := fun e => Except.ok { e with buf := e.buf ++ a }
/-- One element of the slice handed to `Objects`, as the loop classifies it: a nil pointer, a
value implementing `ObjectMarshaler`, or anything else. -/
inductive Element where
  | nilPtr
  | marshaler (m : Marshaler)
  | other

/-- The loop `for i := 0; i < values.Len(); i++` of `Objects`. -/
def objectsLoop : List Element → Nat → Entry → Except Fault Entry
  | [], _, e => pure e
  | v :: rest, i, e => do
    let e := if i ≠ 0 then { e with buf := e.buf ++ [44] } else e
    let e ← (match v with
      | Element.nilPtr => pure { e with buf := e.buf ++ ascii "null" }
      | Element.marshaler m => do
        let i := e.buf.length
        let e ← m e
        let b ← setIndex e.buf i 123
        let e := { e with buf := b }
        pure { e with buf := e.buf ++ [125] }
      | Element.other => pure { e with buf := e.buf ++ ascii "null" } : Except Fault Entry)
    objectsLoop rest (i + 1) e

/-- The method `Objects` of entry.go; `objects` is `none` when the argument is not a slice. -/
def Entry.Objects (e : Option Entry) (key : ByteSeq) (objects : Option (List Element)) :
    Except Fault (Option Entry) :=
  match e with
  | none => pure none
  | some e =>
    match objects with
    | none =>
      let e := { e with buf := e.buf ++ [44, 34] }
      let e := { e with buf := e.buf ++ key }
      pure (some { e with buf := e.buf ++ ascii "\":null" })
    | some values => do
      let e := { e with buf := e.buf ++ [44, 34] }
      let e := { e with buf := e.buf ++ key }
      let e := { e with buf := e.buf ++ [34, 58, 91] }
      let e ← objectsLoop values 0 e
      pure (some { e with buf := e.buf ++ [93] })

/-- Modelled from the spec: `NewContext` leaves the level and the writer of the fresh entry at
their zero values, which are declared outside `src/` and which no field-append method reads;
they are given here as the lowest level and sink 0. -/
def NewContext (dst : ByteSeq) : Option Entry :=
  some { buf := dst, Level := Level.TraceLevel, w := 0 }

mutual
/-- The body of a `MarshalObject` method that only calls field-append methods on the entry it
is given: the calls in order. -/
inductive Body where
  | done
  | call (c : Call) (rest : Body)
/-- One call inside such a body. -/
inductive Call where
  | field (f : Field)
  | objectNil (key : ByteSeq)
  | object (key : ByteSeq) (obj : Body)
  | objects (key : ByteSeq) (items : Items)
  | dict (key : ByteSeq) (ctx : Body)
/-- The slice handed to `Objects`: nil pointers and marshalers. -/
inductive Items where
  | nil
  | null (rest : Items)
  | obj (b : Body) (rest : Items)
end

mutual
/-- Run the calls of a body on an entry. -/
def Body.run : Body → Entry → Except Fault Entry
  | Body.done, e => pure e
  | Body.call c rest, e => do
    let e ← Call.run c e
    Body.run rest e
/-- Run one call on an entry; the entry is not nil, so the call returns it. A `dict` call is
`e.Dict(key, ctx)` where `ctx` was built by the calls of its body on the entry of
`NewContext(nil)`, whose buffer is empty. -/
def Call.run : Call → Entry → Except Fault Entry
  | Call.field f, e => do
    let r ← f.apply (some e)
    pure (r.getD e)
  | Call.objectNil key, e => do
    let r ← Entry.Object (some e) key Iface.nil
    pure (r.getD e)
  | Call.object key obj, e => do
    let r ← Entry.Object (some e) key (Iface.val (Body.run obj))
    pure (r.getD e)
  | Call.objects key items, e => do
    let r ← Entry.Objects (some e) key (some (Items.elements items))
    pure (r.getD e)
  | Call.dict key ctx, e => do
    let c ← Body.run ctx { buf := [], Level := Level.TraceLevel, w := 0 }
    pure ((Entry.Dict (some e) key c.buf).getD e)
/-- The elements of a slice of marshalers. -/
def Items.elements : Items → List Element
  | Items.nil => []
  | Items.null rest => Element.nilPtr :: Items.elements rest
  | Items.obj b rest => Element.marshaler (Body.run b) :: Items.elements rest
end


/-! ## Counting braces outside string literals -/

/-- The state of a left-to-right scan: inside a string literal or not, just after a backslash
inside one or not, and the number of braces opened and not yet closed. -/
structure Scan where
  inString : Bool
  escaped : Bool
  depth : Nat
  deriving DecidableEq, Repr

/-- Scan one byte; `none` when a closing brace outside a string has no brace to close. -/
def scanStep (s : Scan) (c : UInt8) : Option Scan :=
  if s.inString then
    if s.escaped then some { s with escaped := false }
    else if c = 92 then some { s with escaped := true }
    else if c = 34 then some { s with inString := false }
    else some s
  else if c = 34 then some { s with inString := true }
  else if c = 123 then some { s with depth := s.depth + 1 }
  else if c = 125 then (if s.depth = 0 then none else some { s with depth := s.depth - 1 })
  else some s

/-- Scan a byte sequence; `none` when some closing brace outside a string has nothing to
close, that is, when a part read so far has more closing than opening braces. -/
def braceScan : Scan → ByteSeq → Option Scan
  | s, [] => some s
  | s, c :: rest => (scanStep s c).bind (fun s2 => braceScan s2 rest)

/-- Outside string literals the text has as many closing as opening braces and no part of it
read from the left has more closing than opening ones (and it ends outside a string). -/
def braceBalanced (t : ByteSeq) : Prop :=
  braceScan { inString := false, escaped := false, depth := 0 } t
    = some { inString := false, escaped := false, depth := 0 }

/-- Text that, read outside a string at any depth, ends outside a string at that depth. -/
def neutral (t : ByteSeq) : Prop :=
  ∀ d, braceScan { inString := false, escaped := false, depth := d } t
    = some { inString := false, escaped := false, depth := d }

/-- Text that, read inside a string, stays inside the string. -/
def stringNeutral (t : ByteSeq) : Prop :=
  ∀ d, braceScan { inString := true, escaped := false, depth := d } t
    = some { inString := true, escaped := false, depth := d }

/-- A key without quote and backslash. -/
def quoteFree (k : ByteSeq) : Prop := ∀ c ∈ k, c ≠ 34 ∧ c ≠ 92

/-- The key of a scalar call. -/
def Field.key : Field → ByteSeq
  | Field.bool k _ => k
  | Field.int64 k _ => k
  | Field.int k _ => k
  | Field.uint64 k _ => k
  | Field.uint k _ => k
  | Field.str k _ => k
  | Field.strInt k _ => k
  | Field.byte k _ => k
  | Field.bytes k _ => k
  | Field.bytesOrNil k _ => k
  | Field.hex k _ => k
  | Field.rawJSON k _ => k
  | Field.rawJSONStr k _ => k
  | Field.dur k _ => k

/-- The raw JSON a call passes through is itself neutral. -/
def Field.rawNeutral : Field → Prop
  | Field.rawJSON _ b => neutral b
  | Field.rawJSONStr _ s => neutral s
  | _ => True

/-- A scalar call with a quote-free key, neutral raw JSON and a duration in range. -/
def Field.plain (f : Field) : Prop := quoteFree f.key ∧ f.rawNeutral ∧ f.durInRange

mutual
/-- Every call of the body is plain. -/
def Body.plain : Body → Prop
  | Body.done => True
  | Body.call c rest => Call.plain c ∧ Body.plain rest
/-- The call has a quote-free key and everything below it is plain. -/
def Call.plain : Call → Prop
  | Call.field f => f.plain
  | Call.objectNil key => quoteFree key
  | Call.object key obj => quoteFree key ∧ Body.plain obj
  | Call.objects key items => quoteFree key ∧ Items.plain items
  | Call.dict key ctx => quoteFree key ∧ Body.plain ctx
/-- Every marshaler of the slice is plain and makes at least one call. -/
def Items.plain : Items → Prop
  | Items.nil => True
  | Items.null rest => Items.plain rest
  | Items.obj b rest => b ≠ Body.done ∧ Body.plain b ∧ Items.plain rest
end

/-! ## Floating-point numbers -/

/-- A 64-bit or 32-bit float as the encoder sees it: not-a-number, an infinity, a zero, or a
finite non-zero number given by the shortest decimal `±(lead+1).more × 10^exp` that denotes it
at its precision.  These are the digits and the exponent the standard formatter prints, and
since `1e-6` and `1e21` are themselves such decimals, comparing the float with these constants
is comparing this decimal with them. -/
inductive GoFloat where
  | nan
  | inf (neg : Bool)
  | zero (neg : Bool)
  | num (neg : Bool) (lead : Fin 9) (more : List (Fin 10)) (exp : Int)

/-- The number the decimal digits `lead+1` followed by `more` denote as an integer. -/
def digitsNat (lead : Fin 9) (more : List (Fin 10)) : Nat :=
  more.foldl (fun a d => 10 * a + d.val) (lead.val + 1)

/-- The standard library call `math.Abs(f)` on a float that is not NaN and not infinite, as
an exact number. -/
def GoFloat.abs : GoFloat → ℚ
  | GoFloat.num _ lead more exp => (digitsNat lead more : ℚ) / (10 : ℚ) ^ more.length * (10 : ℚ) ^ exp
  | _ => 0

/-- The bytes of the decimal digits. -/
def digitBytes (lead : Fin 9) (more : List (Fin 10)) : ByteSeq :=
  UInt8.ofNat (49 + lead.val) :: more.map (fun d => UInt8.ofNat (48 + d.val))

/-- The sign the formatter prints. -/
def signText (neg : Bool) : ByteSeq := if neg then [45] else []

/-- The exponent part of the `e` format: `e`, the sign, and at least two digits. -/
def exponentText (exp : Int) : ByteSeq :=
  [101, if exp < 0 then 45 else 43] ++ (if exp.natAbs < 10 then [48] else []) ++ natDigits exp.natAbs

/-- The part of the `e` format before the exponent: the sign, the first digit and, if there
are more digits, the point and these digits. -/
def mantissaText (neg : Bool) (lead : Fin 9) (more : List (Fin 10)) : ByteSeq :=
  signText neg ++ [UInt8.ofNat (49 + lead.val)]
    ++ (if more = [] then [] else 46 :: more.map (fun d => UInt8.ofNat (48 + d.val)))

/-- The `e` format with the shortest digits: `d.ddde±dd`. -/
def formatE (neg : Bool) (lead : Fin 9) (more : List (Fin 10)) (exp : Int) : ByteSeq :=
  mantissaText neg lead more ++ exponentText exp

/-- The `f` format with the shortest digits: no exponent, the point placed by `exp`. -/
def formatF (neg : Bool) (lead : Fin 9) (more : List (Fin 10)) (exp : Int) : ByteSeq :=
  let ds := digitBytes lead more
  let dp := exp + 1
  signText neg ++
    (if dp ≤ 0 then [48, 46] ++ List.replicate dp.natAbs 48 ++ ds
     else if dp.toNat < ds.length then ds.take dp.toNat ++ 46 :: ds.drop dp.toNat
     else ds ++ List.replicate (dp.toNat - ds.length) 48)

/-- The standard library call `strconv.AppendFloat(dst, f, fmt, -1, bits)` for the formats
`e` (byte 101) and `f`; the precision `bits` is that of the digits `f` carries. -/
def strconvAppendFloat (dst : ByteSeq) (f : GoFloat) (fmt : UInt8) : ByteSeq :=
  match f with
  | GoFloat.nan => dst ++ ascii "NaN"
  | GoFloat.inf neg => dst ++ (if neg then ascii "-Inf" else ascii "+Inf")
  | GoFloat.zero neg => dst ++ signText neg ++ (if fmt = 101 then ascii "0e+00" else ascii "0")
  | GoFloat.num neg lead more exp =>
    dst ++ (if fmt = 101 then formatE neg lead more exp else formatF neg lead more exp)

/-- The clean-up at the end of `appendFloat`: `e-0d` at the end of the buffer becomes `e-d`. -/
def cleanExponent (b : ByteSeq) : ByteSeq :=
  let n := b.length
  if n ≥ 4 ∧ b.getD (n - 4) 0 = 101 ∧ b.getD (n - 3) 0 = 45 ∧ b.getD (n - 2) 0 = 48 then
    (b.set (n - 2) (b.getD (n - 1) 0)).take (n - 1)
  else b

/-- The test that selects the `e` format in `appendFloat`, on the magnitude `abs`. -/
def exponentForm (abs : ℚ) (bits : Nat) : Prop :=
  abs ≠ 0 ∧ ((bits = 64 ∧ (abs < 1 / 1000000 ∨ abs ≥ 1000000000000000000000))
    ∨ (bits = 32 ∧ (abs < 1 / 1000000 ∨ abs ≥ 1000000000000000000000)))

instance (abs : ℚ) (bits : Nat) : Decidable (exponentForm abs bits) := by
  unfold exponentForm
  infer_instance

/-- The function `appendFloat` of entry.go. -/
def appendFloat (b : ByteSeq) (f : GoFloat) (bits : Nat) : ByteSeq :=
  match f with
  | GoFloat.nan => b ++ ascii "\"NaN\""
  | GoFloat.inf false => b ++ ascii "\"+Inf\""
  | GoFloat.inf true => b ++ ascii "\"-Inf\""
  | f =>
    let abs := f.abs
    let fmt : UInt8 := if exponentForm abs bits then 101 else 102
    let b := strconvAppendFloat b f fmt
    if fmt = 101 then cleanExponent b else b

/-! ## The remaining typed methods reached from `Any` -/

/-- The method `Int32` of entry.go. -/
def Entry.Int32 (e : Option Entry) (key : ByteSeq) (i : GoInt) : Option Entry :=
  match e with
  | none => none
  | some e =>
    let e := { e with buf := e.buf ++ [44, 34] }
    let e := { e with buf := e.buf ++ key }
    let e := { e with buf := e.buf ++ [34, 58] }
    some { e with buf := appendInt e.buf i }

/-- The method `Int16` of entry.go. -/
def Entry.Int16 (e : Option Entry) (key : ByteSeq) (i : GoInt) : Option Entry :=
  match e with
  | none => none
  | some e =>
    let e := { e with buf := e.buf ++ [44, 34] }
    let e := { e with buf := e.buf ++ key }
    let e := { e with buf := e.buf ++ [34, 58] }
    some { e with buf := appendInt e.buf i }

/-- The method `Int8` of entry.go. -/
def Entry.Int8 (e : Option Entry) (key : ByteSeq) (i : GoInt) : Option Entry :=
  match e with
  | none => none
  | some e =>
    let e := { e with buf := e.buf ++ [44, 34] }
    let e := { e with buf := e.buf ++ key }
    let e := { e with buf := e.buf ++ [34, 58] }
    some { e with buf := appendInt e.buf i }

/-- The method `Uint32` of entry.go. -/
def Entry.Uint32 (e : Option Entry) (key : ByteSeq) (i : Nat) : Option Entry :=
  match e with
  | none => none
  | some e =>
    let e := { e with buf := e.buf ++ [44, 34] }
    let e := { e with buf := e.buf ++ key }
    let e := { e with buf := e.buf ++ [34, 58] }
    some { e with buf := appendUint e.buf i }

/-- The method `Uint16` of entry.go. -/
def Entry.Uint16 (e : Option Entry) (key : ByteSeq) (i : Nat) : Option Entry :=
  match e with
  | none => none
  | some e =>
    let e := { e with buf := e.buf ++ [44, 34] }
    let e := { e with buf := e.buf ++ key }
    let e := { e with buf := e.buf ++ [34, 58] }
    some { e with buf := appendUint e.buf i }

/-- The method `Uint8` of entry.go. -/
def Entry.Uint8 (e : Option Entry) (key : ByteSeq) (i : Nat) : Option Entry :=
  match e with
  | none => none
  | some e =>
    let e := { e with buf := e.buf ++ [44, 34] }
    let e := { e with buf := e.buf ++ key }
    let e := { e with buf := e.buf ++ [34, 58] }
    some { e with buf := appendUint e.buf i }

/-- The method `Float64` of entry.go. -/
def Entry.Float64 (e : Option Entry) (key : ByteSeq) (f : GoFloat) : Option Entry :=
  match e with
  | none => none
  | some e =>
    let e := { e with buf := e.buf ++ [44, 34] }
    let e := { e with buf := e.buf ++ key }
    let e := { e with buf := e.buf ++ [34, 58] }
    some { e with buf := appendFloat e.buf f 64 }

/-- The method `Float32` of entry.go; the conversion `float64(f)` is exact. -/
def Entry.Float32 (e : Option Entry) (key : ByteSeq) (f : GoFloat) : Option Entry :=
  match e with
  | none => none
  | some e =>
    let e := { e with buf := e.buf ++ [44, 34] }
    let e := { e with buf := e.buf ++ key }
    let e := { e with buf := e.buf ++ [34, 58] }
    some { e with buf := appendFloat e.buf f 32 }

/-- The loop of `Floats64` and `Floats32`. -/
def floatsLoop (bits : Nat) : List GoFloat → Nat → ByteSeq → ByteSeq
  | [], _, buf => buf
  | a :: rest, i, buf =>
    let buf := if i ≠ 0 then buf ++ [44] else buf
    floatsLoop bits rest (i + 1) (appendFloat buf a bits)

/-- The method `Floats64` of entry.go. -/
def Entry.Floats64 (e : Option Entry) (key : ByteSeq) (f : List GoFloat) : Option Entry :=
  match e with
  | none => none
  | some e =>
    let e := { e with buf := e.buf ++ [44, 34] }
    let e := { e with buf := e.buf ++ key }
    let e := { e with buf := e.buf ++ [34, 58, 91] }
    let e := { e with buf := floatsLoop 64 f 0 e.buf }
    some { e with buf := e.buf ++ [93] }

/-- The method `Floats32` of entry.go. -/
def Entry.Floats32 (e : Option Entry) (key : ByteSeq) (f : List GoFloat) : Option Entry :=
  match e with
  | none => none
  | some e =>
    let e := { e with buf := e.buf ++ [44, 34] }
    let e := { e with buf := e.buf ++ key }
    let e := { e with buf := e.buf ++ [34, 58, 91] }
    let e := { e with buf := floatsLoop 32 f 0 e.buf }
    some { e with buf := e.buf ++ [93] }

/-- The body of the loop of `Durs` for one duration `a`: sign, milliseconds and fraction. -/
def appendDur (buf : ByteSeq) (a : GoInt) : Except Fault ByteSeq := do
  let neg := decide (a < 0)
  let a := if neg then wrapInt64 (-a) else a
  let buf := if neg then buf ++ [45] else buf
  let buf := appendInt buf (a.tdiv 1000000)
  let n := a.tmod 1000000
  if n ≠ 0 then do
    let tmp ← durFraction n
    pure (buf ++ tmp)
  else
    pure buf

/-- The loop `for i, a := range d` of `Durs`. -/
def dursLoop : List GoInt → Nat → ByteSeq → Except Fault ByteSeq
  | [], _, buf => pure buf
  | a :: rest, i, buf => do
    let buf := if i ≠ 0 then buf ++ [44] else buf
    let buf ← appendDur buf a
    dursLoop rest (i + 1) buf

/-- The method `Durs` of entry.go. -/
def Entry.Durs (e : Option Entry) (key : ByteSeq) (d : List GoInt) : Except Fault (Option Entry) :=
  match e with
  | none => pure none
  | some e => do
    let e := { e with buf := e.buf ++ [44, 34] }
    let e := { e with buf := e.buf ++ key }
    let e := { e with buf := e.buf ++ [34, 58, 91] }
    let b ← dursLoop d 0 e.buf
    let e := { e with buf := b }
    pure (some { e with buf := e.buf ++ [93] })

/-- A `time.Time` seen through the methods the encoder calls on it: `Format` gives the text for
a layout, and `t.AppendFormat(b, layout)` appends that text to `b`; `wall` is the instant in
nanoseconds since the Unix epoch and `mono` the reading of the monotonic clock in nanoseconds,
when the value carries one, which `After` and `Sub` compare. -/
structure GoTime where
  Format : ByteSeq → ByteSeq
  wall : Int
  mono : Option Int

/-- The method `Time` of entry.go. -/
def Entry.Time (e : Option Entry) (key : ByteSeq) (t : GoTime) : Option Entry :=
  match e with
  | none => none
  | some e =>
    let e := { e with buf := e.buf ++ [44, 34] }
    let e := { e with buf := e.buf ++ key }
    let e := { e with buf := e.buf ++ [34, 58, 34] }
    let e := { e with buf := e.buf ++ t.Format (ascii "2006-01-02T15:04:05.999Z07:00") }
    some { e with buf := e.buf ++ [34] }

/-- The loop `for i, c := range ha` of `MACAddr`. -/
def macLoop : ByteSeq → Nat → ByteSeq → ByteSeq
  | [], _, buf => buf
  | c :: rest, i, buf =>
    let buf := if i > 0 then buf ++ [58] else buf
    let buf := buf ++ [hexDigit (c >>> 4)]
    let buf := buf ++ [hexDigit (c &&& 15)]
    macLoop rest (i + 1) buf

/-- The method `MACAddr` of entry.go. -/
def Entry.MACAddr (e : Option Entry) (key : ByteSeq) (ha : ByteSeq) : Option Entry :=
  match e with
  | none => none
  | some e =>
    let e := { e with buf := e.buf ++ [44, 34] }
    let e := { e with buf := e.buf ++ key }
    let e := { e with buf := e.buf ++ [34, 58, 34] }
    let e := { e with buf := macLoop ha 0 e.buf }
    some { e with buf := e.buf ++ [34] }

/-- A `net.IP` seen through what `IPAddr` asks of it: the four bytes `ip.To4()` returns, if
any, and the text `netip.AddrFromSlice(ip)` appends when it succeeds. -/
structure GoIP where
  To4 : Option (UInt8 × UInt8 × UInt8 × UInt8)
  addrText : Option ByteSeq

/-- The method `IPAddr` of entry.go. -/
def Entry.IPAddr (e : Option Entry) (key : ByteSeq) (ip : GoIP) : Option Entry :=
  match e with
  | none => none
  | some e =>
    let e := { e with buf := e.buf ++ [44, 34] }
    let e := { e with buf := e.buf ++ key }
    let e := { e with buf := e.buf ++ [34, 58, 34] }
    let e :=
      match ip.To4 with
      | some (a, b, c, d) =>
        let e := { e with buf := appendInt e.buf a.toNat }
        let e := { e with buf := e.buf ++ [46] }
        let e := { e with buf := appendInt e.buf b.toNat }
        let e := { e with buf := e.buf ++ [46] }
        let e := { e with buf := appendInt e.buf c.toNat }
        let e := { e with buf := e.buf ++ [46] }
        { e with buf := appendInt e.buf d.toNat }
      | none =>
        match ip.addrText with
        | some t => { e with buf := e.buf ++ t }
        | none => e
    some { e with buf := e.buf ++ [34] }

/-- The method `IPPrefix` of entry.go; `pfx` is the text `pfx.String()` returns. -/
def Entry.IPPrefix (e : Option Entry) (key : ByteSeq) (pfx : ByteSeq) : Option Entry :=
  match e with
  | none => none
  | some e =>
    let e := { e with buf := e.buf ++ [44, 34] }
    let e := { e with buf := e.buf ++ key }
    let e := { e with buf := e.buf ++ [34, 58, 34] }
    let e := { e with buf := e.buf ++ pfx }
    some { e with buf := e.buf ++ [34] }

/-- The method `GoStringer` of entry.go; `val` is `none` for a nil interface value and
otherwise the text its `GoString` method returns. -/
def Entry.GoStringer (e : Option Entry) (key : ByteSeq) (val : Option ByteSeq) : Option Entry :=
  match e with
  | none => none
  | some e =>
    let e := { e with buf := e.buf ++ [44, 34] }
    let e := { e with buf := e.buf ++ key }
    let e := { e with buf := e.buf ++ [34, 58] }
    match val with
    | some v =>
      let e := { e with buf := e.buf ++ [34] }
      let e := e.string v
      some { e with buf := e.buf ++ [34] }
    | none => some { e with buf := e.buf ++ ascii "null" }

/-- A non-nil `error` value: the text its `Error` method returns and, when its dynamic type
also implements `ObjectMarshaler`, that method. -/
structure ErrorValue where
  marshaler : Option Marshaler
  text : ByteSeq

/-- The method `AnErr` of entry.go; the nil error is `none`. -/
def Entry.AnErr (e : Option Entry) (key : ByteSeq) (err : Option ErrorValue) :
    Except Fault (Option Entry) :=
  match e with
  | none => pure none
  | some e =>
    match err with
    | none =>
      let e := { e with buf := e.buf ++ [44, 34] }
      let e := { e with buf := e.buf ++ key }
      pure (some { e with buf := e.buf ++ ascii "\":null" })
    | some err => do
      let e := { e with buf := e.buf ++ [44, 34] }
      let e := { e with buf := e.buf ++ key }
      let e := { e with buf := e.buf ++ [34, 58] }
      match err.marshaler with
      | some o =>
        let e ← o e
        pure (some e)
      | none =>
        let e := { e with buf := e.buf ++ [34] }
        let e := e.string err.text
        pure (some { e with buf := e.buf ++ [34] })

/-- The method `Err` of entry.go. -/
def Entry.Err (e : Option Entry) (err : Option ErrorValue) : Except Fault (Option Entry) :=
  Entry.AnErr e (ascii "error") err

/-- The loop `for i, err := range errs` of `Errs`; an element is `none` for the nil error and
otherwise the text of `err.Error()`. -/
def errsLoop : List (Option ByteSeq) → Nat → Entry → Entry
  | [], _, e => e
  | err :: rest, i, e =>
    let e := if i ≠ 0 then { e with buf := e.buf ++ [44] } else e
    let e :=
      match err with
      | none => { e with buf := e.buf ++ ascii "null" }
      | some t =>
        let e := { e with buf := e.buf ++ [34] }
        let e := e.string t
        { e with buf := e.buf ++ [34] }
    errsLoop rest (i + 1) e

/-- The method `Errs` of entry.go. -/
def Entry.Errs (e : Option Entry) (key : ByteSeq) (errs : List (Option ByteSeq)) : Option Entry :=
  match e with
  | none => none
  | some e =>
    let e := { e with buf := e.buf ++ [44, 34] }
    let e := { e with buf := e.buf ++ key }
    let e := { e with buf := e.buf ++ [34, 58, 91] }
    let e := errsLoop errs 0 e
    some { e with buf := e.buf ++ [93] }

/-! ## The generic field -/

/-- The dynamic type of the value handed to `Any`, with the value, for each concrete type the
type switch names; `other` for every other type. -/
inductive Dyn where
  | context (c : ByteSeq)
  | durations (d : List GoInt)
  | duration (d : GoInt)
  | time (t : GoTime)
  | hardwareAddr (ha : ByteSeq)
  | ip (ip : GoIP)
  | ipNet (pfx : ByteSeq)
  | rawMessage (b : ByteSeq)
  | bools (b : List GoBool)
  | bytes (b : ByteSeq)
  | errors (errs : List (Option ByteSeq))
  | floats32 (f : List GoFloat)
  | floats64 (f : List GoFloat)
  | strings (vals : List ByteSeq)
  | string (val : ByteSeq)
  | bool (b : GoBool)
  | float32 (f : GoFloat)
  | float64 (f : GoFloat)
  | int16 (i : GoInt)
  | int32 (i : GoInt)
  | int64 (i : GoInt)
  | int8 (i : GoInt)
  | int (i : GoInt)
  | uint16 (i : Nat)
  | uint32 (i : Nat)
  | uint64 (i : Nat)
  | uint8 (i : Nat)
  | other

/-- A non-nil value handed to `Any`, seen through what the type switch and its branches ask of
it: the interfaces its dynamic type implements (with what their methods return), its concrete
type, and what the generic serializer makes of it: `json` is the output of `enc.Encode(value)`
on success and the text of the error formatted with `%+v` on failure. -/
structure AnyValue where
  marshaler : Option Marshaler
  dyn : Dyn
  error : Option ByteSeq
  goStringer : Option ByteSeq
  stringer : Option ByteSeq
  json : Except ByteSeq ByteSeq

/-- The concrete types the switch tests before the interface `error`. -/
def Dyn.early : Dyn → Bool
  | Dyn.context _ => true
  | Dyn.durations _ => true
  | Dyn.duration _ => true
  | Dyn.time _ => true
  | Dyn.hardwareAddr _ => true
  | Dyn.ip _ => true
  | Dyn.ipNet _ => true
  | Dyn.rawMessage _ => true
  | Dyn.bools _ => true
  | Dyn.bytes _ => true
  | Dyn.errors _ => true
  | Dyn.floats32 _ => true
  | Dyn.floats64 _ => true
  | Dyn.strings _ => true
  | Dyn.string _ => true
  | Dyn.bool _ => true
  | _ => false

/-- The `default` branch of the switch in `Any`: the generic serializer. -/
def anyDefault (e : Entry) (key : ByteSeq) (json : Except ByteSeq ByteSeq) :
    Except Fault (Option Entry) :=
  let e := { e with buf := e.buf ++ [44, 34] }
  let e := { e with buf := e.buf ++ key }
  let e := { e with buf := e.buf ++ [34, 58] }
  match json with
  | Except.error err =>
    let e := { e with buf := e.buf ++ [34] }
    let e := e.bytes (ascii "marshaling error: " ++ err)
    pure (some { e with buf := e.buf ++ [34] })
  | Except.ok out =>
    if out.length < 1 then Except.error Fault.sliceBoundsOutOfRange
    else pure (some { e with buf := e.buf ++ out.take (out.length - 1) })

/-- The method `Any` of entry.go. -/
def Entry.Any (e : Option Entry) (key : ByteSeq) (value : Iface AnyValue) :
    Except Fault (Option Entry) :=
  match e with
  | none => pure none
  | some e =>
    match value with
    | Iface.nil =>
      let e := { e with buf := e.buf ++ [44, 34] }
      let e := { e with buf := e.buf ++ key }
      let e := { e with buf := e.buf ++ [34, 58] }
      pure (some { e with buf := e.buf ++ ascii "null" })
    | Iface.nilRef =>
      let e := { e with buf := e.buf ++ [44, 34] }
      let e := { e with buf := e.buf ++ key }
      let e := { e with buf := e.buf ++ [34, 58] }
      pure (some { e with buf := e.buf ++ ascii "null" })
    | Iface.val v =>
      match v.marshaler with
      | some m => do
        let e := { e with buf := e.buf ++ [44, 34] }
        let e := { e with buf := e.buf ++ key }
        let e := { e with buf := e.buf ++ [34, 58] }
        let e ← m e
        pure (some e)
      | none =>
        match v.dyn with
        | Dyn.context c => pure (Entry.Dict (some e) key c)
        | Dyn.durations d => Entry.Durs (some e) key d
        | Dyn.duration d => Entry.Dur (some e) key d
        | Dyn.time t => pure (Entry.Time (some e) key t)
        | Dyn.hardwareAddr ha => pure (Entry.MACAddr (some e) key ha)
        | Dyn.ip ip => pure (Entry.IPAddr (some e) key ip)
        | Dyn.ipNet pfx => pure (Entry.IPPrefix (some e) key pfx)
        | Dyn.rawMessage b =>
          let e := { e with buf := e.buf ++ [44, 34] }
          let e := { e with buf := e.buf ++ key }
          let e := { e with buf := e.buf ++ [34, 58] }
          pure (some { e with buf := e.buf ++ b })
        | Dyn.bools b => pure (Entry.Bools (some e) key b)
        | Dyn.bytes b => pure (Entry.Bytes (some e) key b)
        | Dyn.errors errs => pure (Entry.Errs (some e) key errs)
        | Dyn.floats32 f => pure (Entry.Floats32 (some e) key f)
        | Dyn.floats64 f => pure (Entry.Floats64 (some e) key f)
        | Dyn.strings vals => pure (Entry.Strs (some e) key vals)
        | Dyn.string val => pure (Entry.Str (some e) key val)
        | Dyn.bool b => pure (Entry.Bool (some e) key b)
        | d =>
          match v.error with
          | some t => Entry.AnErr (some e) key (some { marshaler := v.marshaler, text := t })
          | none =>
            match d with
            | Dyn.float32 f => pure (Entry.Float32 (some e) key f)
            | Dyn.float64 f => pure (Entry.Float64 (some e) key f)
            | Dyn.int16 i => pure (Entry.Int16 (some e) key i)
            | Dyn.int32 i => pure (Entry.Int32 (some e) key i)
            | Dyn.int64 i => pure (Entry.Int64 (some e) key i)
            | Dyn.int8 i => pure (Entry.Int8 (some e) key i)
            | Dyn.int i => pure (Entry.Int (some e) key i)
            | Dyn.uint16 i => pure (Entry.Uint16 (some e) key i)
            | Dyn.uint32 i => pure (Entry.Uint32 (some e) key i)
            | Dyn.uint64 i => pure (Entry.Uint64 (some e) key i)
            | Dyn.uint8 i => pure (Entry.Uint8 (some e) key i)
            | _ =>
              match v.goStringer with
              | some s => pure (Entry.GoStringer (some e) key (some s))
              | none =>
                match v.stringer with
                | some s => pure (Entry.Stringer (some e) key (some s))
                | none => anyDefault e key v.json

/-! ## Times -/

/-- The layout constant `time.RFC3339Nano`. -/
def RFC3339Nano : ByteSeq := ascii "2006-01-02T15:04:05.999999999Z07:00"

/-- The loop `for i, t := range a` of `Times`. -/
def timesLoop : List GoTime → Nat → ByteSeq → ByteSeq
  | [], _, buf => buf
  | t :: rest, i, buf =>
    let buf := if i ≠ 0 then buf ++ [44] else buf
    let buf := buf ++ [34]
    let buf := buf ++ t.Format RFC3339Nano
    let buf := buf ++ [34]
    timesLoop rest (i + 1) buf

/-- The method `Times` of entry.go. -/
def Entry.Times (e : Option Entry) (key : ByteSeq) (a : List GoTime) : Option Entry :=
  match e with
  | none => none
  | some e =>
    let e := { e with buf := e.buf ++ [44, 34] }
    let e := { e with buf := e.buf ++ key }
    let e := { e with buf := e.buf ++ [34, 58, 91] }
    let e := { e with buf := timesLoop a 0 e.buf }
    some { e with buf := e.buf ++ [93] }

/-- The readings of a `time.Time` that the layouts of the RFC 3339 family print: the calendar
date, the time of day, the nanosecond within the second and the zone offset in seconds east
of UTC. -/
structure Clock where
  year : Nat
  month : Nat
  day : Nat
  hour : Nat
  minute : Nat
  second : Nat
  nanosecond : Nat
  offset : Int

/-- The helper `appendInt(b, x, width)` of package time for `x ≥ 0`: the decimal digits of `x`,
padded with zeros on the left to `width`. -/
def padDigits (x width : Nat) : ByteSeq :=
  List.replicate (width - (natDigits x).length) 48 ++ natDigits x

/-- Drop the bytes equal to `c` from the end of `b`. -/
def trimRight (c : UInt8) (b : ByteSeq) : ByteSeq :=
  (b.reverse.dropWhile (fun x => x == c)).reverse

/-- The helper `appendNano` of package time for a layout element `.9…9` with `n` nines: nothing
when the nanosecond is zero, otherwise a point and the first `n` of the nine digits, with the
trailing zeros removed and the point too when no digit is left. -/
def appendNano (nanosec n : Nat) : ByteSeq :=
  if n = 0 ∨ nanosec = 0 then []
  else
    let b := [46] ++ (padDigits nanosec 9).take n
    let b := trimRight 48 b
    if b.getLast? = some 46 then b.dropLast else b

/-- The zone of the layout element `Z07:00`: `Z` for UTC, otherwise sign, hours, colon and
minutes of the offset. -/
def zoneText (offset : Int) : ByteSeq :=
  if offset = 0 then [90]
  else
    let zone := offset.tdiv 60
    let sign : ByteSeq := if zone < 0 then [45] else [43]
    let zone := if zone < 0 then -zone else zone
    sign ++ padDigits (zone.tdiv 60).toNat 2 ++ [58] ++ padDigits (zone.tmod 60).toNat 2

/-- The text `AppendFormat` produces for the layout `2006-01-02T15:04:05.9…9Z07:00` with `n`
nines in its fraction. -/
def rfc3339Text (c : Clock) (n : Nat) : ByteSeq :=
  padDigits c.year 4 ++ [45] ++ padDigits c.month 2 ++ [45] ++ padDigits c.day 2 ++ [84]
    ++ padDigits c.hour 2 ++ [58] ++ padDigits c.minute 2 ++ [58] ++ padDigits c.second 2
    ++ appendNano c.nanosecond n ++ zoneText c.offset

/-- The `time.Time` with the given readings and position on the time line, without a monotonic
reading. `Format` covers the two layouts entry.go passes to `AppendFormat` itself, the one of
`Time` with three nines and `time.RFC3339Nano` with nine; other layouts are outside this model
and give the empty text. -/
def Clock.toTime (c : Clock) (wall : Int) : GoTime :=
  { Format := fun layout =>
      if layout = ascii "2006-01-02T15:04:05.999Z07:00" then rfc3339Text c 3
      else if layout = RFC3339Nano then rfc3339Text c 9
      else []
    wall := wall
    mono := none }

/-- The instant 2024-01-01T00:00:00.123456789Z. -/
def sampleTime : GoTime :=
  Clock.toTime { year := 2024, month := 1, day := 1, hour := 0, minute := 0, second := 0,
                 nanosecond := 123456789, offset := 0 } 1704067200123456789

/-- The smallest `time.Duration`. -/
def minDuration : Int := -(2 ^ 63)

/-- The largest `time.Duration`. -/
def maxDuration : Int := 2 ^ 63 - 1

/-- The method `t.After(u)` of package time: on the monotonic readings when both values carry
one, otherwise on the wall clock. -/
def GoTime.After (t u : GoTime) : GoBool :=
  match t.mono, u.mono with
  | some a, some b => decide (b < a)
  | _, _ => decide (u.wall < t.wall)

/-- The method `t.Sub(u)` of package time: the difference of the two readings, which is
`maxDuration` or `minDuration` when it does not fit a `time.Duration`. -/
def GoTime.Sub (t u : GoTime) : Int :=
  let d : Int := match t.mono, u.mono with
    | some a, some b => a - b
    | _, _ => t.wall - u.wall
  if d < minDuration then minDuration else if maxDuration < d then maxDuration else d

/-- The method `TimeDiff` of entry.go. -/
def Entry.TimeDiff (e : Option Entry) (key : ByteSeq) (t start : GoTime) :
    Except Fault (Option Entry) :=
  match e with
  | none => Except.ok none
  | some e => do
    let d : GoInt := if t.After start then t.Sub start else 0
    let e := { e with buf := e.buf ++ [44, 34] }
    let e := { e with buf := e.buf ++ key }
    let e := { e with buf := e.buf ++ [34, 58] }
    let e := { e with buf := appendInt e.buf (d.tdiv 1000000) }
    let n := d.tmod 1000000
    if n ≠ 0 then do
      let tmp ← durFraction n
      pure (some { e with buf := e.buf ++ tmp })
    else
      pure (some e)

/-! ## Console and logfmt writers -/

/-- Modelled from the spec: the declaration of `FormatterArgs` is outside `src/`; this is one
of its key/value triples, with the three fields console.go reads: the key, the value text and
the value-type tag. -/
structure KeyValue where
  Key : ByteSeq
  Value : ByteSeq
  ValueType : UInt8

/-- Modelled from the spec: the declaration of `FormatterArgs` is outside `src/`; these are the
fields console.go reads: six strings and the ordered key/value triples. -/
structure FormatterArgs where
  Time : ByteSeq
  Level : ByteSeq
  Caller : ByteSeq
  Goid : ByteSeq
  Stack : ByteSeq
  Message : ByteSeq
  KeyValues : List KeyValue

/-- An `io.Writer` seen through the calls made on it: the byte slices passed to `Write`, in
order. -/
abbrev Output := List ByteSeq

/-- The struct `ConsoleWriter` of console.go, without the field `Writer`, which `write` and
`format` do not read: they are handed the destination `out`. A custom formatter is given the
destination and the parsed record and may fault. -/
structure ConsoleWriter where
  ColorOutput : GoBool
  QuoteString : GoBool
  EndWithMessage : GoBool
  Formatter : Option (Output → FormatterArgs → Except Fault Output)

/-- The functions `strconv.Quote` and `strconv.AppendQuote` of the Go library: a double quote,
the escaped text, a double quote. The escaping of the text between the quotes is the parameter
`body`. -/
def strconvQuote (body : ByteSeq → ByteSeq) (s : ByteSeq) : ByteSeq := [34] ++ body s ++ [34]

/-- The constant `Reset` of `format`. -/
def Reset : ByteSeq := ascii "\x1b[0m"
/-- The constant `Red` of `format`. -/
def Red : ByteSeq := ascii "\x1b[31m"
/-- The constant `Green` of `format`. -/
def Green : ByteSeq := ascii "\x1b[32m"
/-- The constant `Yellow` of `format`. -/
def Yellow : ByteSeq := ascii "\x1b[33m"
/-- The constant `Magenta` of `format`. -/
def Magenta : ByteSeq := ascii "\x1b[35m"
/-- The constant `Cyan` of `format`. -/
def Cyan : ByteSeq := ascii "\x1b[36m"
/-- The constant `Gray` of `format`. -/
def Gray : ByteSeq := ascii "\x1b[90m"
/-- The constant `HiRed` of `format`. -/
def HiRed : ByteSeq := ascii "\x1b[91m"
/-- The constant `HiBlue` of `format`. -/
def HiBlue : ByteSeq := ascii "\x1b[94m"
/-- The constant `HiCyan` of `format`. -/
def HiCyan : ByteSeq := ascii "\x1b[96m"

/-- The `switch args.Level` of `format`: the colour and the three-letter code. -/
def levelStyle (level : ByteSeq) : ByteSeq × ByteSeq :=
  if level = ascii "trace" then (Magenta, ascii "TRC")
  else if level = ascii "debug" then (Yellow, ascii "DBG")
  else if level = ascii "info" then (Green, ascii "INF")
  else if level = ascii "warn" then (Red, ascii "WRN")
  else if level = ascii "error" then (Red, ascii "ERR")
  else if level = ascii "fatal" then (Red, ascii "FTL")
  else if level = ascii "panic" then (Red, ascii "PNC")
  else (Gray, ascii "???")

/-- The loop over `args.KeyValues` in the colour branch of `format`. -/
def colorKeyValues (quote : GoBool) (body : ByteSeq → ByteSeq) : List KeyValue → ByteSeq → ByteSeq
  | [], b => b
  | kv :: rest, b =>
    let value := if quote && kv.ValueType == 115 then strconvQuote body kv.Value else kv.Value
    let b :=
      if kv.Key = ascii "error" ∧ value ≠ ascii "null" then
        b ++ [32] ++ HiRed ++ kv.Key ++ [61] ++ value ++ Reset
      else
        b ++ [32] ++ HiBlue ++ kv.Key ++ [61] ++ HiCyan ++ value ++ Reset
    colorKeyValues quote body rest b

/-- The loop over `args.KeyValues` in the branch of `format` without colours. -/
def plainKeyValues (quote : GoBool) (body : ByteSeq → ByteSeq) : List KeyValue → ByteSeq → ByteSeq
  | [], b => b
  | kv :: rest, b =>
    let b :=
      if quote && kv.ValueType == 115 then
        let b := b ++ [32]
        let b := b ++ kv.Key
        let b := b ++ [61]
        b ++ strconvQuote body kv.Value
      else
        b ++ [32] ++ kv.Key ++ [61] ++ kv.Value
    plainKeyValues quote body rest b

/-- The part of `format` from the level switch to the message: the contents of the buffer
before the line break is added. -/
def ConsoleWriter.line (w : ConsoleWriter) (body : ByteSeq → ByteSeq) (args : FormatterArgs) :
    ByteSeq :=
  let color := (levelStyle args.Level).1
  let three := (levelStyle args.Level).2
  let b : ByteSeq := []
  if w.ColorOutput then
    let b := b ++ Gray ++ args.Time ++ Reset ++ [32] ++ color ++ three ++ Reset ++ [32]
    let b :=
      if args.Caller ≠ [] then b ++ args.Goid ++ [32] ++ args.Caller ++ [32] ++ Cyan ++ [62] ++ Reset
      else b ++ Cyan ++ [62] ++ Reset
    let b := if !w.EndWithMessage then b ++ [32] ++ args.Message else b
    let b := colorKeyValues w.QuoteString body args.KeyValues b
    if w.EndWithMessage then b ++ Reset ++ [32] ++ args.Message else b
  else
    let b := b ++ args.Time ++ [32] ++ three ++ [32]
    let b :=
      if args.Caller ≠ [] then b ++ args.Goid ++ [32] ++ args.Caller ++ [32, 62]
      else b ++ [62]
    let b := if !w.EndWithMessage then b ++ [32] ++ args.Message else b
    let b := plainKeyValues w.QuoteString body args.KeyValues b
    if w.EndWithMessage then b ++ [32] ++ args.Message else b

/-- The method `format` of console.go: the line, a line break if the line does not end with
one, the stack with a line break if it does not end with one, and one `Write` of the result
on `out`. -/
def ConsoleWriter.format (w : ConsoleWriter) (body : ByteSeq → ByteSeq) (out : Output)
    (args : FormatterArgs) : Except Fault Output := do
  let b := w.line body args
  let last ← index b ((b.length : Int) - 1)
  let b := if last ≠ 10 then b ++ [10] else b
  let b ← (if args.Stack ≠ [] then do
      let b := b ++ args.Stack
      let last ← index args.Stack ((args.Stack.length : Int) - 1)
      pure (if last ≠ 10 then b ++ [10] else b)
    else pure b)
  pure (out ++ [b])

/-- The method `write` of console.go. The scanner `parseFormatterArgs` is declared outside
`src/` and is a parameter: it fills a zero `FormatterArgs` from a copy of `p`. -/
def ConsoleWriter.write (w : ConsoleWriter) (body : ByteSeq → ByteSeq)
    (parseFormatterArgs : ByteSeq → FormatterArgs) (out : Output) (p : ByteSeq) :
    Except Fault Output :=
  let b : ByteSeq := [] ++ p
  let args := parseFormatterArgs b
  if args.Time = [] then pure (out ++ [p])
  else
    match w.Formatter with
    | some f => f out args
    | none => w.format body out args

/-- The struct `LogfmtFormatter` of console.go. -/
structure LogfmtFormatter where
  TimeField : ByteSeq

/-- The loop over `args.KeyValues` of `LogfmtFormatter.Formatter` with its switch on the
value-type tag: `t`, `f`, `n`, `S`, and `s` falling through to the default. -/
def logfmtKeyValues (body : ByteSeq → ByteSeq) : List KeyValue → ByteSeq → ByteSeq
  | [], b => b
  | kv :: rest, b =>
    let b :=
      if kv.ValueType = 116 then b ++ kv.Key ++ [32]
      else if kv.ValueType = 102 then b ++ kv.Key ++ ascii "=false "
      else if kv.ValueType = 110 then b ++ kv.Key ++ [61] ++ kv.Value ++ [32]
      else if kv.ValueType = 83 then b ++ kv.Key ++ [61] ++ kv.Value ++ [32]
      else
        let b := b ++ kv.Key
        let b := b ++ [61]
        let b := b ++ strconvQuote body kv.Value
        b ++ [32]
    logfmtKeyValues body rest b

/-- The method `Formatter` of `LogfmtFormatter`. -/
def LogfmtFormatter.Formatter (f : LogfmtFormatter) (body : ByteSeq → ByteSeq) (out : Output)
    (args : FormatterArgs) : Except Fault Output :=
  let b : ByteSeq := []
  let b := b ++ f.TimeField ++ [61] ++ args.Time ++ [32]
  let b :=
    if args.Level ≠ [] ∧ args.Level.head? ≠ some 63 then b ++ ascii "level=" ++ args.Level ++ [32]
    else b
  let b :=
    if args.Caller ≠ [] then
      let b := b ++ ascii "goid=" ++ args.Goid ++ ascii " caller="
      let b := b ++ strconvQuote body args.Caller
      b ++ [32]
    else b
  let b :=
    if args.Stack ≠ [] then
      let b := b ++ ascii "stack="
      let b := b ++ strconvQuote body args.Stack
      b ++ [32]
    else b
  let b := logfmtKeyValues body args.KeyValues b
  let b := b ++ strconvQuote body args.Message
  let b := b ++ [10]
  pure (out ++ [b])

/-- A parsed record with every field empty. -/
def emptyArgs : FormatterArgs :=
  { Time := [], Level := [], Caller := [], Goid := [], Stack := [], Message := [], KeyValues := [] }

/-- A console writer with every option off and no custom formatter. -/
def plainConsole : ConsoleWriter :=
  { ColorOutput := false, QuoteString := false, EndWithMessage := false, Formatter := none }

/-- A parsed record of level `warn` with a caller and two key/value pairs. -/
def warnArgs : FormatterArgs :=
  { Time := ascii "2024-01-01T00:00:00Z", Level := ascii "warn", Caller := ascii "main.go:3",
    Goid := ascii "7", Stack := [], Message := ascii "hi",
    KeyValues := [{ Key := ascii "user", Value := ascii "ann", ValueType := 115 },
                  { Key := ascii "n", Value := ascii "1", ValueType := 110 }] }

/-- A parsed record whose message ends with two line breaks. -/
def doubledArgs : FormatterArgs :=
  { emptyArgs with Time := ascii "T", Level := ascii "info", Message := ascii "a\n\n" }

/-- A parsed record of level `error` with a stack that ends with a line break. -/
def stackArgs : FormatterArgs :=
  { emptyArgs with Time := ascii "T", Level := ascii "error", Message := ascii "boom",
                   Stack := ascii "main.main()\n\tmain.go:3\n" }

/-- A parsed record with one key/value pair whose type tag is `a`. -/
def rawArgs : FormatterArgs :=
  { emptyArgs with Time := ascii "T",
                   KeyValues := [{ Key := ascii "k", Value := ascii "[1]", ValueType := 97 }] }

/-! ## xid: the base-32 text of a 12-byte id -/

/-- The constant `encoding` of xid.go. -/
def encoding : ByteSeq := ascii "0123456789abcdefghijklmnopqrstuv"

/-- The table `dec` as `init` of xid.go fills it: `0xFF` everywhere, then for `i` from 0 to 31
in order `dec[encoding[i]] = byte(i)`. -/
def dec (c : UInt8) : UInt8 :=
  (List.range 32).foldl (fun d i => if encoding.getD i 0 = c then UInt8.ofNat i else d) 255

/-- The Go expression `x << k` on a byte: the shifted value modulo 256. -/
def shl (x : UInt8) (k : Nat) : UInt8 := UInt8.ofNat (x.toNat <<< k % 256)

/-- The Go expression `x >> k` on a byte. -/
def shr (x : UInt8) (k : Nat) : UInt8 := UInt8.ofNat (x.toNat >>> k)

/-- The Go expression `x | y` on bytes. -/
def bor (x y : UInt8) : UInt8 := UInt8.ofNat (x.toNat ||| y.toNat)

/-- The Go expression `x & y` on bytes. -/
def band (x y : UInt8) : UInt8 := UInt8.ofNat (x.toNat &&& y.toNat)

/-- Bit `i` of a byte. -/
def bit (x : UInt8) (i : Nat) : Bool := x.toNat.testBit i

/-- The type `ID` of xid.go, `[rawLen]byte` with `rawLen = 12`. -/
structure ID where
  b0 : UInt8
  b1 : UInt8
  b2 : UInt8
  b3 : UInt8
  b4 : UInt8
  b5 : UInt8
  b6 : UInt8
  b7 : UInt8
  b8 : UInt8
  b9 : UInt8
  b10 : UInt8
  b11 : UInt8
  deriving DecidableEq

/-- The variable `nilID`, the zero id. -/
def nilID : ID :=
  { b0 := 0, b1 := 0, b2 := 0, b3 := 0, b4 := 0, b5 := 0, b6 := 0, b7 := 0, b8 := 0, b9 := 0,
    b10 := 0, b11 := 0 }

/-- The slice `id[:]`. -/
def ID.slice (id : ID) : ByteSeq :=
  [id.b0, id.b1, id.b2, id.b3, id.b4, id.b5, id.b6, id.b7, id.b8, id.b9, id.b10, id.b11]

/-- The index expression `encoding[x]` for a byte `x`, with its bounds check. -/
def encodingAt (x : UInt8) : Except Fault UInt8 := index encoding (x.toNat : Int)

/-- The function `encode` of xid.go on a destination of 20 bytes: the contents of `dst` after
the call. In Go `&` binds like `<<` and tighter than `|`. -/
def encode (id : ByteSeq) : Except Fault ByteSeq :=
  match id with
  | i0 :: i1 :: i2 :: i3 :: i4 :: i5 :: i6 :: i7 :: i8 :: i9 :: i10 :: i11 :: _ => do
    let d19 ← encodingAt (band (shl i11 4) 31)
    let d18 ← encodingAt (band (shr i11 1) 31)
    let d17 ← encodingAt (bor (shr i11 6) (band (shl i10 2) 31))
    let d16 ← encodingAt (shr i10 3)
    let d15 ← encodingAt (band i9 31)
    let d14 ← encodingAt (bor (shr i9 5) (band (shl i8 3) 31))
    let d13 ← encodingAt (band (shr i8 2) 31)
    let d12 ← encodingAt (bor (shr i8 7) (band (shl i7 1) 31))
    let d11 ← encodingAt (bor (shr i7 4) (band (shl i6 4) 31))
    let d10 ← encodingAt (band (shr i6 1) 31)
    let d9 ← encodingAt (bor (shr i6 6) (band (shl i5 2) 31))
    let d8 ← encodingAt (shr i5 3)
    let d7 ← encodingAt (band i4 31)
    let d6 ← encodingAt (bor (shr i4 5) (band (shl i3 3) 31))
    let d5 ← encodingAt (band (shr i3 2) 31)
    let d4 ← encodingAt (bor (shr i3 7) (band (shl i2 1) 31))
    let d3 ← encodingAt (bor (shr i2 4) (band (shl i1 4) 31))
    let d2 ← encodingAt (band (shr i1 1) 31)
    let d1 ← encodingAt (bor (shr i1 6) (band (shl i0 2) 31))
    let d0 ← encodingAt (shr i0 3)
    pure [d0, d1, d2, d3, d4, d5, d6, d7, d8, d9, d10, d11, d12, d13, d14, d15, d16, d17,
          d18, d19]
  | _ => Except.error Fault.indexOutOfRange

/-- The method `String` of `ID`. -/
def ID.String (id : ID) : Except Fault ByteSeq := encode id.slice

/-- The function `decode` of xid.go: the id after the call and the result. When the check of
the last character fails only `id[11]` has been written. -/
def decode (id : ID) (src : ByteSeq) : Except Fault (ID × GoBool) :=
  match src with
  | s0 :: s1 :: s2 :: s3 :: s4 :: s5 :: s6 :: s7 :: s8 :: s9 :: s10 :: s11 :: s12 :: s13 :: s14
      :: s15 :: s16 :: s17 :: s18 :: s19 :: _ => do
    let id := { id with b11 := bor (bor (shl (dec s17) 6) (shl (dec s18) 1)) (shr (dec s19) 4) }
    let c ← encodingAt (band (shl id.b11 4) 31)
    if c ≠ s19 then
      pure (id, false)
    else
      let id := { id with b10 := bor (shl (dec s16) 3) (shr (dec s17) 2) }
      let id := { id with b9 := bor (shl (dec s14) 5) (dec s15) }
      let id := { id with
        b8 := bor (bor (shl (dec s12) 7) (shl (dec s13) 2)) (shr (dec s14) 3) }
      let id := { id with b7 := bor (shl (dec s11) 4) (shr (dec s12) 1) }
      let id := { id with
        b6 := bor (bor (shl (dec s9) 6) (shl (dec s10) 1)) (shr (dec s11) 4) }
      let id := { id with b5 := bor (shl (dec s8) 3) (shr (dec s9) 2) }
      let id := { id with b4 := bor (shl (dec s6) 5) (dec s7) }
      let id := { id with
        b3 := bor (bor (shl (dec s4) 7) (shl (dec s5) 2)) (shr (dec s6) 3) }
      let id := { id with b2 := bor (shl (dec s3) 4) (shr (dec s4) 1) }
      let id := { id with
        b1 := bor (bor (shl (dec s1) 6) (shl (dec s2) 1)) (shr (dec s3) 4) }
      let id := { id with b0 := bor (shl (dec s0) 3) (shr (dec s1) 2) }
      pure (id, true)
  | _ => Except.error Fault.indexOutOfRange

/-- The error `ErrInvalidID`, by its text. -/
def ErrInvalidID : ByteSeq := ascii "invalid ID"

/-- The method `UnmarshalText` of `ID`: the id after the call and the error, `none` for nil. -/
def ID.UnmarshalText (id : ID) (text : ByteSeq) : Except Fault (ID × Option ByteSeq) :=
  if text.length ≠ 20 then pure (id, some ErrInvalidID)
  else if text.any (fun c => dec c == 255) then pure (id, some ErrInvalidID)
  else do
    let r ← decode id text
    if !r.2 then pure (nilID, some ErrInvalidID)
    else pure (r.1, none)

/-- The function `FromString` of xid.go. -/
def FromString (id : ByteSeq) : Except Fault (ID × Option ByteSeq) :=
  ID.UnmarshalText nilID id

/-- An id used in examples. -/
def sampleID : ID :=
  { b0 := 0x4d, b1 := 0x88, b2 := 0xe1, b3 := 0x5b, b4 := 0x60, b5 := 0xf4, b6 := 0x86,
    b7 := 0xe4, b8 := 0x28, b9 := 0x41, b10 := 0x2d, b11 := 0xc9 }

/-- The character `encoding[x]` for an index `x` below 32. -/
def encodingChar (x : UInt8) : UInt8 := encoding.getD x.toNat 0

/-! ## The wire-format scanner -/

/-- Where the scanner is inside a string literal: on plain bytes, just after a backslash, or
inside a `\u` escape with the values of the hexadecimal digits read so far. -/
inductive Esc where
  | plain
  | backslash
  | hex (digits : List Nat)

/-- The states of the scanner's single left-to-right pass over a record. -/
inductive ScanState where
  | start
  | key0 (args : FormatterArgs)
  | inStr (args : FormatterArgs) (key : Option ByteSeq) (acc : ByteSeq) (esc : Esc)
  | colon (args : FormatterArgs) (key : ByteSeq)
  | value0 (args : FormatterArgs) (key : ByteSeq)
  | inNum (args : FormatterArgs) (key : ByteSeq) (acc : ByteSeq)
  | inLit (args : FormatterArgs) (key : ByteSeq) (tag : UInt8) (acc : ByteSeq) (todo : ByteSeq)
  | inRaw (args : FormatterArgs) (key : ByteSeq) (acc : ByteSeq) (depth : Nat) (str : Bool)
      (esc : Bool)
  | next (args : FormatterArgs)
  | closed (args : FormatterArgs)
  | failed

/-- Modelled from the spec: the scanner `parseFormatterArgs` is declared outside `src/`. File a
recovered member: the keys `time`, `level`, `goid`, `caller`, `stack` and `message` fill the
field of that name, every other member is added to the key/value triples, in order. -/
def recordMember (args : FormatterArgs) (key value : ByteSeq) (tag : UInt8) : FormatterArgs :=
  if key = ascii "time" then { args with Time := value }
  else if key = ascii "level" then { args with Level := value }
  else if key = ascii "goid" then { args with Goid := value }
  else if key = ascii "caller" then { args with Caller := value }
  else if key = ascii "stack" then { args with Stack := value }
  else if key = ascii "message" then { args with Message := value }
  else { args with KeyValues := args.KeyValues ++ [{ Key := key, Value := value, ValueType := tag }] }

/-- Modelled from the spec: the scanner `parseFormatterArgs` is declared outside `src/`. One
byte inside a string literal: a quote ends it, a backslash starts an escape, a two-character
escape or a `\uXXXX` escape gives the bytes it denotes, every other byte is copied. A string
that ends is the key when no key is held yet and otherwise the value, tagged `s`. -/
def stepString (args : FormatterArgs) (key : Option ByteSeq) (acc : ByteSeq) (esc : Esc)
    (c : UInt8) : ScanState :=
  match esc with
  | Esc.plain =>
    if c = 34 then
      match key with
      | none => ScanState.colon args acc
      | some k => ScanState.next (recordMember args k acc 115)
    else if c = 92 then ScanState.inStr args key acc Esc.backslash
    else ScanState.inStr args key (acc ++ [c]) Esc.plain
  | Esc.backslash =>
    if c = 117 then ScanState.inStr args key acc (Esc.hex [])
    else
      match simpleEscape c with
      | some y => ScanState.inStr args key (acc ++ [y]) Esc.plain
      | none => ScanState.failed
  | Esc.hex ds =>
    match hexVal c with
    | none => ScanState.failed
    | some d =>
      if ds.length = 3 then
        ScanState.inStr args key (acc ++ utf8 ((ds ++ [d]).foldl (fun a x => 16 * a + x) 0))
          Esc.plain
      else ScanState.inStr args key acc (Esc.hex (ds ++ [d]))

/-- Modelled from the spec: the scanner `parseFormatterArgs` is declared outside `src/`. One
byte inside a nested object or array, which is skipped opaquely: only string literals and the
nesting depth are tracked, and the text is kept raw, tagged `S`. -/
def stepRaw (args : FormatterArgs) (key : ByteSeq) (acc : ByteSeq) (depth : Nat) (str esc : Bool)
    (c : UInt8) : ScanState :=
  if str then
    if esc then ScanState.inRaw args key (acc ++ [c]) depth true false
    else if c = 92 then ScanState.inRaw args key (acc ++ [c]) depth true true
    else if c = 34 then ScanState.inRaw args key (acc ++ [c]) depth false false
    else ScanState.inRaw args key (acc ++ [c]) depth true false
  else if c = 34 then ScanState.inRaw args key (acc ++ [c]) depth true false
  else if c = 123 ∨ c = 91 then ScanState.inRaw args key (acc ++ [c]) (depth + 1) false false
  else if c = 125 ∨ c = 93 then
    if depth = 1 then ScanState.next (recordMember args key (acc ++ [c]) 83)
    else ScanState.inRaw args key (acc ++ [c]) (depth - 1) false false
  else ScanState.inRaw args key (acc ++ [c]) depth false false

/-- Modelled from the spec: the scanner `parseFormatterArgs` is declared outside `src/`. One
step of its pass: after `{` the members follow, each a key string, a colon and a value whose
shape is recognised by its leading byte (a quote for a string, `t` and `f` for the boolean
literals, `n` for null, `{` or `[` for a nested value, `-` or a digit for a number, which runs
to the `,` or `}` that ends it), separated by commas and closed by `}`; a newline may follow
the closing brace. Strings are tagged `s`, numbers `n`, the booleans `t` and `f`, null and
nested values `S`. -/
def recordStep (s : ScanState) (c : UInt8) : ScanState :=
  match s with
  | ScanState.start => if c = 123 then ScanState.key0 emptyArgs else ScanState.failed
  | ScanState.key0 args =>
    if c = 34 then ScanState.inStr args none [] Esc.plain else ScanState.failed
  | ScanState.inStr args key acc esc => stepString args key acc esc c
  | ScanState.colon args key => if c = 58 then ScanState.value0 args key else ScanState.failed
  | ScanState.value0 args key =>
    if c = 34 then ScanState.inStr args (some key) [] Esc.plain
    else if c = 116 then ScanState.inLit args key 116 [c] (ascii "rue")
    else if c = 102 then ScanState.inLit args key 102 [c] (ascii "alse")
    else if c = 110 then ScanState.inLit args key 83 [c] (ascii "ull")
    else if c = 123 ∨ c = 91 then ScanState.inRaw args key [c] 1 false false
    else if c = 45 ∨ (48 ≤ c ∧ c ≤ 57) then ScanState.inNum args key [c]
    else ScanState.failed
  | ScanState.inNum args key acc =>
    if c = 44 then ScanState.key0 (recordMember args key acc 110)
    else if c = 125 then ScanState.closed (recordMember args key acc 110)
    else ScanState.inNum args key (acc ++ [c])
  | ScanState.inLit args key tag acc todo =>
    match todo with
    | [] => ScanState.failed
    | t :: rest =>
      if c = t then
        if rest = [] then ScanState.next (recordMember args key (acc ++ [c]) tag)
        else ScanState.inLit args key tag (acc ++ [c]) rest
      else ScanState.failed
  | ScanState.inRaw args key acc depth str esc => stepRaw args key acc depth str esc c
  | ScanState.next args =>
    if c = 44 then ScanState.key0 args
    else if c = 125 then ScanState.closed args
    else ScanState.failed
  | ScanState.closed args => if c = 10 then ScanState.closed args else ScanState.failed
  | ScanState.failed => ScanState.failed

/-- Modelled from the spec: the scanner `parseFormatterArgs` is declared outside `src/`. The
pass over a whole record; a record that does not close, or closes without a `time` value, is
not a structured record. -/
def scanRecord (p : ByteSeq) : Option FormatterArgs :=
  match p.foldl recordStep ScanState.start with
  | ScanState.closed args => if args.Time = [] then none else some args
  | _ => none

/-- Modelled from the spec: the scanner as `write` calls it: the zero `FormatterArgs`, whose
time value is empty, stands for a record that is not structured. -/
def parseFormatterArgs (p : ByteSeq) : FormatterArgs := (scanRecord p).getD emptyArgs

/-- The record the scanner files when the next byte ends the member it is in: after a string,
a literal or a nested value the member is filed already; a number is filed by the comma or the
brace that ends it. -/
def pending : ScanState → Option FormatterArgs
  | ScanState.next args => some args
  | ScanState.inNum args key acc => some (recordMember args key acc 110)
  | _ => none

/-- The six keys the scanner files in fields of their own. -/
def structuralKey (key : ByteSeq) : Prop :=
  key = ascii "time" ∨ key = ascii "level" ∨ key = ascii "goid" ∨ key = ascii "caller"
    ∨ key = ascii "stack" ∨ key = ascii "message"

/-- The exponent of a number text: none, or `e`, a sign and digits. -/
def exponentValue (s : ByteSeq) : Option Int :=
  match s with
  | [] => some 0
  | 101 :: 45 :: ds => if isDigits ds then some (-(digitsValue ds : Int)) else none
  | 101 :: 43 :: ds => if isDigits ds then some (digitsValue ds : Int) else none
  | _ => none

/-- A JSON number text read as an exact rational number: an optional minus sign, a decimal
numeral and an optional exponent; `none` for any other text. -/
def numberValue (s : ByteSeq) : Option ℚ :=
  let neg : Bool := s.head? == some 45
  let body := if neg then s.drop 1 else s
  match decimalValue (body.takeWhile (fun c => c != 101)),
      exponentValue (body.dropWhile (fun c => c != 101)) with
  | some m, some x => some ((if neg then -m else m) * (10 : ℚ) ^ x)
  | _, _ => none

/-- The exact value of a float that is not NaN and not infinite. -/
def GoFloat.value : GoFloat → ℚ
  | GoFloat.num neg lead more exp =>
    if neg then -(GoFloat.num neg lead more exp).abs else (GoFloat.num neg lead more exp).abs
  | _ => 0

/-- A scalar value the encoder supports: a string, a byte string, a signed or an unsigned
64-bit integer, a 64-bit float, a boolean. -/
inductive Scalar where
  | str (v : ByteSeq)
  | bytes (v : ByteSeq)
  | int (i : Int)
  | uint (n : Nat)
  | float (f : GoFloat)
  | bool (b : Bool)

/-- The typed field-append method of entry.go for a scalar: `Str`, `Bytes`, `Int64`, `Uint64`,
`Float64` or `Bool`. -/
def Scalar.append (x : Scalar) (e : Option Entry) (key : ByteSeq) : Option Entry :=
  match x with
  | Scalar.str v => Entry.Str e key v
  | Scalar.bytes v => Entry.Bytes e key v
  | Scalar.int i => Entry.Int64 e key i
  | Scalar.uint n => Entry.Uint64 e key n
  | Scalar.float f => Entry.Float64 e key f
  | Scalar.bool b => Entry.Bool e key b

/-- What it means that the triple `kv` recovers the scalar `x`: the same text with the string
tag for strings and byte strings, a number text with the same value for integers and for
floats other than NaN and the infinities, the fixed strings `NaN`, `+Inf` and `-Inf` for
these, and the literal with its tag for a boolean. -/
def Scalar.recovered (x : Scalar) (kv : KeyValue) : Prop :=
  match x with
  | Scalar.str v => kv.Value = v ∧ kv.ValueType = 115
  | Scalar.bytes v => kv.Value = v ∧ kv.ValueType = 115
  | Scalar.int i => numberValue kv.Value = some (i : ℚ) ∧ kv.ValueType = 110
  | Scalar.uint n => numberValue kv.Value = some (n : ℚ) ∧ kv.ValueType = 110
  | Scalar.float GoFloat.nan => kv.Value = ascii "NaN" ∧ kv.ValueType = 115
  | Scalar.float (GoFloat.inf false) => kv.Value = ascii "+Inf" ∧ kv.ValueType = 115
  | Scalar.float (GoFloat.inf true) => kv.Value = ascii "-Inf" ∧ kv.ValueType = 115
  | Scalar.float f => numberValue kv.Value = some f.value ∧ kv.ValueType = 110
  | Scalar.bool true => kv.Value = ascii "true" ∧ kv.ValueType = 116
  | Scalar.bool false => kv.Value = ascii "false" ∧ kv.ValueType = 102

/-- An entry whose buffer holds the opening brace and a time field, as a logger hands it to
the field-append methods. -/
def timedEntry : Entry :=
  { buf := ascii "\x7b\"time\":\"2024-01-01T00:00:00Z\"", Level := Level.InfoLevel, w := 1 }

/-! ## Powers of two (package math) -/

/-- The constant `bitSize` of entropy.go, `32 << (^uint(0) >> 63)`, where `int` has 64 bits. -/
def bitSize : Nat := 32 <<< ((2 ^ 64 - 1) >>> 63)

/-- The constant `maxintHeadBit` of entropy.go. -/
def maxintHeadBit : Int := ((1 <<< (bitSize - 2) : Nat) : Int)

/-- The function `IsPowerOfTwo` of entropy.go. -/
def IsPowerOfTwo (n : Int) : GoBool :=
  decide (n > 0) && decide (Int.land n (wrapInt64 (n - 1)) = 0)

/-- The five statements `n |= n >> 1` … `n |= n >> 16` that `CeilToPowerOfTwo` and
`FloorToPowerOfTwo` share. -/
def smear (n : Int) : Int :=
  let n := Int.lor n (n >>> 1)
  let n := Int.lor n (n >>> 2)
  let n := Int.lor n (n >>> 4)
  let n := Int.lor n (n >>> 8)
  let n := Int.lor n (n >>> 16)
  n

/-- The function `CeilToPowerOfTwo` of entropy.go on a 64-bit `int`; the error is the value of
its `panic`. -/
def CeilToPowerOfTwo (n : Int) : Except ByteSeq Int :=
  if Int.land n maxintHeadBit ≠ 0 ∧ n > maxintHeadBit then
    Except.error (ascii "argument is too large")
  else if n ≤ 2 then
    Except.ok 2
  else
    let n := wrapInt64 (n - 1)
    let n := smear n
    let n := wrapInt64 (n + 1)
    Except.ok n

/-- The function `FloorToPowerOfTwo` of entropy.go on a 64-bit `int`. -/
def FloorToPowerOfTwo (n : Int) : Int :=
  if n ≤ 2 then n
  else
    let n := smear n
    wrapInt64 (n - (n >>> 1))

/-! ## Times as Unix timestamps -/

/-- Modelled from the spec: the constants `TimeFormatUnix`, `TimeFormatUnixMs` and
`TimeFormatUnixWithMs` are declared outside `src/`; a `timefmt` argument is given here by the
case it selects in the switch of `TimeFormat`: one of the three constants, or any other string,
which is the layout handed to `AppendFormat`. -/
inductive Timefmt where
  | TimeFormatUnix
  | TimeFormatUnixMs
  | TimeFormatUnixWithMs
  | layout (l : ByteSeq)

/-- The method `t.Unix()` of package time: the whole seconds since the Unix epoch. -/
def GoTime.Unix (t : GoTime) : Int := t.wall / 1000000000

/-- The method `t.UnixNano()` of package time: the nanoseconds since the Unix epoch as a 64-bit
integer. -/
def GoTime.UnixNano (t : GoTime) : Int := wrapInt64 t.wall

/-- The method `TimeFormat` of entry.go. -/
def Entry.TimeFormat (e : Option Entry) (key : ByteSeq) (timefmt : Timefmt) (t : GoTime) :
    Option Entry :=
  match e with
  | none => none
  | some e =>
    let e := { e with buf := e.buf ++ [44, 34] }
    let e := { e with buf := e.buf ++ key }
    let e := { e with buf := e.buf ++ [34, 58] }
    match timefmt with
    | Timefmt.TimeFormatUnix =>
      some { e with buf := appendInt e.buf t.Unix }
    | Timefmt.TimeFormatUnixMs =>
      some { e with buf := appendInt e.buf (t.UnixNano.tdiv 1000000) }
    | Timefmt.TimeFormatUnixWithMs =>
      let e := { e with buf := appendInt e.buf t.Unix }
      let e := { e with buf := e.buf ++ [46] }
      some { e with buf := appendInt e.buf ((t.UnixNano.tdiv 1000000).tmod 1000) }
    | Timefmt.layout l =>
      let e := { e with buf := e.buf ++ [34] }
      let e := { e with buf := e.buf ++ t.Format l }
      some { e with buf := e.buf ++ [34] }

/-- The instant at the given number of nanoseconds after 1970-01-01T00:00:00Z, when that
number is below one minute. -/
def afterEpoch (ns : Nat) : GoTime :=
  Clock.toTime { year := 1970, month := 1, day := 1, hour := 0, minute := 0,
                 second := ns / 1000000000, nanosecond := ns % 1000000000, offset := 0 } ns

/-! ## The field marshaled through reflection -/

/-- The value handed to `Interface`, seen through what the method asks of it: `marshaler` is
the result of the type assertion `i.(ObjectMarshaler)`, the interface value handed on to
`Object` when the dynamic type of `i` implements the interface, and `json` is what the generic
serializer makes of `i`, as in `AnyValue`. -/
structure InterfaceValue where
  marshaler : Option (Iface Marshaler)
  json : Except ByteSeq ByteSeq

/-- The method `Interface` of entry.go; its statements after the type assertion are those of
the `default` branch of `Any`. -/
def Entry.Interface (e : Option Entry) (key : ByteSeq) (i : InterfaceValue) :
    Except Fault (Option Entry) :=
  match e with
  | none => pure none
  | some e =>
    match i.marshaler with
    | some o => Entry.Object (some e) key o
    | none => anyDefault e key i.json

/-- A non-nil value handed to `Any`, as `Interface` sees the same value. -/
def AnyValue.toInterface (v : AnyValue) : InterfaceValue :=
  { marshaler := v.marshaler.map Iface.val, json := v.json }

/-- Run the calls of a body on the entry a constructor returned; on a nil entry every call
returns at once. -/
def Body.apply (b : Body) (e : Option Entry) : Except Fault (Option Entry) :=
  match e with
  | none => pure none
  | some e => do
    let r ← Body.run b e
    pure (some r)

/-! ## xid: comparing ids and their texts -/

/-- The function `bytes.Compare` of package bytes, which is also how Go compares two strings
byte by byte: -1, 0 or +1 as the first argument is lexicographically less than, equal to or
greater than the second. -/
def bytesCompare : ByteSeq → ByteSeq → Int
  | [], [] => 0
  | [], _ :: _ => -1
  | _ :: _, [] => 1
  | a :: s, b :: t => if a < b then -1 else if b < a then 1 else bytesCompare s t

/-- The method `Compare` of `ID`. -/
def ID.Compare (id other : ID) : Int := bytesCompare id.slice other.slice

/-- The value `binary.BigEndian.Uint32(id[0:4])` that the method `Time` of `ID` reads: the
seconds since the Unix epoch in the first four bytes. -/
def ID.seconds (id : ID) : Nat :=
  id.b0.toNat * 2 ^ 24 + id.b1.toNat * 2 ^ 16 + id.b2.toNat * 2 ^ 8 + id.b3.toNat

/-- The twenty indices `encode` looks up in `encoding`, in the order of the text. -/
def ID.indices (id : ID) : ByteSeq :=
  [shr id.b0 3, bor (shr id.b1 6) (band (shl id.b0 2) 31), band (shr id.b1 1) 31,
   bor (shr id.b2 4) (band (shl id.b1 4) 31), bor (shr id.b3 7) (band (shl id.b2 1) 31),
   band (shr id.b3 2) 31, bor (shr id.b4 5) (band (shl id.b3 3) 31), band id.b4 31,
   shr id.b5 3, bor (shr id.b6 6) (band (shl id.b5 2) 31), band (shr id.b6 1) 31,
   bor (shr id.b7 4) (band (shl id.b6 4) 31), bor (shr id.b8 7) (band (shl id.b7 1) 31),
   band (shr id.b8 2) 31, bor (shr id.b9 5) (band (shl id.b8 3) 31), band id.b9 31,
   shr id.b10 3, bor (shr id.b11 6) (band (shl id.b10 2) 31), band (shr id.b11 1) 31,
   band (shl id.b11 4) 31]

/-- The number a list of digits to the given base denotes, the first digit being the
highest. -/
def digitsNumber (base : Nat) : ByteSeq → Nat
  | [] => 0
  | x :: l => x.toNat * base ^ l.length + digitsNumber base l

/-- The comparison of two numbers as -1, 0 or +1. -/
def compareNat (m n : Nat) : Int := if m < n then -1 else if n < m then 1 else 0

/-! ## Metadata attached to a context (package metadata) -/

/-- A value of type `any` as `MergeContext` and `MergeGenericContext` look at it: the nil
interface, a string, or a value of another dynamic type, given by a number. -/
inductive MdValue where
  | nil
  | str (s : ByteSeq)
  | other (n : Nat)
  deriving DecidableEq, Repr

/-- The contents of a Go map from keys of type `K` to `any`. Its keys are distinct. A `range`
loop visits the entries once each in an order the language leaves open; here that is the order
of the list, which is arbitrary. -/
abbrev MapContents (K : Type) := AList (fun _ : K => MdValue)

/-- The maps made so far: a map value refers to the contents at its address, and `next` is the
address the next `make` uses. -/
structure MapHeap (K : Type) where
  next : Nat
  maps : Nat → MapContents K

/-- A map value such as a `Metadata`: the nil map, or the address of a map made before. -/
abbrev MapRef := Option Nat

/-- The contents a map value refers to; the nil map reads as an empty map. -/
def MapHeap.contents {K : Type} (h : MapHeap K) (m : MapRef) : MapContents K :=
  match m with
  | none => ∅
  | some i => h.maps i

/-- The call `make(Metadata, n)`: the heap with a new empty map, and its address. -/
def MapHeap.make {K : Type} (h : MapHeap K) : MapHeap K × Nat :=
  ({ next := h.next + 1, maps := Function.update h.maps h.next ∅ }, h.next)

/-- The statement `m[k] = v` for the map at address `i`. -/
def MapHeap.assign {K : Type} [DecidableEq K] (h : MapHeap K) (i : Nat) (k : K) (v : MdValue) :
    MapHeap K :=
  { h with maps := Function.update h.maps i ((h.maps i).insert k v) }

/-- The statement `delete(m, k)` for the map at address `i`. -/
def MapHeap.delete {K : Type} [DecidableEq K] (h : MapHeap K) (i : Nat) (k : K) : MapHeap K :=
  { h with maps := Function.update h.maps i ((h.maps i).erase k) }

/-- The key of a value stored in a context: `metadataContextKey{}`, `genericContextKey[K]{}`
for the one key type `K` in use, or another key. -/
inductive CtxKey where
  | metadataContextKey
  | genericContextKey
  | other (n : Nat)
  deriving DecidableEq, Repr

/-- A value stored in a context, as the type assertions of the package classify it: a
`Metadata`, a `Generic[K]`, or a value of another type. -/
inductive CtxValue where
  | metadata (m : MapRef)
  | generic (m : MapRef)
  | other (n : Nat)
  deriving DecidableEq, Repr

/-- A non-nil `context.Context` as far as its method `Value` goes: `context.Background()` or
`context.WithValue(parent, key, val)`. -/
inductive Context where
  | background
  | withValue (parent : Context) (key : CtxKey) (val : CtxValue)
  deriving DecidableEq, Repr

/-- The method `Value` of a context: the value stored last under the key, `none` for nil. -/
def Context.Value : Context → CtxKey → Option CtxValue
  | Context.background, _ => none
  | Context.withValue parent key val, k => if k = key then some val else parent.Value k

/-- The function `NewContext` of metadata.go. -/
def metadataNewContext (ctx : Context) (md : MapRef) : Context :=
  Context.withValue ctx CtxKey.metadataContextKey (CtxValue.metadata md)

/-- The function `FromContext` of metadata.go. -/
def FromContext (ctx : Context) : MapRef × GoBool :=
  match ctx.Value CtxKey.metadataContextKey with
  | some (CtxValue.metadata md) => (md, true)
  | _ => (none, false)

/-- The function `MergeContext` of metadata.go: the heap after the call and the context it
returns. A nil `ctx` is `none`. -/
def MergeContext (h : MapHeap ByteSeq) (ctx : Option Context) (patchMd : MapRef)
    (overwrite : GoBool) : MapHeap ByteSeq × Context :=
  let ctx := ctx.getD Context.background
  let md := (FromContext ctx).1
  let (h, cmd) := h.make
  let h := (h.contents md).entries.foldl (fun h kv => h.assign cmd kv.1 kv.2) h
  let h := (h.contents patchMd).entries.foldl (fun h kv =>
    if ((h.maps cmd).lookup kv.1).isSome && !overwrite then h
    else if kv.2 ≠ MdValue.str [] then h.assign cmd kv.1 kv.2
    else h.delete cmd kv.1) h
  (h, Context.withValue ctx CtxKey.metadataContextKey (CtxValue.metadata (some cmd)))

/-- The function `FromGenericContext` of generic.go. -/
def FromGenericContext (ctx : Context) : MapRef × GoBool :=
  match ctx.Value CtxKey.genericContextKey with
  | some (CtxValue.generic md) => (md, true)
  | _ => (none, false)

/-- The function `MergeGenericContext` of generic.go. -/
def MergeGenericContext {K : Type} [DecidableEq K] (h : MapHeap K) (ctx : Option Context)
    (patchMd : MapRef) (overwrite : GoBool) : MapHeap K × Context :=
  let ctx := ctx.getD Context.background
  let md := (FromGenericContext ctx).1
  let (h, cmd) := h.make
  let h := (h.contents md).entries.foldl (fun h kv => h.assign cmd kv.1 kv.2) h
  let h := (h.contents patchMd).entries.foldl (fun h kv =>
    if ((h.maps cmd).lookup kv.1).isSome && !overwrite then h
    else if kv.2 ≠ MdValue.nil ∧ kv.2 ≠ MdValue.str [] then h.assign cmd kv.1 kv.2
    else h.delete cmd kv.1) h
  (h, Context.withValue ctx CtxKey.genericContextKey (CtxValue.generic (some cmd)))

/-- A heap with two maps of type `Metadata`: at address 0 the map `a: "1", b: "2"`, at address
1 the map `b: "", c: "3", d: nil`. -/
def sampleHeap : MapHeap ByteSeq :=
  { next := 2
    maps := fun i =>
      if i = 0 then
        (AList.insert (ascii "a") (MdValue.str (ascii "1"))
          (AList.insert (ascii "b") (MdValue.str (ascii "2")) ∅))
      else if i = 1 then
        (AList.insert (ascii "b") (MdValue.str [])
          (AList.insert (ascii "c") (MdValue.str (ascii "3"))
            (AList.insert (ascii "d") MdValue.nil ∅)))
      else ∅ }

/-- A context that carries the map at address 0 as its metadata. -/
def sampleContext : Context := metadataNewContext Context.background (some 0)

/-! # Theorems -/

/-! ## The escape engine -/

theorem slice_self (b : ByteSeq) (i : Nat) : slice b i i = [] := by
  simp [slice, List.drop_eq_nil_iff, List.length_take]

theorem slice_succ (b : ByteSeq) (j i : Nat) (hj : j ≤ i) (hi : i < b.length) :
    slice b j (i + 1) = slice b j i ++ [b.getD i 0] := by
  unfold slice
  rw [List.take_succ, List.drop_append_of_le_length (by simp [List.length_take]; omega)]
  simp [List.getD, List.getElem?_eq_getElem hi]

theorem drop_eq_getD_cons (b : ByteSeq) (i : Nat) (hi : i < b.length) :
    b.drop i = b.getD i 0 :: b.drop (i + 1) := by
  rw [List.drop_eq_getElem_cons hi]
  simp [List.getD, List.getElem?_eq_getElem hi]

theorem escByte_of_some {c : UInt8} {r : ByteSeq} (h : escapeCase c = some r) : escByte c = r := by
  simp [escByte, h]

theorem escByte_of_none {c : UInt8} (h : escapeCase c = none) : escByte c = [c] := by
  simp [escByte, h]

/-- The loop of `escapeb`/`escapes` computes the byte-by-byte substitution of the part of the
input not yet scanned, after flushing the pending verbatim segment. -/
theorem escapeLoop_spec (b : ByteSeq) :
    ∀ (k i j : Nat) (buf : ByteSeq), i + k = b.length → j ≤ i →
      (escapeLoop b k i j buf).1 ++ b.drop (escapeLoop b k i j buf).2
        = buf ++ slice b j i ++ (b.drop i).flatMap escByte := by
  intro k
  induction k with
  | zero =>
    intro i j buf hlen _
    have hi : i = b.length := by omega
    subst hi
    simp [escapeLoop, slice]
  | succ k ih =>
    intro i j buf hlen hj
    have hi : i < b.length := by omega
    rw [drop_eq_getD_cons b i hi, List.flatMap_cons]
    unfold escapeLoop
    cases hc : escapeCase (b.getD i 0) with
    | some r =>
      simp only
      rw [ih (i + 1) (i + 1) _ (by omega) (le_refl _), slice_self, escByte_of_some hc]
      simp [List.append_assoc]
    | none =>
      simp only
      rw [ih (i + 1) j buf (by omega) (by omega), slice_succ b j i hj hi, escByte_of_none hc]
      simp [List.append_assoc]

/-- The slow path on a byte slice appends the byte-by-byte substitution. -/
theorem escapeb_eq (e : Entry) (b : ByteSeq) :
    e.escapeb b = { e with buf := e.buf ++ escapeSpec b } := by
  have h := escapeLoop_spec b b.length 0 0 e.buf (by simp) (le_refl _)
  simp only [slice, List.take_zero, List.drop_zero, List.append_nil] at h
  simp [Entry.escapeb, escapeSpec, h]

/-- The slow path on a string appends the byte-by-byte substitution. -/
theorem escapes_eq (e : Entry) (s : ByteSeq) :
    e.escapes s = { e with buf := e.buf ++ escapeSpec s } := by
  have h := escapeLoop_spec s s.length 0 0 e.buf (by simp) (le_refl _)
  simp only [slice, List.take_zero, List.drop_zero, List.append_nil] at h
  simp [Entry.escapes, escapeSpec, h]

/-- The engine's output in closed form: the substitution when a flagged byte occurs, the
input itself otherwise. -/
theorem escOutput_eq (v : ByteSeq) :
    escOutput v = if v.any escapes then escapeSpec v else v := by
  unfold escOutput Entry.string
  split <;> simp [escapes_eq]

/-- The method `string` appends the engine's output, whatever the buffer holds. -/
theorem string_eq (e : Entry) (s : ByteSeq) :
    e.string s = { e with buf := e.buf ++ escOutput s } := by
  rw [escOutput_eq]
  unfold Entry.string
  split <;> simp [escapes_eq]

/-- The method `bytes` appends the same output as `string`. -/
theorem bytes_eq (e : Entry) (b : ByteSeq) :
    e.bytes b = { e with buf := e.buf ++ escOutput b } := by
  rw [escOutput_eq]
  unfold Entry.bytes
  split <;> simp [escapeb_eq]

theorem escapeCase_of_not_reserved {c : UInt8} (h : reserved c = false) : escapeCase c = none := by
  simp only [reserved, escapes, Bool.or_eq_false_iff, beq_eq_false_iff_ne, ne_eq] at h
  simp [escapeCase, h]

theorem escapeSpec_of_not_reserved (v : ByteSeq) (h : ∀ c ∈ v, reserved c = false) :
    escapeSpec v = v := by
  induction v with
  | nil => rfl
  | cons c t ih =>
    have hc := escapeCase_of_not_reserved (h c (List.mem_cons_self c t))
    have ht := ih (fun x hx => h x (List.mem_cons_of_mem c hx))
    unfold escapeSpec at ht ⊢
    rw [List.flatMap_cons, ht, escByte_of_none hc]
    rfl

theorem escOutput_of_not_reserved (v : ByteSeq) (h : ∀ c ∈ v, reserved c = false) :
    escOutput v = v := by
  rw [escOutput_eq]
  split
  · exact escapeSpec_of_not_reserved v h
  · rfl

/-! ## String-valued fields -/

/-- What `Str` does on a non-nil entry. -/
theorem Str_some (e : Entry) (k v : ByteSeq) :
    Entry.Str (some e) k v
      = some { e with buf := e.buf ++ [44, 34] ++ k ++ [34, 58, 34] ++ escOutput v ++ [34] } := by
  simp [Entry.Str, string_eq]

/-- What `Bytes` does on a non-nil entry. -/
theorem Bytes_some (e : Entry) (k v : ByteSeq) :
    Entry.Bytes (some e) k v
      = some { e with buf := e.buf ++ [44, 34] ++ k ++ [34, 58, 34] ++ escOutput v ++ [34] } := by
  simp [Entry.Bytes, bytes_eq]

/-- C1: on a non-nil entry with buffer `b`, `Str(k, v)` returns the entry with level and
writer unchanged and with buffer `b` followed by `,"` `k` `":"` `esc(v)` `"`, where `esc(v)`
is what the escape engine produces for `v`: the byte-by-byte substitution when `v` holds a
byte flagged in the table, and `v` itself otherwise. -/
theorem Str_appends (e : Entry) (k v : ByteSeq) :
    Entry.Str (some e) k v
        = some { buf := e.buf ++ ascii ",\"" ++ k ++ ascii "\":\"" ++ escOutput v ++ ascii "\"",
                 Level := e.Level, w := e.w }
    ∧ escOutput v = (if v.any escapes then escapeSpec v else v) := by
  refine ⟨?_, escOutput_eq v⟩
  rw [Str_some]
  simp [ascii]

/-- C2: at the one-byte input NUL both entry points of the escape engine copy the byte
unchanged, whereas the byte-by-byte substitution (and the `case 0` of the slow path, and the
method `Byte`) gives the six bytes of `\u0000`. -/
theorem escape_nul_copied_verbatim :
    (Entry.bytes sampleEntry [0]).buf = sampleEntry.buf ++ [0]
    ∧ (Entry.string sampleEntry [0]).buf = sampleEntry.buf ++ [0]
    ∧ escapeSpec [0] = ascii "\\u0000"
    ∧ (Entry.escapeb sampleEntry [0]).buf = sampleEntry.buf ++ ascii "\\u0000"
    ∧ Entry.Byte (some sampleEntry) [107] 0
        = some { sampleEntry with buf := sampleEntry.buf ++ ascii ",\"k\":\"\\u0000\"" } := by
  decide

/-- C3: when `v` holds none of the ten reserved bytes, `Bytes(k, v)` and `Str(k, v)` append
the value as a quote, `v` unchanged, and a quote. -/
theorem verbatim_of_no_reserved (e : Entry) (k v : ByteSeq)
    (h : ∀ c ∈ v, reserved c = false) :
    Entry.Bytes (some e) k v
        = some { e with buf := e.buf ++ ascii ",\"" ++ k ++ ascii "\":" ++ ([34] ++ v ++ [34]) }
    ∧ Entry.Str (some e) k v
        = some { e with buf := e.buf ++ ascii ",\"" ++ k ++ ascii "\":" ++ ([34] ++ v ++ [34]) } := by
  simp [Entry.Bytes, Entry.Str, string_eq, bytes_eq, escOutput_of_not_reserved v h, ascii]

theorem verbatim_of_no_reserved_witness :
    (∀ c ∈ ascii "abc", reserved c = false)
    ∧ Entry.Bytes (some sampleEntry) (ascii "k") (ascii "abc")
        = some { sampleEntry with buf := ascii "\x7b,\"k\":\"abc\"" }
    ∧ Entry.Str (some sampleEntry) (ascii "k") (ascii "abc")
        = some { sampleEntry with buf := ascii "\x7b,\"k\":\"abc\"" } :=
  ⟨by decide, verbatim_of_no_reserved sampleEntry (ascii "k") (ascii "abc") (by decide)⟩

/-! ## Round trip through the unescape -/

theorem unescape_copy (c : UInt8) (rest : ByteSeq) (h1 : c ≠ 92) (h2 : c ≠ 34) :
    unescape (c :: rest) = (unescape rest).map (fun t => c :: t) := by
  rw [unescape.eq_def]
  simp [h1, h2]

theorem unescape_simple (x y : UInt8) (rest : ByteSeq) (hx : x ≠ 117)
    (h : simpleEscape x = some y) :
    unescape (92 :: x :: rest) = (unescape rest).map (fun t => y :: t) := by
  rw [unescape.eq_def]
  simp [hx, h]

theorem unescape_u00 (h l : UInt8) (hv lv : Nat) (rest : ByteSeq) (hh : hexVal h = some hv)
    (hl : hexVal l = some lv) :
    unescape (92 :: 117 :: 48 :: 48 :: h :: l :: rest)
      = (unescape rest).map (fun t => UInt8.ofNat (16 * hv + lv) :: t) := by
  rw [unescape.eq_def]
  simp [hh, hl]

theorem reserved_cases {c : UInt8} (h : reserved c = true) :
    c = 34 ∨ c = 60 ∨ c = 39 ∨ c = 92 ∨ c = 8 ∨ c = 12 ∨ c = 10 ∨ c = 13 ∨ c = 9 ∨ c = 0 := by
  simpa [reserved, escapes, or_assoc] using h

theorem escByte_of_not_reserved {c : UInt8} (h : reserved c = false) : escByte c = [c] :=
  escByte_of_none (escapeCase_of_not_reserved h)

/-- Reading back the substitution of one byte gives that byte. -/
theorem unescape_escByte (c : UInt8) (rest : ByteSeq) :
    unescape (escByte c ++ rest) = (unescape rest).map (fun t => c :: t) := by
  cases hr : reserved c with
  | false =>
    rw [escByte_of_not_reserved hr]
    simp only [reserved, escapes, Bool.or_eq_false_iff, beq_eq_false_iff_ne, ne_eq] at hr
    exact unescape_copy c rest (by tauto) (by tauto)
  | true =>
    rcases reserved_cases hr with h | h | h | h | h | h | h | h | h | h <;> subst h
    · rw [show escByte 34 = [92, 34] by decide]
      exact unescape_simple 34 34 rest (by decide) (by decide)
    · rw [show escByte 60 = [92, 117, 48, 48, 51, 99] by decide]
      exact unescape_u00 51 99 3 12 rest (by decide) (by decide)
    · rw [show escByte 39 = [92, 117, 48, 48, 50, 55] by decide]
      exact unescape_u00 50 55 2 7 rest (by decide) (by decide)
    · rw [show escByte 92 = [92, 92] by decide]
      exact unescape_simple 92 92 rest (by decide) (by decide)
    · rw [show escByte 8 = [92, 117, 48, 48, 48, 56] by decide]
      exact unescape_u00 48 56 0 8 rest (by decide) (by decide)
    · rw [show escByte 12 = [92, 117, 48, 48, 48, 99] by decide]
      exact unescape_u00 48 99 0 12 rest (by decide) (by decide)
    · rw [show escByte 10 = [92, 110] by decide]
      exact unescape_simple 110 10 rest (by decide) (by decide)
    · rw [show escByte 13 = [92, 114] by decide]
      exact unescape_simple 114 13 rest (by decide) (by decide)
    · rw [show escByte 9 = [92, 116] by decide]
      exact unescape_simple 116 9 rest (by decide) (by decide)
    · rw [show escByte 0 = [92, 117, 48, 48, 48, 48] by decide]
      exact unescape_u00 48 48 0 0 rest (by decide) (by decide)

theorem unescape_escapeSpec (v : ByteSeq) : unescape (escapeSpec v) = some v := by
  induction v with
  | nil => rfl
  | cons c t ih =>
    unfold escapeSpec at ih ⊢
    rw [List.flatMap_cons, unescape_escByte, ih]
    rfl

theorem unescape_of_not_flagged (v : ByteSeq) (h : v.any escapes = false) :
    unescape v = some v := by
  induction v with
  | nil => rfl
  | cons c t ih =>
    simp only [List.any_cons, Bool.or_eq_false_iff] at h
    have hc := h.1
    simp only [escapes, Bool.or_eq_false_iff, beq_eq_false_iff_ne, ne_eq] at hc
    rw [unescape_copy c t (by tauto) (by tauto), ih h.2]
    rfl

theorem unescape_escOutput (v : ByteSeq) : unescape (escOutput v) = some v := by
  rw [escOutput_eq]
  split
  · exact unescape_escapeSpec v
  · rename_i h
    exact unescape_of_not_flagged v (by simpa using h)

/-! ## Finalization -/

/-- The single write `Msg` performs on a non-nil entry. -/
theorem Msg_some_writes (e : Entry) (m : ByteSeq) (w : World) :
    (Entry.Msg (some e) m w).1.writes
      = w.writes ++ [(e.w, if m ≠ [] then e.buf ++ ascii ",\"message\":\"" ++ escOutput m
                              ++ ascii "\"\x7d\n"
                           else e.buf ++ ascii "\x7d\n")] := by
  unfold Entry.Msg
  by_cases hm : m = []
  · subst hm
    simp only [ne_eq, not_true_eq_false, if_false]
    split_ifs <;> simp [WriteEntry, ascii]
  · simp only [ne_eq, hm, not_false_eq_true, if_true, string_eq]
    split_ifs <;> simp [WriteEntry, ascii]

/-- C4: reading the escape engine's output for `v` back with the unescape (which inverts the
two-character and the `\u00XX` escapes and copies every other byte) gives exactly `v`, for
every byte string `v`; and `Str("user", a"b)` followed by `Msg("hi")` writes a record whose
user value `a\"b` unescapes to `a"b`. -/
theorem unescape_roundtrip :
    (∀ v : ByteSeq, unescape (escOutput v) = some v)
    ∧ (∀ (e : Entry) (w : World),
        (Entry.Msg (Entry.Str (some e) (ascii "user") (ascii "a\"b")) (ascii "hi") w).1.writes
          = w.writes ++ [(e.w, e.buf ++ ascii ",\"user\":\"" ++ ascii "a\\\"b"
                                 ++ ascii "\",\"message\":\"hi\"\x7d\n")])
    ∧ unescape (ascii "a\\\"b") = some (ascii "a\"b") := by
  refine ⟨unescape_escOutput, ?_, by decide⟩
  intro e w
  have h1 : escOutput (ascii "a\"b") = ascii "a\\\"b" := by decide
  have h2 : escOutput (ascii "hi") = ascii "hi" := by decide
  have h3 : ascii "hi" ≠ [] := by decide
  rw [Str_some, Msg_some_writes, if_pos h3, h1, h2]
  simp [ascii]

/-! ## The disabled entry -/

/-- A chain of calls on the nil entry returns nil. -/
theorem applyAll_none (fs : List Field) : applyAll fs none = Except.ok none := by
  induction fs with
  | nil => rfl
  | cons f t ih =>
    unfold applyAll
    cases f <;> simpa [Field.apply, Entry.Dur, bind, Except.bind, pure, Except.pure] using ih

/-- C5: on the nil entry every field-append method returns nil without a fault, `Func` does
not run its callback (the world is the one before the call, whatever the callback does), and
`Msg`, `Msgf` and `Msgs` return with no call of `WriteEntry`; so a chain of append calls
followed by `Msg` on the nil entry leaves the list of writes as it was. -/
theorem nil_entry_is_inert :
    (∀ k b, Entry.Bool none k b = none)
    ∧ (∀ k b, Entry.Bools none k b = none)
    ∧ (∀ k i, Entry.Int64 none k i = none)
    ∧ (∀ k i, Entry.Int none k i = none)
    ∧ (∀ k i, Entry.Uint64 none k i = none)
    ∧ (∀ k i, Entry.Uint none k i = none)
    ∧ (∀ k v, Entry.Str none k v = none)
    ∧ (∀ k v, Entry.Strs none k v = none)
    ∧ (∀ k v, Entry.StrInt none k v = none)
    ∧ (∀ k v, Entry.Stringer none k v = none)
    ∧ (∀ k v, Entry.Byte none k v = none)
    ∧ (∀ k v, Entry.Bytes none k v = none)
    ∧ (∀ k v, Entry.BytesOrNil none k v = none)
    ∧ (∀ k v, Entry.Hex none k v = none)
    ∧ (∀ k v, Entry.RawJSON none k v = none)
    ∧ (∀ k v, Entry.RawJSONStr none k v = none)
    ∧ (∀ k d, Entry.Dur none k d = Except.ok none)
    ∧ (∀ c, Entry.Context none c = none)
    ∧ (∀ k c, Entry.Dict none k c = none)
    ∧ (∀ k i, Entry.Int32 none k i = none)
    ∧ (∀ k i, Entry.Int16 none k i = none)
    ∧ (∀ k i, Entry.Int8 none k i = none)
    ∧ (∀ k i, Entry.Uint32 none k i = none)
    ∧ (∀ k i, Entry.Uint16 none k i = none)
    ∧ (∀ k i, Entry.Uint8 none k i = none)
    ∧ (∀ k f, Entry.Float64 none k f = none)
    ∧ (∀ k f, Entry.Float32 none k f = none)
    ∧ (∀ k f, Entry.Floats64 none k f = none)
    ∧ (∀ k f, Entry.Floats32 none k f = none)
    ∧ (∀ k d, Entry.Durs none k d = Except.ok none)
    ∧ (∀ k t, Entry.Time none k t = none)
    ∧ (∀ k a, Entry.MACAddr none k a = none)
    ∧ (∀ k a, Entry.IPAddr none k a = none)
    ∧ (∀ k a, Entry.IPPrefix none k a = none)
    ∧ (∀ k v, Entry.GoStringer none k v = none)
    ∧ (∀ k v, Entry.AnErr none k v = Except.ok none)
    ∧ (∀ v, Entry.Err none v = Except.ok none)
    ∧ (∀ k v, Entry.Errs none k v = none)
    ∧ (∀ k v, Entry.Object none k v = Except.ok none)
    ∧ (∀ k v, Entry.Objects none k v = Except.ok none)
    ∧ (∀ k v, Entry.Any none k v = Except.ok none)
    ∧ (∀ k a, Entry.Times none k a = none)
    ∧ (∀ k t s, Entry.TimeDiff none k t s = Except.ok none)
    ∧ (∀ k f t, Entry.TimeFormat none k f t = none)
    ∧ (∀ k i, Entry.Interface none k i = Except.ok none)
    ∧ (∀ f w, Entry.Func none f w = (none, w))
    ∧ (∀ m w, Entry.Msg none m w = (w, Outcome.returned))
    ∧ (∀ t w, Entry.Msgf none t w = (w, Outcome.returned))
    ∧ (∀ t w, Entry.Msgs none t w = (w, Outcome.returned))
    ∧ (∀ fs m w, logChain fs none m w = Except.ok (w, Outcome.returned)) := by
  refine ⟨?_, ?_, ?_, ?_, ?_, ?_, ?_, ?_, ?_, ?_, ?_, ?_, ?_, ?_, ?_, ?_, ?_, ?_, ?_, ?_, ?_,
    ?_, ?_, ?_, ?_, ?_, ?_, ?_, ?_, ?_, ?_, ?_, ?_, ?_, ?_, ?_, ?_, ?_, ?_, ?_, ?_, ?_, ?_,
    ?_, ?_, ?_, ?_, ?_, ?_, ?_⟩
  case refine_46 => intro f w; cases f <;> rfl
  case refine_50 =>
    intro fs m w
    simp [logChain, applyAll_none, bind, Except.bind, pure, Except.pure, Entry.Msg]
  all_goals intros; rfl

/-- C6: on a non-nil entry with buffer `b`, `Msg(m)` makes exactly one call of `WriteEntry`,
on the entry's own sink, with the buffer `b` `,"message":"` `esc(m)` `"}` newline when `m` is
not empty and `b` `}` newline when it is; in both cases the record is some text followed by
`}` and a newline, and the byte before that newline is not a newline. -/
theorem Msg_writes_once (e : Entry) (m : ByteSeq) (w : World) :
    (Entry.Msg (some e) m w).1.writes
        = w.writes ++ [(e.w, if m ≠ [] then e.buf ++ ascii ",\"message\":\"" ++ escOutput m
                                ++ ascii "\"\x7d\n"
                             else e.buf ++ ascii "\x7d\n")]
    ∧ (∃ body, (Entry.Msg (some e) m w).1.writes = w.writes ++ [(e.w, body ++ [125, 10])]) := by
  refine ⟨Msg_some_writes e m w, ?_⟩
  rw [Msg_some_writes]
  by_cases hm : m = []
  · exact ⟨e.buf, by simp [hm, ascii]⟩
  · exact ⟨e.buf ++ ascii ",\"message\":\"" ++ escOutput m ++ [34], by simp [hm, ascii]⟩

/-- C7: with an empty formatted text, `Msgf` and `Msgs` on a non-nil entry with buffer `b`
hand the sink `b` `,"message":""}` newline, a record with an empty message member, where
`Msg("")` hands it `b` `}` newline; the two records differ. -/
theorem Msgf_empty_keeps_member (e : Entry) (w : World) :
    (Entry.Msgf (some e) [] w).1.writes
        = w.writes ++ [(e.w, e.buf ++ ascii ",\"message\":\"\"\x7d\n")]
    ∧ (Entry.Msgs (some e) [] w).1.writes
        = w.writes ++ [(e.w, e.buf ++ ascii ",\"message\":\"\"\x7d\n")]
    ∧ (Entry.Msg (some e) [] w).1.writes = w.writes ++ [(e.w, e.buf ++ ascii "\x7d\n")]
    ∧ (Entry.Msgf (some e) [] w).1.writes ≠ (Entry.Msg (some e) [] w).1.writes
    ∧ (Entry.Msgs (some e) [] w).1.writes ≠ (Entry.Msg (some e) [] w).1.writes := by
  have hf : (Entry.Msgf (some e) [] w).1.writes
      = w.writes ++ [(e.w, e.buf ++ ascii ",\"message\":\"\"\x7d\n")] := by
    unfold Entry.Msgf
    rw [Msg_some_writes, bytes_eq]
    simp [ascii, escOutput_eq, escapeSpec]
  have hs : (Entry.Msgs (some e) [] w).1.writes
      = w.writes ++ [(e.w, e.buf ++ ascii ",\"message\":\"\"\x7d\n")] := by
    unfold Entry.Msgs
    rw [Msg_some_writes, bytes_eq]
    simp [ascii, escOutput_eq, escapeSpec]
  have hm : (Entry.Msg (some e) [] w).1.writes = w.writes ++ [(e.w, e.buf ++ ascii "\x7d\n")] := by
    rw [Msg_some_writes]
    simp
  refine ⟨hf, hs, hm, ?_, ?_⟩
  · rw [hf, hm]
    simp [ascii]
  · rw [hs, hm]
    simp [ascii]

/-! ## Append-only chains -/

theorem appendInt_eq (buf : ByteSeq) (i : Int) : appendInt buf i = buf ++ appendInt [] i := by
  unfold appendInt
  split <;> simp

theorem appendUint_eq (buf : ByteSeq) (i : Nat) : appendUint buf i = buf ++ appendUint [] i := by
  simp [appendUint]

theorem appendBool_eq (buf : ByteSeq) (b : Bool) : appendBool buf b = buf ++ appendBool [] b := by
  unfold appendBool
  split <;> simp

/-- The text `Hex` writes for the bytes of the value. -/
theorem hex_foldl (val : ByteSeq) (e : Entry) :
    val.foldl (fun e v => { e with buf := e.buf ++ [hexDigit (v >>> 4), hexDigit (v &&& 15)] }) e
      = { e with buf := e.buf ++ val.flatMap (fun v => [hexDigit (v >>> 4), hexDigit (v &&& 15)]) } := by
  induction val generalizing e with
  | nil => simp
  | cons v t ih => simp [ih]

/-- The entry `Dur` returns, moved onto the buffer of `e`. -/
theorem Dur_rebase (e : Entry) (k : ByteSeq) (d : Int) (l : Level) (w : Nat) :
    Entry.Dur (some e) k d
      = (Entry.Dur (some { buf := [], Level := l, w := w }) k d).map
          (fun r => some { e with buf := e.buf ++ Entry.Value r }) := by
  unfold Entry.Dur
  simp only [bind, Except.bind, pure, Except.pure, Except.map]
  rw [appendInt_eq]
  conv_rhs => rw [appendInt_eq]
  generalize (if decide (d < 0) = true then wrapInt64 (-d) else d) = d1
  by_cases hn : d1.tmod 1000000 ≠ 0
  · rw [if_pos hn, if_pos hn]
    cases durFraction (d1.tmod 1000000) <;> by_cases hneg : d < 0 <;> simp [hneg, Entry.Value]
  · rw [if_neg hn, if_neg hn]
    by_cases hneg : d < 0 <;> simp [hneg, Entry.Value]

/-- The entry `Byte` returns, moved onto the buffer of `e`. -/
theorem Byte_rebase (e : Entry) (k : ByteSeq) (v : UInt8) (l : Level) (w : Nat) :
    Entry.Byte (some e) k v
      = some { e with buf := e.buf
                 ++ Entry.Value (Entry.Byte (some { buf := [], Level := l, w := w }) k v) } := by
  cases hr : reserved v with
  | false =>
    simp only [reserved, escapes, Bool.or_eq_false_iff, beq_eq_false_iff_ne, ne_eq] at hr
    simp [Entry.Byte, Entry.Value, hr]
  | true =>
    rcases reserved_cases hr with h | h | h | h | h | h | h | h | h | h <;> subst h <;>
      simp [Entry.Byte, Entry.Value]

/-- Every call appends its contribution, whatever the buffer holds. -/
theorem Field.apply_some (f : Field) (e : Entry) :
    f.apply (some e)
      = f.contribution.map (fun c => some { e with buf := e.buf ++ c }) := by
  cases f
  case dur k d =>
    simp only [Field.apply, Field.contribution]
    rw [Dur_rebase e k d Level.InfoLevel 0]
    cases Entry.Dur (some { buf := [], Level := Level.InfoLevel, w := 0 }) k d <;> rfl
  case byte k v =>
    simp only [Field.apply, Field.contribution, bind, Except.bind, pure, Except.pure, Except.map]
    rw [Byte_rebase e k v Level.InfoLevel 0]
  case bytesOrNil k v =>
    cases v <;> simp [Field.apply, Field.contribution, Entry.BytesOrNil, bind, Except.bind, pure, Except.pure, Except.map, bytes_eq, Entry.Value]
  all_goals
    simp only [Field.apply, Field.contribution, Entry.Bool, Entry.Int64, Entry.Int, Entry.Uint64,
      Entry.Uint, Str_some, Bytes_some, Entry.StrInt, Entry.Hex, Entry.RawJSON, Entry.RawJSONStr,
      hex_foldl, bind, Except.bind, pure, Except.pure, Except.map, Entry.Value]
    first
      | (rw [appendInt_eq]; conv_rhs => rw [appendInt_eq])
      | (rw [appendUint_eq]; conv_rhs => rw [appendUint_eq])
      | (rw [appendBool_eq]; conv_rhs => rw [appendBool_eq])
      | skip
    simp

/-! ## Durations -/

set_option maxRecDepth 100000 in
/-- The two-digit table holds the decimal digits of `k` at `2k` and `2k + 1`. -/
theorem smallsString_digits :
    ∀ k, k < 100 → smallsString[2 * k]? = some (UInt8.ofNat (48 + k / 10))
      ∧ smallsString[2 * k + 1]? = some (UInt8.ofNat (48 + k % 10)) := by
  decide

theorem index_smalls_even (k : Nat) (hk : k < 100) :
    index smallsString ((k : Int) * 2) = Except.ok (UInt8.ofNat (48 + k / 10)) := by
  have h := (smallsString_digits k hk).1
  have h0 : ¬ ((k : Int) * 2 < 0) := by omega
  have h1 : ((k : Int) * 2).toNat = 2 * k := by omega
  simp only [index, h0, if_false, h1, h]

theorem index_smalls_odd (k : Nat) (hk : k < 100) :
    index smallsString ((k : Int) * 2 + 1) = Except.ok (UInt8.ofNat (48 + k % 10)) := by
  have h := (smallsString_digits k hk).2
  have h0 : ¬ ((k : Int) * 2 + 1 < 0) := by omega
  have h1 : ((k : Int) * 2 + 1).toNat = 2 * k + 1 := by omega
  simp only [index, h0, if_false, h1, h]

theorem tmod_natCast (m n : Nat) : (m : Int).tmod (n : Int) = ((m % n : Nat) : Int) :=
  (Int.ofNat_tmod m n).symm

theorem tdiv_natCast (m n : Nat) : (m : Int).tdiv (n : Int) = ((m / n : Nat) : Int) :=
  (Int.ofNat_tdiv m n).symm

/-- On a non-negative remainder every table index is in range and the block writes the point
followed by six digits. -/
theorem durFraction_natCast (m : Nat) : durFraction (m : Int) = Except.ok (46 :: sixDigits m) := by
  have e100 : (100 : Int) = ((100 : Nat) : Int) := rfl
  unfold durFraction
  simp only [e100, tmod_natCast, tdiv_natCast]
  rw [index_smalls_odd _ (Nat.mod_lt _ (by norm_num)),
    index_smalls_even _ (Nat.mod_lt _ (by norm_num)),
    index_smalls_odd _ (Nat.mod_lt _ (by norm_num)),
    index_smalls_even _ (Nat.mod_lt _ (by norm_num)),
    index_smalls_odd _ (Nat.mod_lt _ (by norm_num)),
    index_smalls_even _ (Nat.mod_lt _ (by norm_num))]
  simp only [bind, Except.bind, pure, Except.pure, sixDigits]
  have a1 : m / 100 / 100 % 100 / 10 = m / 100000 % 10 := by omega
  have a2 : m / 100 / 100 % 100 % 10 = m / 10000 % 10 := by omega
  have a3 : m / 100 % 100 / 10 = m / 1000 % 10 := by omega
  have a4 : m / 100 % 100 % 10 = m / 100 % 10 := by omega
  have a5 : m % 100 / 10 = m / 10 % 10 := by omega
  have a6 : m % 100 % 10 = m % 10 := by omega
  rw [a1, a2, a3, a4, a5, a6]

theorem wrapInt64_of_range (x : Int) (h1 : -(2 ^ 63) ≤ x) (h2 : x < 2 ^ 63) : wrapInt64 x = x := by
  unfold wrapInt64
  norm_num at h1 h2 ⊢
  omega

theorem appendInt_natCast (buf : ByteSeq) (x : Nat) : appendInt buf (x : Int) = buf ++ natDigits x := by
  have h : ¬ ((x : Int) < 0) := by omega
  simp [appendInt, h]

/-- What `Dur` does for every duration but the minimum 64-bit value. -/
theorem Dur_in_range (e : Entry) (k : ByteSeq) (d : Int) (h1 : -(2 ^ 63) < d) (h2 : d < 2 ^ 63) :
    Entry.Dur (some e) k d
      = Except.ok (some { e with buf := e.buf ++ [44, 34] ++ k ++ [34, 58] ++ durText d }) := by
  have hd : (if decide (d < 0) = true then wrapInt64 (-d) else d) = ((d.natAbs : Nat) : Int) := by
    by_cases hneg : d < 0
    · rw [if_pos (by simpa using hneg), wrapInt64_of_range (-d) (by omega) (by omega)]
      omega
    · rw [if_neg (by simpa using hneg)]
      omega
  have e6 : (1000000 : Int) = ((1000000 : Nat) : Int) := rfl
  unfold Entry.Dur
  simp only [hd, e6, tmod_natCast, tdiv_natCast, appendInt_natCast, durText]
  by_cases hn : d.natAbs % 1000000 = 0
  · have hn2 : ¬ (((d.natAbs % 1000000 : Nat) : Int) ≠ 0) := by omega
    rw [if_neg hn2]
    by_cases hneg : d < 0 <;> simp [hneg, hn, pure, Except.pure]
  · have hn2 : (((d.natAbs % 1000000 : Nat) : Int) ≠ 0) := by omega
    rw [if_pos hn2, durFraction_natCast]
    by_cases hneg : d < 0 <;> simp [hneg, hn, bind, Except.bind, pure, Except.pure]

/-- The fractional part `Dur` writes when there is one. -/
theorem Dur_fraction_general (e : Entry) (k : ByteSeq) (d : Int) (h1 : -(2 ^ 63) < d)
    (h2 : d < 2 ^ 63) (h3 : d % 1000000 ≠ 0) :
    Entry.Dur (some e) k d
      = Except.ok (some { e with
          buf := e.buf ++ ascii ",\"" ++ k ++ ascii "\":"
            ++ (if d < 0 then [45] else []) ++ natDigits (d.natAbs / 1000000)
            ++ [46] ++ sixDigits (d.natAbs % 1000000) }) := by
  have hn : d.natAbs % 1000000 ≠ 0 := by omega
  rw [Dur_in_range e k d h1 h2]
  simp [durText, hn, ascii]

/-- C10 (as amended): for every duration `d` other than the minimum 64-bit value that is not
a whole number of milliseconds, `Dur(key, d)` appends, after a `-` when `d` is negative, the
whole milliseconds of the magnitude followed by `.` and exactly six fractional digits, the
remainder in nanoseconds padded with zeros. -/
theorem Dur_six_fraction_digits (e : Entry) (k : ByteSeq) (d : Int) (h1 : -(2 ^ 63) < d)
    (h2 : d < 2 ^ 63) (h3 : d % 1000000 ≠ 0) :
    Entry.Dur (some e) k d
        = Except.ok (some { e with
            buf := e.buf ++ ascii ",\"" ++ k ++ ascii "\":"
              ++ (if d < 0 then [45] else []) ++ natDigits (d.natAbs / 1000000)
              ++ [46] ++ sixDigits (d.natAbs % 1000000) })
    ∧ (sixDigits (d.natAbs % 1000000)).length = 6 :=
  ⟨Dur_fraction_general e k d h1 h2 h3, rfl⟩

theorem Dur_six_fraction_digits_witness :
    (-(2 ^ 63) < (1500100000 : Int) ∧ (1500100000 : Int) < 2 ^ 63
      ∧ (1500100000 : Int) % 1000000 ≠ 0)
    ∧ Entry.Dur (some sampleEntry) (ascii "d") 1500100000
        = Except.ok (some { sampleEntry with
            buf := sampleEntry.buf ++ ascii ",\"" ++ ascii "d" ++ ascii "\":"
              ++ (if (1500100000 : Int) < 0 then [45] else [])
              ++ natDigits ((1500100000 : Int).natAbs / 1000000)
              ++ [46] ++ sixDigits ((1500100000 : Int).natAbs % 1000000) })
    ∧ (sixDigits ((1500100000 : Int).natAbs % 1000000)).length = 6 :=
  ⟨by norm_num, Dur_six_fraction_digits sampleEntry (ascii "d") 1500100000 (by norm_num)
    (by norm_num) (by norm_num)⟩

set_option maxRecDepth 100000 in
/-- C10 (as stated) fails: the duration of 1,500,100 microseconds is written `1500.100000`,
with six fractional digits, not `1500.1`. -/
theorem Dur_scenario_not_trimmed :
    Entry.Dur (some sampleEntry) (ascii "d") 1500100000
        = Except.ok (some { sampleEntry with buf := ascii "\x7b,\"d\":1500.100000" })
    ∧ Entry.Dur (some sampleEntry) (ascii "d") 1500100000
        ≠ Except.ok (some { sampleEntry with buf := ascii "\x7b,\"d\":1500.1" }) := by
  have h : Entry.Dur (some sampleEntry) (ascii "d") 1500100000
      = Except.ok (some { sampleEntry with buf := ascii "\x7b,\"d\":1500.100000" }) := by rfl
  refine ⟨h, ?_⟩
  rw [h]
  intro hh
  exact absurd (Except.ok.inj hh) (by decide)

/-! ## Append-only chains, continued -/

theorem applyAll_some (fs : List Field) :
    ∀ e : Entry, applyAll fs (some e)
      = (contributions fs).map (fun c => some { e with buf := e.buf ++ c }) := by
  induction fs with
  | nil => intro e; simp [applyAll, contributions, pure, Except.pure, Except.map]
  | cons f t ih =>
    intro e
    simp only [applyAll, contributions, bind, Except.bind]
    rw [Field.apply_some]
    cases hc : f.contribution with
    | error x => rfl
    | ok c =>
      simp only [Except.map]
      rw [ih]
      cases contributions t <;> simp [Except.map, pure, Except.pure]

theorem contribution_ok_of_durInRange (f : Field) (h : f.durInRange) :
    ∃ c, f.contribution = Except.ok c := by
  cases f
  case dur k d =>
    simp only [Field.durInRange] at h
    simp only [Field.contribution, Field.apply, bind, Except.bind]
    rw [Dur_in_range _ k d h.1 h.2]
    exact ⟨_, rfl⟩
  all_goals exact ⟨_, rfl⟩

theorem contributions_ok_of_durInRange (fs : List Field) (h : ∀ f ∈ fs, f.durInRange) :
    ∃ c, contributions fs = Except.ok c := by
  induction fs with
  | nil => exact ⟨[], rfl⟩
  | cons f t ih =>
    obtain ⟨c, hc⟩ := contribution_ok_of_durInRange f (h f (List.mem_cons_self f t))
    obtain ⟨cs, hcs⟩ := ih (fun x hx => h x (List.mem_cons_of_mem f hx))
    exact ⟨c ++ cs, by simp [contributions, hc, hcs, bind, Except.bind, pure, Except.pure]⟩

/-- C8: for a non-nil entry with buffer `b` and a chain of scalar field-append calls, the
chain ends with the buffer `b` followed by the concatenation, in call order, of what each call
appends to an empty buffer (and it faults exactly when a call faults on the empty buffer); no
call faults when every duration argument is a 64-bit value other than the minimum. -/
theorem chain_appends_in_order (e : Entry) (fs : List Field) :
    applyAll fs (some e) = (contributions fs).map (fun c => some { e with buf := e.buf ++ c })
    ∧ ((∀ f ∈ fs, f.durInRange) → ∃ c, contributions fs = Except.ok c
        ∧ applyAll fs (some e) = Except.ok (some { e with buf := e.buf ++ c })) := by
  refine ⟨applyAll_some fs e, fun h => ?_⟩
  obtain ⟨c, hc⟩ := contributions_ok_of_durInRange fs h
  exact ⟨c, hc, by rw [applyAll_some, hc]; rfl⟩

theorem chain_appends_in_order_witness :
    (∀ f ∈ [Field.bool (ascii "a") true, Field.dur (ascii "d") 1500100000,
        Field.str (ascii "s") (ascii "x")], f.durInRange)
    ∧ ∃ c, contributions [Field.bool (ascii "a") true, Field.dur (ascii "d") 1500100000,
        Field.str (ascii "s") (ascii "x")] = Except.ok c
      ∧ applyAll [Field.bool (ascii "a") true, Field.dur (ascii "d") 1500100000,
          Field.str (ascii "s") (ascii "x")] (some sampleEntry)
        = Except.ok (some { sampleEntry with buf := sampleEntry.buf ++ c }) := by
  have h : ∀ f ∈ [Field.bool (ascii "a") true, Field.dur (ascii "d") 1500100000,
      Field.str (ascii "s") (ascii "x")], f.durInRange := by
    intro f hf
    simp only [List.mem_cons, List.mem_singleton, List.not_mem_nil, or_false] at hf
    rcases hf with rfl | rfl | rfl
    · trivial
    · exact ⟨by norm_num, by norm_num⟩
    · trivial
  exact ⟨h, (chain_appends_in_order sampleEntry _).2 h⟩

/-! ## JSON validity of a string member -/

theorem parseString_quote (rest : ByteSeq) : parseString (34 :: rest) = some ([], rest) := by
  rw [parseString.eq_def]
  simp

theorem parseString_copy (c : UInt8) (rest : ByteSeq) (h1 : c ≠ 34) (h2 : c ≠ 92)
    (h3 : ¬ c < 32) :
    parseString (c :: rest) = (parseString rest).map (fun p => (c :: p.1, p.2)) := by
  rw [parseString.eq_def]
  simp [h1, h2, h3]

theorem parseString_simple (x y : UInt8) (rest : ByteSeq) (hx : x ≠ 117)
    (h : simpleEscape x = some y) :
    parseString (92 :: x :: rest) = (parseString rest).map (fun p => (y :: p.1, p.2)) := by
  rw [parseString.eq_def]
  simp [hx, h]

theorem parseString_u (a b h l : UInt8) (av bv hv lv : Nat) (rest : ByteSeq)
    (ha : hexVal a = some av) (hb : hexVal b = some bv) (hh : hexVal h = some hv)
    (hl : hexVal l = some lv) :
    parseString (92 :: 117 :: a :: b :: h :: l :: rest)
      = (parseString rest).map
          (fun p => (utf8 (4096 * av + 256 * bv + 16 * hv + lv) ++ p.1, p.2)) := by
  rw [parseString.eq_def]
  simp [ha, hb, hh, hl]

/-- A plain key is read back as it stands. -/
theorem parseString_plainKey (k rest : ByteSeq) (hk : plainKey k) :
    parseString (k ++ 34 :: rest) = some (k, rest) := by
  induction k with
  | nil => exact parseString_quote rest
  | cons c t ih =>
    have hc := hk c (List.mem_cons_self c t)
    have ht := ih (fun x hx => hk x (List.mem_cons_of_mem c hx))
    rw [List.cons_append, parseString_copy c _ hc.2.1 hc.2.2 hc.1, ht]
    rfl

/-- The strict reader takes the substitution of one byte back to that byte, for every byte the
grammar lets the encoder handle. -/
theorem parseString_escByte (c : UInt8) (rest : ByteSeq)
    (hc : ¬ c < 32 ∨ c = 8 ∨ c = 9 ∨ c = 10 ∨ c = 12 ∨ c = 13) :
    parseString (escByte c ++ rest) = (parseString rest).map (fun p => (c :: p.1, p.2)) := by
  cases hr : reserved c with
  | false =>
    rw [escByte_of_not_reserved hr]
    simp only [reserved, escapes, Bool.or_eq_false_iff, beq_eq_false_iff_ne, ne_eq] at hr
    have h32 : ¬ c < 32 := by
      rcases hc with h | h | h | h | h | h
      · exact h
      all_goals (exfalso; tauto)
    exact parseString_copy c rest (by tauto) (by tauto) h32
  | true =>
    rcases reserved_cases hr with h | h | h | h | h | h | h | h | h | h <;> subst h
    · rw [show escByte 34 = [92, 34] by decide]
      exact parseString_simple 34 34 rest (by decide) (by decide)
    · rw [show escByte 60 = [92, 117, 48, 48, 51, 99] by decide]
      exact parseString_u 48 48 51 99 0 0 3 12 rest (by decide) (by decide) (by decide)
        (by decide)
    · rw [show escByte 39 = [92, 117, 48, 48, 50, 55] by decide]
      exact parseString_u 48 48 50 55 0 0 2 7 rest (by decide) (by decide) (by decide)
        (by decide)
    · rw [show escByte 92 = [92, 92] by decide]
      exact parseString_simple 92 92 rest (by decide) (by decide)
    · rw [show escByte 8 = [92, 117, 48, 48, 48, 56] by decide]
      exact parseString_u 48 48 48 56 0 0 0 8 rest (by decide) (by decide) (by decide)
        (by decide)
    · rw [show escByte 12 = [92, 117, 48, 48, 48, 99] by decide]
      exact parseString_u 48 48 48 99 0 0 0 12 rest (by decide) (by decide) (by decide)
        (by decide)
    · rw [show escByte 10 = [92, 110] by decide]
      exact parseString_simple 110 10 rest (by decide) (by decide)
    · rw [show escByte 13 = [92, 114] by decide]
      exact parseString_simple 114 13 rest (by decide) (by decide)
    · rw [show escByte 9 = [92, 116] by decide]
      exact parseString_simple 116 9 rest (by decide) (by decide)
    · exfalso
      revert hc
      decide

theorem parseString_escapeSpec (v rest : ByteSeq) (hv : escapableValue v) :
    parseString (escapeSpec v ++ 34 :: rest) = some (v, rest) := by
  induction v with
  | nil => exact parseString_quote rest
  | cons c t ih =>
    have hc := hv c (List.mem_cons_self c t)
    have ht := ih (fun x hx => hv x (List.mem_cons_of_mem c hx))
    unfold escapeSpec at ht ⊢
    rw [List.flatMap_cons, List.append_assoc, parseString_escByte c _ hc, ht]
    rfl

/-- Without a NUL-only fast path in play the engine's output is the substitution. -/
theorem escOutput_of_escapableValue (v : ByteSeq) (hv : escapableValue v) :
    escOutput v = escapeSpec v := by
  rw [escOutput_eq]
  split
  · rfl
  · rename_i h
    symm
    apply escapeSpec_of_not_reserved
    intro c hc
    have h1 : escapes c = false := by
      have := List.any_eq_false.mp (by simpa using h) c hc
      simpa using this
    have h2 : c ≠ 0 := by
      rintro rfl
      have := hv 0 hc
      revert this
      decide
    simp [reserved, h1, h2]

theorem expect_head (c : UInt8) (rest : ByteSeq) (h : isWs c = false) :
    expect c (c :: rest) = some rest := by
  simp [expect, skipWs, h]

/-- The member `Str` appends, wrapped in braces, is an object with the one member. -/
theorem Str_member_parses (e : Entry) (k v : ByteSeq) (hk : plainKey k)
    (hv : escapableValue v) :
    parseStringMember (wrapMember e (Entry.Str (some e) k v)) = some (k, v) := by
  rw [Str_some, escOutput_of_escapableValue v hv]
  have hw : wrapMember e (some { e with
        buf := e.buf ++ [44, 34] ++ k ++ [34, 58, 34] ++ (escapeSpec v) ++ [34] })
      = 123 :: 34 :: (k ++ 34 :: 58 :: 34 :: (escapeSpec v ++ 34 :: [125])) := by
    simp [wrapMember, appended]
  rw [hw]
  unfold parseStringMember
  rw [expect_head 123 _ (by decide)]
  simp only [Option.bind_eq_bind, Option.some_bind]
  rw [expect_head 34 _ (by decide)]
  simp only [Option.some_bind]
  rw [parseString_plainKey k _ hk]
  simp only [Option.some_bind]
  rw [expect_head 58 _ (by decide)]
  simp only [Option.some_bind]
  rw [expect_head 34 _ (by decide)]
  simp only [Option.some_bind]
  rw [parseString_escapeSpec v _ hv]
  simp only [Option.some_bind]
  rw [expect_head 125 _ (by decide)]
  simp [skipWs]

/-- C9 (as amended): for every key free of quote, backslash and control bytes and every value
whose control bytes are among backspace, tab, newline, form-feed and carriage-return, the
bytes `Str(key, value)` appends, with the leading comma dropped and braces put around, are a
JSON object with exactly one member, of name `key` and string value `value`; the bytes
already in the buffer stay in place. -/
theorem Str_member_is_valid_json (e : Entry) (k v : ByteSeq) (hk : plainKey k)
    (hv : escapableValue v) :
    (∃ n, Entry.Str (some e) k v = some n ∧ n.buf.take e.buf.length = e.buf)
    ∧ parseStringMember (wrapMember e (Entry.Str (some e) k v)) = some (k, v) := by
  refine ⟨?_, Str_member_parses e k v hk hv⟩
  rw [Str_some]
  exact ⟨_, rfl, by simp⟩

theorem Str_member_is_valid_json_witness :
    (plainKey (ascii "user") ∧ escapableValue (ascii "a\"b\n"))
    ∧ (∃ n, Entry.Str (some sampleEntry) (ascii "user") (ascii "a\"b\n") = some n
        ∧ n.buf.take sampleEntry.buf.length = sampleEntry.buf)
    ∧ parseStringMember
        (wrapMember sampleEntry (Entry.Str (some sampleEntry) (ascii "user") (ascii "a\"b\n")))
        = some (ascii "user", ascii "a\"b\n") :=
  ⟨⟨by unfold plainKey; decide, by unfold escapableValue; decide⟩,
    Str_member_is_valid_json sampleEntry (ascii "user") (ascii "a\"b\n")
      (by unfold plainKey; decide) (by unfold escapableValue; decide)⟩

/-- C9 (as stated) fails: with the key consisting of one quote the wrapped bytes are `{""":""}`,
and with the value consisting of the control byte 0x01 they hold that byte raw inside the
string; neither is a JSON object. -/
theorem Str_member_not_json :
    wrapMember sampleEntry (Entry.Str (some sampleEntry) [34] []) = ascii "\x7b\"\"\":\"\"\x7d"
    ∧ parseStringMember (wrapMember sampleEntry (Entry.Str (some sampleEntry) [34] [])) = none
    ∧ wrapMember sampleEntry (Entry.Str (some sampleEntry) (ascii "k") [1])
        = ascii "\x7b\"k\":\"\x01\"\x7d"
    ∧ parseStringMember (wrapMember sampleEntry (Entry.Str (some sampleEntry) (ascii "k") [1]))
        = none := by
  decide

/-! ## Decimal text of numbers -/

/-- The byte of a decimal digit. -/
theorem digit_byte :
    ∀ k, k < 10 → UInt8.ofNat (Nat.digitChar k).toNat = UInt8.ofNat (48 + k)
      ∧ (UInt8.ofNat (48 + k)).toNat - 48 = k
      ∧ (decide (48 ≤ UInt8.ofNat (48 + k)) && decide (UInt8.ofNat (48 + k) ≤ 57)) = true
      ∧ UInt8.ofNat (48 + k) ≠ 46 := by
  decide

/-- Every byte `toDigitsCore` puts in front of the accumulator is a decimal digit. -/
theorem toDigitsCore_spec (fuel : Nat) :
    ∀ (n : Nat) (ds : List Char), n < fuel →
      ∃ front : ByteSeq,
        (Nat.toDigitsCore 10 fuel n ds).map (fun c => UInt8.ofNat c.toNat)
          = front ++ ds.map (fun c => UInt8.ofNat c.toNat)
        ∧ front ≠ []
        ∧ (∀ c ∈ front, (decide (48 ≤ c) && decide (c ≤ 57)) = true ∧ c ≠ 46)
        ∧ digitsValue front = n := by
  induction fuel with
  | zero => intro n ds h; omega
  | succ fuel ih =>
    intro n ds h
    have hk := digit_byte (n % 10) (Nat.mod_lt _ (by norm_num))
    unfold Nat.toDigitsCore
    simp only []
    by_cases h0 : n / 10 = 0
    · rw [if_pos h0]
      refine ⟨[UInt8.ofNat (48 + n % 10)], by simp [hk.1], by simp, ?_, ?_⟩
      · intro c hc
        simp only [List.mem_singleton] at hc
        subst hc
        exact ⟨hk.2.2.1, hk.2.2.2⟩
      · simp only [digitsValue, List.foldl_cons, List.foldl_nil, hk.2.1]
        omega
    · rw [if_neg h0]
      obtain ⟨front, h1, _, h3, h4⟩ := ih (n / 10) (Nat.digitChar (n % 10) :: ds) (by omega)
      refine ⟨front ++ [UInt8.ofNat (48 + n % 10)], ?_, by simp, ?_, ?_⟩
      · rw [h1]
        simp [hk.1]
      · intro c hc
        rcases List.mem_append.mp hc with hc | hc
        · exact h3 c hc
        · simp only [List.mem_singleton] at hc
          subst hc
          exact ⟨hk.2.2.1, hk.2.2.2⟩
      · unfold digitsValue at h4 ⊢
        rw [List.foldl_append, h4]
        simp only [List.foldl_cons, List.foldl_nil, hk.2.1]
        omega

/-- The decimal text of `n` is a non-empty run of digits that denotes `n`. -/
theorem natDigits_spec (n : Nat) :
    natDigits n ≠ []
    ∧ (∀ c ∈ natDigits n, (decide (48 ≤ c) && decide (c ≤ 57)) = true ∧ c ≠ 46)
    ∧ digitsValue (natDigits n) = n := by
  obtain ⟨front, h1, h2, h3, h4⟩ := toDigitsCore_spec (n + 1) n [] (by omega)
  have h : natDigits n = front := by
    simpa [natDigits, Nat.toDigits] using h1
  rw [h]
  exact ⟨h2, h3, h4⟩

theorem isDigits_natDigits (n : Nat) : isDigits (natDigits n) = true := by
  obtain ⟨h1, h2, _⟩ := natDigits_spec n
  simp only [isDigits, Bool.and_eq_true, Bool.not_eq_true', List.isEmpty_eq_false, List.all_eq_true]
  exact ⟨h1, fun c hc => by simpa using (h2 c hc).1⟩

/-- The six digits of a remainder below one million denote it. -/
theorem sixDigits_spec (r : Nat) (hr : r < 1000000) :
    isDigits (sixDigits r) = true ∧ digitsValue (sixDigits r) = r ∧ (sixDigits r).length = 6 := by
  have d1 := digit_byte (r / 100000 % 10) (Nat.mod_lt _ (by norm_num))
  have d2 := digit_byte (r / 10000 % 10) (Nat.mod_lt _ (by norm_num))
  have d3 := digit_byte (r / 1000 % 10) (Nat.mod_lt _ (by norm_num))
  have d4 := digit_byte (r / 100 % 10) (Nat.mod_lt _ (by norm_num))
  have d5 := digit_byte (r / 10 % 10) (Nat.mod_lt _ (by norm_num))
  have d6 := digit_byte (r % 10) (Nat.mod_lt _ (by norm_num))
  refine ⟨?_, ?_, rfl⟩
  · simp only [isDigits, sixDigits, List.isEmpty_cons, Bool.not_false, Bool.true_and, List.all_cons,
      List.all_nil, Bool.and_true, d1.2.2.1, d2.2.2.1, d3.2.2.1, d4.2.2.1, d5.2.2.1, d6.2.2.1]
  · simp only [digitsValue, sixDigits, List.foldl_cons, List.foldl_nil, d1.2.1, d2.2.1, d3.2.1,
      d4.2.1, d5.2.1, d6.2.1]
    omega

theorem takeWhile_not_point (a rest : ByteSeq) (h : ∀ c ∈ a, c ≠ 46) :
    (a ++ 46 :: rest).takeWhile (fun c => c != 46) = a
    ∧ (a ++ 46 :: rest).dropWhile (fun c => c != 46) = 46 :: rest := by
  induction a with
  | nil => simp
  | cons x t ih =>
    have hx : x ≠ 46 := h x (List.mem_cons_self x t)
    have ht := ih (fun c hc => h c (List.mem_cons_of_mem x hc))
    simp [hx, ht.1, ht.2]

theorem takeWhile_no_point (a : ByteSeq) (h : ∀ c ∈ a, c ≠ 46) :
    a.takeWhile (fun c => c != 46) = a ∧ a.dropWhile (fun c => c != 46) = [] := by
  induction a with
  | nil => simp
  | cons x t ih =>
    have hx : x ≠ 46 := h x (List.mem_cons_self x t)
    have ht := ih (fun c hc => h c (List.mem_cons_of_mem x hc))
    simp [hx, ht.1, ht.2]

theorem durMagnitude_value (a : Nat) :
    decimalValue (durMagnitude a) = some ((a : ℚ) / 1000000) := by
  obtain ⟨_, h2, h3⟩ := natDigits_spec (a / 1000000)
  have hnp : ∀ c ∈ natDigits (a / 1000000), c ≠ 46 := fun c hc => (h2 c hc).2
  have hd := isDigits_natDigits (a / 1000000)
  have hsplit : (a : ℚ) = ((a / 1000000 : Nat) : ℚ) * 1000000 + ((a % 1000000 : Nat) : ℚ) := by
    have := Nat.div_add_mod a 1000000
    exact_mod_cast (by omega : a = a / 1000000 * 1000000 + a % 1000000)
  unfold durMagnitude decimalValue
  by_cases hr : a % 1000000 = 0
  · simp only [hr, ne_eq, not_true_eq_false, if_false, List.append_nil]
    rw [(takeWhile_no_point _ hnp).1, (takeWhile_no_point _ hnp).2]
    simp only [hd, if_true, h3]
    rw [hsplit, hr]
    congr 1
    field_simp
  · obtain ⟨s1, s2, s3⟩ := sixDigits_spec (a % 1000000) (Nat.mod_lt _ (by norm_num))
    simp only [ne_eq, hr, not_false_eq_true, if_true]
    rw [(takeWhile_not_point _ _ hnp).1, (takeWhile_not_point _ _ hnp).2]
    simp only [hd, s1, Bool.and_self, if_true, h3, s2, s3]
    congr 1
    rw [hsplit]
    field_simp
    norm_num

theorem durMagnitude_point (a : Nat) : 46 ∈ durMagnitude a ↔ a % 1000000 ≠ 0 := by
  obtain ⟨_, h2, _⟩ := natDigits_spec (a / 1000000)
  unfold durMagnitude
  by_cases hr : a % 1000000 = 0
  · simp only [hr, ne_eq, not_true_eq_false, if_false, List.append_nil, iff_false]
    exact fun h => (h2 46 h).2 rfl
  · simp [hr]

theorem durText_eq (d : Int) :
    durText d = (if d < 0 then [45] else []) ++ durMagnitude d.natAbs := by
  simp [durText, durMagnitude]

/-- C11: for every duration `d` other than the minimum 64-bit value, the value text `Dur`
appends is `-` exactly when `d` is negative, followed by a decimal numeral that, read as an
exact number, is the magnitude of `d` divided by one million, and this numeral has no point
exactly when `d` is a whole number of milliseconds. -/
theorem Dur_sign_and_magnitude (e : Entry) (k : ByteSeq) (d : Int) (h1 : -(2 ^ 63) < d)
    (h2 : d < 2 ^ 63) :
    ∃ mag : ByteSeq,
      Entry.Dur (some e) k d
        = Except.ok (some { e with
            buf := e.buf ++ ascii ",\"" ++ k ++ ascii "\":" ++ (if d < 0 then [45] else [])
              ++ mag })
      ∧ decimalValue mag = some ((d.natAbs : ℚ) / 1000000)
      ∧ (46 ∉ mag ↔ d % 1000000 = 0) := by
  refine ⟨durMagnitude d.natAbs, ?_, durMagnitude_value _, ?_⟩
  · rw [Dur_in_range e k d h1 h2, durText_eq]
    simp [ascii]
  · rw [durMagnitude_point]
    omega

theorem Dur_sign_and_magnitude_witness :
    (-(2 ^ 63) < (-1500100000 : Int) ∧ (-1500100000 : Int) < 2 ^ 63)
    ∧ ∃ mag : ByteSeq,
      Entry.Dur (some sampleEntry) (ascii "d") (-1500100000)
        = Except.ok (some { sampleEntry with
            buf := sampleEntry.buf ++ ascii ",\"" ++ ascii "d" ++ ascii "\":"
              ++ (if (-1500100000 : Int) < 0 then [45] else []) ++ mag })
      ∧ decimalValue mag = some (((-1500100000 : Int).natAbs : ℚ) / 1000000)
      ∧ (46 ∉ mag ↔ (-1500100000 : Int) % 1000000 = 0) :=
  ⟨by norm_num, Dur_sign_and_magnitude sampleEntry (ascii "d") (-1500100000) (by norm_num)
    (by norm_num)⟩

/-! ## Nested objects -/

theorem set_at_length (x : ByteSeq) (c c2 : UInt8) (t : ByteSeq) :
    (x ++ c :: t).set x.length c2 = x ++ c2 :: t := by
  induction x with
  | nil => rfl
  | cons y ys ih => simp [ih]

/-- What `Object` does with a marshaler that appends `a`. -/
theorem Object_appending (e : Entry) (k : ByteSeq) (m : Marshaler) (a : ByteSeq)
    (hm : m { e with buf := e.buf ++ [44, 34] ++ k ++ [34, 58] }
      = Except.ok { e with buf := e.buf ++ [44, 34] ++ k ++ [34, 58] ++ a }) :
    Entry.Object (some e) k (Iface.val m)
      = Except.ok (some { e with
          buf := e.buf ++ [44, 34] ++ k ++ [34, 58]
            ++ (if a = [] then ascii "null" else 123 :: a.tail ++ [125]) }) := by
  unfold Entry.Object
  simp only [hm, bind, Except.bind, pure, Except.pure]
  cases a with
  | nil => simp
  | cons c t =>
    have hlen : (e.buf ++ [44, 34] ++ k ++ [34, 58]).length
        < (e.buf ++ [44, 34] ++ k ++ [34, 58] ++ c :: t).length := by simp
    rw [if_pos hlen]
    simp only [setIndex, hlen, if_true, set_at_length]
    simp

theorem Object_nil (e : Entry) (k : ByteSeq) :
    Entry.Object (some e) k Iface.nil
        = Except.ok (some { e with buf := e.buf ++ [44, 34] ++ k ++ [34, 58] ++ ascii "null" })
    ∧ Entry.Object (some e) k Iface.nilRef
        = Except.ok (some { e with buf := e.buf ++ [44, 34] ++ k ++ [34, 58] ++ ascii "null" }) :=
  ⟨rfl, rfl⟩

/-- C12: on a non-nil entry with buffer `b`, when the marshaler appends a non-empty `m` the
call `Object(k, obj)` leaves `b` `,"` `k` `":` `{` `m` without its first byte `}`; when `obj` is
nil (as an interface or as the reference it wraps) or appends nothing it leaves `b` `,"` `k`
`":null`.  The bytes of `b` stay in place. -/
theorem Object_patches_first_byte (e : Entry) (k : ByteSeq) :
    Entry.Object (some e) k Iface.nil
        = Except.ok (some { e with buf := e.buf ++ ascii ",\"" ++ k ++ ascii "\":null" })
    ∧ Entry.Object (some e) k Iface.nilRef
        = Except.ok (some { e with buf := e.buf ++ ascii ",\"" ++ k ++ ascii "\":null" })
    ∧ (∀ (m : Marshaler) (a : ByteSeq),
        m { e with buf := e.buf ++ ascii ",\"" ++ k ++ ascii "\":" }
          = Except.ok { e with buf := e.buf ++ ascii ",\"" ++ k ++ ascii "\":" ++ a } →
        (a = [] → Entry.Object (some e) k (Iface.val m)
          = Except.ok (some { e with buf := e.buf ++ ascii ",\"" ++ k ++ ascii "\":null" }))
        ∧ (a ≠ [] → Entry.Object (some e) k (Iface.val m)
          = Except.ok (some { e with
              buf := e.buf ++ ascii ",\"" ++ k ++ ascii "\":" ++ [123] ++ a.tail ++ [125] }))) := by
  refine ⟨?_, ?_, ?_⟩
  · rw [(Object_nil e k).1]; simp [ascii]
  · rw [(Object_nil e k).2]; simp [ascii]
  · intro m a hm
    have h := Object_appending e k m a (by simpa [ascii] using hm)
    constructor
    · intro ha
      rw [h, if_pos ha]; simp [ascii]
    · intro ha
      rw [h, if_neg ha]; simp [ascii]

theorem Object_patches_first_byte_witness :
    (appendMarshaler (ascii ",\"a\":1")
        { sampleEntry with buf := sampleEntry.buf ++ ascii ",\"" ++ ascii "k" ++ ascii "\":" }
      = Except.ok { sampleEntry with
          buf := sampleEntry.buf ++ ascii ",\"" ++ ascii "k" ++ ascii "\":" ++ ascii ",\"a\":1" }
      ∧ ascii ",\"a\":1" ≠ [])
    ∧ Entry.Object (some sampleEntry) (ascii "k") (Iface.val (appendMarshaler (ascii ",\"a\":1")))
        = Except.ok (some { sampleEntry with
            buf := sampleEntry.buf ++ ascii ",\"" ++ ascii "k" ++ ascii "\":" ++ [123]
              ++ (ascii ",\"a\":1").tail ++ [125] }) :=
  ⟨⟨rfl, by decide⟩,
    ((Object_patches_first_byte sampleEntry (ascii "k")).2.2 (appendMarshaler (ascii ",\"a\":1"))
      (ascii ",\"a\":1") rfl).2 (by decide)⟩

/-! ## Brace balance -/

theorem braceScan_append (a b : ByteSeq) :
    ∀ s, braceScan s (a ++ b) = (braceScan s a).bind (fun s2 => braceScan s2 b) := by
  induction a with
  | nil => intro s; rfl
  | cons c t ih =>
    intro s
    simp only [List.cons_append, braceScan]
    cases scanStep s c with
    | none => rfl
    | some s2 => simpa using ih s2

theorem neutral_nil : neutral [] := fun _ => rfl

theorem neutral_append {a b : ByteSeq} (ha : neutral a) (hb : neutral b) : neutral (a ++ b) := by
  intro d
  rw [braceScan_append, ha d]
  exact hb d

theorem stringNeutral_append {a b : ByteSeq} (ha : stringNeutral a) (hb : stringNeutral b) :
    stringNeutral (a ++ b) := by
  intro d
  rw [braceScan_append, ha d]
  exact hb d

theorem stringNeutral_of_quoteFree (t : ByteSeq) (h : quoteFree t) : stringNeutral t := by
  induction t with
  | nil => exact fun _ => rfl
  | cons c r ih =>
    intro d
    have hc := h c (List.mem_cons_self c r)
    have hr := ih (fun x hx => h x (List.mem_cons_of_mem c hx))
    simp only [braceScan, scanStep, hc.1, hc.2, if_true, if_false, Bool.false_eq_true]
    exact hr d

theorem neutral_of_plain (t : ByteSeq) (h : ∀ c ∈ t, c ≠ 34 ∧ c ≠ 123 ∧ c ≠ 125) : neutral t := by
  induction t with
  | nil => exact fun _ => rfl
  | cons c r ih =>
    intro d
    have hc := h c (List.mem_cons_self c r)
    have hr := ih (fun x hx => h x (List.mem_cons_of_mem c hx))
    simp only [braceScan, scanStep, hc.1, hc.2.1, hc.2.2, if_false, Bool.false_eq_true]
    exact hr d

theorem neutral_quoted {t : ByteSeq} (h : stringNeutral t) : neutral (34 :: t ++ [34]) := by
  intro d
  simp only [List.cons_append, braceScan, scanStep, if_true, if_false, Bool.false_eq_true,
    Option.some_bind, List.append_eq]
  rw [braceScan_append, h d]
  rfl

theorem neutral_braced {t : ByteSeq} (h : neutral t) : neutral (123 :: t ++ [125]) := by
  intro d
  have h1 : (123 : UInt8) ≠ 34 := by decide
  simp only [List.cons_append, braceScan, scanStep, h1, if_true, if_false, Bool.false_eq_true,
    Option.some_bind, List.append_eq]
  rw [braceScan_append, h (d + 1)]
  have h2 : (125 : UInt8) ≠ 34 := by decide
  have h3 : (125 : UInt8) ≠ 123 := by decide
  simp [braceScan, scanStep, h2, h3]

theorem neutral_cons_of_plain {c : UInt8} {t : ByteSeq} (hc : c ≠ 34 ∧ c ≠ 123 ∧ c ≠ 125)
    (h : neutral t) : neutral (c :: t) :=
  neutral_append (a := [c]) (neutral_of_plain [c] (by simpa using hc)) h

theorem neutral_tail_of_comma {t : ByteSeq} (h : neutral (44 :: t)) : neutral t := by
  intro d
  have := h d
  simpa [braceScan, scanStep] using this

/-- The header `,"key":` of a member is neutral when the key is quote-free. -/
theorem neutral_header (k : ByteSeq) (hk : quoteFree k) : neutral ([44, 34] ++ k ++ [34, 58]) := by
  have h1 : neutral (34 :: k ++ [34]) := neutral_quoted (stringNeutral_of_quoteFree k hk)
  have h2 : neutral ((44 : UInt8) :: (34 :: k ++ [34])) := neutral_cons_of_plain (by decide) h1
  have h3 : neutral [(58 : UInt8)] := neutral_of_plain _ (by decide)
  simpa using neutral_append h2 h3

theorem digit_not_special {c : UInt8} (h : (decide (48 ≤ c) && decide (c ≤ 57)) = true) :
    c ≠ 34 ∧ c ≠ 92 ∧ c ≠ 123 ∧ c ≠ 125 := by
  refine ⟨?_, ?_, ?_, ?_⟩ <;> (rintro rfl; revert h; decide)

theorem natDigits_plain (n : Nat) : ∀ c ∈ natDigits n, c ≠ 34 ∧ c ≠ 92 ∧ c ≠ 123 ∧ c ≠ 125 :=
  fun c hc => digit_not_special ((natDigits_spec n).2.1 c hc).1

theorem appendInt_plain (i : Int) : ∀ c ∈ appendInt [] i, c ≠ 34 ∧ c ≠ 92 ∧ c ≠ 123 ∧ c ≠ 125 := by
  intro c hc
  unfold appendInt at hc
  split at hc
  · simp only [List.nil_append, List.mem_cons] at hc
    rcases hc with rfl | hc
    · decide
    · exact natDigits_plain _ c hc
  · exact natDigits_plain _ c (by simpa using hc)

theorem sixDigits_plain (r : Nat) : ∀ c ∈ sixDigits r, c ≠ 34 ∧ c ≠ 92 ∧ c ≠ 123 ∧ c ≠ 125 := by
  intro c hc
  simp only [sixDigits, List.mem_cons, List.mem_singleton, List.not_mem_nil, or_false] at hc
  rcases hc with rfl | rfl | rfl | rfl | rfl | rfl <;>
    exact digit_not_special (digit_byte _ (Nat.mod_lt _ (by norm_num))).2.2.1

theorem durText_plain (d : Int) : ∀ c ∈ durText d, c ≠ 34 ∧ c ≠ 92 ∧ c ≠ 123 ∧ c ≠ 125 := by
  intro c hc
  unfold durText at hc
  rcases List.mem_append.mp hc with hc | hc
  · rcases List.mem_append.mp hc with hc | hc
    · split at hc
      · simp only [List.mem_singleton] at hc
        subst hc
        decide
      · simp at hc
    · exact natDigits_plain _ c hc
  · split at hc
    · simp only [List.mem_cons] at hc
      rcases hc with rfl | hc
      · decide
      · exact sixDigits_plain _ c hc
    · simp at hc

set_option maxRecDepth 100000 in
theorem hex_getD_plain : ∀ n, n < 256 → hex.getD n 0 ≠ 34 ∧ hex.getD n 0 ≠ 92 := by
  decide

theorem hexDigit_plain (i : UInt8) : hexDigit i ≠ 34 ∧ hexDigit i ≠ 92 :=
  hex_getD_plain i.toNat i.val.isLt

/-- Inside a string the substitution of one byte leaves the scan inside the string. -/
theorem stringNeutral_escByte (c : UInt8) : stringNeutral (escByte c) := by
  cases hr : reserved c with
  | false =>
    rw [escByte_of_not_reserved hr]
    simp only [reserved, escapes, Bool.or_eq_false_iff, beq_eq_false_iff_ne, ne_eq] at hr
    apply stringNeutral_of_quoteFree
    intro x hx
    simp only [List.mem_singleton] at hx
    subst hx
    exact ⟨by tauto, by tauto⟩
  | true =>
    rcases reserved_cases hr with h | h | h | h | h | h | h | h | h | h <;> subst h <;>
      exact fun d => rfl

theorem stringNeutral_escapeSpec (v : ByteSeq) : stringNeutral (escapeSpec v) := by
  induction v with
  | nil => exact fun _ => rfl
  | cons c t ih =>
    unfold escapeSpec at ih ⊢
    rw [List.flatMap_cons]
    exact stringNeutral_append (stringNeutral_escByte c) ih

theorem stringNeutral_escOutput (v : ByteSeq) : stringNeutral (escOutput v) := by
  rw [escOutput_eq]
  split
  · exact stringNeutral_escapeSpec v
  · rename_i h
    apply stringNeutral_of_quoteFree
    intro c hc
    have h1 : escapes c = false := by
      have := List.any_eq_false.mp (by simpa using h) c hc
      simpa using this
    simp only [escapes, Bool.or_eq_false_iff, beq_eq_false_iff_ne, ne_eq] at h1
    exact ⟨by tauto, by tauto⟩

theorem neutral_null : neutral (ascii "null") := neutral_of_plain _ (by decide)

theorem neutral_quoted_plain (t : ByteSeq) (h : ∀ c ∈ t, c ≠ 34 ∧ c ≠ 92 ∧ c ≠ 123 ∧ c ≠ 125) :
    neutral (34 :: t ++ [34]) :=
  neutral_quoted (stringNeutral_of_quoteFree t (fun c hc => ⟨(h c hc).1, (h c hc).2.1⟩))

theorem neutral_of_plain4 (t : ByteSeq) (h : ∀ c ∈ t, c ≠ 34 ∧ c ≠ 92 ∧ c ≠ 123 ∧ c ≠ 125) :
    neutral t :=
  neutral_of_plain t (fun c hc => ⟨(h c hc).1, (h c hc).2.2.1, (h c hc).2.2.2⟩)

theorem neutral_byte_value (k : ByteSeq) (v : UInt8) :
    ∃ t, Entry.Value (Entry.Byte (some { buf := [], Level := Level.InfoLevel, w := 0 }) k v)
        = [44, 34] ++ k ++ [34, 58] ++ t ∧ neutral t := by
  cases hr : reserved v with
  | false =>
    simp only [reserved, escapes, Bool.or_eq_false_iff, beq_eq_false_iff_ne, ne_eq] at hr
    refine ⟨[34, v, 34], by simp [Entry.Byte, Entry.Value, hr], ?_⟩
    exact neutral_quoted (t := [v]) (stringNeutral_of_quoteFree [v] (by
      intro x hx
      simp only [List.mem_singleton] at hx
      subst hx
      exact ⟨by tauto, by tauto⟩))
  | true =>
    rcases reserved_cases hr with h | h | h | h | h | h | h | h | h | h <;> subst h
    · exact ⟨[34, 92, 34, 34], by simp [Entry.Byte, Entry.Value], fun d => rfl⟩
    · exact ⟨[34, 92, 117, 48, 48, 51, 99, 34], by simp [Entry.Byte, Entry.Value], fun d => rfl⟩
    · exact ⟨[34, 92, 117, 48, 48, 50, 55, 34], by simp [Entry.Byte, Entry.Value], fun d => rfl⟩
    · exact ⟨[34, 92, 92, 34], by simp [Entry.Byte, Entry.Value], fun d => rfl⟩
    · exact ⟨[34, 92, 117, 48, 48, 48, 56, 34], by simp [Entry.Byte, Entry.Value], fun d => rfl⟩
    · exact ⟨[34, 92, 117, 48, 48, 48, 99, 34], by simp [Entry.Byte, Entry.Value], fun d => rfl⟩
    · exact ⟨[34, 92, 110, 34], by simp [Entry.Byte, Entry.Value], fun d => rfl⟩
    · exact ⟨[34, 92, 114, 34], by simp [Entry.Byte, Entry.Value], fun d => rfl⟩
    · exact ⟨[34, 92, 116, 34], by simp [Entry.Byte, Entry.Value], fun d => rfl⟩
    · exact ⟨[34, 92, 117, 48, 48, 48, 48, 34], by simp [Entry.Byte, Entry.Value], fun d => rfl⟩

/-- A plain scalar call contributes its header followed by a neutral value text. -/
theorem Field.contribution_neutral (f : Field) (hp : f.plain) :
    ∃ v, f.contribution = Except.ok ([44, 34] ++ f.key ++ [34, 58] ++ v) ∧ neutral v := by
  obtain ⟨hq, hraw, hdur⟩ := hp
  cases f
  case bool k b =>
    refine ⟨appendBool [] b, by simp [Field.contribution, Field.apply, Entry.Bool, Entry.Value,
      Field.key, appendBool, bind, Except.bind, pure, Except.pure]; cases b <;> simp, ?_⟩
    cases b
    · exact neutral_of_plain _ (by decide)
    · exact neutral_of_plain _ (by decide)
  case int64 k i =>
    refine ⟨appendInt [] i, ?_, neutral_of_plain4 _ (appendInt_plain i)⟩
    simp only [Field.contribution, Field.apply, Entry.Int64, Entry.Value, Field.key, bind,
      Except.bind, pure, Except.pure]
    rw [appendInt_eq]
    simp
  case int k i =>
    refine ⟨appendInt [] i, ?_, neutral_of_plain4 _ (appendInt_plain i)⟩
    simp only [Field.contribution, Field.apply, Entry.Int, Entry.Value, Field.key, bind,
      Except.bind, pure, Except.pure]
    rw [appendInt_eq]
    simp
  case uint64 k i =>
    exact ⟨natDigits i, by simp [Field.contribution, Field.apply, Entry.Uint64, Entry.Value,
      Field.key, appendUint, bind, Except.bind, pure, Except.pure],
      neutral_of_plain4 _ (natDigits_plain i)⟩
  case uint k i =>
    exact ⟨natDigits i, by simp [Field.contribution, Field.apply, Entry.Uint, Entry.Value,
      Field.key, appendUint, bind, Except.bind, pure, Except.pure],
      neutral_of_plain4 _ (natDigits_plain i)⟩
  case str k v =>
    exact ⟨34 :: escOutput v ++ [34], by simp [Field.contribution, Field.apply, Str_some,
      Entry.Value, Field.key, bind, Except.bind, pure, Except.pure],
      neutral_quoted (stringNeutral_escOutput v)⟩
  case strInt k v =>
    refine ⟨34 :: appendInt [] v ++ [34], ?_, neutral_quoted_plain _ (appendInt_plain v)⟩
    simp only [Field.contribution, Field.apply, Entry.StrInt, Entry.Value, Field.key, bind,
      Except.bind, pure, Except.pure]
    rw [appendInt_eq]
    simp
  case byte k v =>
    obtain ⟨t, h1, h2⟩ := neutral_byte_value k v
    exact ⟨t, by simp [Field.contribution, Field.apply, Field.key, bind, Except.bind, pure,
      Except.pure, h1], h2⟩
  case bytes k v =>
    exact ⟨34 :: escOutput v ++ [34], by simp [Field.contribution, Field.apply, Bytes_some,
      Entry.Value, Field.key, bind, Except.bind, pure, Except.pure],
      neutral_quoted (stringNeutral_escOutput v)⟩
  case bytesOrNil k v =>
    cases v with
    | none =>
      exact ⟨ascii "null", by simp [Field.contribution, Field.apply, Entry.BytesOrNil,
        Entry.Value, Field.key, bind, Except.bind, pure, Except.pure], neutral_null⟩
    | some v =>
      exact ⟨34 :: escOutput v ++ [34], by simp [Field.contribution, Field.apply,
        Entry.BytesOrNil, bytes_eq, Entry.Value, Field.key, bind, Except.bind, pure,
        Except.pure], neutral_quoted (stringNeutral_escOutput v)⟩
  case hex k v =>
    refine ⟨34 :: v.flatMap (fun x => [hexDigit (x >>> 4), hexDigit (x &&& 15)]) ++ [34],
      by simp [Field.contribution, Field.apply, Entry.Hex, hex_foldl, Entry.Value, Field.key,
        bind, Except.bind, pure, Except.pure], ?_⟩
    apply neutral_quoted
    apply stringNeutral_of_quoteFree
    intro c hc
    obtain ⟨x, _, hx⟩ := List.mem_flatMap.mp hc
    simp only [List.mem_cons, List.mem_singleton, List.not_mem_nil, or_false] at hx
    rcases hx with rfl | rfl <;> exact hexDigit_plain _
  case rawJSON k b =>
    exact ⟨b, by simp [Field.contribution, Field.apply, Entry.RawJSON, Entry.Value, Field.key,
      bind, Except.bind, pure, Except.pure], hraw⟩
  case rawJSONStr k b =>
    exact ⟨b, by simp [Field.contribution, Field.apply, Entry.RawJSONStr, Entry.Value,
      Field.key, bind, Except.bind, pure, Except.pure], hraw⟩
  case dur k d =>
    simp only [Field.durInRange] at hdur
    refine ⟨durText d, ?_, neutral_of_plain4 _ (durText_plain d)⟩
    simp only [Field.contribution, Field.apply, Field.key, bind, Except.bind, pure, Except.pure]
    rw [Dur_in_range _ k d hdur.1 hdur.2]
    simp [Entry.Value]

theorem Call.run_field (f : Field) (e : Entry) (c : ByteSeq) (h : f.contribution = Except.ok c) :
    Call.run (Call.field f) e = Except.ok { e with buf := e.buf ++ c } := by
  simp only [Call.run, Field.apply_some, h, Except.map, bind, Except.bind, pure, Except.pure,
    Option.getD_some]

theorem objectsLoop_nil (i : Nat) (e : Entry) : objectsLoop [] i e = Except.ok e := rfl

theorem objectsLoop_null (rest : List Element) (i : Nat) (e : Entry) :
    objectsLoop (Element.nilPtr :: rest) i e
      = objectsLoop rest (i + 1)
          { e with buf := e.buf ++ (if i ≠ 0 then [44] else []) ++ ascii "null" } := by
  by_cases hi : i = 0 <;> simp [objectsLoop, hi, bind, Except.bind, pure, Except.pure]

theorem objectsLoop_marshaler (m : Marshaler) (rest : List Element) (i : Nat) (e : Entry)
    (t : ByteSeq)
    (hm : m { e with buf := e.buf ++ (if i ≠ 0 then [44] else []) }
      = Except.ok { e with buf := e.buf ++ (if i ≠ 0 then [44] else []) ++ 44 :: t }) :
    objectsLoop (Element.marshaler m :: rest) i e
      = objectsLoop rest (i + 1)
          { e with buf := e.buf ++ (if i ≠ 0 then [44] else []) ++ 123 :: t ++ [125] } := by
  by_cases hi : i = 0
  · subst hi
    simp only [ne_eq, not_true_eq_false, if_false, List.append_nil] at hm
    simp [objectsLoop, hm, setIndex, set_at_length, bind, Except.bind, pure, Except.pure]
  · simp only [ne_eq, hi, not_false_eq_true, if_true] at hm
    simp [objectsLoop, hi, hm, setIndex, set_at_length, bind, Except.bind, pure, Except.pure]

mutual
/-- A plain body appends a neutral text that is empty or starts with a comma. -/
theorem Body.body_neutral : ∀ (b : Body), Body.plain b → ∀ e : Entry,
    ∃ t, Body.run b e = Except.ok { e with buf := e.buf ++ t } ∧ neutral t
      ∧ ((b = Body.done ∧ t = []) ∨ (b ≠ Body.done ∧ ∃ t2, t = 44 :: t2))
  | Body.done, _, e => ⟨[], by simp [Body.run, pure, Except.pure], neutral_nil, Or.inl ⟨rfl, rfl⟩⟩
  | Body.call c rest, hp, e => by
    simp only [Body.plain] at hp
    obtain ⟨t2, h1, n1⟩ := Call.call_neutral c hp.1 e
    obtain ⟨t3, h3, n3, _⟩ := Body.body_neutral rest hp.2 { e with buf := e.buf ++ 44 :: t2 }
    refine ⟨44 :: t2 ++ t3, ?_, ?_, Or.inr ⟨by simp, t2 ++ t3, by simp⟩⟩
    · simp [Body.run, h1, h3, bind, Except.bind]
    · simpa using neutral_append n1 n3
/-- A plain call appends a neutral text that starts with a comma. -/
theorem Call.call_neutral : ∀ (c : Call), Call.plain c → ∀ e : Entry,
    ∃ t2, Call.run c e = Except.ok { e with buf := e.buf ++ 44 :: t2 } ∧ neutral (44 :: t2)
  | Call.field f, hp, e => by
    simp only [Call.plain] at hp
    obtain ⟨v, hv, nv⟩ := Field.contribution_neutral f hp
    refine ⟨34 :: (f.key ++ [34, 58] ++ v), ?_, ?_⟩
    · rw [Call.run_field f e _ hv]
      simp
    · simpa using neutral_append (neutral_header f.key hp.1) nv
  | Call.objectNil key, hp, e => by
    simp only [Call.plain] at hp
    refine ⟨34 :: (key ++ [34, 58] ++ ascii "null"), ?_, ?_⟩
    · simp [Call.run, (Object_nil e key).1, bind, Except.bind, pure, Except.pure]
    · simpa using neutral_append (neutral_header key hp) neutral_null
  | Call.object key obj, hp, e => by
    simp only [Call.plain] at hp
    obtain ⟨a, ha, na, hform⟩ :=
      Body.body_neutral obj hp.2 { e with buf := e.buf ++ [44, 34] ++ key ++ [34, 58] }
    have ho := Object_appending e key (Body.run obj) a ha
    refine ⟨34 :: (key ++ [34, 58] ++ (if a = [] then ascii "null" else 123 :: a.tail ++ [125])),
      ?_, ?_⟩
    · simp [Call.run, ho, bind, Except.bind, pure, Except.pure]
    · have nval : neutral (if a = [] then ascii "null" else 123 :: a.tail ++ [125]) := by
        rcases hform with ⟨_, h0⟩ | ⟨_, t2, h2⟩
        · simpa [h0] using neutral_null
        · subst h2
          simpa using neutral_braced (neutral_tail_of_comma na)
      simpa using neutral_append (neutral_header key hp.1) nval
  | Call.objects key items, hp, e => by
    simp only [Call.plain] at hp
    obtain ⟨t, ht, nt⟩ :=
      Items.items_neutral items hp.2 0 { e with buf := e.buf ++ 44 :: 34 :: (key ++ [34, 58, 91]) }
    refine ⟨34 :: (key ++ [34, 58] ++ (91 :: t ++ [93])), ?_, ?_⟩
    · simp [Call.run, Entry.Objects, ht, bind, Except.bind, pure, Except.pure]
    · have n1 : neutral ((91 : UInt8) :: t) := neutral_cons_of_plain (by decide) nt
      have n2 : neutral [(93 : UInt8)] := neutral_of_plain _ (by decide)
      simpa using neutral_append (neutral_header key hp.1) (neutral_append n1 n2)
  | Call.dict key ctx, hp, e => by
    simp only [Call.plain] at hp
    obtain ⟨a, ha, na, hform⟩ :=
      Body.body_neutral ctx hp.2 { buf := [], Level := Level.TraceLevel, w := 0 }
    refine ⟨34 :: (key ++ [34, 58] ++ (123 :: a.drop 1 ++ [125])), ?_, ?_⟩
    · rcases hform with ⟨_, h0⟩ | ⟨_, t2, h2⟩
      · subst h0
        simp [Call.run, ha, Entry.Dict, bind, Except.bind, pure, Except.pure]
      · subst h2
        simp [Call.run, ha, Entry.Dict, bind, Except.bind, pure, Except.pure]
    · have nval : neutral (123 :: a.drop 1 ++ [125]) := by
        rcases hform with ⟨_, h0⟩ | ⟨_, t2, h2⟩
        · subst h0
          simpa using neutral_braced neutral_nil
        · subst h2
          simpa using neutral_braced (neutral_tail_of_comma na)
      simpa using neutral_append (neutral_header key hp.1) nval
/-- The loop of `Objects` over plain marshalers appends a neutral text. -/
theorem Items.items_neutral : ∀ (its : Items), Items.plain its → ∀ (i : Nat) (e : Entry),
    ∃ t, objectsLoop (Items.elements its) i e = Except.ok { e with buf := e.buf ++ t } ∧ neutral t
  | Items.nil, _, i, e => ⟨[], by simp [Items.elements, objectsLoop_nil], neutral_nil⟩
  | Items.null rest, hp, i, e => by
    simp only [Items.plain] at hp
    obtain ⟨t, ht, nt⟩ := Items.items_neutral rest hp (i + 1)
      { e with buf := e.buf ++ (if i ≠ 0 then [44] else []) ++ ascii "null" }
    refine ⟨(if i ≠ 0 then [44] else []) ++ ascii "null" ++ t, ?_, ?_⟩
    · simp only [Items.elements, objectsLoop_null, ht]
      simp
    · have n0 : neutral (if i ≠ 0 then [(44 : UInt8)] else []) := by
        split
        · exact neutral_of_plain _ (by decide)
        · exact neutral_nil
      exact neutral_append (neutral_append n0 neutral_null) nt
  | Items.obj b rest, hp, i, e => by
    simp only [Items.plain] at hp
    obtain ⟨a, ha, na, hform⟩ :=
      Body.body_neutral b hp.2.1 { e with buf := e.buf ++ (if i ≠ 0 then [44] else []) }
    rcases hform with ⟨h0, _⟩ | ⟨_, t2, h2⟩
    · exact absurd h0 hp.1
    · subst h2
      obtain ⟨t, ht, nt⟩ := Items.items_neutral rest hp.2.2 (i + 1)
        { e with buf := e.buf ++ (if i ≠ 0 then [44] else []) ++ 123 :: t2 ++ [125] }
      refine ⟨(if i ≠ 0 then [44] else []) ++ (123 :: t2 ++ [125]) ++ t, ?_, ?_⟩
      · simp only [Items.elements]
        rw [objectsLoop_marshaler (Body.run b) _ i e t2 ha, ht]
        simp
      · have n0 : neutral (if i ≠ 0 then [(44 : UInt8)] else []) := by
          split
          · exact neutral_of_plain _ (by decide)
          · exact neutral_nil
        exact neutral_append (neutral_append n0 (neutral_braced (neutral_tail_of_comma na))) nt
end

/-- The whole text a plain `Object` call appends is neutral. -/
theorem Object_plain (e : Entry) (k : ByteSeq) (b : Body) (hk : quoteFree k)
    (hb : Body.plain b) :
    ∃ t, Entry.Object (some e) k (Iface.val (Body.run b))
        = Except.ok (some { e with buf := e.buf ++ t }) ∧ neutral t := by
  obtain ⟨a, ha, na, hform⟩ :=
    Body.body_neutral b hb { e with buf := e.buf ++ [44, 34] ++ k ++ [34, 58] }
  have ho := Object_appending e k (Body.run b) a ha
  refine ⟨[44, 34] ++ k ++ [34, 58] ++ (if a = [] then ascii "null" else 123 :: a.tail ++ [125]),
    by rw [ho]; simp, ?_⟩
  have nval : neutral (if a = [] then ascii "null" else 123 :: a.tail ++ [125]) := by
    rcases hform with ⟨_, h0⟩ | ⟨_, t2, h2⟩
    · simpa [h0] using neutral_null
    · subst h2
      simpa using neutral_braced (neutral_tail_of_comma na)
  exact neutral_append (neutral_header k hk) nval

/-- C13 (as amended): for every tree of marshalers whose bodies only make field-append calls
(scalar calls, `Object`, `Objects`, `Dict`), provided every key is free of quote and backslash,
every raw JSON argument is itself neutral, every duration is a 64-bit value other than the
minimum and every marshaler handed to `Objects` makes at least one call, the outermost
`Object` call completes and the bytes it appends have, outside string literals, as many
closing as opening braces, with no part read from the left having more closing ones. -/
theorem Object_braces_balanced (e : Entry) (k : ByteSeq) (b : Body) (hk : quoteFree k)
    (hb : Body.plain b) :
    ∃ t, Entry.Object (some e) k (Iface.val (Body.run b))
        = Except.ok (some { e with buf := e.buf ++ t }) ∧ braceBalanced t := by
  obtain ⟨t, h, n⟩ := Object_plain e k b hk hb
  exact ⟨t, h, n 0⟩

theorem Object_braces_balanced_witness :
    (quoteFree (ascii "k")
      ∧ Body.plain (Body.call (Call.field (Field.str (ascii "s") (ascii "x\x7b")))
          (Body.call (Call.object (ascii "o")
            (Body.call (Call.field (Field.bool (ascii "a") true)) Body.done)) Body.done)))
    ∧ ∃ t, Entry.Object (some sampleEntry) (ascii "k")
        (Iface.val (Body.run (Body.call (Call.field (Field.str (ascii "s") (ascii "x\x7b")))
          (Body.call (Call.object (ascii "o")
            (Body.call (Call.field (Field.bool (ascii "a") true)) Body.done)) Body.done))))
        = Except.ok (some { sampleEntry with buf := sampleEntry.buf ++ t }) ∧ braceBalanced t := by
  have hk : quoteFree (ascii "k") := by unfold quoteFree; decide
  have hb : Body.plain (Body.call (Call.field (Field.str (ascii "s") (ascii "x\x7b")))
      (Body.call (Call.object (ascii "o")
        (Body.call (Call.field (Field.bool (ascii "a") true)) Body.done)) Body.done)) := by
    simp only [Body.plain, Call.plain, Field.plain, Field.key, Field.rawNeutral,
      Field.durInRange, quoteFree, and_true]
    decide
  exact ⟨⟨hk, hb⟩, Object_braces_balanced sampleEntry (ascii "k") _ hk hb⟩

/-- C13 (as stated) fails: a marshaler that calls `Bool` with the key `"}}` makes `Object`
append `,"k":{""}}":true}`, in which the second closing brace outside a string has no brace
to close. -/
theorem Object_braces_unbalanced :
    Entry.Object (some sampleEntry) (ascii "k")
        (Iface.val (Body.run (Body.call (Call.field (Field.bool (ascii "\"\x7d\x7d") true))
          Body.done)))
      = Except.ok (some { sampleEntry with
          buf := sampleEntry.buf ++ ascii ",\"k\":\x7b\"\"\x7d\x7d\":true\x7d" })
    ∧ braceScan { inString := false, escaped := false, depth := 0 }
        (ascii ",\"k\":\x7b\"\"\x7d\x7d\":true\x7d") = none
    ∧ ¬ braceBalanced (ascii ",\"k\":\x7b\"\"\x7d\x7d\":true\x7d") := by
  refine ⟨by rfl, by decide, ?_⟩
  unfold braceBalanced
  decide

/-! ## Slices of objects -/

/-- C20: when the one marshaler of the slice appends nothing, `Objects` faults with an index
out of range at `e.buf[i] = '{'`, where `Object` on the same marshaler appends `null`. -/
theorem Objects_faults_on_silent_marshaler (e : Entry) (k : ByteSeq) :
    Entry.Objects (some e) k (some [Element.marshaler (appendMarshaler [])])
        = Except.error Fault.indexOutOfRange
    ∧ Entry.Object (some e) k (Iface.val (appendMarshaler []))
        = Except.ok (some { e with buf := e.buf ++ ascii ",\"" ++ k ++ ascii "\":null" }) := by
  constructor
  · simp [Entry.Objects, objectsLoop, appendMarshaler, setIndex, bind, Except.bind, pure,
      Except.pure]
  · simp [Entry.Object, appendMarshaler, ascii, bind, Except.bind, pure, Except.pure]

/-! ## Level-triggered side effects -/

/-- How `Msg` ends on a non-nil entry. -/
theorem Msg_some_outcome (e : Entry) (m : ByteSeq) (w : World) :
    (Entry.Msg (some e) m w).2
      = (if e.Level = Level.FatalLevel ∧ w.notTest = true then Outcome.exited 255
         else if e.Level = Level.PanicLevel ∧ w.notTest = true then Outcome.panicked m
         else Outcome.returned)
    ∧ (Entry.Msg (some e) m w).1.notTest = w.notTest := by
  unfold Entry.Msg
  by_cases hm : m = []
  · subst hm
    simp only [ne_eq, not_true_eq_false, if_false, WriteEntry]
    split_ifs <;> simp
  · simp only [ne_eq, hm, not_false_eq_true, if_true, string_eq, WriteEntry]
    split_ifs <;> simp

/-- C18: at the panic level with test mode off, `Msg(m)` writes the record and panics with
the value `m`, but `Msgf` and `Msgs` write the record and panic with the empty string, whatever
the formatted text is: the message text is lost because they finish through `Msg("")`. -/
theorem Msgf_panic_value_is_empty (buf : ByteSeq) (sink : Nat) (t : ByteSeq)
    (writes : List (Nat × ByteSeq)) :
    (Entry.Msg (some { buf := buf, Level := Level.PanicLevel, w := sink }) t
        { writes := writes, notTest := true }).2 = Outcome.panicked t
    ∧ (Entry.Msgf (some { buf := buf, Level := Level.PanicLevel, w := sink }) t
        { writes := writes, notTest := true }).2 = Outcome.panicked []
    ∧ (Entry.Msgs (some { buf := buf, Level := Level.PanicLevel, w := sink }) t
        { writes := writes, notTest := true }).2 = Outcome.panicked []
    ∧ (Entry.Msgf (some { buf := buf, Level := Level.PanicLevel, w := sink }) (ascii "boom")
        { writes := writes, notTest := true }).2 ≠ Outcome.panicked (ascii "boom")
    ∧ (Entry.Msgf (some { buf := buf, Level := Level.PanicLevel, w := sink }) (ascii "boom")
        { writes := writes, notTest := true }).1.writes
        = writes ++ [(sink, buf ++ ascii ",\"message\":\"boom\"\x7d\n")] := by
  have hf : ∀ x : ByteSeq,
      (Entry.Msgf (some { buf := buf, Level := Level.PanicLevel, w := sink }) x
        { writes := writes, notTest := true }).2 = Outcome.panicked [] := by
    intro x
    unfold Entry.Msgf
    rw [(Msg_some_outcome _ _ _).1, bytes_eq]
    simp
  refine ⟨?_, hf t, ?_, ?_, ?_⟩
  · rw [(Msg_some_outcome _ _ _).1]
    simp
  · unfold Entry.Msgs
    rw [(Msg_some_outcome _ _ _).1, bytes_eq]
    simp
  · rw [hf]
    decide
  · unfold Entry.Msgf
    rw [Msg_some_writes, bytes_eq]
    have h : escOutput (ascii "boom") = ascii "boom" := by decide
    rw [h]
    simp [ascii]

/-- C19: on a non-nil entry `Msg` ends with the process exit of status 255 exactly at the
fatal level with test mode off, with a panic exactly at the panic level with test mode off,
and returns otherwise, in particular whenever `notTest` is false; in each case the world in
which it ends already holds the one call of `WriteEntry` with the complete record. -/
theorem Msg_side_effects_after_write (e : Entry) (m : ByteSeq) (w : World) :
    ((Entry.Msg (some e) m w).2 = Outcome.exited 255
        ↔ e.Level = Level.FatalLevel ∧ w.notTest = true)
    ∧ ((∃ v, (Entry.Msg (some e) m w).2 = Outcome.panicked v)
        ↔ e.Level = Level.PanicLevel ∧ w.notTest = true)
    ∧ (∀ s, (Entry.Msg (some e) m w).2 ≠ Outcome.exited s ∨ s = 255)
    ∧ (w.notTest = false → (Entry.Msg (some e) m w).2 = Outcome.returned)
    ∧ (Entry.Msg (some e) m w).1.writes
        = w.writes ++ [(e.w, if m ≠ [] then e.buf ++ ascii ",\"message\":\"" ++ escOutput m
                                ++ ascii "\"\x7d\n"
                             else e.buf ++ ascii "\x7d\n")] := by
  obtain ⟨ho, _⟩ := Msg_some_outcome e m w
  refine ⟨?_, ?_, ?_, ?_, Msg_some_writes e m w⟩
  · rw [ho]
    split_ifs with h1 h2 <;> simp [h1]
  · rw [ho]
    split_ifs with h1 h2
    · simp; intro h; rw [h] at h1; exact absurd h1.1 (by decide)
    · simp [h2]
    · simp only [reduceCtorEq, exists_false, false_iff]
      exact h2
  · intro s
    rw [ho]
    split_ifs <;> simp
    by_cases hs : s = 255
    · exact Or.inr hs
    · exact Or.inl (fun h => hs h.symm)
  · intro hn
    rw [ho]
    simp [hn]

theorem Msg_side_effects_after_write_witness :
    ({ writes := [], notTest := false } : World).notTest = false
    ∧ (Entry.Msg (some { buf := [123], Level := Level.FatalLevel, w := 1 }) (ascii "hi")
        { writes := [], notTest := false }).2 = Outcome.returned :=
  ⟨rfl, (Msg_side_effects_after_write { buf := [123], Level := Level.FatalLevel, w := 1 }
    (ascii "hi") { writes := [], notTest := false }).2.2.2.1 rfl⟩

/-! ## Floats -/

theorem last_four (p : ByteSeq) (x3 x2 x1 x0 : UInt8) :
    (p ++ [x3, x2, x1, x0]).getD ((p ++ [x3, x2, x1, x0]).length - 4) 0 = x3
    ∧ (p ++ [x3, x2, x1, x0]).getD ((p ++ [x3, x2, x1, x0]).length - 3) 0 = x2
    ∧ (p ++ [x3, x2, x1, x0]).getD ((p ++ [x3, x2, x1, x0]).length - 2) 0 = x1
    ∧ (p ++ [x3, x2, x1, x0]).getD ((p ++ [x3, x2, x1, x0]).length - 1) 0 = x0 := by
  have h4 : (p ++ [x3, x2, x1, x0]).length - 4 = p.length := by simp
  have h3 : (p ++ [x3, x2, x1, x0]).length - 3 = p.length + 1 := by simp
  have h2 : (p ++ [x3, x2, x1, x0]).length - 2 = p.length + 2 := by simp
  have h1 : (p ++ [x3, x2, x1, x0]).length - 1 = p.length + 3 := by simp
  rw [h4, h3, h2, h1]
  refine ⟨?_, ?_, ?_, ?_⟩ <;> rw [List.getD_append_right _ _ _ _ (by omega)] <;> simp

/-- The clean-up rewrites `e-0d` at the end to `e-d`. -/
theorem cleanExponent_hit (p : ByteSeq) (d : UInt8) :
    cleanExponent (p ++ [101, 45, 48, d]) = p ++ [101, 45, d] := by
  obtain ⟨h4, h3, h2, h1⟩ := last_four p 101 45 48 d
  unfold cleanExponent
  simp only [h4, h3, h2, h1, and_self, and_true]
  rw [if_pos (by simp)]
  have e2 : (p ++ [101, 45, 48, d]).length - 2 = p.length + 2 := by simp
  have e1 : (p ++ [101, 45, 48, d]).length - 1 = p.length + 3 := by simp
  rw [e2, e1, List.set_append_right _ _ (by omega), List.take_append]
  simp

/-- The clean-up leaves a buffer alone whose last four bytes are not `e-0d`. -/
theorem cleanExponent_miss (p : ByteSeq) (x3 x2 x1 x0 : UInt8)
    (h : x3 ≠ 101 ∨ x2 ≠ 45 ∨ x1 ≠ 48) :
    cleanExponent (p ++ [x3, x2, x1, x0]) = p ++ [x3, x2, x1, x0] := by
  obtain ⟨h4, h3, h2, _⟩ := last_four p x3 x2 x1 x0
  unfold cleanExponent
  simp only [h4, h3, h2]
  rw [if_neg]
  tauto

/-- The shape of what `toDigitsCore` puts in front of the accumulator: one digit below ten,
at least two digits from ten on, and no leading zero for a positive number. -/
theorem toDigitsCore_shape (fuel : Nat) :
    ∀ (n : Nat) (ds : List Char), n < fuel →
      ∃ front : ByteSeq,
        (Nat.toDigitsCore 10 fuel n ds).map (fun c => UInt8.ofNat c.toNat)
          = front ++ ds.map (fun c => UInt8.ofNat c.toNat)
        ∧ (n < 10 → front = [UInt8.ofNat (48 + n)])
        ∧ (10 ≤ n → 2 ≤ front.length)
        ∧ (0 < n → front.head? ≠ some 48) := by
  induction fuel with
  | zero => intro n ds h; omega
  | succ fuel ih =>
    intro n ds h
    have hk := digit_byte (n % 10) (Nat.mod_lt _ (by norm_num))
    unfold Nat.toDigitsCore
    simp only []
    by_cases h0 : n / 10 = 0
    · rw [if_pos h0]
      have hn : n < 10 := by omega
      have hmod : n % 10 = n := Nat.mod_eq_of_lt hn
      have hd := digit_byte n hn
      refine ⟨[UInt8.ofNat (48 + n)], by simp [hmod, hd.1], fun _ => rfl, fun h10 => by omega, ?_⟩
      intro hpos
      simp only [List.head?_cons, ne_eq, Option.some.injEq]
      intro h48
      have := hd.2.1
      rw [h48] at this
      have h2 : (48 : UInt8).toNat - 48 = 0 := by decide
      omega
    · rw [if_neg h0]
      obtain ⟨front, h1, _, h3, h4⟩ := ih (n / 10) (Nat.digitChar (n % 10) :: ds) (by omega)
      have hne : front.head? ≠ some 48 := h4 (by omega)
      have hfront : front ≠ [] := by
        intro hnil
        have hshape := ih (n / 10) (Nat.digitChar (n % 10) :: ds) (by omega)
        cases front with
        | nil =>
          by_cases hq : n / 10 < 10
          · obtain ⟨f2, g1, g2, _, _⟩ := hshape
            have := congrArg List.length (h1.symm.trans g1)
            rw [g2 hq] at this
            simp at this
          · have := h3 (by omega)
            simp at this
        | cons a t => cases hnil
      refine ⟨front ++ [UInt8.ofNat (48 + n % 10)], ?_, fun hn => by omega, ?_, ?_⟩
      · rw [h1]
        simp [hk.1]
      · intro _
        cases front with
        | nil => exact absurd rfl hfront
        | cons a t => simp
      · intro _
        cases front with
        | nil => exact absurd rfl hfront
        | cons a t => simpa using hne

theorem natDigits_shape (n : Nat) :
    (n < 10 → natDigits n = [UInt8.ofNat (48 + n)])
    ∧ (10 ≤ n → 2 ≤ (natDigits n).length)
    ∧ (0 < n → (natDigits n).head? ≠ some 48) := by
  obtain ⟨front, h1, h2, h3, h4⟩ := toDigitsCore_shape (n + 1) n [] (by omega)
  have h : natDigits n = front := by
    simpa [natDigits, Nat.toDigits] using h1
  rw [h]
  exact ⟨h2, h3, h4⟩

theorem foldl_digits_bounds (more : List (Fin 10)) :
    ∀ a : Nat, a * 10 ^ more.length ≤ more.foldl (fun a d => 10 * a + d.val) a
      ∧ more.foldl (fun a d => 10 * a + d.val) a < (a + 1) * 10 ^ more.length := by
  induction more with
  | nil => intro a; simp
  | cons d t ih =>
    intro a
    obtain ⟨h1, h2⟩ := ih (10 * a + d.val)
    have hd : d.val < 10 := d.isLt
    simp only [List.foldl_cons, List.length_cons, pow_succ]
    constructor
    · calc a * (10 ^ t.length * 10) = (10 * a) * 10 ^ t.length := by ring
        _ ≤ (10 * a + d.val) * 10 ^ t.length := Nat.mul_le_mul_right _ (by omega)
        _ ≤ _ := h1
    · calc _ < (10 * a + d.val + 1) * 10 ^ t.length := h2
        _ ≤ (10 * (a + 1)) * 10 ^ t.length := Nat.mul_le_mul_right _ (by omega)
        _ = (a + 1) * (10 ^ t.length * 10) := by ring

/-- A finite non-zero float lies between `10^exp` and `10^(exp+1)`. -/
theorem abs_num_bounds (neg : Bool) (lead : Fin 9) (more : List (Fin 10)) (exp : Int) :
    (10 : ℚ) ^ exp ≤ (GoFloat.num neg lead more exp).abs
    ∧ (GoFloat.num neg lead more exp).abs < (10 : ℚ) ^ (exp + 1) := by
  obtain ⟨h1, h2⟩ := foldl_digits_bounds more (lead.val + 1)
  have hl : lead.val < 9 := lead.isLt
  have hlo : (10 : ℚ) ^ more.length ≤ (digitsNat lead more : ℚ) := by
    have : 10 ^ more.length ≤ digitsNat lead more := by
      calc 10 ^ more.length = 1 * 10 ^ more.length := by ring
        _ ≤ (lead.val + 1) * 10 ^ more.length := Nat.mul_le_mul_right _ (by omega)
        _ ≤ _ := h1
    exact_mod_cast this
  have hhi : (digitsNat lead more : ℚ) < 10 * (10 : ℚ) ^ more.length := by
    have : digitsNat lead more < 10 * 10 ^ more.length := by
      calc digitsNat lead more < (lead.val + 1 + 1) * 10 ^ more.length := h2
        _ ≤ 10 * 10 ^ more.length := Nat.mul_le_mul_right _ (by omega)
    exact_mod_cast this
  have hp : (0 : ℚ) < (10 : ℚ) ^ more.length := by positivity
  have hz : (0 : ℚ) < (10 : ℚ) ^ exp := by positivity
  have q1 : (1 : ℚ) ≤ (digitsNat lead more : ℚ) / (10 : ℚ) ^ more.length := by
    rw [le_div_iff₀ hp]; linarith
  have q2 : (digitsNat lead more : ℚ) / (10 : ℚ) ^ more.length < 10 := by
    rw [div_lt_iff₀ hp]; linarith
  simp only [GoFloat.abs]
  constructor
  · calc (10 : ℚ) ^ exp = 1 * (10 : ℚ) ^ exp := by ring
      _ ≤ _ := mul_le_mul_of_nonneg_right q1 hz.le
  · rw [zpow_add₀ (by norm_num : (10 : ℚ) ≠ 0), zpow_one, mul_comm ((10 : ℚ) ^ exp) 10]
    exact mul_lt_mul_of_pos_right q2 hz

theorem abs_num_ne_zero (neg : Bool) (lead : Fin 9) (more : List (Fin 10)) (exp : Int) :
    (GoFloat.num neg lead more exp).abs ≠ 0 := by
  have h := (abs_num_bounds neg lead more exp).1
  have hz : (0 : ℚ) < (10 : ℚ) ^ exp := by positivity
  linarith

/-- The `e` format is selected for a finite non-zero float exactly when its decimal exponent
is at most -7 or at least 21. -/
theorem exponentForm_num (neg : Bool) (lead : Fin 9) (more : List (Fin 10)) (exp : Int)
    (bits : Nat) (hb : bits = 64 ∨ bits = 32) :
    exponentForm (GoFloat.num neg lead more exp).abs bits ↔ (exp ≤ -7 ∨ 21 ≤ exp) := by
  obtain ⟨h1, h2⟩ := abs_num_bounds neg lead more exp
  have hne := abs_num_ne_zero neg lead more exp
  have e6 : (1 : ℚ) / 1000000 = (10 : ℚ) ^ (-6 : ℤ) := by norm_num
  have e21 : (1000000000000000000000 : ℚ) = (10 : ℚ) ^ (21 : ℤ) := by norm_num
  have hsmall : (GoFloat.num neg lead more exp).abs < 1 / 1000000 ↔ exp ≤ -7 := by
    rw [e6]
    constructor
    · intro h
      have : (10 : ℚ) ^ exp < (10 : ℚ) ^ (-6 : ℤ) := lt_of_le_of_lt h1 h
      have := (zpow_lt_zpow_iff_right₀ (by norm_num : (1 : ℚ) < 10)).mp this
      omega
    · intro h
      exact lt_of_lt_of_le h2 (zpow_le_zpow_right₀ (by norm_num) (by omega))
  have hbig : (GoFloat.num neg lead more exp).abs ≥ 1000000000000000000000 ↔ 21 ≤ exp := by
    rw [e21]
    constructor
    · intro h
      have : (10 : ℚ) ^ (21 : ℤ) < (10 : ℚ) ^ (exp + 1) := lt_of_le_of_lt h h2
      have := (zpow_lt_zpow_iff_right₀ (by norm_num : (1 : ℚ) < 10)).mp this
      omega
    · intro h
      exact le_trans (zpow_le_zpow_right₀ (by norm_num) h) h1
  unfold exponentForm
  rw [hsmall, hbig]
  rcases hb with rfl | rfl <;> simp [hne]

theorem exists_last_two (l : ByteSeq) (h : 2 ≤ l.length) : ∃ l0 u v, l = l0 ++ [u, v] := by
  rcases List.eq_nil_or_concat l with h0 | ⟨l1, v, h1⟩
  · subst h0; simp at h
  · subst h1
    rcases List.eq_nil_or_concat l1 with h0 | ⟨l0, u, h2⟩
    · subst h0; simp at h
    · subst h2
      exact ⟨l0, u, v, by simp⟩

/-- With two or more exponent digits and no leading zero the clean-up changes nothing. -/
theorem cleanExponent_long (p : ByteSeq) (s : UInt8) (ds : ByteSeq) (hs : s ≠ 101)
    (hlen : 2 ≤ ds.length) (hhead : ds.head? ≠ some 48) (hd : ∀ c ∈ ds, c ≠ 101) :
    cleanExponent (p ++ [101, s] ++ ds) = p ++ [101, s] ++ ds := by
  obtain ⟨l0, u, v, rfl⟩ := exists_last_two ds hlen
  rcases List.eq_nil_or_concat l0 with h0 | ⟨l1, t, h1⟩
  · subst h0
    have hu : u ≠ 48 := by simpa using hhead
    have := cleanExponent_miss p 101 s u v (Or.inr (Or.inr hu))
    simpa using this
  · rw [List.concat_eq_append] at h1
    subst h1
    rcases List.eq_nil_or_concat (s :: l1) with h0 | ⟨q, x3, h2⟩
    · simp at h0
    · rw [List.concat_eq_append] at h2
      have hx3 : x3 ≠ 101 := by
        have hmem : x3 ∈ s :: l1 := by rw [h2]; simp
        rcases List.mem_cons.mp hmem with h | h
        · rw [h]; exact hs
        · exact hd x3 (by simp [h])
      have := cleanExponent_miss (p ++ 101 :: q) x3 t u v (Or.inl hx3)
      have e : p ++ [101, s] ++ (l1 ++ [t] ++ [u, v]) = p ++ 101 :: q ++ [x3, t, u, v] := by
        have : s :: l1 = q ++ [x3] := h2
        calc p ++ [101, s] ++ (l1 ++ [t] ++ [u, v])
            = p ++ 101 :: ((s :: l1) ++ [t, u, v]) := by simp
          _ = p ++ 101 :: q ++ [x3, t, u, v] := by rw [this]; simp
      rw [e]
      exact this

/-- What the clean-up makes of the exponent part in the range where the `e` format is used:
the sign followed by the exponent digits without a leading zero. -/
theorem cleanExponent_exponentText (p : ByteSeq) (exp : Int) (h : exp ≤ -7 ∨ 21 ≤ exp) :
    cleanExponent (p ++ exponentText exp)
      = p ++ [101, if exp < 0 then 45 else 43] ++ natDigits exp.natAbs := by
  obtain ⟨s1, s2, s3⟩ := natDigits_shape exp.natAbs
  unfold exponentText
  by_cases h10 : exp.natAbs < 10
  · have hneg : exp < 0 := by omega
    rw [if_pos h10, if_pos hneg, s1 h10]
    have := cleanExponent_hit p (UInt8.ofNat (48 + exp.natAbs))
    simpa using this
  · rw [if_neg h10]
    have hdig : ∀ c ∈ natDigits exp.natAbs, c ≠ 101 := by
      intro c hc
      have := ((natDigits_spec exp.natAbs).2.1 c hc).1
      rintro rfl
      revert this
      decide
    have hs : (if exp < 0 then (45 : UInt8) else 43) ≠ 101 := by
      split <;> decide
    have := cleanExponent_long p _ (natDigits exp.natAbs) hs (s2 (by omega)) (s3 (by omega)) hdig
    simpa using this

/-- The digits before the exponent hold no byte `e`. -/
theorem mantissaText_no_e (neg : Bool) (lead : Fin 9) (more : List (Fin 10)) :
    101 ∉ mantissaText neg lead more := by
  have hdigit : ∀ k, k < 10 → UInt8.ofNat (48 + k) ≠ 101 := by decide
  intro hc
  unfold mantissaText at hc
  rcases List.mem_append.mp hc with hc | hc
  · rcases List.mem_append.mp hc with hc | hc
    · unfold signText at hc
      split at hc
      · revert hc; decide
      · simp at hc
    · simp only [List.mem_singleton] at hc
      have := hdigit (lead.val + 1) (by have := lead.isLt; omega)
      rw [show 48 + (lead.val + 1) = 49 + lead.val by omega] at this
      exact this hc.symm
  · split at hc
    · simp at hc
    · simp only [List.mem_cons, List.mem_map] at hc
      rcases hc with h | ⟨d, _, h⟩
      · revert h; decide
      · exact hdigit d.val d.isLt h

/-- The `f` format holds no byte `e`. -/
theorem formatF_no_e (neg : Bool) (lead : Fin 9) (more : List (Fin 10)) (exp : Int) :
    101 ∉ formatF neg lead more exp := by
  have hdigit : ∀ k, k < 10 → UInt8.ofNat (48 + k) ≠ 101 := by decide
  have hds : ∀ c ∈ digitBytes lead more, c ≠ 101 := by
    intro c hc
    simp only [digitBytes, List.mem_cons, List.mem_map] at hc
    rcases hc with rfl | ⟨d, _, rfl⟩
    · have := hdigit (lead.val + 1) (by have := lead.isLt; omega)
      rwa [show 48 + (lead.val + 1) = 49 + lead.val by omega] at this
    · exact hdigit d.val d.isLt
  have hsign : ∀ c ∈ signText neg, c ≠ 101 := by
    intro c hc
    unfold signText at hc
    split at hc
    · simp only [List.mem_singleton] at hc; subst hc; decide
    · simp at hc
  intro hmem
  unfold formatF at hmem
  simp only [] at hmem
  rcases List.mem_append.mp hmem with hc | hc
  · exact hsign _ hc rfl
  · split_ifs at hc
    · rcases List.mem_append.mp hc with hc | hc
      · rcases List.mem_append.mp hc with hc | hc
        · revert hc; decide
        · have := (List.mem_replicate.mp hc).2
          revert this; decide
      · exact hds _ hc rfl
    · rcases List.mem_append.mp hc with hc | hc
      · exact hds _ (List.mem_of_mem_take hc) rfl
      · rcases List.mem_cons.mp hc with hc | hc
        · revert hc; decide
        · exact hds _ (List.mem_of_mem_drop hc) rfl
    · rcases List.mem_append.mp hc with hc | hc
      · exact hds _ hc rfl
      · have := (List.mem_replicate.mp hc).2
        revert this; decide

/-- What `appendFloat` appends for a finite non-zero float in each of the two notations. -/
theorem appendFloat_num (b : ByteSeq) (neg : Bool) (lead : Fin 9) (more : List (Fin 10))
    (exp : Int) (bits : Nat) (hb : bits = 64 ∨ bits = 32) :
    appendFloat b (GoFloat.num neg lead more exp) bits
      = b ++ (if exponentForm (GoFloat.num neg lead more exp).abs bits then
                mantissaText neg lead more ++ [101, if exp < 0 then 45 else 43]
                  ++ natDigits exp.natAbs
              else formatF neg lead more exp) := by
  by_cases h : exponentForm (GoFloat.num neg lead more exp).abs bits
  · have hexp := (exponentForm_num neg lead more exp bits hb).mp h
    have hc := cleanExponent_exponentText (b ++ mantissaText neg lead more) exp hexp
    simp only [appendFloat, h, if_true, strconvAppendFloat, formatE]
    simpa using hc
  · simp [appendFloat, h, strconvAppendFloat]

/-- C16: `appendFloat` appends the quoted `NaN`, `+Inf` or `-Inf` for a float that is not a
number or is infinite; for a zero it appends fixed notation; and for every other 64-bit float
the text it appends holds the exponent mark `e` exactly when the magnitude is below `1e-6` or
at least `1e21`: in that case it is the `e` format, otherwise the `f` format. -/
theorem appendFloat_notation (b : ByteSeq) :
    appendFloat b GoFloat.nan 64 = b ++ ascii "\"NaN\""
    ∧ appendFloat b (GoFloat.inf false) 64 = b ++ ascii "\"+Inf\""
    ∧ appendFloat b (GoFloat.inf true) 64 = b ++ ascii "\"-Inf\""
    ∧ (∀ neg, appendFloat b (GoFloat.zero neg) 64 = b ++ signText neg ++ ascii "0")
    ∧ (∀ neg lead more exp, ∃ txt,
        appendFloat b (GoFloat.num neg lead more exp) 64 = b ++ txt
        ∧ (101 ∈ txt ↔ ((GoFloat.num neg lead more exp).abs ≠ 0
            ∧ ((GoFloat.num neg lead more exp).abs < 1 / 1000000
              ∨ (GoFloat.num neg lead more exp).abs ≥ 1000000000000000000000)))
        ∧ txt = (if (GoFloat.num neg lead more exp).abs ≠ 0
                    ∧ ((GoFloat.num neg lead more exp).abs < 1 / 1000000
                      ∨ (GoFloat.num neg lead more exp).abs ≥ 1000000000000000000000) then
                  mantissaText neg lead more ++ [101, if exp < 0 then 45 else 43]
                    ++ natDigits exp.natAbs
                else formatF neg lead more exp)) := by
  refine ⟨rfl, rfl, rfl, ?_, ?_⟩
  · intro neg
    simp [appendFloat, GoFloat.abs, exponentForm, strconvAppendFloat]
  · intro neg lead more exp
    have hcond : exponentForm (GoFloat.num neg lead more exp).abs 64
        ↔ ((GoFloat.num neg lead more exp).abs ≠ 0
            ∧ ((GoFloat.num neg lead more exp).abs < 1 / 1000000
              ∨ (GoFloat.num neg lead more exp).abs ≥ 1000000000000000000000)) := by
      simp [exponentForm]
    refine ⟨_, appendFloat_num b neg lead more exp 64 (Or.inl rfl), ?_, ?_⟩
    · rw [← hcond]
      by_cases h : exponentForm (GoFloat.num neg lead more exp).abs 64
      · simp [h]
      · simp only [h, if_false, iff_false]
        exact formatF_no_e neg lead more exp
    · by_cases h : exponentForm (GoFloat.num neg lead more exp).abs 64
      · rw [if_pos h, if_pos (hcond.mp h)]
      · rw [if_neg h, if_neg (fun hh => h (hcond.mpr hh))]

/-- C17: when `appendFloat` renders a finite float in exponential notation, what it appends
is the standard formatter's text with the padding zero of a one-digit exponent removed and no
other byte changed: the digits before the exponent, `e`, the sign, and the exponent digits,
which do not begin with `0`. -/
theorem exponent_without_leading_zero (b : ByteSeq) (neg : Bool) (lead : Fin 9)
    (more : List (Fin 10)) (exp : Int) (bits : Nat) (hb : bits = 64 ∨ bits = 32)
    (h : exponentForm (GoFloat.num neg lead more exp).abs bits) :
    appendFloat b (GoFloat.num neg lead more exp) bits
        = b ++ mantissaText neg lead more ++ [101, if exp < 0 then 45 else 43]
            ++ natDigits exp.natAbs
    ∧ strconvAppendFloat b (GoFloat.num neg lead more exp) 101
        = b ++ mantissaText neg lead more ++ [101, if exp < 0 then 45 else 43]
            ++ (if exp.natAbs < 10 then [48] else []) ++ natDigits exp.natAbs
    ∧ (natDigits exp.natAbs).head? ≠ some 48
    ∧ 101 ∉ mantissaText neg lead more := by
  have hexp := (exponentForm_num neg lead more exp bits hb).mp h
  refine ⟨?_, ?_, (natDigits_shape exp.natAbs).2.2 (by omega), mantissaText_no_e neg lead more⟩
  · rw [appendFloat_num b neg lead more exp bits hb, if_pos h]
    simp
  · simp [strconvAppendFloat, formatE, exponentText]

theorem exponent_without_leading_zero_witness :
    ((64 = 64 ∨ 64 = 32) ∧ exponentForm (GoFloat.num false 1 [] (-10)).abs 64
      ∧ exponentForm (GoFloat.num false 0 [] (-9)).abs 64)
    ∧ appendFloat [] (GoFloat.num false 1 [] (-10)) 64 = ascii "2e-10"
    ∧ appendFloat [] (GoFloat.num false 0 [] (-9)) 64 = ascii "1e-9"
    ∧ strconvAppendFloat [] (GoFloat.num false 0 [] (-9)) 101 = ascii "1e-09" := by
  have h1 : exponentForm (GoFloat.num false 1 [] (-10)).abs 64 := by
    simp [exponentForm, GoFloat.abs, digitsNat]
    norm_num
  have h2 : exponentForm (GoFloat.num false 0 [] (-9)).abs 64 := by
    simp [exponentForm, GoFloat.abs, digitsNat]
    norm_num
  refine ⟨⟨Or.inl rfl, h1, h2⟩, ?_, ?_, ?_⟩
  · rw [(exponent_without_leading_zero [] false 1 [] (-10) 64 (Or.inl rfl) h1).1]
    decide
  · rw [(exponent_without_leading_zero [] false 0 [] (-9) 64 (Or.inl rfl) h2).1]
    decide
  · rw [(exponent_without_leading_zero [] false 0 [] (-9) 64 (Or.inl rfl) h2).2.1]
    decide

/-! ## Any -/

/-- C14: on a non-nil entry with buffer `b`, `Any(k, v)` leaves `b` `,"` `k` `":null` when `v`
is the nil interface value and when `v` is a non-nil interface value that wraps a nil
reference; the two results are the same. -/
theorem Any_nil_is_null (e : Entry) (k : ByteSeq) :
    Entry.Any (some e) k Iface.nil
        = Except.ok (some { e with buf := e.buf ++ ascii ",\"" ++ k ++ ascii "\":null" })
    ∧ Entry.Any (some e) k Iface.nilRef
        = Except.ok (some { e with buf := e.buf ++ ascii ",\"" ++ k ++ ascii "\":null" })
    ∧ Entry.Any (some e) k Iface.nil = Entry.Any (some e) k Iface.nilRef := by
  refine ⟨?_, ?_, rfl⟩ <;> simp [Entry.Any, ascii, pure, Except.pure]

/-- C15: on a non-nil entry `Any(k, v)` settles the category of a non-nil `v` by one ordered
match.  A value whose type implements `ObjectMarshaler` goes through its `MarshalObject`,
whatever else it implements.  Otherwise a value of one of the concrete types tested first is
appended by the typed method of that type (`Dict`, `Durs`, `Dur`, `Time`, `MACAddr`, `IPAddr`,
`IPPrefix`, raw JSON, `Bools`, `Bytes`, `Errs`, `Floats32`, `Floats64`, `Strs`, `Str`, `Bool`).
Otherwise an `error` goes through `AnErr`, also when it is a `Stringer`.  Otherwise the numeric
types go through their typed methods, then a `GoStringer` through `GoStringer`, then a
`Stringer` through `Stringer`, and only a value matching none of these reaches the generic
serializer. -/
theorem Any_dispatch (e : Entry) (k : ByteSeq) :
    (∀ m d er gs st js,
      Entry.Any (some e) k (Iface.val
          { marshaler := some m, dyn := d, error := er, goStringer := gs, stringer := st,
            json := js })
        = (m { e with buf := e.buf ++ ascii ",\"" ++ k ++ ascii "\":" }).map some)
    ∧ (∀ c er gs st js,
      Entry.Any (some e) k (Iface.val
          { marshaler := none, dyn := Dyn.context c, error := er, goStringer := gs, stringer := st,
            json := js })
        = pure (Entry.Dict (some e) k c))
    ∧ (∀ d er gs st js,
      Entry.Any (some e) k (Iface.val
          { marshaler := none, dyn := Dyn.durations d, error := er, goStringer := gs, stringer := st,
            json := js })
        = Entry.Durs (some e) k d)
    ∧ (∀ d er gs st js,
      Entry.Any (some e) k (Iface.val
          { marshaler := none, dyn := Dyn.duration d, error := er, goStringer := gs, stringer := st,
            json := js })
        = Entry.Dur (some e) k d)
    ∧ (∀ t er gs st js,
      Entry.Any (some e) k (Iface.val
          { marshaler := none, dyn := Dyn.time t, error := er, goStringer := gs, stringer := st,
            json := js })
        = pure (Entry.Time (some e) k t))
    ∧ (∀ ha er gs st js,
      Entry.Any (some e) k (Iface.val
          { marshaler := none, dyn := Dyn.hardwareAddr ha, error := er, goStringer := gs, stringer := st,
            json := js })
        = pure (Entry.MACAddr (some e) k ha))
    ∧ (∀ ip er gs st js,
      Entry.Any (some e) k (Iface.val
          { marshaler := none, dyn := Dyn.ip ip, error := er, goStringer := gs, stringer := st,
            json := js })
        = pure (Entry.IPAddr (some e) k ip))
    ∧ (∀ pfx er gs st js,
      Entry.Any (some e) k (Iface.val
          { marshaler := none, dyn := Dyn.ipNet pfx, error := er, goStringer := gs, stringer := st,
            json := js })
        = pure (Entry.IPPrefix (some e) k pfx))
    ∧ (∀ b er gs st js,
      Entry.Any (some e) k (Iface.val
          { marshaler := none, dyn := Dyn.rawMessage b, error := er, goStringer := gs, stringer := st,
            json := js })
        = pure (Entry.RawJSON (some e) k b))
    ∧ (∀ b er gs st js,
      Entry.Any (some e) k (Iface.val
          { marshaler := none, dyn := Dyn.bools b, error := er, goStringer := gs, stringer := st,
            json := js })
        = pure (Entry.Bools (some e) k b))
    ∧ (∀ b er gs st js,
      Entry.Any (some e) k (Iface.val
          { marshaler := none, dyn := Dyn.bytes b, error := er, goStringer := gs, stringer := st,
            json := js })
        = pure (Entry.Bytes (some e) k b))
    ∧ (∀ errs er gs st js,
      Entry.Any (some e) k (Iface.val
          { marshaler := none, dyn := Dyn.errors errs, error := er, goStringer := gs, stringer := st,
            json := js })
        = pure (Entry.Errs (some e) k errs))
    ∧ (∀ f er gs st js,
      Entry.Any (some e) k (Iface.val
          { marshaler := none, dyn := Dyn.floats32 f, error := er, goStringer := gs, stringer := st,
            json := js })
        = pure (Entry.Floats32 (some e) k f))
    ∧ (∀ f er gs st js,
      Entry.Any (some e) k (Iface.val
          { marshaler := none, dyn := Dyn.floats64 f, error := er, goStringer := gs, stringer := st,
            json := js })
        = pure (Entry.Floats64 (some e) k f))
    ∧ (∀ vals er gs st js,
      Entry.Any (some e) k (Iface.val
          { marshaler := none, dyn := Dyn.strings vals, error := er, goStringer := gs, stringer := st,
            json := js })
        = pure (Entry.Strs (some e) k vals))
    ∧ (∀ val er gs st js,
      Entry.Any (some e) k (Iface.val
          { marshaler := none, dyn := Dyn.string val, error := er, goStringer := gs, stringer := st,
            json := js })
        = pure (Entry.Str (some e) k val))
    ∧ (∀ b er gs st js,
      Entry.Any (some e) k (Iface.val
          { marshaler := none, dyn := Dyn.bool b, error := er, goStringer := gs, stringer := st,
            json := js })
        = pure (Entry.Bool (some e) k b))
    ∧ (∀ d t gs st js, d.early = false →
      Entry.Any (some e) k (Iface.val
          { marshaler := none, dyn := d, error := some t, goStringer := gs, stringer := st,
            json := js })
        = Entry.AnErr (some e) k (some { marshaler := none, text := t }))
    ∧ (∀ f gs st js,
      Entry.Any (some e) k (Iface.val
          { marshaler := none, dyn := Dyn.float32 f, error := none, goStringer := gs, stringer := st,
            json := js })
        = pure (Entry.Float32 (some e) k f))
    ∧ (∀ f gs st js,
      Entry.Any (some e) k (Iface.val
          { marshaler := none, dyn := Dyn.float64 f, error := none, goStringer := gs, stringer := st,
            json := js })
        = pure (Entry.Float64 (some e) k f))
    ∧ (∀ i gs st js,
      Entry.Any (some e) k (Iface.val
          { marshaler := none, dyn := Dyn.int16 i, error := none, goStringer := gs, stringer := st,
            json := js })
        = pure (Entry.Int16 (some e) k i))
    ∧ (∀ i gs st js,
      Entry.Any (some e) k (Iface.val
          { marshaler := none, dyn := Dyn.int32 i, error := none, goStringer := gs, stringer := st,
            json := js })
        = pure (Entry.Int32 (some e) k i))
    ∧ (∀ i gs st js,
      Entry.Any (some e) k (Iface.val
          { marshaler := none, dyn := Dyn.int64 i, error := none, goStringer := gs, stringer := st,
            json := js })
        = pure (Entry.Int64 (some e) k i))
    ∧ (∀ i gs st js,
      Entry.Any (some e) k (Iface.val
          { marshaler := none, dyn := Dyn.int8 i, error := none, goStringer := gs, stringer := st,
            json := js })
        = pure (Entry.Int8 (some e) k i))
    ∧ (∀ i gs st js,
      Entry.Any (some e) k (Iface.val
          { marshaler := none, dyn := Dyn.int i, error := none, goStringer := gs, stringer := st,
            json := js })
        = pure (Entry.Int (some e) k i))
    ∧ (∀ i gs st js,
      Entry.Any (some e) k (Iface.val
          { marshaler := none, dyn := Dyn.uint16 i, error := none, goStringer := gs, stringer := st,
            json := js })
        = pure (Entry.Uint16 (some e) k i))
    ∧ (∀ i gs st js,
      Entry.Any (some e) k (Iface.val
          { marshaler := none, dyn := Dyn.uint32 i, error := none, goStringer := gs, stringer := st,
            json := js })
        = pure (Entry.Uint32 (some e) k i))
    ∧ (∀ i gs st js,
      Entry.Any (some e) k (Iface.val
          { marshaler := none, dyn := Dyn.uint64 i, error := none, goStringer := gs, stringer := st,
            json := js })
        = pure (Entry.Uint64 (some e) k i))
    ∧ (∀ i gs st js,
      Entry.Any (some e) k (Iface.val
          { marshaler := none, dyn := Dyn.uint8 i, error := none, goStringer := gs, stringer := st,
            json := js })
        = pure (Entry.Uint8 (some e) k i))
    ∧ (∀ s st js,
      Entry.Any (some e) k (Iface.val
          { marshaler := none, dyn := Dyn.other, error := none, goStringer := some s,
            stringer := st, json := js })
        = pure (Entry.GoStringer (some e) k (some s)))
    ∧ (∀ s js,
      Entry.Any (some e) k (Iface.val
          { marshaler := none, dyn := Dyn.other, error := none, goStringer := none,
            stringer := some s, json := js })
        = pure (Entry.Stringer (some e) k (some s)))
    ∧ (∀ js,
      Entry.Any (some e) k (Iface.val
          { marshaler := none, dyn := Dyn.other, error := none, goStringer := none,
            stringer := none, json := js })
        = anyDefault e k js) := by
  refine ⟨?_, ?_, ?_, ?_, ?_, ?_, ?_, ?_, ?_, ?_, ?_, ?_, ?_, ?_, ?_, ?_, ?_, ?_, ?_, ?_, ?_, ?_, ?_, ?_, ?_, ?_, ?_, ?_, ?_, ?_, ?_, ?_⟩
  · intro m d er gs st js
    simp only [Entry.Any, bind, Except.bind, pure, Except.pure, Except.map]
    have h : e.buf ++ [44, 34] ++ k ++ [34, 58] = e.buf ++ ascii ",\"" ++ k ++ ascii "\":" := by
      simp [ascii]
    rw [h]
  · intros; rfl
  · intros; rfl
  · intros; rfl
  · intros; rfl
  · intros; rfl
  · intros; rfl
  · intros; rfl
  · intros; rfl
  · intros; rfl
  · intros; rfl
  · intros; rfl
  · intros; rfl
  · intros; rfl
  · intros; rfl
  · intros; rfl
  · intros; rfl
  · intro d t gs st js hd
    cases d <;> first | rfl | (simp [Dyn.early] at hd)
  · intros; rfl
  · intros; rfl
  · intros; rfl
  · intros; rfl
  · intros; rfl
  · intros; rfl
  · intros; rfl
  · intros; rfl
  · intros; rfl
  · intros; rfl
  · intros; rfl
  · intros; rfl
  · intros; rfl
  · intros; rfl

theorem Any_dispatch_witness :
    Dyn.other.early = false
    ∧ Entry.Any (some sampleEntry) (ascii "k") (Iface.val
          { marshaler := none, dyn := Dyn.other, error := some (ascii "boom"), goStringer := none,
            stringer := some (ascii "text"), json := Except.ok (ascii "1\n") })
        = Entry.AnErr (some sampleEntry) (ascii "k") (some { marshaler := none, text := ascii "boom" }) :=
  ⟨rfl, (Any_dispatch sampleEntry (ascii "k")).2.2.2.2.2.2.2.2.2.2.2.2.2.2.2.2.2.1 Dyn.other
    (ascii "boom") none (some (ascii "text")) (Except.ok (ascii "1\n")) rfl⟩

/-! ## Durations at the edge of the 64-bit range -/

/-- C21: `Dur` is not total over the 64-bit durations: on the minimum value `-2^63` the negation
`d = -d` wraps back to `-2^63`, the remainder modulo one millisecond is `-775808`, the first
index into the two-digit table is `-15`, and the call faults with an index out of range
whatever the entry and the key are. -/
theorem Dur_faults_at_min_int64 (e : Entry) (k : ByteSeq) :
    wrapInt64 (-(-(2 ^ 63))) = -(2 ^ 63)
    ∧ (-(2 ^ 63) : Int).tmod 1000000 = -775808
    ∧ ((-775808 : Int).tmod 100 * 2 + 1 = -15)
    ∧ Entry.Dur (some e) k (-(2 ^ 63)) = Except.error Fault.indexOutOfRange := by
  refine ⟨by decide, by decide, by decide, ?_⟩
  simp only [Entry.Dur]
  rfl

/-! ## Times and time differences -/

/-- C27: `Time` does not use the layout `time.RFC3339Nano` its comment names: at
2024-01-01T00:00:00.123456789Z it writes the fraction `.123`, while `time.RFC3339Nano`, which
`Times` passes, gives `.123456789`; so the text of `Time(k, t)` is not the element text of
`Times(k, [t])`. -/
theorem Time_drops_digits_below_millisecond (e : Entry) (k : ByteSeq) :
    Entry.Time (some e) k sampleTime
        = some { e with
            buf := e.buf ++ ascii ",\"" ++ k ++ ascii "\":\"2024-01-01T00:00:00.123Z\"" }
    ∧ sampleTime.Format RFC3339Nano = ascii "2024-01-01T00:00:00.123456789Z"
    ∧ Entry.Times (some e) k [sampleTime]
        = some { e with
            buf := e.buf ++ ascii ",\"" ++ k ++ ascii "\":[\"2024-01-01T00:00:00.123456789Z\"]" }
    ∧ Entry.Time (some e) k sampleTime
        ≠ some { e with
            buf := e.buf ++ ascii ",\"" ++ k ++ ascii "\":\"" ++ sampleTime.Format RFC3339Nano
              ++ ascii "\"" } := by
  have h3 : sampleTime.Format (ascii "2006-01-02T15:04:05.999Z07:00")
      = ascii "2024-01-01T00:00:00.123Z" := by decide
  have h9 : sampleTime.Format RFC3339Nano = ascii "2024-01-01T00:00:00.123456789Z" := by decide
  refine ⟨?_, h9, ?_, ?_⟩
  · simp only [Entry.Time, h3]
    simp [ascii]
  · simp only [Entry.Times, timesLoop, h9]
    simp [ascii]
  · simp only [Entry.Time, h3, h9]
    simp [ascii]

theorem clamp_pos (d : Int) (hd : 0 < d) :
    0 < (if d < minDuration then minDuration else if maxDuration < d then maxDuration else d)
    ∧ (if d < minDuration then minDuration else if maxDuration < d then maxDuration else d)
        < 2 ^ 63 := by
  simp only [minDuration, maxDuration]
  split_ifs <;> omega

theorem Sub_pos_of_After (t u : GoTime) (h : t.After u = true) :
    0 < t.Sub u ∧ t.Sub u < 2 ^ 63 := by
  unfold GoTime.After at h
  unfold GoTime.Sub
  cases ht : t.mono <;> cases hu : u.mono <;> simp only [ht, hu, decide_eq_true_eq] at h ⊢ <;>
    exact clamp_pos _ (by omega)

theorem TimeDiff_eq_Dur (e : Entry) (k : ByteSeq) (t start : GoTime)
    (h : 0 ≤ (if t.After start = true then t.Sub start else 0)) :
    Entry.TimeDiff (some e) k t start
      = Entry.Dur (some e) k (if t.After start = true then t.Sub start else 0) := by
  have hneg : decide ((if t.After start = true then t.Sub start else 0) < 0) = false := by
    simpa using h
  unfold Entry.TimeDiff Entry.Dur
  simp only [hneg]
  rfl

/-- C28: `TimeDiff(key, t, start)` appends what `Dur(key, d)` appends, where `d` is `t - start`
when `t` is after `start` and zero otherwise; `d` is never negative: when `t` is not after
`start` the bytes are `,"key":0`, and when it is, `t - start` is positive. -/
theorem TimeDiff_is_Dur_of_the_positive_part (e : Entry) (k : ByteSeq) (t start : GoTime) :
    Entry.TimeDiff (some e) k t start
        = (if t.After start = true then Entry.Dur (some e) k (t.Sub start)
           else Except.ok (some { e with buf := e.buf ++ ascii ",\"" ++ k ++ ascii "\":0" }))
    ∧ Entry.TimeDiff (some e) k t start
        = Except.ok (some { e with
            buf := e.buf ++ ascii ",\"" ++ k ++ ascii "\":"
              ++ durText (if t.After start = true then t.Sub start else 0) })
    ∧ 0 ≤ (if t.After start = true then t.Sub start else 0)
    ∧ (if t.After start = true then 0 < t.Sub start else True) := by
  by_cases ha : t.After start = true
  · have hp := Sub_pos_of_After t start ha
    have h0 : 0 ≤ (if t.After start = true then t.Sub start else 0) := by
      rw [if_pos ha]; omega
    have hT := TimeDiff_eq_Dur e k t start h0
    rw [if_pos ha] at hT h0
    refine ⟨by rw [if_pos ha]; exact hT, ?_, by rw [if_pos ha]; exact h0, by rw [if_pos ha]; exact hp.1⟩
    rw [hT, Dur_in_range e k _ (by omega) hp.2, if_pos ha]
    simp [ascii]
  · have h0 : 0 ≤ (if t.After start = true then t.Sub start else 0) := by
      rw [if_neg ha]
    have hT := TimeDiff_eq_Dur e k t start h0
    rw [if_neg ha] at hT
    have hD := Dur_in_range e k 0 (by decide) (by decide)
    refine ⟨?_, ?_, by rw [if_neg ha], by rw [if_neg ha]; trivial⟩
    · rw [if_neg ha, hT, hD]
      simp [ascii, durText, natDigits, Nat.toDigits, Nat.toDigitsCore, Nat.digitChar]
    · rw [hT, hD, if_neg ha]
      simp [ascii]

/-! ## The console writer -/

/-- C22: when the scanner recovers an empty time value from `p`, `write` makes one `Write` of
exactly the bytes `p` on the output and nothing else, whatever the three options are and
whether or not a custom formatter is set; neither the custom formatter nor the built-in layout
takes part in the result. -/
theorem write_passes_unparsed_input_through (w : ConsoleWriter) (body : ByteSeq → ByteSeq)
    (parseFormatterArgs : ByteSeq → FormatterArgs) (out : Output) (p : ByteSeq)
    (h : (parseFormatterArgs p).Time = []) :
    w.write body parseFormatterArgs out p = Except.ok (out ++ [p]) := by
  unfold ConsoleWriter.write
  simp only [List.nil_append, h, if_true]
  rfl

theorem write_passes_unparsed_input_through_witness :
    ((fun _ => emptyArgs) (ascii "\x7b\"level\":\"info\"\x7d\n")).Time = []
    ∧ ConsoleWriter.write
        { ColorOutput := true, QuoteString := true, EndWithMessage := true,
          Formatter := some (fun _ _ => Except.error Fault.indexOutOfRange) }
        id (fun _ => emptyArgs) [ascii "earlier\n"] (ascii "\x7b\"level\":\"info\"\x7d\n")
      = Except.ok [ascii "earlier\n", ascii "\x7b\"level\":\"info\"\x7d\n"] :=
  ⟨rfl, write_passes_unparsed_input_through _ id (fun _ => emptyArgs) [ascii "earlier\n"]
    (ascii "\x7b\"level\":\"info\"\x7d\n") rfl⟩

/-- With a non-empty time value `write` hands the parsed record to the custom formatter when
one is set and to the built-in `format` otherwise. -/
theorem write_formats_parsed_input (w : ConsoleWriter) (body : ByteSeq → ByteSeq)
    (parseFormatterArgs : ByteSeq → FormatterArgs) (out : Output) (p : ByteSeq)
    (h : (parseFormatterArgs p).Time ≠ []) :
    (∀ f, w.Formatter = some f →
        w.write body parseFormatterArgs out p = f out (parseFormatterArgs p))
    ∧ (w.Formatter = none →
        w.write body parseFormatterArgs out p = w.format body out (parseFormatterArgs p)) := by
  unfold ConsoleWriter.write
  simp only [List.nil_append, h, if_false]
  constructor
  · intro f hf
    simp [hf]
  · intro hf
    simp [hf]

theorem plainKeyValues_eq (quote : GoBool) (body : ByteSeq → ByteSeq) (kvs : List KeyValue)
    (b : ByteSeq) :
    plainKeyValues quote body kvs b
      = b ++ kvs.flatMap (fun kv =>
          if (quote && kv.ValueType == 115) = true then
            [32] ++ kv.Key ++ [61] ++ strconvQuote body kv.Value
          else [32] ++ kv.Key ++ [61] ++ kv.Value) := by
  induction kvs generalizing b with
  | nil => simp [plainKeyValues]
  | cons kv rest ih =>
    simp only [plainKeyValues, ih, List.flatMap_cons]
    split_ifs <;> simp

theorem colorKeyValues_eq (quote : GoBool) (body : ByteSeq → ByteSeq) (kvs : List KeyValue)
    (b : ByteSeq) :
    colorKeyValues quote body kvs b
      = b ++ kvs.flatMap (fun kv =>
          [32] ++ (if kv.Key = ascii "error"
                ∧ (if (quote && kv.ValueType == 115) = true then strconvQuote body kv.Value
                   else kv.Value) ≠ ascii "null"
            then HiRed ++ kv.Key ++ [61]
            else HiBlue ++ kv.Key ++ [61] ++ HiCyan)
          ++ (if (quote && kv.ValueType == 115) = true then strconvQuote body kv.Value
              else kv.Value)
          ++ Reset) := by
  induction kvs generalizing b with
  | nil => simp [colorKeyValues]
  | cons kv rest ih =>
    simp only [colorKeyValues, ih, List.flatMap_cons]
    split_ifs <;> simp

theorem index_last (b : ByteSeq) (c : UInt8) :
    index (b ++ [c]) (((b ++ [c]).length : Int) - 1) = Except.ok c := by
  have h : ((b ++ [c]).length : Int) - 1 = (b.length : Int) := by simp
  rw [h]
  unfold index
  simp

theorem format_eq (w : ConsoleWriter) (body : ByteSeq → ByteSeq) (out : Output)
    (args : FormatterArgs) (L : ByteSeq) (c : UInt8) (hl : w.line body args = L ++ [c]) :
    w.format body out args
      = Except.ok (out ++ [L ++ [c] ++ (if c = 10 then [] else [10])
          ++ (if args.Stack = [] then []
              else args.Stack ++ (if args.Stack.getLast? = some 10 then [] else [10]))]) := by
  unfold ConsoleWriter.format
  simp only [hl, index_last, bind, Except.bind]
  by_cases hs : args.Stack = []
  · by_cases hc : c = 10 <;> simp [hs, hc, pure, Except.pure]
  · rcases List.eq_nil_or_concat args.Stack with h | ⟨S, s, h⟩
    · exact absurd h hs
    · rw [List.concat_eq_append] at h
      simp only [h, index_last]
      by_cases hc : c = 10 <;> by_cases hs2 : s = 10 <;>
        simp [hc, hs2, bind, Except.bind, pure, Except.pure]

theorem levelStyle_code (level : ByteSeq) :
    (level = ascii "trace" → (levelStyle level).2 = ascii "TRC")
    ∧ (level = ascii "debug" → (levelStyle level).2 = ascii "DBG")
    ∧ (level = ascii "info" → (levelStyle level).2 = ascii "INF")
    ∧ (level = ascii "warn" → (levelStyle level).2 = ascii "WRN")
    ∧ (level = ascii "error" → (levelStyle level).2 = ascii "ERR")
    ∧ (level = ascii "fatal" → (levelStyle level).2 = ascii "FTL")
    ∧ (level = ascii "panic" → (levelStyle level).2 = ascii "PNC")
    ∧ (level ≠ ascii "trace" → level ≠ ascii "debug" → level ≠ ascii "info" →
        level ≠ ascii "warn" → level ≠ ascii "error" → level ≠ ascii "fatal" →
        level ≠ ascii "panic" → (levelStyle level).2 = ascii "???") := by
  refine ⟨?_, ?_, ?_, ?_, ?_, ?_, ?_, ?_⟩
  all_goals first
    | (intro h; subst h; rfl)
    | (intro h1 h2 h3 h4 h5 h6 h7; simp [levelStyle, h1, h2, h3, h4, h5, h6, h7])

theorem plain_line_eq (w : ConsoleWriter) (body : ByteSeq → ByteSeq) (args : FormatterArgs)
    (hc : w.ColorOutput = false) (hq : w.QuoteString = false) (he : w.EndWithMessage = false) :
    w.line body args
      = args.Time ++ [32] ++ (levelStyle args.Level).2 ++ [32]
        ++ (if args.Caller ≠ [] then args.Goid ++ [32] ++ args.Caller ++ [32] ++ [62] else [62])
        ++ [32] ++ args.Message
        ++ args.KeyValues.flatMap (fun kv => [32] ++ kv.Key ++ [61] ++ kv.Value) := by
  unfold ConsoleWriter.line
  simp only [hc, hq, he, plainKeyValues_eq]
  by_cases hcal : args.Caller = [] <;> simp [hcal]

theorem line_ne_nil (w : ConsoleWriter) (body : ByteSeq → ByteSeq) (args : FormatterArgs) :
    w.line body args ≠ [] := by
  unfold ConsoleWriter.line
  simp only [plainKeyValues_eq, colorKeyValues_eq]
  by_cases hc : w.ColorOutput = true <;> by_cases he : w.EndWithMessage = true <;>
    by_cases hcal : args.Caller = [] <;> simp [hc, he, hcal, Gray, ascii]

theorem format_eq_line (w : ConsoleWriter) (body : ByteSeq → ByteSeq) (out : Output)
    (args : FormatterArgs) :
    w.format body out args
      = Except.ok (out ++ [w.line body args
          ++ (if (w.line body args).getLast? = some 10 then [] else [10])
          ++ (if args.Stack = [] then []
              else args.Stack ++ (if args.Stack.getLast? = some 10 then [] else [10]))]) := by
  rcases List.eq_nil_or_concat (w.line body args) with h | ⟨L, c, h⟩
  · exact absurd h (line_ne_nil w body args)
  · rw [List.concat_eq_append] at h
    rw [format_eq w body out args L c h, h]
    simp

/-- C23: with `ColorOutput`, `QuoteString` and `EndWithMessage` off, the built-in console line
is the time, a space, the three-letter code of the level (`TRC`, `DBG`, `INF`, `WRN`, `ERR`,
`FTL`, `PNC` for the seven level names and `???` for anything else), a space, then the
goroutine id, a space, the caller, a space and `>` when the caller is not empty and `>` alone
when it is, then a space and the message, then for each key/value pair in order a space, the
key, `=` and the value; `format` writes this line once, followed by the line break and the
stack. -/
theorem format_plain_layout (w : ConsoleWriter) (body : ByteSeq → ByteSeq) (out : Output)
    (args : FormatterArgs)
    (hc : w.ColorOutput = false) (hq : w.QuoteString = false) (he : w.EndWithMessage = false) :
    ∃ code line tail : ByteSeq,
      ((args.Level = ascii "trace" → code = ascii "TRC")
        ∧ (args.Level = ascii "debug" → code = ascii "DBG")
        ∧ (args.Level = ascii "info" → code = ascii "INF")
        ∧ (args.Level = ascii "warn" → code = ascii "WRN")
        ∧ (args.Level = ascii "error" → code = ascii "ERR")
        ∧ (args.Level = ascii "fatal" → code = ascii "FTL")
        ∧ (args.Level = ascii "panic" → code = ascii "PNC")
        ∧ (args.Level ≠ ascii "trace" → args.Level ≠ ascii "debug" →
            args.Level ≠ ascii "info" → args.Level ≠ ascii "warn" →
            args.Level ≠ ascii "error" → args.Level ≠ ascii "fatal" →
            args.Level ≠ ascii "panic" → code = ascii "???"))
      ∧ line = args.Time ++ [32] ++ code ++ [32]
          ++ (if args.Caller ≠ [] then args.Goid ++ [32] ++ args.Caller ++ [32] ++ [62]
              else [62])
          ++ [32] ++ args.Message
          ++ args.KeyValues.flatMap (fun kv => [32] ++ kv.Key ++ [61] ++ kv.Value)
      ∧ tail = (if line.getLast? = some 10 then [] else [10])
          ++ (if args.Stack = [] then []
              else args.Stack ++ (if args.Stack.getLast? = some 10 then [] else [10]))
      ∧ w.format body out args = Except.ok (out ++ [line ++ tail]) := by
  refine ⟨(levelStyle args.Level).2, w.line body args, _, levelStyle_code args.Level,
    plain_line_eq w body args hc hq he, rfl, ?_⟩
  rw [format_eq_line]
  simp

theorem format_plain_layout_witness :
    (plainConsole.ColorOutput = false ∧ plainConsole.QuoteString = false
      ∧ plainConsole.EndWithMessage = false)
    ∧ ∃ code line tail : ByteSeq,
      ((warnArgs.Level = ascii "trace" → code = ascii "TRC")
        ∧ (warnArgs.Level = ascii "debug" → code = ascii "DBG")
        ∧ (warnArgs.Level = ascii "info" → code = ascii "INF")
        ∧ (warnArgs.Level = ascii "warn" → code = ascii "WRN")
        ∧ (warnArgs.Level = ascii "error" → code = ascii "ERR")
        ∧ (warnArgs.Level = ascii "fatal" → code = ascii "FTL")
        ∧ (warnArgs.Level = ascii "panic" → code = ascii "PNC")
        ∧ (warnArgs.Level ≠ ascii "trace" → warnArgs.Level ≠ ascii "debug" →
            warnArgs.Level ≠ ascii "info" → warnArgs.Level ≠ ascii "warn" →
            warnArgs.Level ≠ ascii "error" → warnArgs.Level ≠ ascii "fatal" →
            warnArgs.Level ≠ ascii "panic" → code = ascii "???"))
      ∧ line = warnArgs.Time ++ [32] ++ code ++ [32]
          ++ (if warnArgs.Caller ≠ [] then warnArgs.Goid ++ [32] ++ warnArgs.Caller ++ [32] ++ [62]
              else [62])
          ++ [32] ++ warnArgs.Message
          ++ warnArgs.KeyValues.flatMap (fun kv => [32] ++ kv.Key ++ [61] ++ kv.Value)
      ∧ tail = (if line.getLast? = some 10 then [] else [10])
          ++ (if warnArgs.Stack = [] then []
              else warnArgs.Stack ++ (if warnArgs.Stack.getLast? = some 10 then [] else [10]))
      ∧ plainConsole.format id [] warnArgs = Except.ok ([] ++ [line ++ tail]) :=
  ⟨⟨rfl, rfl, rfl⟩, format_plain_layout plainConsole id [] warnArgs rfl rfl rfl⟩

/-- The console line of the sample record, level `warn`, as bytes. -/
theorem format_warn_sample :
    plainConsole.format id [] warnArgs
      = Except.ok [ascii "2024-01-01T00:00:00Z WRN 7 main.go:3 > hi user=ann n=1\n"] := by
  rfl

theorem last_not_newline_of_not_doubled (x : ByteSeq)
    (h : ¬ ∃ t, x ++ [10] = t ++ [10, 10]) : x.getLast? ≠ some (10 : UInt8) := by
  intro hl
  obtain ⟨ys, hy⟩ := List.getLast?_eq_some_iff.mp hl
  exact h ⟨ys, by simp [hy]⟩

/-- C24, as the claim states it, fails: a message that ends with two line breaks leaves the
console line ending with two line breaks. -/
theorem format_keeps_doubled_newline :
    plainConsole.format id [] doubledArgs = Except.ok [ascii "T INF > a\n\n"]
    ∧ (ascii "T INF > a\n\n").getLast? = some 10
    ∧ (ascii "T INF > a\n\n").dropLast.getLast? = some 10 := by
  refine ⟨rfl, by decide, by decide⟩

/-- C24, amended: when neither the console line before its line break nor the stack ends with
two line breaks, and the stack is not a lone line break, `format` writes once a text `L`, one
line break and `S`, where `L` does not end with a line break and is the console line without
the line break the line may end with, `S` is empty when the stack is and otherwise is the stack
verbatim, followed by a line break when the stack does not end with one; the whole output ends
with a line break and the byte before it is not a line break. -/
theorem format_ends_with_one_newline (w : ConsoleWriter) (body : ByteSeq → ByteSeq)
    (out : Output) (args : FormatterArgs)
    (hl : ¬ ∃ t, w.line body args = t ++ [10, 10])
    (hs : ¬ ∃ t, args.Stack = t ++ [10, 10]) (hs1 : args.Stack ≠ [10]) :
    ∃ L S P : ByteSeq,
      w.format body out args = Except.ok (out ++ [L ++ [10] ++ S])
      ∧ L.getLast? ≠ some 10
      ∧ (w.line body args = L ∨ w.line body args = L ++ [10])
      ∧ (args.Stack = [] → S = [])
      ∧ (args.Stack ≠ [] → S = args.Stack ∨ S = args.Stack ++ [10])
      ∧ L ++ [10] ++ S = P ++ [10]
      ∧ P.getLast? ≠ some 10 := by
  -- the line and its terminator
  have hline : ∃ L : ByteSeq, L.getLast? ≠ some 10
      ∧ (w.line body args = L ∨ w.line body args = L ++ [10])
      ∧ w.line body args ++ (if (w.line body args).getLast? = some 10 then [] else [10])
          = L ++ [10] := by
    rcases List.eq_nil_or_concat (w.line body args) with h | ⟨L0, c, h⟩
    · exact absurd h (line_ne_nil w body args)
    · rw [List.concat_eq_append] at h
      by_cases hc : c = 10
      · subst hc
        refine ⟨L0, last_not_newline_of_not_doubled L0 (by rw [← h]; exact hl), Or.inr h, ?_⟩
        rw [h]; simp
      · refine ⟨L0 ++ [c], by simp [hc], Or.inl h, ?_⟩
        rw [h]; simp [hc]
  obtain ⟨L, hL1, hL2, hL3⟩ := hline
  have hf := format_eq_line w body out args
  rw [hL3] at hf
  by_cases hst : args.Stack = []
  · refine ⟨L, [], L, ?_, hL1, hL2, fun _ => rfl, fun h => absurd hst h, by simp, hL1⟩
    rw [hf]; simp [hst]
  · rcases List.eq_nil_or_concat args.Stack with h | ⟨S0, s, h⟩
    · exact absurd h hst
    · rw [List.concat_eq_append] at h
      by_cases hc : s = 10
      · subst hc
        have hS0 : S0 ≠ [] := by
          intro h0
          apply hs1
          rw [h, h0]; rfl
        have hS0l : S0.getLast? ≠ some 10 :=
          last_not_newline_of_not_doubled S0 (by rw [← h]; exact hs)
        refine ⟨L, args.Stack, L ++ [10] ++ S0, ?_, hL1, hL2, fun h0 => absurd h0 hst,
          fun _ => Or.inl rfl, by rw [h]; simp, ?_⟩
        · rw [hf]; simp [hst, h]
        · rw [List.getLast?_append_of_ne_nil _ hS0]
          exact hS0l
      · refine ⟨L, args.Stack ++ [10], L ++ [10] ++ args.Stack, ?_, hL1, hL2,
          fun h0 => absurd h0 hst, fun _ => Or.inr rfl, by simp, ?_⟩
        · rw [hf]; simp [hst, h, hc]
        · rw [h, ← List.append_assoc, List.getLast?_concat]
          simpa using hc

theorem not_doubled_append (x : ByteSeq) (c : UInt8) (m : ByteSeq) (hc : c ≠ 10)
    (hm : ¬ ∃ t, m = t ++ [10, 10]) : ¬ ∃ t, x ++ ([c] ++ m) = t ++ [10, 10] := by
  rintro ⟨t, ht⟩
  rcases List.eq_nil_or_concat m with h | ⟨m1, a, h⟩
  · subst h
    have := congrArg List.getLast? ht
    simp at this
    exact hc this
  · rw [List.concat_eq_append] at h
    subst h
    rcases List.eq_nil_or_concat m1 with h | ⟨m2, b, h⟩
    · subst h
      have h1 := congrArg List.dropLast ht
      have e1 : (x ++ ([c] ++ ([] ++ [a]))).dropLast = x ++ [c] := by
        rw [show x ++ ([c] ++ ([] ++ [a])) = (x ++ [c]) ++ [a] by simp, List.dropLast_concat]
      have e2 : (t ++ [10, 10]).dropLast = t ++ [10] := by
        rw [show t ++ [10, 10] = (t ++ [10]) ++ [10] by simp, List.dropLast_concat]
      rw [e1, e2] at h1
      have := congrArg List.getLast? h1
      simp at this
      exact hc this
    · rw [List.concat_eq_append] at h
      subst h
      have ha := congrArg List.getLast? ht
      have e0 : x ++ ([c] ++ (m2 ++ [b] ++ [a])) = (x ++ [c] ++ m2 ++ [b]) ++ [a] := by simp
      have e2 : t ++ [10, 10] = (t ++ [10]) ++ [10] := by simp
      rw [e0, e2, List.getLast?_concat, List.getLast?_concat] at ha
      have h1 := congrArg List.dropLast ht
      rw [e0, e2, List.dropLast_concat, List.dropLast_concat] at h1
      have hb := congrArg List.getLast? h1
      rw [List.getLast?_concat, List.getLast?_concat] at hb
      simp only [Option.some.injEq] at ha hb
      subst ha; subst hb
      exact hm ⟨m2, by simp⟩

theorem not_doubled_of_suffix (l : ByteSeq) (c : UInt8) (m : ByteSeq) (hc : c ≠ 10)
    (hm : ¬ ∃ t, m = t ++ [10, 10]) (h : [c] ++ m <:+ l) : ¬ ∃ t, l = t ++ [10, 10] := by
  obtain ⟨x, hx⟩ := h
  rw [← hx]
  exact not_doubled_append x c m hc hm

theorem suffix_append_of_suffix (a b l : ByteSeq) (h : a <:+ l) : a <:+ b ++ l := by
  obtain ⟨x, hx⟩ := h
  exact ⟨b ++ x, by simp [hx]⟩

theorem not_doubled_concat (x : ByteSeq) (c : UInt8) (hc : c ≠ 10) :
    ¬ ∃ t, x ++ [c] = t ++ [10, 10] := by
  rintro ⟨t, ht⟩
  have := congrArg List.getLast? ht
  simp at this
  exact hc this

theorem not_doubled_nil : ¬ ∃ t : ByteSeq, ([] : ByteSeq) = t ++ [10, 10] := by
  rintro ⟨t, ht⟩
  simp at ht

/-- On the inputs: the console line does not end with two line breaks when neither the message
nor the value of the last key/value pair does. -/
theorem line_not_doubled (w : ConsoleWriter) (body : ByteSeq → ByteSeq) (args : FormatterArgs)
    (hm : ¬ ∃ t, args.Message = t ++ [10, 10])
    (hv : ∀ kv, args.KeyValues.getLast? = some kv → ¬ ∃ t, kv.Value = t ++ [10, 10]) :
    ¬ ∃ t, w.line body args = t ++ [10, 10] := by
  have hmsg : ∀ x : ByteSeq, ¬ ∃ t, x ++ [32] ++ args.Message = t ++ [10, 10] := by
    intro x
    rw [List.append_assoc]
    exact not_doubled_append x 32 _ (by decide) hm
  have hreset : ∀ x : ByteSeq, ¬ ∃ t, x ++ Reset = t ++ [10, 10] := by
    intro x
    have : x ++ Reset = (x ++ [27, 91, 48]) ++ ([109] ++ []) := by simp [Reset, ascii]
    rw [this]
    exact not_doubled_append _ 109 [] (by decide) not_doubled_nil
  unfold ConsoleWriter.line
  simp only [plainKeyValues_eq, colorKeyValues_eq]
  rcases List.eq_nil_or_concat args.KeyValues with hk | ⟨init, kv, hk⟩
  · -- no key/value pair
    rw [hk]
    by_cases hc : w.ColorOutput = true <;> by_cases he : w.EndWithMessage = true <;>
      simp only [hc, he, if_true, if_false, Bool.not_true, Bool.not_false, List.flatMap_nil,
        List.append_nil, Bool.false_eq_true]
    · exact hmsg _
    · exact hmsg _
    · exact hmsg _
    · exact hmsg _
  · rw [List.concat_eq_append] at hk
    have hkv := hv kv (by rw [hk]; simp)
    rw [hk]
    by_cases hc : w.ColorOutput = true <;> by_cases he : w.EndWithMessage = true <;>
      simp only [hc, he, if_true, if_false, Bool.not_true, Bool.not_false, List.flatMap_append,
        List.flatMap_cons, List.flatMap_nil, List.append_nil, Bool.false_eq_true]
    · exact hmsg _
    · simp only [← List.append_assoc]
      exact hreset _
    · exact hmsg _
    · by_cases hq : (w.QuoteString && kv.ValueType == 115) = true
      · simp only [hq, if_true, strconvQuote, ← List.append_assoc]
        exact not_doubled_concat _ 34 (by decide)
      · simp only [hq, if_false, Bool.false_eq_true, ← List.append_assoc]
        rw [List.append_assoc]
        exact not_doubled_append _ 61 _ (by decide) hkv

theorem doubled_iff (x : ByteSeq) :
    (∃ t, x = t ++ [10, 10]) ↔ x.reverse.take 2 = [10, 10] := by
  constructor
  · rintro ⟨t, rfl⟩
    simp
  · intro h
    refine ⟨(x.reverse.drop 2).reverse, ?_⟩
    have h1 := List.take_append_drop 2 x.reverse
    rw [h] at h1
    have h2 := congrArg List.reverse h1
    simp only [List.reverse_append, List.reverse_reverse] at h2
    exact h2.symm

theorem format_ends_with_one_newline_witness :
    ((¬ ∃ t, plainConsole.line id stackArgs = t ++ [10, 10])
      ∧ (¬ ∃ t, stackArgs.Stack = t ++ [10, 10]) ∧ stackArgs.Stack ≠ [10])
    ∧ ∃ L S P : ByteSeq,
      plainConsole.format id [] stackArgs = Except.ok ([] ++ [L ++ [10] ++ S])
      ∧ L.getLast? ≠ some 10
      ∧ (plainConsole.line id stackArgs = L ∨ plainConsole.line id stackArgs = L ++ [10])
      ∧ (stackArgs.Stack = [] → S = [])
      ∧ (stackArgs.Stack ≠ [] → S = stackArgs.Stack ∨ S = stackArgs.Stack ++ [10])
      ∧ L ++ [10] ++ S = P ++ [10]
      ∧ P.getLast? ≠ some 10 := by
  have h1 : ¬ ∃ t, plainConsole.line id stackArgs = t ++ [10, 10] := by
    rw [doubled_iff]; decide
  have h2 : ¬ ∃ t, stackArgs.Stack = t ++ [10, 10] := by
    rw [doubled_iff]; decide
  have h3 : stackArgs.Stack ≠ [10] := by decide
  exact ⟨⟨h1, h2, h3⟩, format_ends_with_one_newline plainConsole id [] stackArgs h1 h2 h3⟩

/-- The output for the sample record with a stack, as bytes. -/
theorem format_stack_sample :
    plainConsole.format id [] stackArgs
      = Except.ok [ascii "T ERR > boom\nmain.main()\n\tmain.go:3\n"] := by
  rfl

/-! ## The logfmt formatter -/

theorem logfmtKeyValues_eq (body : ByteSeq → ByteSeq) (kvs : List KeyValue) (b : ByteSeq) :
    logfmtKeyValues body kvs b
      = b ++ kvs.flatMap (fun kv =>
          if kv.ValueType = 116 then kv.Key ++ [32]
          else if kv.ValueType = 102 then kv.Key ++ ascii "=false "
          else if kv.ValueType = 110 ∨ kv.ValueType = 83 then kv.Key ++ [61] ++ kv.Value ++ [32]
          else kv.Key ++ [61] ++ strconvQuote body kv.Value ++ [32]) := by
  induction kvs generalizing b with
  | nil => simp [logfmtKeyValues]
  | cons kv rest ih =>
    simp only [logfmtKeyValues, ih, List.flatMap_cons]
    by_cases h1 : kv.ValueType = 116
    · simp [h1]
    · by_cases h2 : kv.ValueType = 102
      · simp [h1, h2]
      · by_cases h3 : kv.ValueType = 110
        · simp [h1, h2, h3]
        · by_cases h4 : kv.ValueType = 83
          · simp [h1, h2, h3, h4]
          · simp [h1, h2, h3, h4]

/-- C25, as the claim states it, fails: a value whose type tag is none of `t`, `f`, `n`, `S`
and `s` (here `a`) is written between quotes, not bare. -/
theorem logfmt_quotes_other_tags :
    LogfmtFormatter.Formatter { TimeField := ascii "time" } id [] rawArgs
      = Except.ok [ascii "time=T k=\"[1]\" \"\"\n"]
    ∧ ascii "time=T k=\"[1]\" \"\"\n" ≠ ascii "time=T k=[1] \"\"\n" := by
  refine ⟨rfl, by decide⟩

/-- C25, amended: `LogfmtFormatter.Formatter` writes once the time field, the optional level,
caller and stack fields, then each key/value pair followed by one space according to its type
tag: the bare key for tag `t`, the key and `=false` for tag `f`, the key, `=` and the value
without quotes for the tags `n` and `S`, and the key, `=` and the quoted value for tag `s` and
for every other tag; the output ends with the quoted message followed by one line break, and
the byte before that line break is the closing quote. -/
theorem logfmt_rendering (f : LogfmtFormatter) (body : ByteSeq → ByteSeq) (out : Output)
    (args : FormatterArgs) :
    LogfmtFormatter.Formatter f body out args
      = Except.ok (out ++ [
          f.TimeField ++ [61] ++ args.Time ++ [32]
          ++ (if args.Level ≠ [] ∧ args.Level.head? ≠ some 63
              then ascii "level=" ++ args.Level ++ [32] else [])
          ++ (if args.Caller ≠ []
              then ascii "goid=" ++ args.Goid ++ ascii " caller="
                ++ strconvQuote body args.Caller ++ [32]
              else [])
          ++ (if args.Stack ≠ [] then ascii "stack=" ++ strconvQuote body args.Stack ++ [32]
              else [])
          ++ args.KeyValues.flatMap (fun kv =>
              if kv.ValueType = 116 then kv.Key ++ [32]
              else if kv.ValueType = 102 then kv.Key ++ ascii "=false "
              else if kv.ValueType = 110 ∨ kv.ValueType = 83 then
                kv.Key ++ [61] ++ kv.Value ++ [32]
              else kv.Key ++ [61] ++ strconvQuote body kv.Value ++ [32])
          ++ strconvQuote body args.Message ++ [10]])
    ∧ (strconvQuote body args.Message).getLast? = some 34 := by
  constructor
  · unfold LogfmtFormatter.Formatter
    simp only [logfmtKeyValues_eq]
    by_cases h1 : args.Level ≠ [] ∧ args.Level.head? ≠ some 63 <;>
      by_cases h2 : args.Caller = [] <;> by_cases h3 : args.Stack = [] <;>
      simp [h1, h2, h3, pure, Except.pure]
  · unfold strconvQuote
    rw [List.getLast?_concat]

/-! ## xid: bytes and bits -/

theorem toNat_ofNat_lt (n : Nat) (h : n < 256) : (UInt8.ofNat n).toNat = n :=
  UInt8.toNat_ofNat_of_lt h

theorem ofNat_toNat (x : UInt8) : UInt8.ofNat x.toNat = x := by
  apply UInt8.toNat.inj
  exact toNat_ofNat_lt _ (UInt8.toNat_lt_size x)

theorem bit_high (x : UInt8) (i : Nat) (hi : 8 ≤ i) : bit x i = false := by
  have h8 : (2 : Nat) ^ 8 ≤ 2 ^ i := Nat.pow_le_pow_right (by decide) hi
  exact Nat.testBit_lt_two_pow (Nat.lt_of_lt_of_le (UInt8.toNat_lt_size x) h8)

theorem bit_small (x : UInt8) (h : x.toNat < 32) (i : Nat) (hi : 5 ≤ i) : bit x i = false := by
  have h5 : (2 : Nat) ^ 5 ≤ 2 ^ i := Nat.pow_le_pow_right (by decide) hi
  exact Nat.testBit_lt_two_pow (Nat.lt_of_lt_of_le h h5)

theorem byte_ext (x y : UInt8) (h : ∀ i, i < 8 → bit x i = bit y i) : x = y := by
  apply UInt8.toNat.inj
  apply Nat.eq_of_testBit_eq
  intro i
  by_cases hi : i < 8
  · exact h i hi
  · have hx := bit_high x i (by omega)
    have hy := bit_high y i (by omega)
    unfold bit at hx hy
    rw [hx, hy]

theorem toNat_shr (x : UInt8) (k : Nat) : (shr x k).toNat = x.toNat >>> k := by
  unfold shr
  apply toNat_ofNat_lt
  have hx : x.toNat < 256 := UInt8.toNat_lt_size x
  have hle : x.toNat >>> k ≤ x.toNat := by
    rw [Nat.shiftRight_eq_div_pow]; exact Nat.div_le_self _ _
  omega

theorem toNat_bor (x y : UInt8) : (bor x y).toNat = x.toNat ||| y.toNat := by
  unfold bor
  apply toNat_ofNat_lt
  exact Nat.or_lt_two_pow (n := 8) (UInt8.toNat_lt_size x) (UInt8.toNat_lt_size y)

theorem toNat_band (x y : UInt8) : (band x y).toNat = x.toNat &&& y.toNat := by
  unfold band
  apply toNat_ofNat_lt
  exact Nat.and_lt_two_pow x.toNat (n := 8) (UInt8.toNat_lt_size y)

theorem toNat_shl (x : UInt8) (k : Nat) : (shl x k).toNat = x.toNat <<< k % 256 := by
  unfold shl
  exact toNat_ofNat_lt _ (Nat.mod_lt _ (by decide))

theorem bit_shr (x : UInt8) (k i : Nat) : bit (shr x k) i = bit x (k + i) := by
  unfold bit
  rw [toNat_shr, Nat.testBit_shiftRight]

theorem bit_shl (x : UInt8) (k i : Nat) :
    bit (shl x k) i = (decide (i < 8) && (decide (k ≤ i) && bit x (i - k))) := by
  unfold bit
  rw [toNat_shl, show (256 : Nat) = 2 ^ 8 by rfl, Nat.testBit_mod_two_pow,
    Nat.testBit_shiftLeft]

theorem bit_bor (x y : UInt8) (i : Nat) : bit (bor x y) i = (bit x i || bit y i) := by
  unfold bit
  rw [toNat_bor, Nat.testBit_or]

theorem bit_band (x y : UInt8) (i : Nat) : bit (band x y) i = (bit x i && bit y i) := by
  unfold bit
  rw [toNat_band, Nat.testBit_and]

theorem bit_31 (i : Nat) : bit 31 i = decide (i < 5) := by
  unfold bit
  exact Nat.testBit_two_pow_sub_one 5 i

/-! ## xid: five-bit indices -/

theorem small_shr (x : UInt8) (k : Nat) (hk : 3 ≤ k) : (shr x k).toNat < 32 := by
  rw [toNat_shr, Nat.shiftRight_eq_div_pow]
  have hx : x.toNat < 256 := UInt8.toNat_lt_size x
  have h8 : (2 : Nat) ^ 3 ≤ 2 ^ k := Nat.pow_le_pow_right (by decide) hk
  have h1 : x.toNat / 2 ^ k ≤ x.toNat / 2 ^ 3 := Nat.div_le_div_left h8 (by decide)
  have h2 : x.toNat / 2 ^ 3 < 32 := by omega
  omega

theorem small_band (x : UInt8) : (band x 31).toNat < 32 := by
  rw [toNat_band]
  exact Nat.lt_of_le_of_lt Nat.and_le_right (by decide)

theorem small_bor (x y : UInt8) (hx : x.toNat < 32) (hy : y.toNat < 32) :
    (bor x y).toNat < 32 := by
  rw [toNat_bor]
  exact Nat.or_lt_two_pow (n := 5) hx hy

theorem encodingAt_ok (x : UInt8) (h : x.toNat < 32) :
    encodingAt x = Except.ok (encodingChar x) := by
  unfold encodingAt encodingChar index
  have hl : x.toNat < encoding.length := by
    have : encoding.length = 32 := by decide
    omega
  simp [List.getElem?_eq_getElem hl, List.getD_eq_getElem?_getD]

set_option maxRecDepth 100000 in
theorem dec_encodingChar_nat : ∀ n, n < 32 → dec (encodingChar (UInt8.ofNat n)) = UInt8.ofNat n := by
  decide

theorem dec_encodingChar (x : UInt8) (h : x.toNat < 32) : dec (encodingChar x) = x := by
  have := dec_encodingChar_nat x.toNat h
  rwa [ofNat_toNat] at this

set_option maxRecDepth 100000 in
theorem encodingChar_mem_nat : ∀ n, n < 32 → encodingChar (UInt8.ofNat n) ∈ encoding := by
  decide

theorem encodingChar_mem (x : UInt8) (h : x.toNat < 32) : encodingChar x ∈ encoding := by
  have := encodingChar_mem_nat x.toNat h
  rwa [ofNat_toNat] at this

theorem dec_valid_nat : ∀ n, n < 256 → dec (UInt8.ofNat n) ≠ 255 →
    (dec (UInt8.ofNat n)).toNat < 32 ∧ encodingChar (dec (UInt8.ofNat n)) = UInt8.ofNat n := by
  decide!

theorem dec_valid (c : UInt8) (h : dec c ≠ 255) :
    (dec c).toNat < 32 ∧ encodingChar (dec c) = c := by
  have := dec_valid_nat c.toNat (UInt8.toNat_lt_size c)
  rw [ofNat_toNat] at this
  exact this h

theorem dec_mem_nat : ∀ n, n < 256 → (dec (UInt8.ofNat n) ≠ 255 ↔ UInt8.ofNat n ∈ encoding) := by
  decide!

theorem dec_mem (c : UInt8) : dec c ≠ 255 ↔ c ∈ encoding := by
  have := dec_mem_nat c.toNat (UInt8.toNat_lt_size c)
  rwa [ofNat_toNat] at this

/-! ## xid: regrouping eight-bit bytes and five-bit indices -/

theorem byte_of_chars_a (a b : UInt8) :
    bor (shl (shr a 3) 3) (shr (bor (shr b 6) (band (shl a 2) 31)) 2) = a := by
  apply byte_ext
  intro i hi
  interval_cases i <;> simp [bit_bor, bit_shl, bit_shr, bit_band, bit_31, bit_high]

theorem byte_of_chars_b (a0 a1 a2 : UInt8) :
    bor (bor (shl (bor (shr a1 6) (band (shl a0 2) 31)) 6) (shl (band (shr a1 1) 31) 1))
        (shr (bor (shr a2 4) (band (shl a1 4) 31)) 4) = a1 := by
  apply byte_ext
  intro i hi
  interval_cases i <;> simp [bit_bor, bit_shl, bit_shr, bit_band, bit_31, bit_high]

theorem byte_of_chars_c (a1 a2 a3 : UInt8) :
    bor (shl (bor (shr a2 4) (band (shl a1 4) 31)) 4)
        (shr (bor (shr a3 7) (band (shl a2 1) 31)) 1) = a2 := by
  apply byte_ext
  intro i hi
  interval_cases i <;> simp [bit_bor, bit_shl, bit_shr, bit_band, bit_31, bit_high]

theorem byte_of_chars_d (a2 a3 a4 : UInt8) :
    bor (bor (shl (bor (shr a3 7) (band (shl a2 1) 31)) 7) (shl (band (shr a3 2) 31) 2))
        (shr (bor (shr a4 5) (band (shl a3 3) 31)) 3) = a3 := by
  apply byte_ext
  intro i hi
  interval_cases i <;> simp [bit_bor, bit_shl, bit_shr, bit_band, bit_31, bit_high]

theorem byte_of_chars_e (a3 a4 : UInt8) :
    bor (shl (bor (shr a4 5) (band (shl a3 3) 31)) 5) (band a4 31) = a4 := by
  apply byte_ext
  intro i hi
  interval_cases i <;> simp [bit_bor, bit_shl, bit_shr, bit_band, bit_31, bit_high]

theorem byte_of_chars_f (a10 a11 : UInt8) :
    bor (bor (shl (bor (shr a11 6) (band (shl a10 2) 31)) 6) (shl (band (shr a11 1) 31) 1))
        (shr (band (shl a11 4) 31) 4) = a11 := by
  apply byte_ext
  intro i hi
  interval_cases i <;> simp [bit_bor, bit_shl, bit_shr, bit_band, bit_31, bit_high]

theorem char_of_bytes_a (v0 v1 : UInt8) (h0 : v0.toNat < 32) (h1 : v1.toNat < 32) :
    shr (bor (shl v0 3) (shr v1 2)) 3 = v0 := by
  apply byte_ext
  intro i hi
  interval_cases i <;>
    simp [bit_bor, bit_shl, bit_shr, bit_band, bit_31, bit_high, bit_small v0 h0,
      bit_small v1 h1]

theorem char_of_bytes_b (v0 v1 v2 v3 : UInt8) (h1 : v1.toNat < 32) (h2 : v2.toNat < 32) :
    bor (shr (bor (bor (shl v1 6) (shl v2 1)) (shr v3 4)) 6)
        (band (shl (bor (shl v0 3) (shr v1 2)) 2) 31) = v1 := by
  apply byte_ext
  intro i hi
  interval_cases i <;>
    simp [bit_bor, bit_shl, bit_shr, bit_band, bit_31, bit_high, bit_small v1 h1,
      bit_small v2 h2]

theorem char_of_bytes_c (v1 v2 v3 : UInt8) (h2 : v2.toNat < 32) (h3 : v3.toNat < 32) :
    band (shr (bor (bor (shl v1 6) (shl v2 1)) (shr v3 4)) 1) 31 = v2 := by
  apply byte_ext
  intro i hi
  interval_cases i <;>
    simp [bit_bor, bit_shl, bit_shr, bit_band, bit_31, bit_high, bit_small v2 h2,
      bit_small v3 h3]

theorem char_of_bytes_d (v1 v2 v3 v4 : UInt8) (h3 : v3.toNat < 32) (h4 : v4.toNat < 32) :
    bor (shr (bor (shl v3 4) (shr v4 1)) 4)
        (band (shl (bor (bor (shl v1 6) (shl v2 1)) (shr v3 4)) 4) 31) = v3 := by
  apply byte_ext
  intro i hi
  interval_cases i <;>
    simp [bit_bor, bit_shl, bit_shr, bit_band, bit_31, bit_high, bit_small v3 h3,
      bit_small v4 h4]

theorem char_of_bytes_e (v3 v4 v5 v6 : UInt8) (h4 : v4.toNat < 32) (h5 : v5.toNat < 32) :
    bor (shr (bor (bor (shl v4 7) (shl v5 2)) (shr v6 3)) 7)
        (band (shl (bor (shl v3 4) (shr v4 1)) 1) 31) = v4 := by
  apply byte_ext
  intro i hi
  interval_cases i <;>
    simp [bit_bor, bit_shl, bit_shr, bit_band, bit_31, bit_high, bit_small v4 h4,
      bit_small v5 h5]

theorem char_of_bytes_f (v4 v5 v6 : UInt8) (h5 : v5.toNat < 32) (h6 : v6.toNat < 32) :
    band (shr (bor (bor (shl v4 7) (shl v5 2)) (shr v6 3)) 2) 31 = v5 := by
  apply byte_ext
  intro i hi
  interval_cases i <;>
    simp [bit_bor, bit_shl, bit_shr, bit_band, bit_31, bit_high, bit_small v5 h5,
      bit_small v6 h6]

theorem char_of_bytes_g (v4 v5 v6 v7 : UInt8) (h6 : v6.toNat < 32) (h7 : v7.toNat < 32) :
    bor (shr (bor (shl v6 5) v7) 5)
        (band (shl (bor (bor (shl v4 7) (shl v5 2)) (shr v6 3)) 3) 31) = v6 := by
  apply byte_ext
  intro i hi
  interval_cases i <;>
    simp [bit_bor, bit_shl, bit_shr, bit_band, bit_31, bit_high, bit_small v6 h6,
      bit_small v7 h7]

theorem char_of_bytes_h (v6 v7 : UInt8) (h7 : v7.toNat < 32) :
    band (bor (shl v6 5) v7) 31 = v7 := by
  apply byte_ext
  intro i hi
  interval_cases i <;>
    simp [bit_bor, bit_shl, bit_shr, bit_band, bit_31, bit_high, bit_small v7 h7]

/-! ## xid: text of an id and back -/

/-- The text of an id, explicitly, and what `UnmarshalText` makes of it. -/
theorem String_spec (id : ID) :
    ∃ text : ByteSeq, ID.String id = Except.ok text ∧ text.length = 20
      ∧ (∀ c ∈ text, c ∈ encoding)
      ∧ text.getLast? = some (encodingChar (band (shl id.b11 4) 31))
      ∧ ∀ id0 : ID, ID.UnmarshalText id0 text = Except.ok (id, none) := by
  obtain ⟨a0, a1, a2, a3, a4, a5, a6, a7, a8, a9, a10, a11⟩ := id
  have s0 : (shr a0 3).toNat < 32 := small_shr a0 3 (by decide)
  have s1 : (bor (shr a1 6) (band (shl a0 2) 31)).toNat < 32 := small_bor (shr a1 6) (band (shl a0 2) 31) (small_shr a1 6 (by decide)) (small_band ((shl a0 2)))
  have s2 : (band (shr a1 1) 31).toNat < 32 := small_band ((shr a1 1))
  have s3 : (bor (shr a2 4) (band (shl a1 4) 31)).toNat < 32 := small_bor (shr a2 4) (band (shl a1 4) 31) (small_shr a2 4 (by decide)) (small_band ((shl a1 4)))
  have s4 : (bor (shr a3 7) (band (shl a2 1) 31)).toNat < 32 := small_bor (shr a3 7) (band (shl a2 1) 31) (small_shr a3 7 (by decide)) (small_band ((shl a2 1)))
  have s5 : (band (shr a3 2) 31).toNat < 32 := small_band ((shr a3 2))
  have s6 : (bor (shr a4 5) (band (shl a3 3) 31)).toNat < 32 := small_bor (shr a4 5) (band (shl a3 3) 31) (small_shr a4 5 (by decide)) (small_band ((shl a3 3)))
  have s7 : (band a4 31).toNat < 32 := small_band a4
  have s8 : (shr a5 3).toNat < 32 := small_shr a5 3 (by decide)
  have s9 : (bor (shr a6 6) (band (shl a5 2) 31)).toNat < 32 := small_bor (shr a6 6) (band (shl a5 2) 31) (small_shr a6 6 (by decide)) (small_band ((shl a5 2)))
  have s10 : (band (shr a6 1) 31).toNat < 32 := small_band ((shr a6 1))
  have s11 : (bor (shr a7 4) (band (shl a6 4) 31)).toNat < 32 := small_bor (shr a7 4) (band (shl a6 4) 31) (small_shr a7 4 (by decide)) (small_band ((shl a6 4)))
  have s12 : (bor (shr a8 7) (band (shl a7 1) 31)).toNat < 32 := small_bor (shr a8 7) (band (shl a7 1) 31) (small_shr a8 7 (by decide)) (small_band ((shl a7 1)))
  have s13 : (band (shr a8 2) 31).toNat < 32 := small_band ((shr a8 2))
  have s14 : (bor (shr a9 5) (band (shl a8 3) 31)).toNat < 32 := small_bor (shr a9 5) (band (shl a8 3) 31) (small_shr a9 5 (by decide)) (small_band ((shl a8 3)))
  have s15 : (band a9 31).toNat < 32 := small_band a9
  have s16 : (shr a10 3).toNat < 32 := small_shr a10 3 (by decide)
  have s17 : (bor (shr a11 6) (band (shl a10 2) 31)).toNat < 32 := small_bor (shr a11 6) (band (shl a10 2) 31) (small_shr a11 6 (by decide)) (small_band ((shl a10 2)))
  have s18 : (band (shr a11 1) 31).toNat < 32 := small_band ((shr a11 1))
  have s19 : (band (shl a11 4) 31).toNat < 32 := small_band ((shl a11 4))
  refine ⟨[encodingChar (shr a0 3), encodingChar (bor (shr a1 6) (band (shl a0 2) 31)), encodingChar (band (shr a1 1) 31), encodingChar (bor (shr a2 4) (band (shl a1 4) 31)), encodingChar (bor (shr a3 7) (band (shl a2 1) 31)), encodingChar (band (shr a3 2) 31), encodingChar (bor (shr a4 5) (band (shl a3 3) 31)), encodingChar (band a4 31), encodingChar (shr a5 3), encodingChar (bor (shr a6 6) (band (shl a5 2) 31)), encodingChar (band (shr a6 1) 31), encodingChar (bor (shr a7 4) (band (shl a6 4) 31)), encodingChar (bor (shr a8 7) (band (shl a7 1) 31)), encodingChar (band (shr a8 2) 31), encodingChar (bor (shr a9 5) (band (shl a8 3) 31)), encodingChar (band a9 31), encodingChar (shr a10 3), encodingChar (bor (shr a11 6) (band (shl a10 2) 31)), encodingChar (band (shr a11 1) 31), encodingChar (band (shl a11 4) 31)], ?_, rfl, ?_, rfl, ?_⟩
  · simp only [ID.String, ID.slice, encode, encodingAt_ok _ s0, encodingAt_ok _ s1, encodingAt_ok _ s2, encodingAt_ok _ s3, encodingAt_ok _ s4, encodingAt_ok _ s5, encodingAt_ok _ s6, encodingAt_ok _ s7, encodingAt_ok _ s8, encodingAt_ok _ s9, encodingAt_ok _ s10, encodingAt_ok _ s11, encodingAt_ok _ s12, encodingAt_ok _ s13, encodingAt_ok _ s14, encodingAt_ok _ s15, encodingAt_ok _ s16, encodingAt_ok _ s17, encodingAt_ok _ s18, encodingAt_ok _ s19, bind, Except.bind, pure, Except.pure]
  · intro c hc
    simp only [List.mem_cons, List.mem_singleton, List.not_mem_nil, or_false] at hc
    rcases hc with h | h | h | h | h | h | h | h | h | h | h | h | h | h | h | h | h | h | h | h <;> subst h
    · exact encodingChar_mem _ s0
    · exact encodingChar_mem _ s1
    · exact encodingChar_mem _ s2
    · exact encodingChar_mem _ s3
    · exact encodingChar_mem _ s4
    · exact encodingChar_mem _ s5
    · exact encodingChar_mem _ s6
    · exact encodingChar_mem _ s7
    · exact encodingChar_mem _ s8
    · exact encodingChar_mem _ s9
    · exact encodingChar_mem _ s10
    · exact encodingChar_mem _ s11
    · exact encodingChar_mem _ s12
    · exact encodingChar_mem _ s13
    · exact encodingChar_mem _ s14
    · exact encodingChar_mem _ s15
    · exact encodingChar_mem _ s16
    · exact encodingChar_mem _ s17
    · exact encodingChar_mem _ s18
    · exact encodingChar_mem _ s19
  · intro id0
    have hany : List.any [encodingChar (shr a0 3), encodingChar (bor (shr a1 6) (band (shl a0 2) 31)), encodingChar (band (shr a1 1) 31), encodingChar (bor (shr a2 4) (band (shl a1 4) 31)), encodingChar (bor (shr a3 7) (band (shl a2 1) 31)), encodingChar (band (shr a3 2) 31), encodingChar (bor (shr a4 5) (band (shl a3 3) 31)), encodingChar (band a4 31), encodingChar (shr a5 3), encodingChar (bor (shr a6 6) (band (shl a5 2) 31)), encodingChar (band (shr a6 1) 31), encodingChar (bor (shr a7 4) (band (shl a6 4) 31)), encodingChar (bor (shr a8 7) (band (shl a7 1) 31)), encodingChar (band (shr a8 2) 31), encodingChar (bor (shr a9 5) (band (shl a8 3) 31)), encodingChar (band a9 31), encodingChar (shr a10 3), encodingChar (bor (shr a11 6) (band (shl a10 2) 31)), encodingChar (band (shr a11 1) 31), encodingChar (band (shl a11 4) 31)] (fun c => dec c == 255) = false := by
      simp only [List.any_cons, List.any_nil, dec_encodingChar _ s0, dec_encodingChar _ s1, dec_encodingChar _ s2, dec_encodingChar _ s3, dec_encodingChar _ s4, dec_encodingChar _ s5, dec_encodingChar _ s6, dec_encodingChar _ s7, dec_encodingChar _ s8, dec_encodingChar _ s9, dec_encodingChar _ s10, dec_encodingChar _ s11, dec_encodingChar _ s12, dec_encodingChar _ s13, dec_encodingChar _ s14, dec_encodingChar _ s15, dec_encodingChar _ s16, dec_encodingChar _ s17, dec_encodingChar _ s18, dec_encodingChar _ s19, Bool.or_false, Bool.or_eq_false_iff, beq_eq_false_iff_ne, ne_eq]
      refine ⟨?_, ?_, ?_, ?_, ?_, ?_, ?_, ?_, ?_, ?_, ?_, ?_, ?_, ?_, ?_, ?_, ?_, ?_, ?_, ?_⟩ <;> intro h <;> simp_all
    unfold ID.UnmarshalText
    rw [if_neg (by simp), hany]
    simp only [decode, dec_encodingChar _ s0, dec_encodingChar _ s1, dec_encodingChar _ s2, dec_encodingChar _ s3, dec_encodingChar _ s4, dec_encodingChar _ s5, dec_encodingChar _ s6, dec_encodingChar _ s7, dec_encodingChar _ s8, dec_encodingChar _ s9, dec_encodingChar _ s10, dec_encodingChar _ s11, dec_encodingChar _ s12, dec_encodingChar _ s13, dec_encodingChar _ s14, dec_encodingChar _ s15, dec_encodingChar _ s16, dec_encodingChar _ s17, dec_encodingChar _ s18, dec_encodingChar _ s19, byte_of_chars_a, byte_of_chars_b, byte_of_chars_c, byte_of_chars_d, byte_of_chars_e, byte_of_chars_f, encodingAt_ok _ s19, bind, Except.bind, pure, Except.pure]
    simp

/-- C29: for every id, `String` returns a text of 20 characters, each one of the 32 characters
`0`-`9`, `a`-`v` of `encoding`, and `FromString` of that text returns the id with a nil
error. -/
theorem FromString_String (id : ID) :
    ∃ text : ByteSeq, ID.String id = Except.ok text ∧ text.length = 20
      ∧ (∀ c ∈ text, c ∈ encoding)
      ∧ FromString text = Except.ok (id, none) := by
  obtain ⟨text, h1, h2, h3, _, h4⟩ := String_spec id
  exact ⟨text, h1, h2, h3, h4 nilID⟩

/-! ## xid: reading a text -/

theorem list_of_length_20 (text : ByteSeq) (h : text.length = 20) :
    ∃ s0 s1 s2 s3 s4 s5 s6 s7 s8 s9 s10 s11 s12 s13 s14 s15 s16 s17 s18 s19,
      text = [s0, s1, s2, s3, s4, s5, s6, s7, s8, s9, s10, s11, s12, s13, s14, s15, s16, s17,
              s18, s19] := by
  rcases text with _ | ⟨s0, text⟩
  · simp at h
  rcases text with _ | ⟨s1, text⟩
  · simp at h
  rcases text with _ | ⟨s2, text⟩
  · simp at h
  rcases text with _ | ⟨s3, text⟩
  · simp at h
  rcases text with _ | ⟨s4, text⟩
  · simp at h
  rcases text with _ | ⟨s5, text⟩
  · simp at h
  rcases text with _ | ⟨s6, text⟩
  · simp at h
  rcases text with _ | ⟨s7, text⟩
  · simp at h
  rcases text with _ | ⟨s8, text⟩
  · simp at h
  rcases text with _ | ⟨s9, text⟩
  · simp at h
  rcases text with _ | ⟨s10, text⟩
  · simp at h
  rcases text with _ | ⟨s11, text⟩
  · simp at h
  rcases text with _ | ⟨s12, text⟩
  · simp at h
  rcases text with _ | ⟨s13, text⟩
  · simp at h
  rcases text with _ | ⟨s14, text⟩
  · simp at h
  rcases text with _ | ⟨s15, text⟩
  · simp at h
  rcases text with _ | ⟨s16, text⟩
  · simp at h
  rcases text with _ | ⟨s17, text⟩
  · simp at h
  rcases text with _ | ⟨s18, text⟩
  · simp at h
  rcases text with _ | ⟨s19, text⟩
  · simp at h
  rcases text with _ | ⟨s20, text⟩
  · exact ⟨s0, s1, s2, s3, s4, s5, s6, s7, s8, s9, s10, s11, s12, s13, s14, s15, s16, s17, s18, s19, rfl⟩
  · simp at h

/-- The text of the id that `decode` builds from valid characters is the text it was built
from, provided the last character passes the check of `decode`. -/
theorem String_decoded (s0 s1 s2 s3 s4 s5 s6 s7 s8 s9 s10 s11 s12 s13 s14 s15 s16 s17 s18 s19 : UInt8)
    (n0 : dec s0 ≠ 255)
    (n1 : dec s1 ≠ 255)
    (n2 : dec s2 ≠ 255)
    (n3 : dec s3 ≠ 255)
    (n4 : dec s4 ≠ 255)
    (n5 : dec s5 ≠ 255)
    (n6 : dec s6 ≠ 255)
    (n7 : dec s7 ≠ 255)
    (n8 : dec s8 ≠ 255)
    (n9 : dec s9 ≠ 255)
    (n10 : dec s10 ≠ 255)
    (n11 : dec s11 ≠ 255)
    (n12 : dec s12 ≠ 255)
    (n13 : dec s13 ≠ 255)
    (n14 : dec s14 ≠ 255)
    (n15 : dec s15 ≠ 255)
    (n16 : dec s16 ≠ 255)
    (n17 : dec s17 ≠ 255)
    (n18 : dec s18 ≠ 255)
    (n19 : dec s19 ≠ 255)
    (hc : encodingChar (band (shl (bor (bor (shl (dec s17) 6) (shl (dec s18) 1))
      (shr (dec s19) 4)) 4) 31) = s19) :
    ID.String (ID.mk (bor (shl (dec s0) 3) (shr (dec s1) 2))
        (bor (bor (shl (dec s1) 6) (shl (dec s2) 1)) (shr (dec s3) 4))
        (bor (shl (dec s3) 4) (shr (dec s4) 1))
        (bor (bor (shl (dec s4) 7) (shl (dec s5) 2)) (shr (dec s6) 3))
        (bor (shl (dec s6) 5) (dec s7))
        (bor (shl (dec s8) 3) (shr (dec s9) 2))
        (bor (bor (shl (dec s9) 6) (shl (dec s10) 1)) (shr (dec s11) 4))
        (bor (shl (dec s11) 4) (shr (dec s12) 1))
        (bor (bor (shl (dec s12) 7) (shl (dec s13) 2)) (shr (dec s14) 3))
        (bor (shl (dec s14) 5) (dec s15))
        (bor (shl (dec s16) 3) (shr (dec s17) 2))
        (bor (bor (shl (dec s17) 6) (shl (dec s18) 1)) (shr (dec s19) 4)))
      = Except.ok [s0, s1, s2, s3, s4, s5, s6, s7, s8, s9, s10, s11, s12, s13, s14, s15, s16, s17, s18, s19] := by
  have h0 := (dec_valid s0 n0).1
  have e0 := (dec_valid s0 n0).2
  have h1 := (dec_valid s1 n1).1
  have e1 := (dec_valid s1 n1).2
  have h2 := (dec_valid s2 n2).1
  have e2 := (dec_valid s2 n2).2
  have h3 := (dec_valid s3 n3).1
  have e3 := (dec_valid s3 n3).2
  have h4 := (dec_valid s4 n4).1
  have e4 := (dec_valid s4 n4).2
  have h5 := (dec_valid s5 n5).1
  have e5 := (dec_valid s5 n5).2
  have h6 := (dec_valid s6 n6).1
  have e6 := (dec_valid s6 n6).2
  have h7 := (dec_valid s7 n7).1
  have e7 := (dec_valid s7 n7).2
  have h8 := (dec_valid s8 n8).1
  have e8 := (dec_valid s8 n8).2
  have h9 := (dec_valid s9 n9).1
  have e9 := (dec_valid s9 n9).2
  have h10 := (dec_valid s10 n10).1
  have e10 := (dec_valid s10 n10).2
  have h11 := (dec_valid s11 n11).1
  have e11 := (dec_valid s11 n11).2
  have h12 := (dec_valid s12 n12).1
  have e12 := (dec_valid s12 n12).2
  have h13 := (dec_valid s13 n13).1
  have e13 := (dec_valid s13 n13).2
  have h14 := (dec_valid s14 n14).1
  have e14 := (dec_valid s14 n14).2
  have h15 := (dec_valid s15 n15).1
  have e15 := (dec_valid s15 n15).2
  have h16 := (dec_valid s16 n16).1
  have e16 := (dec_valid s16 n16).2
  have h17 := (dec_valid s17 n17).1
  have e17 := (dec_valid s17 n17).2
  have h18 := (dec_valid s18 n18).1
  have e18 := (dec_valid s18 n18).2
  have h19 := (dec_valid s19 n19).1
  have e19 := (dec_valid s19 n19).2
  have hs19 : (band (shl (bor (bor (shl (dec s17) 6) (shl (dec s18) 1)) (shr (dec s19) 4)) 4)
      31).toNat < 32 := small_band _
  simp only [ID.String, ID.slice, encode]
  simp only [char_of_bytes_a (dec s0) (dec s1) h0 h1,
    char_of_bytes_b (dec s0) (dec s1) (dec s2) (dec s3) h1 h2,
    char_of_bytes_c (dec s1) (dec s2) (dec s3) h2 h3,
    char_of_bytes_d (dec s1) (dec s2) (dec s3) (dec s4) h3 h4,
    char_of_bytes_e (dec s3) (dec s4) (dec s5) (dec s6) h4 h5,
    char_of_bytes_f (dec s4) (dec s5) (dec s6) h5 h6,
    char_of_bytes_g (dec s4) (dec s5) (dec s6) (dec s7) h6 h7,
    char_of_bytes_h (dec s6) (dec s7) h7,
    char_of_bytes_a (dec s8) (dec s9) h8 h9,
    char_of_bytes_b (dec s8) (dec s9) (dec s10) (dec s11) h9 h10,
    char_of_bytes_c (dec s9) (dec s10) (dec s11) h10 h11,
    char_of_bytes_d (dec s9) (dec s10) (dec s11) (dec s12) h11 h12,
    char_of_bytes_e (dec s11) (dec s12) (dec s13) (dec s14) h12 h13,
    char_of_bytes_f (dec s12) (dec s13) (dec s14) h13 h14,
    char_of_bytes_g (dec s12) (dec s13) (dec s14) (dec s15) h14 h15,
    char_of_bytes_h (dec s14) (dec s15) h15,
    char_of_bytes_a (dec s16) (dec s17) h16 h17,
    char_of_bytes_b (dec s16) (dec s17) (dec s18) (dec s19) h17 h18,
    char_of_bytes_c (dec s17) (dec s18) (dec s19) h18 h19]
  simp only [encodingAt_ok _ h0, encodingAt_ok _ h1, encodingAt_ok _ h2, encodingAt_ok _ h3, encodingAt_ok _ h4, encodingAt_ok _ h5, encodingAt_ok _ h6, encodingAt_ok _ h7, encodingAt_ok _ h8, encodingAt_ok _ h9, encodingAt_ok _ h10, encodingAt_ok _ h11, encodingAt_ok _ h12, encodingAt_ok _ h13, encodingAt_ok _ h14, encodingAt_ok _ h15, encodingAt_ok _ h16, encodingAt_ok _ h17, encodingAt_ok _ h18, encodingAt_ok _ hs19, hc, e0, e1, e2, e3, e4, e5, e6, e7, e8, e9, e10, e11, e12, e13, e14, e15, e16, e17, e18, bind, Except.bind, pure, Except.pure]

/-- The three ways `UnmarshalText` ends: the id untouched and `ErrInvalidID`, the id reset and
`ErrInvalidID`, or a nil error and an id whose text is the input. -/
theorem UnmarshalText_cases (id0 : ID) (text : ByteSeq) :
    ID.UnmarshalText id0 text = Except.ok (id0, some ErrInvalidID)
    ∨ ID.UnmarshalText id0 text = Except.ok (nilID, some ErrInvalidID)
    ∨ ∃ id : ID, ID.UnmarshalText id0 text = Except.ok (id, none)
        ∧ ID.String id = Except.ok text := by
  by_cases hlen : text.length = 20
  swap
  · left
    unfold ID.UnmarshalText
    rw [if_pos hlen]
    rfl
  by_cases hany : text.any (fun c => dec c == 255) = true
  · left
    unfold ID.UnmarshalText
    rw [if_neg (by simpa using hlen), if_pos hany]
    rfl
  right
  obtain ⟨s0, s1, s2, s3, s4, s5, s6, s7, s8, s9, s10, s11, s12, s13, s14, s15, s16, s17, s18,
    s19, rfl⟩ := list_of_length_20 text hlen
  simp only [List.any_cons, List.any_nil, Bool.or_false, Bool.or_eq_true, beq_iff_eq,
    not_or] at hany
  obtain ⟨n0, n1, n2, n3, n4, n5, n6, n7, n8, n9, n10, n11, n12, n13, n14, n15, n16, n17, n18, n19⟩ := hany
  have h0 := (dec_valid s0 n0).1
  have e0 := (dec_valid s0 n0).2
  have h1 := (dec_valid s1 n1).1
  have e1 := (dec_valid s1 n1).2
  have h2 := (dec_valid s2 n2).1
  have e2 := (dec_valid s2 n2).2
  have h3 := (dec_valid s3 n3).1
  have e3 := (dec_valid s3 n3).2
  have h4 := (dec_valid s4 n4).1
  have e4 := (dec_valid s4 n4).2
  have h5 := (dec_valid s5 n5).1
  have e5 := (dec_valid s5 n5).2
  have h6 := (dec_valid s6 n6).1
  have e6 := (dec_valid s6 n6).2
  have h7 := (dec_valid s7 n7).1
  have e7 := (dec_valid s7 n7).2
  have h8 := (dec_valid s8 n8).1
  have e8 := (dec_valid s8 n8).2
  have h9 := (dec_valid s9 n9).1
  have e9 := (dec_valid s9 n9).2
  have h10 := (dec_valid s10 n10).1
  have e10 := (dec_valid s10 n10).2
  have h11 := (dec_valid s11 n11).1
  have e11 := (dec_valid s11 n11).2
  have h12 := (dec_valid s12 n12).1
  have e12 := (dec_valid s12 n12).2
  have h13 := (dec_valid s13 n13).1
  have e13 := (dec_valid s13 n13).2
  have h14 := (dec_valid s14 n14).1
  have e14 := (dec_valid s14 n14).2
  have h15 := (dec_valid s15 n15).1
  have e15 := (dec_valid s15 n15).2
  have h16 := (dec_valid s16 n16).1
  have e16 := (dec_valid s16 n16).2
  have h17 := (dec_valid s17 n17).1
  have e17 := (dec_valid s17 n17).2
  have h18 := (dec_valid s18 n18).1
  have e18 := (dec_valid s18 n18).2
  have h19 := (dec_valid s19 n19).1
  have e19 := (dec_valid s19 n19).2
  have hs19 : (band (shl (bor (bor (shl (dec s17) 6) (shl (dec s18) 1)) (shr (dec s19) 4)) 4)
      31).toNat < 32 := small_band _
  unfold ID.UnmarshalText
  rw [if_neg (by simp), if_neg (by
    simp only [List.any_cons, List.any_nil, Bool.or_false, Bool.or_eq_true, beq_iff_eq, not_or]
    exact ⟨n0, n1, n2, n3, n4, n5, n6, n7, n8, n9, n10, n11, n12, n13, n14, n15, n16, n17, n18, n19⟩)]
  by_cases hc : encodingChar (band (shl (bor (bor (shl (dec s17) 6) (shl (dec s18) 1))
      (shr (dec s19) 4)) 4) 31) = s19
  · right
    refine ⟨ID.mk (bor (shl (dec s0) 3) (shr (dec s1) 2))
        (bor (bor (shl (dec s1) 6) (shl (dec s2) 1)) (shr (dec s3) 4))
        (bor (shl (dec s3) 4) (shr (dec s4) 1))
        (bor (bor (shl (dec s4) 7) (shl (dec s5) 2)) (shr (dec s6) 3))
        (bor (shl (dec s6) 5) (dec s7))
        (bor (shl (dec s8) 3) (shr (dec s9) 2))
        (bor (bor (shl (dec s9) 6) (shl (dec s10) 1)) (shr (dec s11) 4))
        (bor (shl (dec s11) 4) (shr (dec s12) 1))
        (bor (bor (shl (dec s12) 7) (shl (dec s13) 2)) (shr (dec s14) 3))
        (bor (shl (dec s14) 5) (dec s15))
        (bor (shl (dec s16) 3) (shr (dec s17) 2))
        (bor (bor (shl (dec s17) 6) (shl (dec s18) 1)) (shr (dec s19) 4)), ?_, ?_⟩
    · simp only [decode, encodingAt_ok _ hs19, hc, bind, Except.bind, pure, Except.pure,
        ne_eq, not_true_eq_false, if_false, Bool.not_true, Bool.false_eq_true]
    · exact String_decoded s0 s1 s2 s3 s4 s5 s6 s7 s8 s9 s10 s11 s12 s13 s14 s15 s16 s17 s18 s19
        n0 n1 n2 n3 n4 n5 n6 n7 n8 n9 n10 n11 n12 n13 n14 n15 n16 n17 n18 n19 hc
  · left
    simp only [decode, encodingAt_ok _ hs19, hc, bind, Except.bind, pure, Except.pure,
      ne_eq, not_false_eq_true, if_true, Bool.not_false]

theorem bit_zero_byte (i : Nat) : bit 0 i = false := by
  unfold bit
  exact Nat.zero_testBit i

theorem bit_16 (i : Nat) : bit 16 i = decide (4 = i) := by
  unfold bit
  exact Nat.testBit_two_pow (n := 4)

theorem last_index_zero (v17 v18 : UInt8) :
    band (shl (bor (bor (shl v17 6) (shl v18 1)) (shr 0 4)) 4) 31 = 0 := by
  apply byte_ext
  intro i hi
  interval_cases i <;>
    simp [bit_bor, bit_shl, bit_shr, bit_band, bit_31, bit_high, bit_zero_byte]

theorem last_index_sixteen (v17 v18 : UInt8) :
    band (shl (bor (bor (shl v17 6) (shl v18 1)) (shr 16 4)) 4) 31 = 16 := by
  apply byte_ext
  intro i hi
  interval_cases i <;>
    simp [bit_bor, bit_shl, bit_shr, bit_band, bit_31, bit_high, bit_16]

/-- A last character `0` or `g` passes the check of `decode`. -/
theorem check_of_last (s17 s18 s19 : UInt8) (hl : s19 = 48 ∨ s19 = 103) :
    encodingChar (band (shl (bor (bor (shl (dec s17) 6) (shl (dec s18) 1))
      (shr (dec s19) 4)) 4) 31) = s19 := by
  rcases hl with h | h
  · subst h
    rw [show dec 48 = 0 by decide, last_index_zero]
    decide
  · subst h
    rw [show dec 103 = 16 by decide, last_index_sixteen]
    decide

set_option maxRecDepth 100000 in
theorem last_char_nat : ∀ n, n < 256 →
    encodingChar (band (shl (UInt8.ofNat n) 4) 31) = 48
    ∨ encodingChar (band (shl (UInt8.ofNat n) 4) 31) = 103 := by
  decide!

/-- The last character of the text of an id is `0` or `g`. -/
theorem last_char (a : UInt8) :
    encodingChar (band (shl a 4) 31) = 48 ∨ encodingChar (band (shl a 4) 31) = 103 := by
  have := last_char_nat a.toNat (UInt8.toNat_lt_size a)
  rwa [ofNat_toNat] at this

/-- The texts of ids are the texts of 20 characters of `encoding` that end with `0` or `g`. -/
theorem String_form_iff (text : ByteSeq) :
    (∃ i : ID, ID.String i = Except.ok text)
      ↔ text.length = 20 ∧ (∀ c ∈ text, c ∈ encoding)
          ∧ (text.getLast? = some 48 ∨ text.getLast? = some 103) := by
  constructor
  · rintro ⟨i, hi⟩
    obtain ⟨t, h1, h2, h3, h4, _⟩ := String_spec i
    have ht : t = text := by
      rw [h1] at hi
      exact Except.ok.inj hi
    subst ht
    refine ⟨h2, h3, ?_⟩
    rw [h4]
    rcases last_char i.b11 with h | h
    · left; rw [h]
    · right; rw [h]
  · rintro ⟨hlen, halpha, hlast⟩
    obtain ⟨s0, s1, s2, s3, s4, s5, s6, s7, s8, s9, s10, s11, s12, s13, s14, s15, s16, s17,
      s18, s19, rfl⟩ := list_of_length_20 text hlen
    have hl : s19 = 48 ∨ s19 = 103 := by
      simpa using hlast
    have n : ∀ c ∈ [s0, s1, s2, s3, s4, s5, s6, s7, s8, s9, s10, s11, s12, s13, s14, s15, s16,
        s17, s18, s19], dec c ≠ 255 := fun c hc => (dec_mem c).mpr (halpha c hc)
    exact ⟨_, String_decoded s0 s1 s2 s3 s4 s5 s6 s7 s8 s9 s10 s11 s12 s13 s14 s15 s16 s17 s18
      s19 (n _ (by simp)) (n _ (by simp)) (n _ (by simp)) (n _ (by simp)) (n _ (by simp))
      (n _ (by simp)) (n _ (by simp)) (n _ (by simp)) (n _ (by simp)) (n _ (by simp))
      (n _ (by simp)) (n _ (by simp)) (n _ (by simp)) (n _ (by simp)) (n _ (by simp))
      (n _ (by simp)) (n _ (by simp)) (n _ (by simp)) (n _ (by simp)) (n _ (by simp))
      (check_of_last s17 s18 s19 hl)⟩

/-- C30: for every text and every id the method is called on, `UnmarshalText` returns without
a fault; its error is nil exactly when the text is the `String` form of some id, that is, has
length 20, only characters of `0`-`9`, `a`-`v`, and `0` or `g` as its last character, the two
characters whose index has only the one remaining bit; when the error is nil the id it leaves
has the text as its `String` form, and in every other case the error is `ErrInvalidID`. -/
theorem UnmarshalText_accepts_exactly_String_forms (id0 : ID) (text : ByteSeq) :
    ∃ (id : ID) (err : Option ByteSeq),
      ID.UnmarshalText id0 text = Except.ok (id, err)
      ∧ (err = none ↔ ∃ i : ID, ID.String i = Except.ok text)
      ∧ ((∃ i : ID, ID.String i = Except.ok text)
          ↔ text.length = 20 ∧ (∀ c ∈ text, c ∈ encoding)
              ∧ (text.getLast? = some 48 ∨ text.getLast? = some 103))
      ∧ (err = none → ID.String id = Except.ok text)
      ∧ (err ≠ none → err = some ErrInvalidID) := by
  have hform : ∀ i : ID, ID.String i = Except.ok text →
      ID.UnmarshalText id0 text = Except.ok (i, none) := by
    intro i hi
    obtain ⟨t, h1, _, _, _, h5⟩ := String_spec i
    rw [h1] at hi
    rw [← Except.ok.inj hi]
    exact h5 id0
  rcases UnmarshalText_cases id0 text with h | h | ⟨id, h, hs⟩
  · refine ⟨id0, some ErrInvalidID, h, ?_, String_form_iff text, ?_, fun _ => rfl⟩
    · constructor
      · intro h0; cases h0
      · rintro ⟨i, hi⟩
        have := hform i hi
        rw [h] at this
        have := Except.ok.inj this
        simp at this
    · intro h0; cases h0
  · refine ⟨nilID, some ErrInvalidID, h, ?_, String_form_iff text, ?_, fun _ => rfl⟩
    · constructor
      · intro h0; cases h0
      · rintro ⟨i, hi⟩
        have := hform i hi
        rw [h] at this
        have := Except.ok.inj this
        simp at this
    · intro h0; cases h0
  · exact ⟨id, none, h, ⟨fun _ => ⟨id, hs⟩, fun _ => rfl⟩, String_form_iff text,
      fun _ => hs, fun h0 => absurd rfl h0⟩

/-! ## The scanner on what the encoder writes -/

theorem run_append (s : ScanState) (x y : ByteSeq) :
    (x ++ y).foldl recordStep s = y.foldl recordStep (x.foldl recordStep s) :=
  List.foldl_append _ _ _ _

/-- Inside a string the scanner copies every byte that is neither a quote nor a backslash. -/
theorem run_copy (a : FormatterArgs) (k : Option ByteSeq) (t : ByteSeq) :
    ∀ acc : ByteSeq, (∀ c ∈ t, c ≠ 34 ∧ c ≠ 92) →
      t.foldl recordStep (ScanState.inStr a k acc Esc.plain)
        = ScanState.inStr a k (acc ++ t) Esc.plain := by
  induction t with
  | nil => intro acc _; simp
  | cons c t ih =>
    intro acc h
    have hc := h c (List.mem_cons_self c t)
    have ht := ih (acc ++ [c]) (fun x hx => h x (List.mem_cons_of_mem c hx))
    simp only [List.foldl_cons, recordStep, stepString, hc.1, hc.2, if_false]
    rw [ht]
    simp

/-- The scanner reads the substitution of one byte back as that byte. -/
theorem run_escByte (a : FormatterArgs) (k : Option ByteSeq) (acc : ByteSeq) (c : UInt8) :
    (escByte c).foldl recordStep (ScanState.inStr a k acc Esc.plain)
      = ScanState.inStr a k (acc ++ [c]) Esc.plain := by
  cases hr : reserved c with
  | false =>
    rw [escByte_of_not_reserved hr]
    simp only [reserved, escapes, Bool.or_eq_false_iff, beq_eq_false_iff_ne, ne_eq] at hr
    exact run_copy a k [c] acc (by
      intro x hx
      simp only [List.mem_singleton] at hx
      subst hx
      exact ⟨by tauto, by tauto⟩)
  | true =>
    rcases reserved_cases hr with h | h | h | h | h | h | h | h | h | h <;> subst h <;> rfl

theorem run_escapeSpec (a : FormatterArgs) (k : Option ByteSeq) (v : ByteSeq) :
    ∀ acc : ByteSeq,
      (escapeSpec v).foldl recordStep (ScanState.inStr a k acc Esc.plain)
        = ScanState.inStr a k (acc ++ v) Esc.plain := by
  induction v with
  | nil => intro acc; simp [escapeSpec]
  | cons c t ih =>
    intro acc
    have ht := ih (acc ++ [c])
    unfold escapeSpec at ht ⊢
    rw [List.flatMap_cons, run_append, run_escByte, ht]
    simp

/-- The scanner reads what the escape engine wrote for `v` back as `v`, for every `v`. -/
theorem run_escOutput (a : FormatterArgs) (k : Option ByteSeq) (v acc : ByteSeq) :
    (escOutput v).foldl recordStep (ScanState.inStr a k acc Esc.plain)
      = ScanState.inStr a k (acc ++ v) Esc.plain := by
  rw [escOutput_eq]
  split
  · exact run_escapeSpec a k v acc
  · rename_i h
    apply run_copy
    intro c hc
    have h1 : escapes c = false := by
      have := List.any_eq_false.mp (by simpa using h) c hc
      simpa using this
    simp only [escapes, Bool.or_eq_false_iff, beq_eq_false_iff_ne, ne_eq] at h1
    exact ⟨by tauto, by tauto⟩

theorem run_failed (t : ByteSeq) : t.foldl recordStep ScanState.failed = ScanState.failed := by
  induction t with
  | nil => rfl
  | cons c t ih => simpa [recordStep] using ih

/-- A comma after a member that is complete, or after a number, starts the next key. -/
theorem step_comma (s : ScanState) (a : FormatterArgs) (h : pending s = some a) :
    recordStep s 44 = ScanState.key0 a := by
  cases s <;> simp [pending] at h
  · subst h; rfl
  · subst h; rfl

/-- A closing brace after a member that is complete, or after a number, closes the record. -/
theorem step_close (s : ScanState) (a : FormatterArgs) (h : pending s = some a) :
    recordStep s 125 = ScanState.closed a := by
  cases s <;> simp [pending] at h
  · subst h; rfl
  · subst h; rfl

/-- The header `,"key":` of a field brings the scanner to the start of the value. -/
theorem run_header (s : ScanState) (a : FormatterArgs) (key : ByteSeq)
    (h : pending s = some a) (hk : quoteFree key) :
    ([44, 34] ++ key ++ [34, 58]).foldl recordStep s = ScanState.value0 a key := by
  rw [run_append, run_append]
  simp only [List.foldl_cons, List.foldl_nil, step_comma s a h]
  have h1 : recordStep (ScanState.key0 a) 34 = ScanState.inStr a none [] Esc.plain := rfl
  rw [h1, run_copy a none key [] (fun c hc => hk c hc)]
  rfl

/-- A quoted value written by the escape engine is filed as a string. -/
theorem run_string_value (a : FormatterArgs) (key v : ByteSeq) :
    ([34] ++ escOutput v ++ [34]).foldl recordStep (ScanState.value0 a key)
      = ScanState.next (recordMember a key v 115) := by
  rw [run_append, run_append]
  have h1 : [34].foldl recordStep (ScanState.value0 a key)
      = ScanState.inStr a (some key) [] Esc.plain := rfl
  rw [h1, run_escOutput]
  rfl

/-- A number text is held until the byte that ends it. -/
theorem run_number (a : FormatterArgs) (key : ByteSeq) (c : UInt8) (t : ByteSeq)
    (hc : c = 45 ∨ (48 ≤ c ∧ c ≤ 57)) (ht : ∀ x ∈ t, x ≠ 44 ∧ x ≠ 125) :
    (c :: t).foldl recordStep (ScanState.value0 a key) = ScanState.inNum a key (c :: t) := by
  have h1 : recordStep (ScanState.value0 a key) c = ScanState.inNum a key [c] := by
    rcases hc with h | ⟨h1, h2⟩
    · subst h; rfl
    · have n1 : c ≠ 34 := by intro h; subst h; exact absurd h1 (by decide)
      have n2 : c ≠ 116 := by intro h; subst h; exact absurd h2 (by decide)
      have n3 : c ≠ 102 := by intro h; subst h; exact absurd h2 (by decide)
      have n4 : c ≠ 110 := by intro h; subst h; exact absurd h2 (by decide)
      have n5 : c ≠ 123 := by intro h; subst h; exact absurd h2 (by decide)
      have n6 : c ≠ 91 := by intro h; subst h; exact absurd h2 (by decide)
      simp [recordStep, n1, n2, n3, n4, n5, n6, h1, h2]
  rw [List.foldl_cons, h1]
  have key : ∀ (t acc : ByteSeq), (∀ x ∈ t, x ≠ 44 ∧ x ≠ 125) →
      t.foldl recordStep (ScanState.inNum a key acc) = ScanState.inNum a key (acc ++ t) := by
    intro t
    induction t with
    | nil => intro acc _; simp
    | cons x t ih =>
      intro acc h
      have hx := h x (List.mem_cons_self x t)
      have := ih (acc ++ [x]) (fun y hy => h y (List.mem_cons_of_mem x hy))
      simp only [List.foldl_cons, recordStep, hx.1, hx.2, if_false]
      rw [this]
      simp
  simpa using key t [c] ht

theorem run_true (a : FormatterArgs) (key : ByteSeq) :
    (ascii "true").foldl recordStep (ScanState.value0 a key)
      = ScanState.next (recordMember a key (ascii "true") 116) := rfl

theorem run_false (a : FormatterArgs) (key : ByteSeq) :
    (ascii "false").foldl recordStep (ScanState.value0 a key)
      = ScanState.next (recordMember a key (ascii "false") 102) := rfl

/-- A member with a key that is not one of the six structural keys is added to the triples. -/
theorem recordMember_other (a : FormatterArgs) (key v : ByteSeq) (tag : UInt8)
    (h : ¬ structuralKey key) :
    recordMember a key v tag
      = { a with KeyValues := a.KeyValues ++ [{ Key := key, Value := v, ValueType := tag }] } := by
  unfold structuralKey at h
  simp only [not_or] at h
  obtain ⟨h1, h2, h3, h4, h5, h6⟩ := h
  simp [recordMember, h1, h2, h3, h4, h5, h6]

theorem recordMember_message (a : FormatterArgs) (v : ByteSeq) (tag : UInt8) :
    recordMember a (ascii "message") v tag = { a with Message := v } := by
  rfl

/-- The end of a record as `Msg` writes it brings the scanner to the closed state. -/
theorem run_finish (s : ScanState) (a : FormatterArgs) (m : ByteSeq) (h : pending s = some a) :
    (if m ≠ [] then ascii ",\"message\":\"" ++ escOutput m ++ ascii "\"\x7d\n"
     else ascii "\x7d\n").foldl recordStep s
      = ScanState.closed (if m ≠ [] then { a with Message := m } else a) := by
  by_cases hm : m = []
  · simp only [hm, ne_eq, not_true_eq_false, if_false]
    show ([125, 10] : ByteSeq).foldl recordStep s = _
    simp only [List.foldl_cons, List.foldl_nil, step_close s a h]
    rfl
  · simp only [hm, ne_eq, not_false_eq_true, if_true]
    have e1 : ascii ",\"message\":\"" ++ escOutput m ++ ascii "\"\x7d\n"
        = ([44, 34] ++ ascii "message" ++ [34, 58])
          ++ (([34] ++ escOutput m ++ [34]) ++ [125, 10]) := by
      have e0 : ascii ",\"message\":\"" = [44, 34] ++ ascii "message" ++ [34, 58] ++ [34] := by
        decide
      have e2 : ascii "\"\x7d\n" = [34] ++ [125, 10] := by decide
      rw [e0, e2]
      simp
    have hq : quoteFree (ascii "message") := by unfold quoteFree; decide
    rw [e1, run_append, run_header s a _ h hq, run_append, run_string_value,
      recordMember_message]
    rfl

/-! ## Reading number texts back -/

theorem takeWhile_all (p : UInt8 → Bool) (a rest : ByteSeq) (h : ∀ c ∈ a, p c = true)
    (hr : rest.head?.all (fun c => !p c) = true) :
    (a ++ rest).takeWhile p = a ∧ (a ++ rest).dropWhile p = rest := by
  induction a with
  | nil =>
    cases rest with
    | nil => simp
    | cons x t =>
      have hx : p x = false := by simpa using hr
      simp [List.takeWhile, List.dropWhile, hx]
  | cons x t ih =>
    have hx := h x (List.mem_cons_self x t)
    have ht := ih (fun c hc => h c (List.mem_cons_of_mem x hc))
    simp [List.takeWhile, List.dropWhile, hx, ht.1, ht.2]

/-- Reading a text made of a sign, a mantissa without `e` and an exponent part. -/
theorem numberValue_parts (neg : Bool) (mant ex : ByteSeq) (m : ℚ) (x : Int)
    (hne : mant.head? ≠ none) (h45 : mant.head? ≠ some 45) (he : ∀ c ∈ mant, c ≠ 101)
    (hex : ex.head?.all (fun c => c == 101) = true)
    (hm : decimalValue mant = some m) (hx : exponentValue ex = some x) :
    numberValue (signText neg ++ mant ++ ex) = some ((if neg then -m else m) * (10 : ℚ) ^ x) := by
  have hsplit := takeWhile_all (fun c => c != 101) mant ex (by
    intro c hc
    simpa using he c hc) (by
    cases ex with
    | nil => rfl
    | cons y t =>
      simp only [List.head?_cons, Option.all_some, beq_iff_eq] at hex
      simp [hex])
  cases mant with
  | nil => exact absurd rfl hne
  | cons d t =>
    have hd : d ≠ 45 := by simpa using h45
    cases neg with
    | true =>
      have hhead : ((signText true ++ d :: t ++ ex).head? == some 45) = true := by
        simp [signText]
      unfold numberValue
      simp only [hhead, if_true]
      have hdrop : (signText true ++ d :: t ++ ex).drop 1 = d :: t ++ ex := by
        simp [signText]
      rw [hdrop, hsplit.1, hsplit.2, hm, hx]
    | false =>
      have hhead : ((signText false ++ d :: t ++ ex).head? == some 45) = false := by
        simp [signText, hd]
      unfold numberValue
      simp only [hhead, Bool.false_eq_true, if_false]
      have hdrop : signText false ++ d :: t ++ ex = d :: t ++ ex := by
        simp [signText]
      rw [hdrop, hsplit.1, hsplit.2, hm, hx]

theorem digit_facts {c : UInt8} (h : (decide (48 ≤ c) && decide (c ≤ 57)) = true) :
    c ≠ 45 ∧ c ≠ 101 ∧ c ≠ 46 ∧ c ≠ 44 ∧ c ≠ 125 := by
  refine ⟨?_, ?_, ?_, ?_, ?_⟩ <;> (rintro rfl; revert h; decide)

/-- A run of digits read as a decimal numeral. -/
theorem decimalValue_digits (ds : ByteSeq) (hne : ds ≠ [])
    (hd : ∀ c ∈ ds, (decide (48 ≤ c) && decide (c ≤ 57)) = true) :
    decimalValue ds = some (digitsValue ds : ℚ) := by
  have hp := takeWhile_no_point ds (fun c hc => (digit_facts (hd c hc)).2.2.1)
  have hi : isDigits ds = true := by
    simp only [isDigits, Bool.and_eq_true, Bool.not_eq_true', List.isEmpty_eq_false,
      List.all_eq_true]
    exact ⟨hne, fun c hc => by simpa using hd c hc⟩
  unfold decimalValue
  simp only [hp.1, hp.2, hi, if_true]

/-- The text `strconv.AppendInt` writes reads back as the integer. -/
theorem numberValue_appendInt (i : Int) :
    numberValue (appendInt [] i) = some (i : ℚ)
    ∧ (∃ c t, appendInt [] i = c :: t ∧ (c = 45 ∨ (48 ≤ c ∧ c ≤ 57))
        ∧ ∀ x ∈ t, x ≠ 44 ∧ x ≠ 125) := by
  have key : ∀ n : Nat, ∀ neg : Bool,
      numberValue (signText neg ++ natDigits n ++ []) = some ((if neg then -(n : ℚ) else n) * 10 ^ (0 : Int))
      ∧ (∃ c t, natDigits n = c :: t ∧ (48 ≤ c ∧ c ≤ 57) ∧ ∀ x ∈ c :: t, x ≠ 44 ∧ x ≠ 125) := by
    intro n neg
    obtain ⟨h1, h2, h3⟩ := natDigits_spec n
    have hd : ∀ c ∈ natDigits n, (decide (48 ≤ c) && decide (c ≤ 57)) = true :=
      fun c hc => (h2 c hc).1
    have hv := decimalValue_digits (natDigits n) h1 hd
    rw [h3] at hv
    constructor
    · refine numberValue_parts neg (natDigits n) [] n 0 ?_ ?_ ?_ rfl hv rfl
      · cases hx : natDigits n with
        | nil => exact absurd hx h1
        | cons c t => simp
      · cases hx : natDigits n with
        | nil => simp
        | cons c t =>
          have := (digit_facts (hd c (by rw [hx]; exact List.mem_cons_self c t))).1
          simpa using this
      · exact fun c hc => (digit_facts (hd c hc)).2.1
    · cases hx : natDigits n with
      | nil => exact absurd hx h1
      | cons c t =>
        refine ⟨c, t, rfl, ?_, ?_⟩
        · have := hd c (by rw [hx]; exact List.mem_cons_self c t)
          simpa using this
        · intro x hxm
          have := digit_facts (hd x (by rw [hx]; exact hxm))
          exact ⟨this.2.2.2.1, this.2.2.2.2⟩
  unfold appendInt
  by_cases hneg : i < 0
  · rw [if_pos hneg]
    obtain ⟨k1, c, t, hct, _, hall⟩ := key i.natAbs true
    constructor
    · have : signText true ++ natDigits i.natAbs ++ [] = [] ++ 45 :: natDigits i.natAbs := by
        simp [signText]
      rw [← this, k1]
      simp only [if_true, zpow_zero, mul_one]
      congr 1
      have h : ((i.natAbs : ℕ) : ℚ) = -(i : ℚ) := by
        rw [Nat.cast_natAbs, Int.cast_abs, abs_of_neg (by exact_mod_cast hneg)]
      rw [h]
      ring
    · exact ⟨45, natDigits i.natAbs, by simp, Or.inl rfl, by rw [hct]; exact hall⟩
  · rw [if_neg hneg]
    obtain ⟨k1, c, t, hct, hc, hall⟩ := key i.toNat false
    constructor
    · have : signText false ++ natDigits i.toNat ++ [] = [] ++ natDigits i.toNat := by
        simp [signText]
      rw [← this, k1]
      simp only [Bool.false_eq_true, if_false, zpow_zero, mul_one]
      congr 1
      have h0 : ((i.toNat : ℕ) : ℤ) = i := by omega
      exact_mod_cast h0
    · refine ⟨c, t, by simp [hct], Or.inr hc, fun x hx => hall x (List.mem_cons_of_mem c hx)⟩

/-- The text `strconv.AppendUint` writes reads back as the integer. -/
theorem numberValue_natDigits (n : Nat) :
    numberValue (natDigits n) = some (n : ℚ)
    ∧ (∃ c t, natDigits n = c :: t ∧ (c = 45 ∨ (48 ≤ c ∧ c ≤ 57))
        ∧ ∀ x ∈ t, x ≠ 44 ∧ x ≠ 125) := by
  have h := numberValue_appendInt (n : Int)
  have e : appendInt [] (n : Int) = natDigits n := by
    unfold appendInt
    rw [if_neg (by omega)]
    simp
  rw [e] at h
  simpa using h

/-! ## Reading float texts back -/

theorem digitsValue_foldl (b : ByteSeq) : ∀ n : Nat,
    b.foldl (fun a c => 10 * a + (c.toNat - 48)) n = n * 10 ^ b.length + digitsValue b := by
  induction b with
  | nil => intro n; simp [digitsValue]
  | cons c t ih =>
    intro n
    simp only [List.foldl_cons, List.length_cons, digitsValue]
    rw [ih, ih (10 * 0 + (c.toNat - 48))]
    ring

theorem digitsValue_append (a b : ByteSeq) :
    digitsValue (a ++ b) = digitsValue a * 10 ^ b.length + digitsValue b := by
  unfold digitsValue
  rw [List.foldl_append, digitsValue_foldl]
  rfl

theorem digitsValue_zeros (k : Nat) : digitsValue (List.replicate k 48) = 0 := by
  induction k with
  | zero => rfl
  | succ n ih =>
    rw [List.replicate_succ, show (48 : UInt8) :: List.replicate n 48 = [48] ++ List.replicate n 48 by rfl,
      digitsValue_append, ih]
    have : digitsValue [48] = 0 := by decide
    rw [this]
    simp

theorem digitBytes_digits (lead : Fin 9) (more : List (Fin 10)) :
    ∀ c ∈ digitBytes lead more, (decide (48 ≤ c) && decide (c ≤ 57)) = true := by
  intro c hc
  simp only [digitBytes, List.mem_cons, List.mem_map] at hc
  rcases hc with rfl | ⟨d, _, rfl⟩
  · have := (digit_byte (lead.val + 1) (by have := lead.isLt; omega)).2.2.1
    rwa [show 48 + (lead.val + 1) = 49 + lead.val by omega] at this
  · exact (digit_byte d.val d.isLt).2.2.1

theorem digitsValue_digitBytes (lead : Fin 9) (more : List (Fin 10)) :
    digitsValue (digitBytes lead more) = digitsNat lead more := by
  have key : ∀ (more : List (Fin 10)) (n : Nat),
      (more.map (fun d => UInt8.ofNat (48 + d.val))).foldl
          (fun a c => 10 * a + (c.toNat - 48)) n
        = more.foldl (fun a d => 10 * a + d.val) n := by
    intro more
    induction more with
    | nil => intro n; rfl
    | cons d t ih =>
      intro n
      simp only [List.map_cons, List.foldl_cons]
      rw [(digit_byte d.val d.isLt).2.1, ih]
  unfold digitsValue digitBytes digitsNat
  simp only [List.foldl_cons]
  have h1 := (digit_byte (lead.val + 1) (by have := lead.isLt; omega)).2.1
  rw [show 48 + (lead.val + 1) = 49 + lead.val by omega] at h1
  rw [h1, key]
  simp

theorem zeros_digits (k : Nat) :
    ∀ c ∈ List.replicate k (48 : UInt8), (decide (48 ≤ c) && decide (c ≤ 57)) = true := by
  intro c hc
  rw [(List.mem_replicate.mp hc).2]
  decide

/-- A numeral with a point read as a decimal: all its digits over the power of ten of the
digits after the point. -/
theorem decimalValue_point (ip fp : ByteSeq) (hi : ip ≠ []) (hf : fp ≠ [])
    (hdi : ∀ c ∈ ip, (decide (48 ≤ c) && decide (c ≤ 57)) = true)
    (hdf : ∀ c ∈ fp, (decide (48 ≤ c) && decide (c ≤ 57)) = true) :
    decimalValue (ip ++ 46 :: fp)
      = some ((digitsValue (ip ++ fp) : ℚ) / (10 : ℚ) ^ fp.length) := by
  have hp := takeWhile_not_point ip fp (fun c hc => (digit_facts (hdi c hc)).2.2.1)
  have h1 : isDigits ip = true := by
    simp only [isDigits, Bool.and_eq_true, Bool.not_eq_true', List.isEmpty_eq_false,
      List.all_eq_true]
    exact ⟨hi, fun c hc => by simpa using hdi c hc⟩
  have h2 : isDigits fp = true := by
    simp only [isDigits, Bool.and_eq_true, Bool.not_eq_true', List.isEmpty_eq_false,
      List.all_eq_true]
    exact ⟨hf, fun c hc => by simpa using hdf c hc⟩
  unfold decimalValue
  simp only [hp.1, hp.2, h1, h2, Bool.and_self, if_true]
  rw [digitsValue_append]
  push_cast
  field_simp

theorem scale_div (N : ℚ) (a : Nat) (x : Int) (b : Nat) (h : (b : Int) = a - x) :
    N / (10 : ℚ) ^ a * (10 : ℚ) ^ x = N / (10 : ℚ) ^ b := by
  have hx : x = (a : Int) - b := by omega
  rw [hx, zpow_sub₀ (by norm_num), zpow_natCast, zpow_natCast]
  field_simp

theorem scale_mul (N : ℚ) (a : Nat) (x : Int) (c : Nat) (h : (c : Int) = x - a) :
    N / (10 : ℚ) ^ a * (10 : ℚ) ^ x = N * (10 : ℚ) ^ c := by
  have hx : x = (a : Int) + c := by omega
  rw [hx, zpow_add₀ (by norm_num), zpow_natCast, zpow_natCast]
  field_simp
  ring

theorem digitBytes_length (lead : Fin 9) (more : List (Fin 10)) :
    (digitBytes lead more).length = more.length + 1 := by
  simp [digitBytes]

theorem digitBytes_ne_nil (lead : Fin 9) (more : List (Fin 10)) : digitBytes lead more ≠ [] := by
  simp [digitBytes]

/-- The digits and the point of the `f` format denote the magnitude of the float. -/
theorem decimalValue_formatF (lead : Fin 9) (more : List (Fin 10)) (exp : Int) :
    decimalValue (formatF false lead more exp)
      = some ((digitsNat lead more : ℚ) / (10 : ℚ) ^ more.length * (10 : ℚ) ^ exp) := by
  have hds := digitBytes_digits lead more
  have hlen := digitBytes_length lead more
  have hne := digitBytes_ne_nil lead more
  have hV := digitsValue_digitBytes lead more
  unfold formatF
  simp only [signText, Bool.false_eq_true, if_false, List.nil_append]
  by_cases h1 : exp + 1 ≤ 0
  · rw [if_pos h1]
    have e : [48, 46] ++ List.replicate (exp + 1).natAbs 48 ++ digitBytes lead more
        = [48] ++ 46 :: (List.replicate (exp + 1).natAbs 48 ++ digitBytes lead more) := by simp
    rw [e, decimalValue_point [48] _ (by simp) (by simp [hne]) (by decide) (by
      intro c hc
      rcases List.mem_append.mp hc with h | h
      · exact zeros_digits _ c h
      · exact hds c h)]
    rw [digitsValue_append, digitsValue_append, digitsValue_zeros, hV]
    have h0 : digitsValue [48] = 0 := by decide
    rw [h0]
    simp only [zero_mul, zero_add, List.length_append, List.length_replicate, hlen]
    rw [scale_div _ more.length exp ((exp + 1).natAbs + (more.length + 1)) (by omega)]
  · rw [if_neg h1]
    by_cases h2 : (exp + 1).toNat < (digitBytes lead more).length
    · rw [if_pos h2]
      have hk : 0 < (exp + 1).toNat := by omega
      rw [decimalValue_point _ _ (by
          intro h
          have := congrArg List.length h
          simp only [List.length_take, List.length_nil] at this
          omega) (by
          intro h
          have := congrArg List.length h
          simp only [List.length_drop, List.length_nil] at this
          omega)
        (fun c hc => hds c (List.mem_of_mem_take hc))
        (fun c hc => hds c (List.mem_of_mem_drop hc))]
      rw [List.take_append_drop, hV, List.length_drop, hlen]
      rw [scale_div _ more.length exp (more.length + 1 - (exp + 1).toNat) (by omega)]
    · rw [if_neg h2]
      rw [decimalValue_digits _ (by simp [hne]) (by
        intro c hc
        rcases List.mem_append.mp hc with h | h
        · exact hds c h
        · exact zeros_digits _ c h)]
      rw [digitsValue_append, digitsValue_zeros, hV, List.length_replicate, hlen]
      rw [scale_mul _ more.length exp ((exp + 1).toNat - (more.length + 1)) (by omega)]
      push_cast
      ring_nf

/-- The mantissa of the `e` format denotes the digits over the power of ten of the digits
after the point. -/
theorem decimalValue_mantissa (lead : Fin 9) (more : List (Fin 10)) :
    decimalValue (mantissaText false lead more)
      = some ((digitsNat lead more : ℚ) / (10 : ℚ) ^ more.length) := by
  have hds := digitBytes_digits lead more
  have hV := digitsValue_digitBytes lead more
  unfold mantissaText
  simp only [signText, Bool.false_eq_true, if_false, List.nil_append]
  by_cases hm : more = []
  · subst hm
    rw [if_pos rfl, List.append_nil,
      decimalValue_digits _ (by simp) (fun c hc => hds c (by simpa [digitBytes] using hc))]
    have : digitsValue [UInt8.ofNat (49 + lead.val)] = digitsNat lead [] := by
      rw [← hV]; rfl
    rw [this]
    simp
  · rw [if_neg hm]
    rw [decimalValue_point _ _ (by simp) (by simpa using hm)
      (fun c hc => hds c (by
        simp only [List.mem_singleton] at hc
        simp [digitBytes, hc]))
      (fun c hc => hds c (by
        simp only [digitBytes, List.mem_cons]
        exact Or.inr hc))]
    have : [UInt8.ofNat (49 + lead.val)] ++ more.map (fun d => UInt8.ofNat (48 + d.val))
        = digitBytes lead more := rfl
    rw [this, hV, List.length_map]

/-- The exponent part after the clean-up denotes the exponent. -/
theorem exponentValue_text (exp : Int) :
    exponentValue ([101, if exp < 0 then 45 else 43] ++ natDigits exp.natAbs) = some exp := by
  obtain ⟨_, _, h3⟩ := natDigits_spec exp.natAbs
  have hi := isDigits_natDigits exp.natAbs
  by_cases h : exp < 0
  · simp only [h, if_true, List.cons_append, List.nil_append, exponentValue, hi, h3]
    congr 1
    omega
  · simp only [h, if_false, List.cons_append, List.nil_append, exponentValue, hi, h3, if_true]
    congr 1
    omega

theorem formatF_sign (neg : Bool) (lead : Fin 9) (more : List (Fin 10)) (exp : Int) :
    formatF neg lead more exp = signText neg ++ formatF false lead more exp := by
  unfold formatF
  simp [signText]

theorem mantissaText_sign (neg : Bool) (lead : Fin 9) (more : List (Fin 10)) :
    mantissaText neg lead more = signText neg ++ mantissaText false lead more := by
  unfold mantissaText
  simp [signText]

theorem digit_or_point_ok {c : UInt8}
    (h : (decide (48 ≤ c) && decide (c ≤ 57)) = true ∨ c = 46) : c ≠ 44 ∧ c ≠ 125 := by
  rcases h with h | h
  · exact ⟨(digit_facts h).2.2.2.1, (digit_facts h).2.2.2.2⟩
  · subst h; decide

theorem formatF_bytes (lead : Fin 9) (more : List (Fin 10)) (exp : Int) :
    (∀ c ∈ formatF false lead more exp, (decide (48 ≤ c) && decide (c ≤ 57)) = true ∨ c = 46)
    ∧ ∃ d t, formatF false lead more exp = d :: t
        ∧ (decide (48 ≤ d) && decide (d ≤ 57)) = true := by
  have hds := digitBytes_digits lead more
  have hlen := digitBytes_length lead more
  have hz := zeros_digits
  unfold formatF
  simp only [signText, Bool.false_eq_true, if_false, List.nil_append]
  by_cases h1 : exp + 1 ≤ 0
  · rw [if_pos h1]
    refine ⟨?_, 48, _, rfl, by decide⟩
    intro c hc
    simp only [List.cons_append, List.nil_append, List.mem_cons, List.mem_append] at hc
    rcases hc with h | h | h | h
    · subst h; left; decide
    · right; exact h
    · left; exact hz _ c h
    · left; exact hds c h
  · rw [if_neg h1]
    by_cases h2 : (exp + 1).toNat < (digitBytes lead more).length
    · rw [if_pos h2]
      constructor
      · intro c hc
        simp only [List.mem_append, List.mem_cons] at hc
        rcases hc with h | h | h
        · left; exact hds c (List.mem_of_mem_take h)
        · right; exact h
        · left; exact hds c (List.mem_of_mem_drop h)
      · have hk : 0 < (exp + 1).toNat := by omega
        obtain ⟨k, hk2⟩ : ∃ k, (exp + 1).toNat = k + 1 := ⟨(exp + 1).toNat - 1, by omega⟩
        rw [hk2]
        refine ⟨UInt8.ofNat (49 + lead.val), _, by simp [digitBytes]; rfl, ?_⟩
        exact hds _ (by simp [digitBytes])
    · rw [if_neg h2]
      constructor
      · intro c hc
        rcases List.mem_append.mp hc with h | h
        · left; exact hds c h
        · left; exact hz _ c h
      · exact ⟨UInt8.ofNat (49 + lead.val), _, by simp [digitBytes]; rfl,
          hds _ (by simp [digitBytes])⟩

theorem mantissaText_bytes (lead : Fin 9) (more : List (Fin 10)) :
    (∀ c ∈ mantissaText false lead more,
        (decide (48 ≤ c) && decide (c ≤ 57)) = true ∨ c = 46)
    ∧ ∃ d t, mantissaText false lead more = d :: t
        ∧ (decide (48 ≤ d) && decide (d ≤ 57)) = true := by
  have hds := digitBytes_digits lead more
  unfold mantissaText
  simp only [signText, Bool.false_eq_true, if_false, List.nil_append]
  constructor
  · intro c hc
    simp only [List.mem_append, List.mem_singleton] at hc
    rcases hc with h | h
    · left; exact hds c (by simp [digitBytes, h])
    · split at h
      · simp at h
      · simp only [List.mem_cons] at h
        rcases h with h | h
        · right; exact h
        · left; exact hds c (by simp only [digitBytes, List.mem_cons]; exact Or.inr h)
  · exact ⟨UInt8.ofNat (49 + lead.val), _, rfl, hds _ (by simp [digitBytes])⟩

theorem exponent_bytes (exp : Int) :
    ∀ c ∈ ([101, if exp < 0 then 45 else 43] ++ natDigits exp.natAbs : ByteSeq),
      c ≠ 44 ∧ c ≠ 125 := by
  intro c hc
  simp only [List.cons_append, List.nil_append, List.mem_cons] at hc
  rcases hc with h | h | h
  · subst h; decide
  · subst h; split <;> decide
  · have := digit_facts ((natDigits_spec exp.natAbs).2.1 c h).1
    exact ⟨this.2.2.2.1, this.2.2.2.2⟩

/-- A text that starts with an optional minus sign and a digit and holds no comma and no
closing brace. -/
theorem number_shape (neg : Bool) (d : UInt8) (t ex : ByteSeq)
    (hd : (decide (48 ≤ d) && decide (d ≤ 57)) = true)
    (ht : ∀ c ∈ d :: t, c ≠ 44 ∧ c ≠ 125) (hex : ∀ c ∈ ex, c ≠ 44 ∧ c ≠ 125) :
    ∃ c rest, signText neg ++ d :: t ++ ex = c :: rest ∧ (c = 45 ∨ (48 ≤ c ∧ c ≤ 57))
      ∧ ∀ x ∈ rest, x ≠ 44 ∧ x ≠ 125 := by
  have hall : ∀ x ∈ d :: t ++ ex, x ≠ 44 ∧ x ≠ 125 := by
    intro x hx
    rcases List.mem_append.mp hx with h | h
    · exact ht x h
    · exact hex x h
  cases neg with
  | true =>
    exact ⟨45, d :: t ++ ex, by simp [signText], Or.inl rfl, hall⟩
  | false =>
    refine ⟨d, t ++ ex, by simp [signText], Or.inr (by simpa using hd), ?_⟩
    intro x hx
    exact hall x (by simp only [List.cons_append, List.mem_cons]; exact Or.inr hx)

/-- The text `appendFloat` writes for a float that is not NaN and not infinite reads back as
the value of the float, and it is a number text for the scanner. -/
theorem numberValue_appendFloat (f : GoFloat) (hn : f ≠ GoFloat.nan)
    (hi : ∀ neg, f ≠ GoFloat.inf neg) :
    numberValue (appendFloat [] f 64) = some f.value
    ∧ ∃ c rest, appendFloat [] f 64 = c :: rest ∧ (c = 45 ∨ (48 ≤ c ∧ c ≤ 57))
        ∧ ∀ x ∈ rest, x ≠ 44 ∧ x ≠ 125 := by
  cases f with
  | nan => exact absurd rfl hn
  | inf neg => exact absurd rfl (hi neg)
  | zero neg =>
    cases neg
    · refine ⟨?_, 48, [], rfl, Or.inr (by decide), by simp⟩
      have := numberValue_parts false [48] [] 0 0 (by simp) (by simp) (by decide) rfl
        (by rw [decimalValue_digits [48] (by simp) (by decide)]; rfl) rfl
      simpa [GoFloat.value] using this
    · refine ⟨?_, 45, [48], rfl, Or.inl rfl, by decide⟩
      have := numberValue_parts true [48] [] 0 0 (by simp) (by simp) (by decide) rfl
        (by rw [decimalValue_digits [48] (by simp) (by decide)]; rfl) rfl
      simpa [GoFloat.value] using this
  | num neg lead more exp =>
    rw [appendFloat_num [] neg lead more exp 64 (Or.inl rfl)]
    simp only [List.nil_append]
    have hval : (GoFloat.num neg lead more exp).value
        = (if neg then -((digitsNat lead more : ℚ) / (10 : ℚ) ^ more.length)
            else (digitsNat lead more : ℚ) / (10 : ℚ) ^ more.length) * (10 : ℚ) ^ exp := by
      cases neg <;> simp [GoFloat.value, GoFloat.abs]
    by_cases he : exponentForm (GoFloat.num neg lead more exp).abs 64
    · rw [if_pos he, mantissaText_sign, List.append_assoc (signText neg ++ _),
        hval]
      obtain ⟨hb, d, t, hdt, hd⟩ := mantissaText_bytes lead more
      constructor
      · refine numberValue_parts neg (mantissaText false lead more) _ _ exp ?_ ?_ ?_ ?_
          (decimalValue_mantissa lead more) (exponentValue_text exp)
        · rw [hdt]; simp
        · rw [hdt]
          simpa using (digit_facts hd).1
        · intro c hc h101
          subst h101
          exact mantissaText_no_e false lead more hc
        · rfl
      · rw [hdt]
        exact number_shape neg d t _ hd (fun c hc => digit_or_point_ok (hb c (by rw [hdt]; exact hc)))
          (exponent_bytes exp)
    · rw [if_neg he, formatF_sign, hval]
      obtain ⟨hb, d, t, hdt, hd⟩ := formatF_bytes lead more exp
      constructor
      · have := numberValue_parts neg (formatF false lead more exp) [] _ 0 ?_ ?_ ?_ rfl
          (decimalValue_formatF lead more exp) rfl
        · simpa using this
        · rw [hdt]; simp
        · rw [hdt]
          simpa using (digit_facts hd).1
        · intro c hc h101
          subst h101
          exact formatF_no_e false lead more exp hc
      · rw [hdt]
        have := number_shape neg d t [] hd
          (fun c hc => digit_or_point_ok (hb c (by rw [hdt]; exact hc))) (by simp)
        simpa using this

/-! ## Encoding a scalar and scanning the record -/

theorem appendFloat_rebase (b : ByteSeq) (f : GoFloat) :
    appendFloat b f 64 = b ++ appendFloat [] f 64 := by
  cases f with
  | nan => simp [appendFloat]
  | inf neg => cases neg <;> simp [appendFloat]
  | zero neg =>
    have h0 : ¬ exponentForm (GoFloat.zero neg).abs 64 := by
      simp [exponentForm, GoFloat.abs]
    simp [appendFloat, h0, strconvAppendFloat]
  | num neg lead more exp =>
    rw [appendFloat_num b neg lead more exp 64 (Or.inl rfl),
      appendFloat_num [] neg lead more exp 64 (Or.inl rfl)]
    simp

/-- What a scalar field appends, and what the scanner makes of it after any earlier part of
the record that it has read up to the end of a member. -/
theorem field_scanned (s : ScanState) (a : FormatterArgs) (key : ByteSeq) (x : Scalar)
    (hp : pending s = some a) (hk : quoteFree key) (hs : ¬ structuralKey key) :
    ∃ (t : ByteSeq) (kv : KeyValue),
      (∀ e : Entry, x.append (some e) key = some { e with buf := e.buf ++ t })
      ∧ pending (t.foldl recordStep s) = some { a with KeyValues := a.KeyValues ++ [kv] }
      ∧ kv.Key = key ∧ x.recovered kv := by
  have hdr := run_header s a key hp hk
  -- a quoted value
  have quoted : ∀ v : ByteSeq,
      pending ((([44, 34] ++ key ++ [34, 58]) ++ ([34] ++ escOutput v ++ [34])).foldl recordStep s)
        = some { a with
            KeyValues := a.KeyValues ++ [{ Key := key, Value := v, ValueType := 115 }] } := by
    intro v
    rw [run_append, hdr, run_string_value, recordMember_other a key v 115 hs]
    rfl
  -- a number text
  have number : ∀ (c : UInt8) (rest : ByteSeq), (c = 45 ∨ (48 ≤ c ∧ c ≤ 57)) →
      (∀ y ∈ rest, y ≠ 44 ∧ y ≠ 125) →
      pending ((([44, 34] ++ key ++ [34, 58]) ++ c :: rest).foldl recordStep s)
        = some { a with
            KeyValues := a.KeyValues ++ [{ Key := key, Value := c :: rest, ValueType := 110 }] } := by
    intro c rest hc hr
    rw [run_append, hdr, run_number a key c rest hc hr]
    simp only [pending]
    rw [recordMember_other a key _ 110 hs]
  cases x with
  | str v =>
    refine ⟨([44, 34] ++ key ++ [34, 58]) ++ ([34] ++ escOutput v ++ [34]),
      { Key := key, Value := v, ValueType := 115 }, ?_, quoted v, rfl, ⟨rfl, rfl⟩⟩
    intro e
    simp [Scalar.append, Str_some]
  | bytes v =>
    refine ⟨([44, 34] ++ key ++ [34, 58]) ++ ([34] ++ escOutput v ++ [34]),
      { Key := key, Value := v, ValueType := 115 }, ?_, quoted v, rfl, ⟨rfl, rfl⟩⟩
    intro e
    simp [Scalar.append, Bytes_some]
  | int i =>
    obtain ⟨hv, c, rest, hcr, hc, hr⟩ := numberValue_appendInt i
    refine ⟨([44, 34] ++ key ++ [34, 58]) ++ c :: rest,
      { Key := key, Value := c :: rest, ValueType := 110 }, ?_, number c rest hc hr, rfl, ?_⟩
    · intro e
      simp only [Scalar.append, Entry.Int64]
      rw [appendInt_eq, hcr]
      simp
    · refine ⟨?_, rfl⟩
      show numberValue (c :: rest) = _
      rw [← hcr]
      exact hv
  | uint n =>
    obtain ⟨hv, c, rest, hcr, hc, hr⟩ := numberValue_natDigits n
    refine ⟨([44, 34] ++ key ++ [34, 58]) ++ c :: rest,
      { Key := key, Value := c :: rest, ValueType := 110 }, ?_, number c rest hc hr, rfl, ?_⟩
    · intro e
      simp only [Scalar.append, Entry.Uint64, appendUint]
      rw [hcr]
      simp
    · refine ⟨?_, rfl⟩
      show numberValue (c :: rest) = _
      rw [← hcr]
      exact hv
  | bool b =>
    cases b with
    | true =>
      refine ⟨([44, 34] ++ key ++ [34, 58]) ++ ascii "true",
        { Key := key, Value := ascii "true", ValueType := 116 }, ?_, ?_, rfl, ⟨rfl, rfl⟩⟩
      · intro e
        simp [Scalar.append, Entry.Bool, appendBool]
      · rw [run_append, hdr, run_true, recordMember_other a key _ 116 hs]
        rfl
    | false =>
      refine ⟨([44, 34] ++ key ++ [34, 58]) ++ ascii "false",
        { Key := key, Value := ascii "false", ValueType := 102 }, ?_, ?_, rfl, ⟨rfl, rfl⟩⟩
      · intro e
        simp [Scalar.append, Entry.Bool, appendBool]
      · rw [run_append, hdr, run_false, recordMember_other a key _ 102 hs]
        rfl
  | float f =>
    have happ : ∀ e : Entry, (Scalar.float f).append (some e) key
        = some { e with buf := e.buf ++ (([44, 34] ++ key ++ [34, 58]) ++ appendFloat [] f 64) } := by
      intro e
      simp only [Scalar.append, Entry.Float64]
      rw [appendFloat_rebase]
      simp
    have sentinel : ∀ v : ByteSeq, escOutput v = v → appendFloat [] f 64 = [34] ++ v ++ [34] →
        pending ((([44, 34] ++ key ++ [34, 58]) ++ appendFloat [] f 64).foldl recordStep s)
          = some { a with
              KeyValues := a.KeyValues ++ [{ Key := key, Value := v, ValueType := 115 }] } := by
      intro v hv hf
      have := quoted v
      rw [hv] at this
      rw [hf]
      exact this
    by_cases hn : f = GoFloat.nan
    · subst hn
      exact ⟨_, { Key := key, Value := ascii "NaN", ValueType := 115 }, happ,
        sentinel (ascii "NaN") (by decide) (by decide), rfl, ⟨rfl, rfl⟩⟩
    by_cases hi1 : f = GoFloat.inf false
    · subst hi1
      exact ⟨_, { Key := key, Value := ascii "+Inf", ValueType := 115 }, happ,
        sentinel (ascii "+Inf") (by decide) (by decide), rfl, ⟨rfl, rfl⟩⟩
    by_cases hi2 : f = GoFloat.inf true
    · subst hi2
      exact ⟨_, { Key := key, Value := ascii "-Inf", ValueType := 115 }, happ,
        sentinel (ascii "-Inf") (by decide) (by decide), rfl, ⟨rfl, rfl⟩⟩
    have hinf : ∀ neg, f ≠ GoFloat.inf neg := by
      intro neg
      cases neg
      · exact hi1
      · exact hi2
    obtain ⟨hv, c, rest, hcr, hc, hr⟩ := numberValue_appendFloat f hn hinf
    refine ⟨_, { Key := key, Value := c :: rest, ValueType := 110 }, happ, ?_, rfl, ?_⟩
    · rw [hcr]
      exact number c rest hc hr
    · have hrec : (Scalar.float f).recovered { Key := key, Value := c :: rest, ValueType := 110 }
          = (numberValue (c :: rest) = some f.value ∧ (110 : UInt8) = 110) := by
        cases f with
        | nan => exact absurd rfl hn
        | inf neg => exact absurd rfl (hinf neg)
        | zero neg => rfl
        | num neg lead more exp => rfl
      rw [hrec, ← hcr]
      exact ⟨hv, rfl⟩

/-- C26, as the claim states it, fails: keys are written as they are, so after `Str` with the
key `a"b` the scanner does not find the colon after the key it reads, `a`, and the record is
not recovered at all. -/
theorem scan_loses_quoted_key :
    (Entry.Msg (Entry.Str (some timedEntry) (ascii "a\"b") (ascii "v")) (ascii "hi")
        emptyWorld).1.writes
      = [(1, ascii "\x7b\"time\":\"2024-01-01T00:00:00Z\",\"a\"b\":\"v\",\"message\":\"hi\"\x7d\n")]
    ∧ scanRecord
        (ascii "\x7b\"time\":\"2024-01-01T00:00:00Z\",\"a\"b\":\"v\",\"message\":\"hi\"\x7d\n")
      = none := by
  constructor
  · rfl
  · rfl

/-- C26, amended: take an entry whose buffer the scanner reads up to the end of a member, with
a time value, a key without quote and backslash that is not one of the six structural keys,
and a scalar (string, byte string, signed or unsigned integer, float, boolean). Appending the
scalar under the key and finalizing with `Msg` writes one record, and scanning this record
gives what the earlier part gave with one more key/value triple at the end, which has the key
and recovers the scalar: the same text for a string or byte string, a number text with the
same value for an integer and for a float that is not NaN and not infinite, the strings `NaN`,
`+Inf` and `-Inf` for these, the literal for a boolean; the message is recovered too. -/
theorem scan_recovers_scalar (e : Entry) (a : FormatterArgs) (key : ByteSeq) (x : Scalar)
    (m : ByteSeq) (w : World)
    (hpre : pending (e.buf.foldl recordStep ScanState.start) = some a) (ht : a.Time ≠ [])
    (hk : quoteFree key) (hs : ¬ structuralKey key) :
    ∃ (record : ByteSeq) (kv : KeyValue),
      (Entry.Msg (x.append (some e) key) m w).1.writes = w.writes ++ [(e.w, record)]
      ∧ scanRecord record
          = some { a with KeyValues := a.KeyValues ++ [kv],
                          Message := if m ≠ [] then m else a.Message }
      ∧ kv.Key = key ∧ x.recovered kv := by
  obtain ⟨t, kv, happ, hpend, hkey, hrec⟩ :=
    field_scanned (e.buf.foldl recordStep ScanState.start) a key x hpre hk hs
  refine ⟨e.buf ++ t ++ (if m ≠ [] then ascii ",\"message\":\"" ++ escOutput m ++ ascii "\"\x7d\n"
      else ascii "\x7d\n"), kv, ?_, ?_, hkey, hrec⟩
  · rw [happ e, Msg_some_writes]
    by_cases hm : m = [] <;> simp [hm]
  · unfold scanRecord
    rw [run_append, run_append, run_finish _ _ m hpend]
    by_cases hm : m = []
    · simp [hm, ht]
    · simp [hm, ht]

theorem scan_recovers_scalar_witness :
    (pending (timedEntry.buf.foldl recordStep ScanState.start)
        = some { emptyArgs with Time := ascii "2024-01-01T00:00:00Z" }
      ∧ ({ emptyArgs with Time := ascii "2024-01-01T00:00:00Z" } : FormatterArgs).Time ≠ []
      ∧ quoteFree (ascii "user") ∧ ¬ structuralKey (ascii "user"))
    ∧ ∃ (record : ByteSeq) (kv : KeyValue),
      (Entry.Msg ((Scalar.str (ascii "a\"b")).append (some timedEntry) (ascii "user"))
          (ascii "hi") emptyWorld).1.writes
        = emptyWorld.writes ++ [(timedEntry.w, record)]
      ∧ scanRecord record
          = some { ({ emptyArgs with Time := ascii "2024-01-01T00:00:00Z" } : FormatterArgs) with
              KeyValues :=
                ({ emptyArgs with Time := ascii "2024-01-01T00:00:00Z" } : FormatterArgs).KeyValues
                  ++ [kv],
              Message := if ascii "hi" ≠ [] then ascii "hi"
                else ({ emptyArgs with Time := ascii "2024-01-01T00:00:00Z" } :
                  FormatterArgs).Message }
      ∧ kv.Key = ascii "user" ∧ (Scalar.str (ascii "a\"b")).recovered kv := by
  have h1 : pending (timedEntry.buf.foldl recordStep ScanState.start)
      = some { emptyArgs with Time := ascii "2024-01-01T00:00:00Z" } := rfl
  have h2 : ({ emptyArgs with Time := ascii "2024-01-01T00:00:00Z" } : FormatterArgs).Time ≠ [] := by
    decide
  have h3 : quoteFree (ascii "user") := by unfold quoteFree; decide
  have h4 : ¬ structuralKey (ascii "user") := by unfold structuralKey; decide
  exact ⟨⟨h1, h2, h3, h4⟩,
    scan_recovers_scalar timedEntry _ (ascii "user") (Scalar.str (ascii "a\"b")) (ascii "hi")
      emptyWorld h1 h2 h3 h4⟩

/-! ## Powers of two -/

/-- The bits of `x` above position `p` are clear and the `w` bits from `p` downwards are set. -/
theorem smear_step (p w x : Nat)
    (hi : ∀ i, p < i → x.testBit i = false)
    (lo : ∀ i, i ≤ p → p < i + w → x.testBit i = true) :
    (∀ i, p < i → (x ||| x >>> w).testBit i = false) ∧
    (∀ i, i ≤ p → p < i + (w + w) → (x ||| x >>> w).testBit i = true) := by
  constructor
  · intro i h
    rw [Nat.testBit_lor, Nat.testBit_shiftRight, hi i h, hi (w + i) (by omega)]
    rfl
  · intro i h1 h2
    rw [Nat.testBit_lor, Nat.testBit_shiftRight]
    by_cases h : p < i + w
    · rw [lo i h1 h]
      rfl
    · rw [lo (w + i) (by omega) (by omega)]
      simp

/-- On a natural number `smear` is the cascade of shifts and ors on natural numbers. -/
theorem smear_natCast (m : Nat) :
    smear (m : Int) =
      (((((m ||| m >>> 1) ||| (m ||| m >>> 1) >>> 2) |||
        ((m ||| m >>> 1) ||| (m ||| m >>> 1) >>> 2) >>> 4) |||
        (((m ||| m >>> 1) ||| (m ||| m >>> 1) >>> 2) |||
        ((m ||| m >>> 1) ||| (m ||| m >>> 1) >>> 2) >>> 4) >>> 8) |||
        ((((m ||| m >>> 1) ||| (m ||| m >>> 1) >>> 2) |||
        ((m ||| m >>> 1) ||| (m ||| m >>> 1) >>> 2) >>> 4) |||
        (((m ||| m >>> 1) ||| (m ||| m >>> 1) >>> 2) |||
        ((m ||| m >>> 1) ||| (m ||| m >>> 1) >>> 2) >>> 4) >>> 8) >>> 16 : Nat) := rfl

/-- After `smear` the 32 bits from the highest set bit downwards are set and nothing above. -/
theorem smear_bits (m p : Nat) (h1 : 2 ^ p ≤ m) (h2 : m < 2 ^ (p + 1)) :
    ∃ c : Nat, smear (m : Int) = (c : Int) ∧ (∀ i, p < i → c.testBit i = false) ∧
      (∀ i, i ≤ p → p < i + 32 → c.testBit i = true) := by
  have hi : ∀ i, p < i → m.testBit i = false := by
    intro i h
    apply Nat.testBit_lt_two_pow
    exact lt_of_lt_of_le h2 (Nat.pow_le_pow_right (by decide) h)
  have lo : ∀ i, i ≤ p → p < i + 1 → m.testBit i = true := by
    intro i h h'
    have e : i = p := by omega
    subst e
    rw [Nat.testBit_to_div_mod]
    have : m / 2 ^ i = 1 := by
      apply Nat.div_eq_of_lt_le
      · simpa using h1
      · simpa [pow_succ, Nat.mul_comm] using h2
    simp [this]
  obtain ⟨a1, b1⟩ := smear_step p 1 m hi lo
  obtain ⟨a2, b2⟩ := smear_step p 2 _ a1 b1
  obtain ⟨a3, b3⟩ := smear_step p 4 _ a2 b2
  obtain ⟨a4, b4⟩ := smear_step p 8 _ a3 b3
  obtain ⟨a5, b5⟩ := smear_step p 16 _ a4 b4
  exact ⟨_, smear_natCast m, a5, b5⟩

/-- Below `2 ^ 32` the cascade fills every bit under the highest one. -/
theorem smear_small (m p : Nat) (h1 : 2 ^ p ≤ m) (h2 : m < 2 ^ (p + 1)) (hp : p < 32) :
    smear (m : Int) = ((2 ^ (p + 1) - 1 : Nat) : Int) := by
  obtain ⟨c, hc, hi, lo⟩ := smear_bits m p h1 h2
  rw [hc]
  congr 1
  apply Nat.eq_of_testBit_eq
  intro i
  rw [Nat.testBit_two_pow_sub_one]
  by_cases h : i < p + 1
  · rw [lo i (by omega) (by omega)]
    simp [h]
  · rw [hi i (by omega)]
    simp [h]

/-- Every positive number lies between two neighbouring powers of two. -/
theorem between_powers (m : Nat) (h : m ≠ 0) : 2 ^ m.log2 ≤ m ∧ m < 2 ^ (m.log2 + 1) :=
  ⟨Nat.log2_self_le h, Nat.lt_log2_self⟩

/-- The result of `smear` stays below the next power of two and is at least its argument. -/
theorem smear_bounds (m p : Nat) (h1 : 2 ^ p ≤ m) (h2 : m < 2 ^ (p + 1)) :
    ∃ c : Nat, smear (m : Int) = (c : Int) ∧ c < 2 ^ (p + 1) ∧ 2 ^ p ≤ c := by
  obtain ⟨c, hc, hi, lo⟩ := smear_bits m p h1 h2
  refine ⟨c, hc, ?_, ?_⟩
  · apply Nat.lt_pow_two_of_testBit
    intro i h
    exact hi i (by omega)
  · exact Nat.testBit_implies_ge (lo p (le_refl p) (by omega))

/-- A 64-bit value is its own wrap. -/
theorem wrapInt64_small (x : Int) (h1 : 0 ≤ x) (h2 : x < 2 ^ 63) : wrapInt64 x = x := by
  unfold wrapInt64
  omega

/-- Where `CeilToPowerOfTwo` is right: from 3 up to `2 ^ 32` it returns the least power of two
that is not below its argument. -/
theorem CeilToPowerOfTwo_small (n : Int) (p : Nat) (hp : p < 32) (h1 : (2 : Int) ^ p < n)
    (h2 : n ≤ 2 ^ (p + 1)) (h3 : 2 < n) : CeilToPowerOfTwo n = Except.ok (2 ^ (p + 1)) := by
  obtain ⟨m, rfl⟩ : ∃ m : Nat, n = (m : Int) + 1 := ⟨(n - 1).toNat, by omega⟩
  have hm1 : 2 ^ p ≤ m := by
    have : ((2 ^ p : Nat) : Int) < (m : Int) + 1 := by push_cast; exact h1
    omega
  have hm2 : m < 2 ^ (p + 1) := by
    have : (m : Int) + 1 ≤ ((2 ^ (p + 1) : Nat) : Int) := by push_cast; exact h2
    omega
  have hP : 2 ^ (p + 1) ≤ 2 ^ 32 := Nat.pow_le_pow_right (by decide) (by omega)
  have hP0 : 0 < 2 ^ (p + 1) := Nat.pow_pos (by decide)
  have hguard : ¬ (Int.land ((m : Int) + 1) maxintHeadBit ≠ 0 ∧ (m : Int) + 1 > maxintHeadBit) := by
    intro h
    have : maxintHeadBit = 2 ^ 62 := by decide
    rw [this] at h
    omega
  have hw : wrapInt64 ((m : Int) + 1 - 1) = (m : Int) := by
    rw [wrapInt64_small] <;> omega
  unfold CeilToPowerOfTwo
  rw [if_neg hguard, if_neg (by omega)]
  simp only [hw, smear_small m p hm1 hm2 hp]
  rw [wrapInt64_small]
  · congr 1
    push_cast [Nat.cast_sub (Nat.one_le_iff_ne_zero.mpr (Nat.pos_iff_ne_zero.mp hP0))]
    ring
  · omega
  · omega

/-- Where `FloorToPowerOfTwo` computes the power of two under its argument. -/
theorem FloorToPowerOfTwo_small (n : Int) (p : Nat) (hp : p < 32) (h1 : (2 : Int) ^ p ≤ n)
    (h2 : n < 2 ^ (p + 1)) : FloorToPowerOfTwo n = 2 ^ p := by
  by_cases h : n ≤ 2
  · unfold FloorToPowerOfTwo
    rw [if_pos h]
    have hpos : (0 : Int) < 2 ^ p := by positivity
    rcases Nat.lt_or_ge p 2 with hp2 | hp2
    · interval_cases p
      · norm_num at h1 h2 ⊢; omega
      · norm_num at h1 h2 ⊢; omega
    · have : (2 : Int) ^ 2 ≤ 2 ^ p := pow_le_pow_right₀ (by norm_num) hp2
      norm_num at this
      omega
  · obtain ⟨m, rfl⟩ : ∃ m : Nat, n = (m : Int) := ⟨n.toNat, by omega⟩
    have hm1 : 2 ^ p ≤ m := by exact_mod_cast h1
    have hm2 : m < 2 ^ (p + 1) := by exact_mod_cast h2
    have hP : 2 ^ p < 2 ^ 32 := Nat.pow_lt_pow_right (by decide) hp
    have hP0 : 0 < 2 ^ p := Nat.pow_pos (by decide)
    unfold FloorToPowerOfTwo
    rw [if_neg h]
    simp only [smear_small m p hm1 hm2 hp]
    have e : (((2 ^ (p + 1) - 1 : Nat) : Int) >>> 1) = ((2 ^ p - 1 : Nat) : Int) := by
      show (((2 ^ (p + 1) - 1) >>> 1 : Nat) : Int) = _
      congr 1
      rw [Nat.shiftRight_eq_div_pow, pow_succ]
      omega
    rw [e, wrapInt64_small]
    · have e2 : ((2 ^ (p + 1) - 1 : Nat) : Int) - ((2 ^ p - 1 : Nat) : Int) = ((2 ^ p : Nat) : Int) := by
        rw [pow_succ]; omega
      rw [e2]; push_cast; rfl
    · rw [pow_succ]; omega
    · rw [pow_succ]; omega

/-- On every positive 64-bit argument `FloorToPowerOfTwo` stays at or below the argument. -/
theorem FloorToPowerOfTwo_le (n : Int) (h1 : 0 < n) (h2 : n < 2 ^ 63) :
    FloorToPowerOfTwo n ≤ n := by
  by_cases h : n ≤ 2
  · unfold FloorToPowerOfTwo
    rw [if_pos h]
  · obtain ⟨m, rfl⟩ : ∃ m : Nat, n = (m : Int) := ⟨n.toNat, by omega⟩
    have hm : m ≠ 0 := by omega
    obtain ⟨b1, b2⟩ := between_powers m hm
    obtain ⟨c, hc, c1, c2⟩ := smear_bounds m m.log2 b1 b2
    have hP : 2 ^ m.log2 < 2 ^ 63 := by
      have : (m : Int) < ((2 ^ 63 : Nat) : Int) := by push_cast; exact h2
      omega
    unfold FloorToPowerOfTwo
    rw [if_neg h]
    simp only [hc]
    have e : ((c : Int) >>> 1) = ((c / 2 : Nat) : Int) := by
      show ((c >>> 1 : Nat) : Int) = _
      rw [Nat.shiftRight_eq_div_pow]
    rw [e, pow_succ] at *
    rw [wrapInt64_small] <;> omega

/-- C31: `CeilToPowerOfTwo` accepts `2 ^ 32 + 1`, which is below `2 ^ (bitSize - 2)`, and returns
`2 ^ 33 - 1` for it, which is not a power of two: the shifts stop at 16, so only the 32 bits
under the highest one are filled. For 1, which `IsPowerOfTwo` counts as a power of two, it
returns 2. -/
theorem CeilToPowerOfTwo_fills_only_32_bits :
    bitSize = 64 ∧ (2 ^ 32 + 1 : Int) ≤ 2 ^ (bitSize - 2) ∧
    CeilToPowerOfTwo (2 ^ 32 + 1) = Except.ok (2 ^ 33 - 1) ∧
    IsPowerOfTwo (2 ^ 33 - 1) = false ∧
    CeilToPowerOfTwo 1 = Except.ok 2 ∧ IsPowerOfTwo 1 = true := by
  refine ⟨by decide, by decide, ?_, by decide, ?_, by decide⟩
  · rfl
  · rfl

/-- C32: for 3, which is not a power of two, `FloorToPowerOfTwo` returns 2, the power of two
below it, where its comment and `CeilToPowerOfTwo` give the next-highest power of two, 4. -/
theorem FloorToPowerOfTwo_gives_lower_power :
    IsPowerOfTwo 3 = false ∧ FloorToPowerOfTwo 3 = 2 ∧ CeilToPowerOfTwo 3 = Except.ok 4 := by
  refine ⟨by decide, by decide, ?_⟩
  rfl

/-- C38: for every `n` from 1 to below `2 ^ 32`, `FloorToPowerOfTwo n` is a power of two, it is
at most `n`, and every power of two that is at most `n` is at most `FloorToPowerOfTwo n`. -/
theorem FloorToPowerOfTwo_largest_power_below (n : Int) (h1 : 1 ≤ n) (h2 : n < 2 ^ 32) :
    ∃ k : Nat, FloorToPowerOfTwo n = 2 ^ k ∧ FloorToPowerOfTwo n ≤ n ∧
      ∀ j : Nat, (2 : Int) ^ j ≤ n → (2 : Int) ^ j ≤ FloorToPowerOfTwo n := by
  obtain ⟨m, rfl⟩ : ∃ m : Nat, n = (m : Int) := ⟨n.toNat, by omega⟩
  have hm : m ≠ 0 := by omega
  obtain ⟨b1, b2⟩ := between_powers m hm
  have hm32 : m < 2 ^ 32 := by exact_mod_cast h2
  have hp : m.log2 < 32 := (Nat.log2_lt hm).mpr hm32
  have e := FloorToPowerOfTwo_small (m : Int) m.log2 hp (by exact_mod_cast b1)
    (by exact_mod_cast b2)
  refine ⟨m.log2, e, ?_, ?_⟩
  · rw [e]; exact_mod_cast b1
  · intro j hj
    rw [e]
    have hj2 : 2 ^ j ≤ m := by exact_mod_cast hj
    have : j < m.log2 + 1 := by
      by_contra hc
      have : 2 ^ (m.log2 + 1) ≤ 2 ^ j := Nat.pow_le_pow_right (by decide) (by omega)
      omega
    exact pow_le_pow_right₀ (by norm_num) (by omega)

theorem FloorToPowerOfTwo_largest_power_below_witness :
    (1 : Int) ≤ 5 ∧ (5 : Int) < 2 ^ 32 ∧
    ∃ k : Nat, FloorToPowerOfTwo 5 = 2 ^ k ∧ FloorToPowerOfTwo 5 ≤ 5 ∧
      ∀ j : Nat, (2 : Int) ^ j ≤ 5 → (2 : Int) ^ j ≤ FloorToPowerOfTwo 5 :=
  ⟨by decide, by decide, FloorToPowerOfTwo_largest_power_below 5 (by decide) (by decide)⟩

/-! ## Times as Unix timestamps -/

/-- What `TimeFormat` appends for `TimeFormatUnixWithMs` at an instant from the epoch on whose
nanoseconds fit 64 bits: the seconds, a point, and the milliseconds within the second as a
plain decimal numeral. -/
theorem TimeFormat_UnixWithMs_text (e : Entry) (k : ByteSeq) (t : GoTime) (ns : Nat)
    (hw : t.wall = (ns : Int)) (h : ns < 2 ^ 63) :
    Entry.TimeFormat (some e) k Timefmt.TimeFormatUnixWithMs t
      = some { e with buf := e.buf ++ [44, 34] ++ k ++ [34, 58]
          ++ natDigits (ns / 1000000000) ++ [46] ++ natDigits (ns / 1000000 % 1000) } := by
  have e1 : t.Unix = ((ns / 1000000000 : Nat) : Int) := by
    unfold GoTime.Unix; rw [hw]; norm_cast
  have e2 : (t.UnixNano.tdiv 1000000).tmod 1000 = ((ns / 1000000 % 1000 : Nat) : Int) := by
    unfold GoTime.UnixNano
    rw [hw, wrapInt64_small _ (by omega) (by omega)]
    norm_cast
  simp only [Entry.TimeFormat, e1, e2, appendInt_natCast]

/-- The number read from a seconds numeral, a point and a milliseconds numeral. -/
theorem numberValue_seconds_point (s ms : Nat) :
    numberValue (natDigits s ++ [46] ++ natDigits ms)
      = some ((s : ℚ) + (ms : ℚ) / (10 : ℚ) ^ (natDigits ms).length) := by
  obtain ⟨a1, a2, a3⟩ := natDigits_spec s
  obtain ⟨b1, b2, b3⟩ := natDigits_spec ms
  have hd := decimalValue_point (natDigits s) (natDigits ms) a1 b1
    (fun c hc => (a2 c hc).1) (fun c hc => (b2 c hc).1)
  have hn := numberValue_parts false (natDigits s ++ 46 :: natDigits ms) [] _ 0
    (by cases h : natDigits s with
        | nil => exact absurd h a1
        | cons c t => simp)
    (by cases h : natDigits s with
        | nil => exact absurd h a1
        | cons c t =>
          have hc := (a2 c (by rw [h]; simp)).1
          have := (digit_facts hc).1
          simpa using this)
    (by
      intro c hc
      rcases List.mem_append.mp hc with h | h
      · exact (digit_facts (a2 c h).1).2.1
      · rcases List.mem_cons.mp h with h | h
        · rw [h]; decide
        · exact (digit_facts (b2 c h).1).2.1)
    (by simp) hd (by simp [exponentValue])
  simp only [signText, List.nil_append, List.append_nil, Bool.false_eq_true, if_false,
    zpow_zero, mul_one] at hn
  have e : natDigits s ++ [46] ++ natDigits ms = natDigits s ++ 46 :: natDigits ms := by simp
  rw [e, hn, digitsValue_append, a3, b3]
  congr 1
  have hpos : ((10 : ℚ) ^ (natDigits ms).length) ≠ 0 := by positivity
  push_cast
  field_simp

/-- C35: for the instant one second and five milliseconds after the Unix epoch `TimeFormat`
with `TimeFormatUnixWithMs` appends `1.5`: the milliseconds are written without their leading
zeros. Read as a decimal that is 3/2, not 1005/1000, and it is the value of what is appended
for one second and 500 milliseconds too. -/
theorem TimeFormat_UnixWithMs_drops_leading_zeros (e : Entry) (k : ByteSeq) :
    Entry.TimeFormat (some e) k Timefmt.TimeFormatUnixWithMs (afterEpoch 1005000000)
      = some { e with buf := e.buf ++ [44, 34] ++ k ++ [34, 58] ++ ascii "1.5" }
    ∧ numberValue (ascii "1.5") = some (3 / 2)
    ∧ (3 / 2 : ℚ) ≠ 1005 / 1000
    ∧ Entry.TimeFormat (some e) k Timefmt.TimeFormatUnixWithMs (afterEpoch 1500000000)
      = some { e with buf := e.buf ++ [44, 34] ++ k ++ [34, 58] ++ ascii "1.500" }
    ∧ numberValue (ascii "1.500") = some (3 / 2) := by
  refine ⟨?_, ?_, by norm_num, ?_, ?_⟩
  · rw [TimeFormat_UnixWithMs_text e k _ 1005000000 rfl (by norm_num)]
    simp only [List.append_assoc]
    rfl
  · have h := numberValue_seconds_point 1 5
    have e : natDigits 1 ++ [46] ++ natDigits 5 = ascii "1.5" := by decide
    have l : (natDigits 5).length = 1 := by decide
    rw [e, l] at h
    rw [h]
    norm_num
  · rw [TimeFormat_UnixWithMs_text e k _ 1500000000 rfl (by norm_num)]
    simp only [List.append_assoc]
    rfl
  · have h := numberValue_seconds_point 1 500
    have e : natDigits 1 ++ [46] ++ natDigits 500 = ascii "1.500" := by decide
    have l : (natDigits 500).length = 3 := by decide
    rw [e, l] at h
    rw [h]
    norm_num

/-! ## A custom-marshalable value through `Any`, `Object` and `Interface` -/

/-- For a value with a marshaler `Interface` is `Object`. -/
theorem Interface_marshaler (e : Entry) (k : ByteSeq) (v : AnyValue) (m : Marshaler)
    (h : v.marshaler = some m) :
    Entry.Interface (some e) k v.toInterface = Entry.Object (some e) k (Iface.val m) := by
  simp [Entry.Interface, AnyValue.toInterface, h]

/-- For a value with a marshaler `Any` writes the header and what the marshaler appends. -/
theorem Any_marshaler (e : Entry) (k : ByteSeq) (v : AnyValue) (m : Marshaler) (a : ByteSeq)
    (h : v.marshaler = some m)
    (hm : m { e with buf := e.buf ++ [44, 34] ++ k ++ [34, 58] }
      = Except.ok { e with buf := e.buf ++ [44, 34] ++ k ++ [34, 58] ++ a }) :
    Entry.Any (some e) k (Iface.val v)
      = Except.ok (some { e with buf := e.buf ++ [44, 34] ++ k ++ [34, 58] ++ a }) := by
  simp only [Entry.Any, h, hm, bind, Except.bind, pure, Except.pure]

/-- C34: for a value whose `MarshalObject` appends the bytes `c :: t`, `Object` and `Interface`
append the header `,"k":` and the object `{` `t` `}`, while `Any` appends the header and
`c :: t` as they are, without the brace in front and without the closing brace: the three do
not append the same bytes. -/
theorem Any_leaves_marshaled_members_unwrapped (e : Entry) (k : ByteSeq) (c : UInt8)
    (t : ByteSeq) (v : AnyValue) :
    Entry.Object (some e) k (Iface.val (appendMarshaler (c :: t)))
      = Except.ok (some { e with
          buf := e.buf ++ [44, 34] ++ k ++ [34, 58] ++ (123 :: t ++ [125]) })
    ∧ Entry.Interface (some e) k
        (AnyValue.toInterface { v with marshaler := some (appendMarshaler (c :: t)) })
      = Except.ok (some { e with
          buf := e.buf ++ [44, 34] ++ k ++ [34, 58] ++ (123 :: t ++ [125]) })
    ∧ Entry.Any (some e) k (Iface.val { v with marshaler := some (appendMarshaler (c :: t)) })
      = Except.ok (some { e with buf := e.buf ++ [44, 34] ++ k ++ [34, 58] ++ c :: t })
    ∧ Entry.Any (some e) k (Iface.val { v with marshaler := some (appendMarshaler (c :: t)) })
      ≠ Entry.Object (some e) k (Iface.val (appendMarshaler (c :: t))) := by
  have ho := Object_appending e k (appendMarshaler (c :: t)) (c :: t) rfl
  have ha := Any_marshaler e k { v with marshaler := some (appendMarshaler (c :: t)) }
    (appendMarshaler (c :: t)) (c :: t) rfl rfl
  have hi := Interface_marshaler e k { v with marshaler := some (appendMarshaler (c :: t)) }
    (appendMarshaler (c :: t)) rfl
  simp only [List.cons_ne_nil, if_false, List.tail_cons] at ho
  refine ⟨ho, ?_, ha, ?_⟩
  · rw [hi, ho]
  · rw [ha, ho]
    intro h
    have h2 := congrArg (fun r => r.map (fun o => o.map (fun x => x.buf.length))) h
    simp [Except.map] at h2

/-! ## Contexts built apart and embedded -/

/-- A marshaler that faults makes `Object` fault. -/
theorem Object_fault (e : Entry) (k : ByteSeq) (m : Marshaler) (x : Fault)
    (hm : m { e with buf := e.buf ++ [44, 34] ++ k ++ [34, 58] } = Except.error x) :
    Entry.Object (some e) k (Iface.val m) = Except.error x := by
  unfold Entry.Object
  simp only [List.append_assoc] at hm ⊢
  simp only [hm, bind, Except.bind]

/-- A marshaler that faults makes the loop of `Objects` fault. -/
theorem objectsLoop_fault (m : Marshaler) (rest : List Element) (i : Nat) (e : Entry) (x : Fault)
    (hm : m { e with buf := e.buf ++ (if i ≠ 0 then [44] else []) } = Except.error x) :
    objectsLoop (Element.marshaler m :: rest) i e = Except.error x := by
  by_cases hi : i = 0
  · subst hi
    simp only [ne_eq, not_true_eq_false, if_false, List.append_nil] at hm
    simp [objectsLoop, hm, bind, Except.bind]
  · simp only [ne_eq, hi, not_false_eq_true, if_true] at hm
    simp [objectsLoop, hi, hm, bind, Except.bind]

/-- A marshaler that appends nothing makes the loop of `Objects` fault. -/
theorem objectsLoop_empty (m : Marshaler) (rest : List Element) (i : Nat) (e : Entry)
    (hm : m { e with buf := e.buf ++ (if i ≠ 0 then [44] else []) }
      = Except.ok { e with buf := e.buf ++ (if i ≠ 0 then [44] else []) }) :
    objectsLoop (Element.marshaler m :: rest) i e = Except.error Fault.indexOutOfRange := by
  by_cases hi : i = 0
  · subst hi
    simp only [ne_eq, not_true_eq_false, if_false, List.append_nil] at hm
    simp [objectsLoop, hm, setIndex, bind, Except.bind]
  · simp only [ne_eq, hi, not_false_eq_true, if_true] at hm
    simp [objectsLoop, hi, hm, setIndex, bind, Except.bind]

/-- The loop of `Objects` on a marshaler that appends `c :: t`. -/
theorem objectsLoop_patch (m : Marshaler) (rest : List Element) (i : Nat) (e : Entry)
    (c : UInt8) (t : ByteSeq)
    (hm : m { e with buf := e.buf ++ (if i ≠ 0 then [44] else []) }
      = Except.ok { e with buf := e.buf ++ (if i ≠ 0 then [44] else []) ++ c :: t }) :
    objectsLoop (Element.marshaler m :: rest) i e
      = objectsLoop rest (i + 1)
          { e with buf := e.buf ++ (if i ≠ 0 then [44] else []) ++ 123 :: t ++ [125] } := by
  by_cases hi : i = 0
  · subst hi
    simp only [ne_eq, not_true_eq_false, if_false, List.append_nil] at hm
    simp [objectsLoop, hm, setIndex, set_at_length, bind, Except.bind, pure, Except.pure]
  · simp only [ne_eq, hi, not_false_eq_true, if_true] at hm
    simp [objectsLoop, hi, hm, setIndex, set_at_length, bind, Except.bind, pure, Except.pure]

mutual
/-- What a body does depends on the buffer it starts from only in that it appends to it. -/
theorem Body.body_uniform : ∀ (b : Body), ∃ r : Except Fault ByteSeq, ∀ e : Entry,
    Body.run b e = r.map (fun t => { e with buf := e.buf ++ t })
  | Body.done => ⟨Except.ok [], fun e => by simp [Body.run, Except.map, pure, Except.pure]⟩
  | Body.call c rest => by
    obtain ⟨r1, h1⟩ := Call.call_uniform c
    obtain ⟨r2, h2⟩ := Body.body_uniform rest
    refine ⟨(do let t1 ← r1; let t2 ← r2; pure (t1 ++ t2)), fun e => ?_⟩
    simp only [Body.run, h1, bind, Except.bind]
    cases r1 with
    | error x => rfl
    | ok t1 =>
      simp only [Except.map, h2]
      cases r2 with
      | error x => rfl
      | ok t2 => simp [Except.map, pure, Except.pure]
/-- The same for one call. -/
theorem Call.call_uniform : ∀ (c : Call), ∃ r : Except Fault ByteSeq, ∀ e : Entry,
    Call.run c e = r.map (fun t => { e with buf := e.buf ++ t })
  | Call.field f => by
    refine ⟨f.contribution, fun e => ?_⟩
    simp only [Call.run, Field.apply_some, bind, Except.bind]
    cases f.contribution <;> simp [Except.map, pure, Except.pure]
  | Call.objectNil key => by
    refine ⟨Except.ok ([44, 34] ++ key ++ [34, 58] ++ ascii "null"), fun e => ?_⟩
    simp [Call.run, (Object_nil e key).1, bind, Except.bind, pure, Except.pure, Except.map]
  | Call.object key obj => by
    obtain ⟨r, h⟩ := Body.body_uniform obj
    refine ⟨r.map (fun a => [44, 34] ++ key ++ [34, 58]
      ++ (if a = [] then ascii "null" else 123 :: a.tail ++ [125])), fun e => ?_⟩
    cases r with
    | error x =>
      have ho := Object_fault e key (Body.run obj) x (by rw [h]; rfl)
      simp [Call.run, ho, bind, Except.bind, Except.map]
    | ok a =>
      have ho := Object_appending e key (Body.run obj) a (by rw [h]; rfl)
      simp [Call.run, ho, bind, Except.bind, pure, Except.pure, Except.map]
  | Call.objects key items => by
    obtain ⟨r, h⟩ := Items.items_uniform items
    refine ⟨(r 0).map (fun t => [44, 34] ++ key ++ [34, 58, 91] ++ t ++ [93]), fun e => ?_⟩
    simp only [Call.run, Entry.Objects, h, bind, Except.bind]
    cases r 0 <;> simp [Except.map, pure, Except.pure]
  | Call.dict key ctx => by
    obtain ⟨r, h⟩ := Body.body_uniform ctx
    refine ⟨r.map (fun t => [44, 34] ++ key ++ [34, 58, 123]
      ++ (if t.length > 0 then t.drop 1 else []) ++ [125]), fun e => ?_⟩
    simp only [Call.run, h, bind, Except.bind]
    cases r with
    | error x => rfl
    | ok t =>
      by_cases ht : t.length > 0 <;>
        simp [Except.map, Entry.Dict, ht, pure, Except.pure]
/-- The same for the loop of `Objects`, from every index. -/
theorem Items.items_uniform : ∀ (its : Items), ∃ r : Nat → Except Fault ByteSeq,
    ∀ (i : Nat) (e : Entry),
      objectsLoop (Items.elements its) i e = (r i).map (fun t => { e with buf := e.buf ++ t })
  | Items.nil => ⟨fun _ => Except.ok [], fun i e => by
      simp [Items.elements, objectsLoop_nil, Except.map]⟩
  | Items.null rest => by
    obtain ⟨r, h⟩ := Items.items_uniform rest
    refine ⟨fun i => (r (i + 1)).map
      (fun t => (if i ≠ 0 then [44] else []) ++ ascii "null" ++ t), fun i e => ?_⟩
    simp only [Items.elements, objectsLoop_null, h]
    cases r (i + 1) <;> simp [Except.map]
  | Items.obj b rest => by
    obtain ⟨rb, hb⟩ := Body.body_uniform b
    obtain ⟨r, h⟩ := Items.items_uniform rest
    refine ⟨fun i => match rb with
      | Except.error x => Except.error x
      | Except.ok [] => Except.error Fault.indexOutOfRange
      | Except.ok (_ :: t) => (r (i + 1)).map
          (fun s => (if i ≠ 0 then [44] else []) ++ (123 :: t ++ [125]) ++ s), fun i e => ?_⟩
    simp only [Items.elements]
    cases rb with
    | error x =>
      rw [objectsLoop_fault (Body.run b) _ i e x (by rw [hb]; rfl)]
      rfl
    | ok a =>
      cases a with
      | nil =>
        rw [objectsLoop_empty (Body.run b) _ i e (by rw [hb]; simp [Except.map])]
        rfl
      | cons c t =>
        rw [objectsLoop_patch (Body.run b) _ i e c t (by rw [hb]; rfl), h]
        cases r (i + 1) <;> simp [Except.map]
end

/-- C36: for every body `F` of field-append calls (scalar calls, `Object`, `Objects`, `Dict`)
and every non-nil entry `e`, running `F` on the entry of `NewContext` with an empty buffer and
handing its `Value` to `e.Context` gives what running `F` on `e` itself gives, the same entry
or the same fault; `NewContext(dst).Value()` is `dst`; and `Context` with an empty context
returns the entry as it is. -/
theorem Context_of_built_fields (F : Body) (e : Entry) :
    (do let c ← Body.apply F (NewContext [])
        pure (Entry.Context (some e) (Entry.Value c))) = Body.apply F (some e)
    ∧ (∀ dst, Entry.Value (NewContext dst) = dst)
    ∧ Entry.Context (some e) [] = some e := by
  refine ⟨?_, fun dst => rfl, rfl⟩
  obtain ⟨r, h⟩ := Body.body_uniform F
  simp only [Body.apply, NewContext, h, bind, Except.bind]
  cases r with
  | error x => rfl
  | ok t =>
    cases t with
    | nil => simp [Except.map, pure, Except.pure, Entry.Context, Entry.Value]
    | cons c t => simp [Except.map, pure, Except.pure, Entry.Context, Entry.Value]

/-! ## xid: the text keeps the order of the ids -/

theorem toNat_band31 (x : UInt8) : (band x 31).toNat = x.toNat % 32 := by
  rw [toNat_band]
  exact Nat.and_pow_two_sub_one_eq_mod x.toNat 5

theorem toNat_shr_div (x : UInt8) (k : Nat) : (shr x k).toNat = x.toNat / 2 ^ k := by
  rw [toNat_shr, Nat.shiftRight_eq_div_pow]

theorem toNat_shl_mul (x : UInt8) (k : Nat) : (shl x k).toNat = x.toNat * 2 ^ k % 256 := by
  rw [toNat_shl, Nat.shiftLeft_eq]

/-- The index made of the low bits of one byte and the high bits of the next. -/
theorem toNat_joined (y x : UInt8) (j : Nat) (h1 : 1 ≤ j) (h2 : j ≤ 4) :
    (bor (shr y (8 - j)) (band (shl x j) 31)).toNat
      = 2 ^ j * (x.toNat % 2 ^ (5 - j)) + y.toNat / 2 ^ (8 - j) := by
  have hy : y.toNat < 256 := UInt8.toNat_lt_size y
  rw [toNat_bor, toNat_band31, toNat_shr_div, toNat_shl_mul]
  have e : x.toNat * 2 ^ j % 256 % 32 = 2 ^ j * (x.toNat % 2 ^ (5 - j)) := by
    interval_cases j <;> norm_num <;> omega
  have hlt : y.toNat / 2 ^ (8 - j) < 2 ^ j := by
    interval_cases j <;> norm_num <;> omega
  rw [e, Nat.lor_comm, ← Nat.mul_add_lt_is_or hlt]

/-- Five bytes and the eight indices made of them denote the same number. -/
theorem regroup_five (a0 a1 a2 a3 a4 : UInt8) :
    digitsNumber 32 [shr a0 3, bor (shr a1 6) (band (shl a0 2) 31), band (shr a1 1) 31,
      bor (shr a2 4) (band (shl a1 4) 31), bor (shr a3 7) (band (shl a2 1) 31),
      band (shr a3 2) 31, bor (shr a4 5) (band (shl a3 3) 31), band a4 31]
    = digitsNumber 256 [a0, a1, a2, a3, a4] := by
  have h1 := toNat_joined a1 a0 2 (by decide) (by decide)
  have h3 := toNat_joined a2 a1 4 (by decide) (by decide)
  have h4 := toNat_joined a3 a2 1 (by decide) (by decide)
  have h6 := toNat_joined a4 a3 3 (by decide) (by decide)
  simp only [digitsNumber, List.length_cons, List.length_nil, toNat_shr_div, toNat_band31]
  norm_num at h1 h3 h4 h6 ⊢
  rw [h1, h3, h4, h6]
  omega

/-- The last two bytes and the four indices made of them: the indices carry four more bits. -/
theorem regroup_two (a10 a11 : UInt8) :
    digitsNumber 32 [shr a10 3, bor (shr a11 6) (band (shl a10 2) 31), band (shr a11 1) 31,
      band (shl a11 4) 31]
    = 16 * digitsNumber 256 [a10, a11] := by
  have h1 := toNat_joined a11 a10 2 (by decide) (by decide)
  simp only [digitsNumber, List.length_cons, List.length_nil, toNat_shr_div, toNat_band31,
    toNat_shl_mul]
  norm_num at h1 ⊢
  rw [h1]
  omega

/-- Bytes compare as their values. -/
theorem byte_lt (x y : UInt8) : x < y ↔ x.toNat < y.toNat := Iff.rfl

theorem digitsNumber_append (base : Nat) (l1 l2 : ByteSeq) :
    digitsNumber base (l1 ++ l2)
      = digitsNumber base l1 * base ^ l2.length + digitsNumber base l2 := by
  induction l1 with
  | nil => simp [digitsNumber]
  | cons x l ih =>
    show x.toNat * base ^ (l ++ l2).length + digitsNumber base (l ++ l2) = _
    rw [ih, List.length_append, pow_add]
    simp only [digitsNumber]
    ring

theorem digitsNumber_lt (base : Nat) (l : ByteSeq) (h : ∀ x ∈ l, x.toNat < base) :
    digitsNumber base l < base ^ l.length := by
  induction l with
  | nil => simp [digitsNumber]
  | cons x l ih =>
    have hx : x.toNat + 1 ≤ base := h x (List.mem_cons_self x l)
    have hl := ih (fun y hy => h y (List.mem_cons_of_mem x hy))
    have hm : (x.toNat + 1) * base ^ l.length ≤ base * base ^ l.length :=
      Nat.mul_le_mul_right _ hx
    simp only [digitsNumber, List.length_cons, pow_succ']
    rw [Nat.add_mul] at hm
    omega

/-- Lists of digits of one length compare as the numbers they denote. -/
theorem bytesCompare_digits (base : Nat) : ∀ (l1 l2 : ByteSeq), l1.length = l2.length →
    (∀ x ∈ l1, x.toNat < base) → (∀ x ∈ l2, x.toNat < base) →
    bytesCompare l1 l2 = compareNat (digitsNumber base l1) (digitsNumber base l2)
  | [], [], _, _, _ => by simp [bytesCompare, compareNat, digitsNumber]
  | [], _ :: _, h, _, _ => by simp at h
  | _ :: _, [], h, _, _ => by simp at h
  | x :: s, y :: t, h, h1, h2 => by
    have hlen : s.length = t.length := by simpa using h
    have ih := bytesCompare_digits base s t hlen (fun z hz => h1 z (List.mem_cons_of_mem x hz))
      (fun z hz => h2 z (List.mem_cons_of_mem y hz))
    have b1 := digitsNumber_lt base s (fun z hz => h1 z (List.mem_cons_of_mem x hz))
    have b2 := digitsNumber_lt base t (fun z hz => h2 z (List.mem_cons_of_mem y hz))
    rw [hlen] at b1
    simp only [bytesCompare, digitsNumber, hlen]
    generalize base ^ t.length = B at b1 b2 ⊢
    simp only [byte_lt]
    rcases Nat.lt_trichotomy x.toNat y.toNat with hxy | hxy | hxy
    · have hm : (x.toNat + 1) * B ≤ y.toNat * B := Nat.mul_le_mul_right _ hxy
      rw [Nat.add_mul] at hm
      have : x.toNat * B + digitsNumber base s < y.toNat * B + digitsNumber base t := by omega
      simp [compareNat, hxy, this]
    · have e1 : ¬ x.toNat < y.toNat := by omega
      have e2 : ¬ y.toNat < x.toNat := by omega
      rw [if_neg e1, if_neg e2, ih, hxy]
      unfold compareNat
      simp only [Nat.add_lt_add_iff_left]
    · have hm : (y.toNat + 1) * B ≤ x.toNat * B := Nat.mul_le_mul_right _ hxy
      rw [Nat.add_mul] at hm
      have h3 : y.toNat * B + digitsNumber base t < x.toNat * B + digitsNumber base s := by omega
      have h4 : ¬ x.toNat * B + digitsNumber base s < y.toNat * B + digitsNumber base t := by
        omega
      have e1 : ¬ x.toNat < y.toNat := by omega
      simp [compareNat, hxy, e1, h3, h4]

set_option maxRecDepth 100000 in
theorem encodingChar_lt_nat : ∀ m, m < 32 → ∀ n, n < 32 →
    ((encodingChar (UInt8.ofNat m)).toNat < (encodingChar (UInt8.ofNat n)).toNat ↔ m < n) := by
  decide

/-- The characters of `encoding` ascend with their indices. -/
theorem encodingChar_lt (x y : UInt8) (hx : x.toNat < 32) (hy : y.toNat < 32) :
    encodingChar x < encodingChar y ↔ x < y := by
  have h := encodingChar_lt_nat x.toNat hx y.toNat hy
  rw [ofNat_toNat, ofNat_toNat] at h
  rw [byte_lt, byte_lt]
  exact h

/-- Texts compare as the lists of indices they are made of. -/
theorem bytesCompare_chars : ∀ (l1 l2 : ByteSeq),
    (∀ x ∈ l1, x.toNat < 32) → (∀ x ∈ l2, x.toNat < 32) →
    bytesCompare (l1.map encodingChar) (l2.map encodingChar) = bytesCompare l1 l2
  | [], [], _, _ => rfl
  | [], _ :: _, _, _ => rfl
  | _ :: _, [], _, _ => rfl
  | x :: s, y :: t, h1, h2 => by
    have ih := bytesCompare_chars s t (fun z hz => h1 z (List.mem_cons_of_mem x hz))
      (fun z hz => h2 z (List.mem_cons_of_mem y hz))
    have hx := h1 x (List.mem_cons_self x s)
    have hy := h2 y (List.mem_cons_self y t)
    simp only [List.map_cons, bytesCompare, ih]
    by_cases a : x < y
    · rw [if_pos a, if_pos ((encodingChar_lt x y hx hy).mpr a)]
    · rw [if_neg a, if_neg (fun c => a ((encodingChar_lt x y hx hy).mp c))]
      by_cases b : y < x
      · rw [if_pos b, if_pos ((encodingChar_lt y x hy hx).mpr b)]
      · rw [if_neg b, if_neg (fun c => b ((encodingChar_lt y x hy hx).mp c))]

/-- Every index of an id is below 32. -/
theorem indices_small (id : ID) : ∀ x ∈ id.indices, x.toNat < 32 := by
  intro x hx
  simp only [ID.indices, List.mem_cons, List.mem_singleton, List.not_mem_nil, or_false] at hx
  rcases hx with h | h | h | h | h | h | h | h | h | h | h | h | h | h | h | h | h | h | h | h <;>
    subst h <;>
    first
      | exact small_shr _ 3 (by decide)
      | exact small_band _
      | exact small_bor _ _ (small_shr _ _ (by decide)) (small_band _)

/-- The text of an id: the characters of its indices. -/
theorem String_text (id : ID) : ID.String id = Except.ok (id.indices.map encodingChar) := by
  have hs := indices_small id
  simp only [ID.indices, List.mem_cons, List.mem_singleton, List.not_mem_nil, or_false,
    forall_eq_or_imp, forall_eq] at hs
  obtain ⟨s0, s1, s2, s3, s4, s5, s6, s7, s8, s9, s10, s11, s12, s13, s14, s15, s16, s17, s18,
    s19⟩ := hs
  simp only [ID.String, ID.slice, encode, ID.indices, List.map_cons, List.map_nil,
    encodingAt_ok _ s0, encodingAt_ok _ s1, encodingAt_ok _ s2, encodingAt_ok _ s3,
    encodingAt_ok _ s4, encodingAt_ok _ s5, encodingAt_ok _ s6, encodingAt_ok _ s7,
    encodingAt_ok _ s8, encodingAt_ok _ s9, encodingAt_ok _ s10, encodingAt_ok _ s11,
    encodingAt_ok _ s12, encodingAt_ok _ s13, encodingAt_ok _ s14, encodingAt_ok _ s15,
    encodingAt_ok _ s16, encodingAt_ok _ s17, encodingAt_ok _ s18, encodingAt_ok _ s19, bind,
    Except.bind, pure, Except.pure]

/-- The indices of an id denote sixteen times the number its bytes denote. -/
theorem indices_number (id : ID) :
    digitsNumber 32 id.indices = 16 * digitsNumber 256 id.slice := by
  obtain ⟨a0, a1, a2, a3, a4, a5, a6, a7, a8, a9, a10, a11⟩ := id
  have e1 : ID.indices ⟨a0, a1, a2, a3, a4, a5, a6, a7, a8, a9, a10, a11⟩
      = [shr a0 3, bor (shr a1 6) (band (shl a0 2) 31), band (shr a1 1) 31,
          bor (shr a2 4) (band (shl a1 4) 31), bor (shr a3 7) (band (shl a2 1) 31),
          band (shr a3 2) 31, bor (shr a4 5) (band (shl a3 3) 31), band a4 31]
        ++ ([shr a5 3, bor (shr a6 6) (band (shl a5 2) 31), band (shr a6 1) 31,
          bor (shr a7 4) (band (shl a6 4) 31), bor (shr a8 7) (band (shl a7 1) 31),
          band (shr a8 2) 31, bor (shr a9 5) (band (shl a8 3) 31), band a9 31]
        ++ [shr a10 3, bor (shr a11 6) (band (shl a10 2) 31), band (shr a11 1) 31,
          band (shl a11 4) 31]) := rfl
  have e2 : ID.slice ⟨a0, a1, a2, a3, a4, a5, a6, a7, a8, a9, a10, a11⟩
      = [a0, a1, a2, a3, a4] ++ ([a5, a6, a7, a8, a9] ++ [a10, a11]) := rfl
  rw [e1, e2, digitsNumber_append, digitsNumber_append, digitsNumber_append,
    digitsNumber_append, regroup_five, regroup_five, regroup_two]
  simp only [List.length_append, List.length_cons, List.length_nil]
  norm_num
  ring

/-- An id with the smaller seconds is the smaller id. -/
theorem Compare_of_seconds (a b : ID) (h : a.seconds < b.seconds) : ID.Compare a b = -1 := by
  obtain ⟨a0, a1, a2, a3, a4, a5, a6, a7, a8, a9, a10, a11⟩ := a
  obtain ⟨b0, b1, b2, b3, b4, b5, b6, b7, b8, b9, b10, b11⟩ := b
  simp only [ID.seconds] at h
  have ha3 : a3.toNat < 256 := UInt8.toNat_lt_size a3
  have ha2 : a2.toNat < 256 := UInt8.toNat_lt_size a2
  have ha1 : a1.toNat < 256 := UInt8.toNat_lt_size a1
  have hb3 : b3.toNat < 256 := UInt8.toNat_lt_size b3
  have hb2 : b2.toNat < 256 := UInt8.toNat_lt_size b2
  have hb1 : b1.toNat < 256 := UInt8.toNat_lt_size b1
  simp only [ID.Compare, ID.slice, bytesCompare, byte_lt]
  norm_num at h
  by_cases c0 : a0.toNat < b0.toNat
  · rw [if_pos c0]
  · rw [if_neg c0, if_neg (by omega)]
    by_cases c1 : a1.toNat < b1.toNat
    · rw [if_pos c1]
    · rw [if_neg c1, if_neg (by omega)]
      by_cases c2 : a2.toNat < b2.toNat
      · rw [if_pos c2]
      · rw [if_neg c2, if_neg (by omega)]
        rw [if_pos (by omega)]

/-- C37: for all ids `a` and `b` the texts `a.String()` and `b.String()` exist, and comparing
them byte by byte gives the same -1, 0 or +1 as `a.Compare(b)`; when the seconds in the first
four bytes of `a` are fewer than those of `b`, the text of `a` is the smaller one. -/
theorem String_keeps_order (a b : ID) :
    ∃ sa sb, ID.String a = Except.ok sa ∧ ID.String b = Except.ok sb
      ∧ bytesCompare sa sb = ID.Compare a b
      ∧ (a.seconds < b.seconds → bytesCompare sa sb = -1) := by
  have key : bytesCompare (a.indices.map encodingChar) (b.indices.map encodingChar)
      = ID.Compare a b := by
    rw [bytesCompare_chars _ _ (indices_small a) (indices_small b),
      bytesCompare_digits 32 a.indices b.indices rfl (indices_small a) (indices_small b),
      indices_number, indices_number]
    unfold ID.Compare
    rw [bytesCompare_digits 256 a.slice b.slice rfl (fun x _ => UInt8.toNat_lt_size x)
      (fun x _ => UInt8.toNat_lt_size x)]
    unfold compareNat
    simp only [Nat.mul_lt_mul_left (show 0 < 16 by decide)]
  refine ⟨_, _, String_text a, String_text b, key, fun h => ?_⟩
  rw [key]
  exact Compare_of_seconds a b h

theorem String_keeps_order_witness :
    nilID.seconds < sampleID.seconds ∧
    ∃ sa sb, ID.String nilID = Except.ok sa ∧ ID.String sampleID = Except.ok sb
      ∧ bytesCompare sa sb = ID.Compare nilID sampleID
      ∧ (nilID.seconds < sampleID.seconds → bytesCompare sa sb = -1) :=
  ⟨by decide, String_keeps_order nilID sampleID⟩

/-! ## Merging metadata into a context -/

/-- A loop over the entries of a map whose step writes to the map at `cmd` only, changes only
the key it visits there, and decides from the value under that key: what the map at `cmd`
holds afterwards. -/
theorem range_writes {K : Type} [DecidableEq K] (cmd : Nat)
    (step : MapHeap K → (Sigma fun _ : K => MdValue) → MapHeap K)
    (g : Option MdValue → MdValue → Option MdValue)
    (h1 : ∀ h kv, (step h kv).next = h.next)
    (h2 : ∀ h kv j, j ≠ cmd → (step h kv).maps j = h.maps j)
    (h3 : ∀ h kv k, k ≠ kv.1 → ((step h kv).maps cmd).lookup k = (h.maps cmd).lookup k)
    (h4 : ∀ h kv, ((step h kv).maps cmd).lookup kv.1 = g ((h.maps cmd).lookup kv.1) kv.2) :
    ∀ (l : List (Sigma fun _ : K => MdValue)), l.NodupKeys → ∀ h : MapHeap K,
      (l.foldl step h).next = h.next
      ∧ (∀ j, j ≠ cmd → (l.foldl step h).maps j = h.maps j)
      ∧ ∀ k, ((l.foldl step h).maps cmd).lookup k
          = match l.dlookup k with
            | none => (h.maps cmd).lookup k
            | some v => g ((h.maps cmd).lookup k) v := by
  intro l
  induction l with
  | nil => intro _ h; simp
  | cons kv t ih =>
    intro hn h
    obtain ⟨k0, v0⟩ := kv
    rw [List.nodupKeys_cons] at hn
    obtain ⟨a, b, c⟩ := ih hn.2 (step h ⟨k0, v0⟩)
    simp only [List.foldl_cons]
    refine ⟨by rw [a, h1], fun j hj => by rw [b j hj, h2 h _ j hj], fun k => ?_⟩
    rw [c k]
    by_cases hk : k = k0
    · subst hk
      have hnone : List.dlookup k t = none := List.dlookup_eq_none.mpr hn.1
      rw [hnone, List.dlookup_cons_eq]
      exact h4 h ⟨k, v0⟩
    · rw [List.dlookup_cons_ne _ _ hk]
      have e := h3 h ⟨k0, v0⟩ k hk
      rw [e]

/-- What `MergeContext` leaves: the new map is at the address `h.next`, it holds the merge of
the two maps, and every other address holds what it held. -/
theorem MergeContext_heap (h : MapHeap ByteSeq) (ctx : Option Context) (patchMd : MapRef)
    (overwrite : GoBool) (hp : ∀ i, patchMd = some i → i < h.next)
    (hm : ∀ i, (FromContext (ctx.getD Context.background)).1 = some i → i < h.next) :
    (MergeContext h ctx patchMd overwrite).2
        = Context.withValue (ctx.getD Context.background) CtxKey.metadataContextKey
            (CtxValue.metadata (some h.next))
    ∧ (∀ j, j ≠ h.next → (MergeContext h ctx patchMd overwrite).1.maps j = h.maps j)
    ∧ ∀ k, ((MergeContext h ctx patchMd overwrite).1.maps h.next).lookup k
        = match (h.contents patchMd).lookup k with
          | none => (h.contents (FromContext (ctx.getD Context.background)).1).lookup k
          | some v =>
            if ((h.contents (FromContext (ctx.getD Context.background)).1).lookup k).isSome
                && !overwrite then
              (h.contents (FromContext (ctx.getD Context.background)).1).lookup k
            else if v ≠ MdValue.str [] then some v
            else none := by
  set md := (FromContext (ctx.getD Context.background)).1 with hmd
  -- the heap after `make`
  set h0 : MapHeap ByteSeq :=
    { next := h.next + 1, maps := Function.update h.maps h.next ∅ } with hh0
  have old : ∀ m : MapRef, (∀ i, m = some i → i < h.next) → h0.contents m = h.contents m := by
    intro m hv
    cases m with
    | none => rfl
    | some i =>
      have : i ≠ h.next := by have := hv i rfl; omega
      simp [MapHeap.contents, hh0, Function.update_noteq this]
  -- the copy loop
  have copy := range_writes h.next (fun s kv => s.assign h.next kv.1 kv.2)
    (fun _ v => some v)
    (fun _ _ => rfl)
    (fun hh kv j hj => by simp [MapHeap.assign, Function.update_noteq hj])
    (fun hh kv k hk => by
      simp [MapHeap.assign, AList.lookup_insert_ne hk])
    (fun hh kv => by simp [MapHeap.assign])
    (h0.contents md).entries (h0.contents md).nodupKeys h0
  set h1 := (h0.contents md).entries.foldl (fun s kv => s.assign h.next kv.1 kv.2) h0 with hh1
  obtain ⟨c1, c2, c3⟩ := copy
  have old1 : ∀ m : MapRef, (∀ i, m = some i → i < h.next) → h1.contents m = h.contents m := by
    intro m hv
    rw [← old m hv]
    cases m with
    | none => rfl
    | some i =>
      have : i ≠ h.next := by have := hv i rfl; omega
      simp only [MapHeap.contents]
      exact c2 i this
  have cmd1 : ∀ k, (h1.maps h.next).lookup k = (h.contents md).lookup k := by
    intro k
    rw [c3 k, old md hm]
    have e0 : (h0.maps h.next).lookup k = none := by simp [hh0]
    change (match (h.contents md).lookup k with
      | none => (h0.maps h.next).lookup k
      | some v => some v) = _
    cases (h.contents md).lookup k <;> simp [e0]
  -- the patch loop
  have patch := range_writes h.next (fun s kv =>
      if ((s.maps h.next).lookup kv.1).isSome && !overwrite then s
      else if kv.2 ≠ MdValue.str [] then s.assign h.next kv.1 kv.2
      else s.delete h.next kv.1)
    (fun o v => if o.isSome && !overwrite then o else if v ≠ MdValue.str [] then some v else none)
    (fun hh kv => by
      simp only [MapHeap.assign, MapHeap.delete]
      split_ifs <;> rfl)
    (fun hh kv j hj => by
      simp only [MapHeap.assign, MapHeap.delete]
      split_ifs <;> simp [Function.update_noteq hj])
    (fun hh kv k hk => by
      simp only [MapHeap.assign, MapHeap.delete]
      split_ifs <;> simp [AList.lookup_insert_ne hk, AList.lookup_erase_ne hk])
    (fun hh kv => by
      simp only [MapHeap.assign, MapHeap.delete]
      split_ifs with a b <;> simp)
    (h1.contents patchMd).entries (h1.contents patchMd).nodupKeys h1
  obtain ⟨p1, p2, p3⟩ := patch
  have res : MergeContext h ctx patchMd overwrite
      = ((h1.contents patchMd).entries.foldl (fun h' kv =>
          if ((h'.maps h.next).lookup kv.1).isSome && !overwrite then h'
          else if kv.2 ≠ MdValue.str [] then h'.assign h.next kv.1 kv.2
          else h'.delete h.next kv.1) h1,
        Context.withValue (ctx.getD Context.background) CtxKey.metadataContextKey
          (CtxValue.metadata (some h.next))) := by
    rfl
  rw [res]
  refine ⟨rfl, fun j hj => ?_, fun k => ?_⟩
  · simp only
    rw [p2 j hj, c2 j hj]
    simp [hh0, Function.update_noteq hj]
  · simp only
    rw [p3 k, cmd1 k, old1 patchMd hp]
    rfl

/-- C33: for every context `ctx` (nil counts as the background context), patch and flag, given
that the patch and the metadata of `ctx` are maps made before: the context `MergeContext`
returns carries a new map, and that map holds under each key `k` the existing value when `k`
is in the existing metadata and `overwrite` is false or `k` is not in the patch; otherwise the
patch value when the patch has `k` with a value other than the empty string; otherwise
nothing. Every map made before, the metadata of `ctx` among them, holds what it held. -/
theorem MergeContext_merges (h : MapHeap ByteSeq) (ctx : Option Context) (patchMd : MapRef)
    (overwrite : GoBool) (hp : ∀ i, patchMd = some i → i < h.next)
    (hm : ∀ i, (FromContext (ctx.getD Context.background)).1 = some i → i < h.next) :
    FromContext (MergeContext h ctx patchMd overwrite).2 = (some h.next, true)
    ∧ (∀ k, ((MergeContext h ctx patchMd overwrite).1.contents
          (FromContext (MergeContext h ctx patchMd overwrite).2).1).lookup k
        = if ((h.contents (FromContext (ctx.getD Context.background)).1).lookup k).isSome
              ∧ (overwrite = false ∨ (h.contents patchMd).lookup k = none) then
            (h.contents (FromContext (ctx.getD Context.background)).1).lookup k
          else
            match (h.contents patchMd).lookup k with
            | some v => if v ≠ MdValue.str [] then some v else none
            | none => none)
    ∧ (∀ m : MapRef, (∀ i, m = some i → i < h.next) →
        (MergeContext h ctx patchMd overwrite).1.contents m = h.contents m)
    ∧ (MergeContext h ctx patchMd overwrite).1.contents
          (FromContext (ctx.getD Context.background)).1
        = h.contents (FromContext (ctx.getD Context.background)).1 := by
  obtain ⟨a, b, c⟩ := MergeContext_heap h ctx patchMd overwrite hp hm
  have hf : FromContext (MergeContext h ctx patchMd overwrite).2 = (some h.next, true) := by
    rw [a]
    simp [FromContext, Context.Value]
  have hold : ∀ m : MapRef, (∀ i, m = some i → i < h.next) →
      (MergeContext h ctx patchMd overwrite).1.contents m = h.contents m := by
    intro m hv
    cases m with
    | none => rfl
    | some i =>
      have : i ≠ h.next := by have := hv i rfl; omega
      simp only [MapHeap.contents]
      exact b i this
  refine ⟨hf, fun k => ?_, hold, hold _ hm⟩
  rw [hf]
  show ((MergeContext h ctx patchMd overwrite).1.maps h.next).lookup k = _
  rw [c k]
  generalize (h.contents patchMd).lookup k = p
  generalize (h.contents (FromContext (ctx.getD Context.background)).1).lookup k = o
  cases p <;> cases o <;> cases overwrite <;> simp

theorem MergeContext_merges_witness :
    ((∀ i, (some 1 : MapRef) = some i → i < sampleHeap.next)
      ∧ ∀ i, (FromContext ((some sampleContext).getD Context.background)).1 = some i →
          i < sampleHeap.next)
    ∧ FromContext (MergeContext sampleHeap (some sampleContext) (some 1) true).2
        = (some sampleHeap.next, true)
    ∧ (∀ k, ((MergeContext sampleHeap (some sampleContext) (some 1) true).1.contents
          (FromContext (MergeContext sampleHeap (some sampleContext) (some 1) true).2).1).lookup k
        = if ((sampleHeap.contents
                (FromContext ((some sampleContext).getD Context.background)).1).lookup k).isSome
              ∧ (true = false ∨ (sampleHeap.contents (some 1)).lookup k = none) then
            (sampleHeap.contents
              (FromContext ((some sampleContext).getD Context.background)).1).lookup k
          else
            match (sampleHeap.contents (some 1)).lookup k with
            | some v => if v ≠ MdValue.str [] then some v else none
            | none => none)
    ∧ (∀ m : MapRef, (∀ i, m = some i → i < sampleHeap.next) →
        (MergeContext sampleHeap (some sampleContext) (some 1) true).1.contents m
          = sampleHeap.contents m)
    ∧ (MergeContext sampleHeap (some sampleContext) (some 1) true).1.contents
          (FromContext ((some sampleContext).getD Context.background)).1
        = sampleHeap.contents (FromContext ((some sampleContext).getD Context.background)).1 := by
  have h1 : ∀ i, (some 1 : MapRef) = some i → i < sampleHeap.next := by
    intro i hi
    cases hi
    decide
  have h2 : ∀ i, (FromContext ((some sampleContext).getD Context.background)).1 = some i →
      i < sampleHeap.next := by
    intro i hi
    have e : (FromContext ((some sampleContext).getD Context.background)).1 = some 0 := rfl
    rw [e] at hi
    cases hi
    decide
  exact ⟨⟨h1, h2⟩, MergeContext_merges sampleHeap (some sampleContext) (some 1) true h1 h2⟩

/-- What the sample merge gives: `a` kept, `b` removed by the empty string of the patch, `c`
added, and `d` added with the nil value of the patch. -/
theorem MergeContext_sample :
    ((MergeContext sampleHeap (some sampleContext) (some 1) true).1.maps 2).lookup (ascii "a")
        = some (MdValue.str (ascii "1"))
    ∧ ((MergeContext sampleHeap (some sampleContext) (some 1) true).1.maps 2).lookup (ascii "b")
        = none
    ∧ ((MergeContext sampleHeap (some sampleContext) (some 1) true).1.maps 2).lookup (ascii "c")
        = some (MdValue.str (ascii "3"))
    ∧ ((MergeContext sampleHeap (some sampleContext) (some 1) true).1.maps 2).lookup (ascii "d")
        = some MdValue.nil
    ∧ ((MergeContext sampleHeap (some sampleContext) (some 1) false).1.maps 2).lookup (ascii "b")
        = some (MdValue.str (ascii "2"))
    ∧ ((MergeGenericContext sampleHeap none (some 1) true).1.maps 2).lookup (ascii "d")
        = none := by
  refine ⟨?_, ?_, ?_, ?_, ?_, ?_⟩ <;> decide

end Zlog
